import Mathlib

/-!
# Markdown tree transforms (`app/components/markdown/transform.js`)

A shallow embedding of the commonmark node graph and of the passes
`addListItemIndices`, `pullOutImages`, `verifyAst`, `astToString` that the
file defines over it.

JavaScript objects are identified by a natural-number handle; a reference is
an `Option Nat` (`none` is `null`).  The heap maps handles to node records and
remembers the next unused handle, so that `copyNodeWithoutNeighbors` can
create a new object.  Loops of the source that follow links of the heap take a
fuel argument; a result `none` stands for a `TypeError` (property access on
`null`) or for fuel running out.
-/

namespace Transform

/-- A commonmark `Node`: its type tag, the five structural links and the
payload fields read or written by the transforms.  `continuation` is the
property the source calls `continue`; `index` is the item ordinal. -/
structure Node where
  type : String
  parent : Option Nat := none
  firstChild : Option Nat := none
  lastChild : Option Nat := none
  prev : Option Nat := none
  next : Option Nat := none
  literal : Option String := none
  destination : Option String := none
  title : Option String := none
  level : Option Nat := none
  listType : Option String := none
  listTight : Bool := false
  listStart : Option Nat := none
  listDelimiter : Option String := none
  mentionName : Option String := none
  channelName : Option String := none
  emojiName : Option String := none
  continuation : Bool := false
  index : Option Nat := none
deriving DecidableEq

/-- The object heap: `node i` is the object with handle `i`, `size` the first
handle not yet handed out. -/
structure Heap where
  node : Nat → Node
  size : Nat

namespace Heap

/-- Assignment `i._parent = v`. -/
def setParent (h : Heap) (i : Nat) (v : Option Nat) : Heap :=
  { h with node := fun j => if j = i then { h.node i with parent := v } else h.node j }

/-- Assignment `i._firstChild = v`. -/
def setFirstChild (h : Heap) (i : Nat) (v : Option Nat) : Heap :=
  { h with node := fun j => if j = i then { h.node i with firstChild := v } else h.node j }

/-- Assignment `i._lastChild = v`. -/
def setLastChild (h : Heap) (i : Nat) (v : Option Nat) : Heap :=
  { h with node := fun j => if j = i then { h.node i with lastChild := v } else h.node j }

/-- Assignment `i._prev = v`. -/
def setPrev (h : Heap) (i : Nat) (v : Option Nat) : Heap :=
  { h with node := fun j => if j = i then { h.node i with prev := v } else h.node j }

/-- Assignment `i._next = v`. -/
def setNext (h : Heap) (i : Nat) (v : Option Nat) : Heap :=
  { h with node := fun j => if j = i then { h.node i with next := v } else h.node j }

/-- Assignment `i.index = v`. -/
def setIndex (h : Heap) (i : Nat) (v : Nat) : Heap :=
  { h with node := fun j => if j = i then { h.node i with index := some v } else h.node j }

/-- Creation of a new object with content `n`; its handle is the old `size`. -/
def alloc (h : Heap) (n : Node) : Heap :=
  { node := fun j => if j = h.size then n else h.node j, size := h.size + 1 }

end Heap

/-- `copyNodeWithoutNeighbors`: every own property of the node is copied, the
five links are reset to `null` (the list data is copied field by field). -/
def copyNodeWithoutNeighbors (n : Node) : Node :=
  { n with parent := none, firstChild := none, lastChild := none, prev := none, next := none }

/-- `getLastSibling`: follows `next` from the given node to the end of its
chain; `null` for `null`. -/
def getLastSibling (h : Heap) : Nat → Option Nat → Option (Option Nat)
  | _, none => some none
  | 0, some _ => none
  | fuel + 1, some s =>
    match (h.node s).next with
    | none => some (some s)
    | some n => getLastSibling h fuel (some n)

/-- The loop of lines 89-91: every node of the chain starting at `child` gets
`copy` as its parent. -/
def assignParents (copy : Nat) : Nat → Heap → Option Nat → Option Heap
  | _, h, none => some h
  | 0, _, some _ => none
  | fuel + 1, h, some child =>
    let h1 := h.setParent child (some copy)
    assignParents copy fuel h1 (h1.node child).next

/-- The variables of the ancestor-splitting loop (lines 64-118). -/
structure SplitState where
  heap : Heap
  parent : Option Nat
  prev : Option Nat
  next : Option Nat

/-- Lines 72-91: the copy of the ancestor `parent` is created, marked as a
continuation, and takes over the children from `next` on, which leaves
`parent` with those up to `prev`.  The copy is the object with handle
`h.size`. -/
def makeCopy (F : Nat) (h : Heap) (parent : Nat) (prev next : Option Nat) : Option Heap := do
  -- parentCopy = copyNodeWithoutNeighbors(parent); parentCopy.continue = true
  let parentCopy := h.size
  let h1 := h.alloc { copyNodeWithoutNeighbors (h.node parent) with continuation := true }
  -- parentCopy._firstChild = next; parentCopy._lastChild = getLastSibling(next)
  let h2 := h1.setFirstChild parentCopy next
  let last ← getLastSibling h2 F next
  let h3 := h2.setLastChild parentCopy last
  let h4 :=
    if (h3.node parent).firstChild = next then
      (h3.setFirstChild parent none).setLastChild parent none
    else
      h3.setLastChild parent prev
  assignParents parentCopy F h4 (h4.node parentCopy).firstChild

/-- Lines 93-102: the copy becomes the next sibling of `parent`.

`lastChildSetter` says what the assignment `parent.parent.lastChild = parentCopy`
of line 101 does to the grandparent: it goes through the accessor `lastChild`
of the commonmark `Node` class, which is not part of this file; `true` stores
the value in the field, `false` leaves the object as it is. -/
def insertCopy (lastChildSetter : Bool) (h : Heap) (parent parentCopy : Nat) : Option Heap :=
  match (h.node parent).next with
  | some pn =>
    let a := h.setPrev pn (some parentCopy)
    let b := a.setNext parentCopy (a.node parent).next
    some (b.setNext parent (some parentCopy))
  | none =>
    match (h.node parent).parent with
    | none => none
    | some g => some (if lastChildSetter then h.setLastChild g (some parentCopy) else h)

/-- Lines 105-112: `prev` and `next` are no longer siblings. -/
def unlinkSides (h : Heap) (prev next : Option Nat) : Heap :=
  let h7 := match prev with
    | some p => h.setNext p none
    | none => h
  match next with
  | some n => h7.setPrev n none
  | none => h7

/-- One pass through the body of the ancestor-splitting loop (lines 65-117)
for the non-null, non-document ancestor `parent`. -/
def splitBody (lastChildSetter : Bool) (F : Nat) (h : Heap) (parent : Nat)
    (prev next : Option Nat) : Option SplitState :=
  if next.isSome ∨ (h.node parent).next.isSome then do
    let parentCopy := h.size
    let h5 ← makeCopy F h parent prev next
    let h6 ← insertCopy lastChildSetter h5 parent parentCopy
    let h8 := unlinkSides h6 prev next
    some ⟨h8, (h8.node parent).parent, some parent, some parentCopy⟩
  else
    let h8 := unlinkSides h prev next
    some ⟨h8, (h8.node parent).parent, some parent, none⟩

/-- The ancestor-splitting loop `while (parent && parent.type !== 'document')`
of lines 64-118. -/
def splitLoop (lastChildSetter : Bool) (F : Nat) : Nat → SplitState → Option SplitState
  | 0, _ => none
  | fuel + 1, s =>
    match s.parent with
    | none => some s
    | some p =>
      if (s.heap.node p).type = "document" then some s
      else do
        let s1 ← splitBody lastChildSetter F s.heap p s.prev s.next
        splitLoop lastChildSetter F fuel s1

/-- Lines 39-61: the image is taken out of its sibling chain and out of the
first/last child fields of its parent. -/
def detachImage (h : Heap) (image parent : Nat) : Heap :=
  let prev := (h.node image).prev
  let next := (h.node image).next
  let h1 := match prev with
    | some p => h.setNext p next
    | none => h
  let h2 := match next with
    | some n => h1.setPrev n prev
    | none => h1
  let h3 := if (h2.node parent).firstChild = some image then h2.setFirstChild parent next else h2
  if (h3.node parent).lastChild = some image then h3.setLastChild parent prev else h3

/-- Lines 120-144: the image is linked in under the node at which the split
stopped, between the left part `prev` and the right part `next`. -/
def reinsertImage (s : SplitState) (image : Nat) : Option Heap :=
  match s.parent, s.prev with
  | some parent, some prev =>
    let h1 := s.heap.setParent image (some parent)
    let h2 := match s.next with
      | some n => h1.setLastChild parent (some n)
      | none => h1.setLastChild parent (some image)
    let h3 := h2.setPrev image (some prev)
    let h4 := h3.setNext prev (some image)
    let h5 := h4.setNext image s.next
    let h6 := match s.next with
      | some n => h5.setPrev n (some image)
      | none => h5
    some (match s.next with
      | some n => h6.setParent n (some parent)
      | none => h6)
  | _, _ => none

/-- Lines 39-144: the whole treatment of one image whose parent `parent` is
not a document. -/
def hoistImage (lastChildSetter : Bool) (F : Nat) (h : Heap) (image parent : Nat) :
    Option Heap := do
  let prev := (h.node image).prev
  let next := (h.node image).next
  let h1 := detachImage h image parent
  let s ← splitLoop lastChildSetter F F ⟨h1, some parent, prev, next⟩
  reinsertImage s image

/-- Lines 38-145: the test of the walk on the current node, and the hoist
when it succeeds. -/
def visitNode (lastChildSetter : Bool) (F : Nat) (h : Heap) (node : Nat) : Option Heap :=
  if (h.node node).type = "image" then
    match (h.node node).parent with
    | none => none
    | some parent =>
      if (h.node parent).type ≠ "document" then hoistImage lastChildSetter F h node parent
      else some h
  else some h

/-- Lines 147-157: the successor of the cursor `(node, cameFromChild)`. -/
def walkNext (h : Heap) (node : Nat) (cameFromChild : Bool) : Option Nat × Bool :=
  if (h.node node).firstChild.isSome ∧ cameFromChild = false then
    ((h.node node).firstChild, false)
  else if (h.node node).next.isSome then
    ((h.node node).next, false)
  else
    ((h.node node).parent, true)

/-- The loop `while (node && node !== block)` of lines 36-158. -/
def walkLoop (lastChildSetter : Bool) (F : Nat) (block : Nat) :
    Nat → Heap → Option Nat → Bool → Option Heap
  | 0, _, _, _ => none
  | fuel + 1, h, node, cameFromChild =>
    match node with
    | none => some h
    | some n =>
      if n = block then some h
      else do
        let h1 ← visitNode lastChildSetter F h n
        let c := walkNext h1 n cameFromChild
        walkLoop lastChildSetter F block fuel h1 c.1 c.2

/-- The loop `for (block = ast.firstChild; block !== null; block = block.next)`
of lines 31-159. -/
def blockLoop (lastChildSetter : Bool) (F : Nat) : Nat → Heap → Option Nat → Option Heap
  | 0, _, _ => none
  | fuel + 1, h, block =>
    match block with
    | none => some h
    | some b => do
      let h1 ← walkLoop lastChildSetter F b F h (h.node b).firstChild false
      blockLoop lastChildSetter F fuel h1 (h1.node b).next

/-- `pullOutImages(ast)`; the tree is changed in place and `ast` returned, so
the result is the final heap.  `F` bounds the number of turns of every loop. -/
def pullOutImages (lastChildSetter : Bool) (F : Nat) (h : Heap) (ast : Nat) : Option Heap :=
  blockLoop lastChildSetter F F h (h.node ast).firstChild

/-! ### `addListItemIndices` -/

/-- The state of the tree walker returned by `ast.walker()`. -/
structure Walker where
  current : Option Nat
  entering : Bool
  root : Nat

/-- Modelled from the spec: the method `next` of the commonmark tree walker,
which is not part of this file.  It performs one traversal that visits every
node exactly once on entry: an event is the pair of the flag `entering` and
the node, and the walker then moves to the first child when it enters a node
that has one, leaves the node otherwise, and from a node it leaves moves to
the next sibling (entering) or, at the end of the chain, to the parent
(leaving); leaving the root ends the walk.  `none` is the result `null`. -/
def Walker.next (h : Heap) (w : Walker) : Option ((Bool × Nat) × Walker) :=
  match w.current with
  | none => none
  | some cur =>
    let w1 : Walker :=
      if w.entering = true then
        match (h.node cur).firstChild with
        | some c => { w with current := some c, entering := true }
        | none => { w with entering := false }
      else if cur = w.root then { w with current := none }
      else
        match (h.node cur).next with
        | none => { w with current := (h.node cur).parent, entering := false }
        | some n => { w with current := some n, entering := true }
    some ((w.entering, cur), w1)

/-- The value of `node.listStart || 1`. -/
def listStartOrOne (n : Node) : Nat :=
  match n.listStart with
  | none => 1
  | some 0 => 1
  | some s => s

/-- The loop of lines 18-22: the nodes of the chain starting at `child` get
the indices `i`, `i + 1`, ... -/
def indexChildren : Nat → Heap → Option Nat → Nat → Option Heap
  | _, h, none, _ => some h
  | 0, _, some _, _ => none
  | fuel + 1, h, some child, i =>
    let h1 := h.setIndex child i
    indexChildren fuel h1 (h1.node child).next (i + 1)

/-- The loop `while ((e = walker.next()))` of lines 11-25. -/
def indexLoop (F : Nat) : Nat → Heap → Walker → Option Heap
  | 0, _, _ => none
  | fuel + 1, h, w =>
    match w.next h with
    | none => some h
    | some (e, w1) =>
      if e.1 = true ∧ (h.node e.2).type = "list" then do
        let h1 ← indexChildren F h (h.node e.2).firstChild (listStartOrOne (h.node e.2))
        indexLoop F fuel h1 w1
      else indexLoop F fuel h w1

/-- `addListItemIndices(ast)`; the result is the final heap (the function
returns `ast` itself). -/
def addListItemIndices (F : Nat) (h : Heap) (ast : Nat) : Option Heap :=
  indexLoop F F h ⟨some ast, true, ast⟩

/-! ### `verifyAst` -/

/-- The loop of lines 201-205 over the child chain of `node`; the result is
the list of messages written to `console.error`. -/
def verifyChildren (h : Heap) (node : Nat) : Nat → Option Nat → Option (List String)
  | _, none => some []
  | 0, some _ => none
  | fuel + 1, some child =>
    (verifyChildren h node fuel (h.node child).next).map fun rest =>
      (if (h.node child).parent ≠ some node then ["node is not linked properly to child"] else [])
        ++ rest

/-- `verifyAst(node)`: the messages written to `console.error`, in order, and
the value returned. -/
def verifyAst (fuel : Nat) (h : Heap) (node : Nat) : Option (List String × Bool) :=
  let n := h.node node
  let m1 := match n.prev with
    | some p => if (h.node p).next ≠ some node then ["node is not linked properly to prev"] else []
    | none => []
  let m2 := match n.next with
    | some x => if (h.node x).prev ≠ some node then ["node is not linked properly to prev"] else []
    | none => []
  (verifyChildren h node fuel n.firstChild).map fun m3 =>
    let m4 := match n.firstChild with
      | some c => if ((h.node c).prev).isSome then ["node's first child has previous sibling"] else []
      | none => []
    let m5 := match n.lastChild with
      | some c => if ((h.node c).next).isSome then ["node's last child has next sibling"] else []
      | none => []
    (m1 ++ m2 ++ m3 ++ m4 ++ m5, true)

/-! ### `astToString` -/

/-- The part of `nodeToString` written for the neighbour `name` with value `v`. -/
def neighbourToString (h : Heap) (name : String) (v : Option Nat) : String :=
  match v with
  | none => ""
  | some i =>
    " " ++ name ++ "=\x60" ++ (h.node i).type
      ++ (if (h.node i).type = "text" then ":" ++ ((h.node i).literal).getD "null" else "")
      ++ "\x60"

/-- The part of `nodeToString` written for a string field. -/
def stringFieldToString (name : String) (v : Option String) : String :=
  match v with
  | none => ""
  | some s => if s = "" then "" else " " ++ name ++ "=\x60" ++ s ++ "\x60"

/-- The part of `nodeToString` written for a number field. -/
def numberFieldToString (name : String) (v : Option Nat) : String :=
  match v with
  | none => ""
  | some 0 => ""
  | some k => " " ++ name ++ "=\x60" ++ toString k ++ "\x60"

/-- The part of `nodeToString` written for a boolean field. -/
def boolFieldToString (name : String) (v : Bool) : String :=
  if v then " " ++ name ++ "=\x60true\x60" else ""

/-- `nodeToString(node)`: the type, the neighbours that are not `null`, and
the important fields that are not empty. -/
def nodeToString (h : Heap) (node : Nat) : String :=
  let n := h.node node
  n.type
    ++ neighbourToString h "parent" n.parent
    ++ neighbourToString h "prev" n.prev
    ++ neighbourToString h "next" n.next
    ++ neighbourToString h "firstChild" n.firstChild
    ++ neighbourToString h "lastChild" n.lastChild
    ++ stringFieldToString "literal" n.literal
    ++ stringFieldToString "destination" n.destination
    ++ stringFieldToString "title" n.title
    ++ numberFieldToString "level" n.level
    ++ stringFieldToString "listType" n.listType
    ++ boolFieldToString "listTight" n.listTight
    ++ stringFieldToString "listDelimiter" n.listDelimiter
    ++ stringFieldToString "mentionName" n.mentionName
    ++ stringFieldToString "channelName" n.channelName
    ++ stringFieldToString "emojiName" n.emojiName
    ++ boolFieldToString "continue" n.continuation
    ++ numberFieldToString "index" n.index

mutual
/-- `astToString(node, indent)`. -/
def astToString (h : Heap) : Nat → Option Nat → String → Option String
  | _, none, _ => some ""
  | 0, some _, _ => none
  | fuel + 1, some node, indent =>
    (astToStringChildren h fuel (h.node node).firstChild (indent ++ "  ")).map fun rest =>
      indent ++ nodeToString h node ++ "\n" ++ rest
/-- The loop of lines 227-229 over the children, from `child` on. -/
def astToStringChildren (h : Heap) : Nat → Option Nat → String → Option String
  | _, none, _ => some ""
  | 0, some _, _ => none
  | fuel + 1, some child, indent =>
    match astToString h fuel (some child) indent with
    | none => none
    | some s => (astToStringChildren h fuel (h.node child).next indent).map fun rest => s ++ rest
end

/-! ### The tree builder -/

/-- A description given to `makeAst`: the type and the extra fields (as a node
record whose links are not used) and the descriptions of the children. -/
inductive Desc where
  | mk (fields : Node) (children : List Desc)

/-- Modelled from the spec: `appendChild` of the commonmark `Node` class, which
is not part of this file.  The child (a node without links here, as built by
`makeAst`) becomes the last element of the child chain of `node`: its parent
is set, it is linked after the former last child, and `firstChild` /
`lastChild` of `node` are updated. -/
def appendChild (h : Heap) (node child : Nat) : Heap :=
  let h1 := h.setParent child (some node)
  match (h1.node node).lastChild with
  | some l =>
    let h2 := h1.setNext l (some child)
    let h3 := h2.setPrev child (some l)
    h3.setLastChild node (some child)
  | none =>
    let h2 := h1.setFirstChild node (some child)
    h2.setLastChild node (some child)

mutual
/-- `makeAst(input)`: a new node with the type and fields of the description,
to which the trees built for the child descriptions are appended in order.
The result is the new heap and the handle of the node. -/
def makeAst (h : Heap) : Desc → Heap × Nat
  | .mk fields children =>
    let node := h.size
    let h1 := h.alloc (copyNodeWithoutNeighbors fields)
    (makeAstChildren h1 node children, node)
/-- The loop `for (const child of children) node.appendChild(makeAst(child))`. -/
def makeAstChildren (h : Heap) (node : Nat) : List Desc → Heap
  | [] => h
  | c :: cs =>
    let r := makeAst h c
    makeAstChildren (appendChild r.1 node r.2) node cs
end

/-- The heap before anything is created. -/
def emptyHeap : Heap := ⟨fun _ => { type := "" }, 0⟩

/-! ### Reading a tree off the heap -/

/-- The chain of handles met by following `next` from `start`, at most `fuel`
of them. -/
def chain (h : Heap) : Nat → Option Nat → List Nat
  | 0, _ => []
  | _ + 1, none => []
  | fuel + 1, some c => c :: chain h fuel (h.node c).next

/-- The children of `n`, read through `firstChild` and `next`. -/
def childrenOf (h : Heap) (fuel : Nat) (n : Nat) : List Nat :=
  chain h fuel (h.node n).firstChild

/-! ### Trees on the heap

A forest is a sibling chain with the subtrees hanging from it, in the
first-child / next-sibling form of the links themselves.  `Seg` says that the
heap holds the forest with the links the invariants I1-I3 ask for. -/

/-- A sibling chain: empty, or a node `id` with the forest of its children,
followed by the rest of the chain. -/
inductive Forest where
  | nil
  | cons (id : Nat) (children : Forest) (rest : Forest)
deriving DecidableEq

namespace Forest

/-- Concatenation of two sibling chains. -/
def append : Forest → Forest → Forest
  | nil, y => y
  | cons i cs rest, y => cons i cs (append rest y)

/-- The handles of all nodes, in document order (pre-order). -/
def ids : Forest → List Nat
  | nil => []
  | cons i cs rest => i :: (ids cs ++ ids rest)

/-- The handles of the nodes of the chain itself, in order. -/
def roots : Forest → List Nat
  | nil => []
  | cons i _ rest => i :: roots rest

/-- The first node of the chain, or `d` when the chain is empty. -/
def headOr : Forest → Option Nat → Option Nat
  | nil, d => d
  | cons i _ _, _ => some i

/-- The last node of the chain, or `d` when the chain is empty. -/
def lastOr : Forest → Option Nat → Option Nat
  | nil, d => d
  | cons i _ rest, _ => lastOr rest (some i)

/-- The number of nodes. -/
def size : Forest → Nat
  | nil => 0
  | cons _ cs rest => size cs + size rest + 1

end Forest

/-- The heap holds the chain `x` as (part of) the child chain of `par`: every
node of the chain has `par` as parent, the chain is doubly linked, starting
after `pv` and ending before `nx`, and every node has its children as first
and last child and holds them in the same way. -/
def Seg (h : Heap) : Option Nat → Option Nat → Forest → Option Nat → Prop
  | _, _, .nil, _ => True
  | par, pv, .cons i cs rest, nx =>
    (h.node i).parent = par ∧ (h.node i).prev = pv ∧ (h.node i).next = rest.headOr nx ∧
    (h.node i).firstChild = cs.headOr none ∧ (h.node i).lastChild = cs.lastOr none ∧
    Seg h (some i) none cs none ∧ Seg h par (some i) rest nx

/-- The heap holds a tree with root `root` and children `kids`: the child
chain of the root is `kids`, with all links in place, and no node occurs
twice. -/
structure IsTree (h : Heap) (root : Nat) (kids : Forest) : Prop where
  first : (h.node root).firstChild = kids.headOr none
  seg : Seg h (some root) none kids none
  nodup : (root :: kids.ids).Nodup

/-- The tree is a document up to the last-child field of the root: the root
is the only node of type `document`, it has no parent and no siblings (I4),
and every node is an object of the heap. -/
structure IsDocW (h : Heap) (root : Nat) (top : Forest) extends IsTree h root top : Prop where
  rootType : (h.node root).type = "document"
  rootParent : (h.node root).parent = none
  rootPrev : (h.node root).prev = none
  rootNext : (h.node root).next = none
  types : ∀ i ∈ top.ids, (h.node i).type ≠ "document"
  bound : ∀ i ∈ root :: top.ids, i < h.size

/-- A document tree that satisfies the invariants I1-I4 at every node. -/
structure IsDoc (h : Heap) (root : Nat) (top : Forest) extends IsDocW h root top : Prop where
  last : (h.node root).lastChild = top.lastOr none

/-! ### The annotator on a forest

The effect of `addListItemIndices` written by recursion on the forest that the
heap holds; `indexLoop` is shown to compute it. -/

/-- The nodes of the list get the indices `i`, `i + 1`, ... in order. -/
def indexRoots (h : Heap) : List Nat → Nat → Heap
  | [], _ => h
  | c :: cs, i => indexRoots (h.setIndex c i) cs (i + 1)

/-- What the walk does when it enters node `i` with children `cs`. -/
def annotNode (h : Heap) (i : Nat) (cs : Forest) : Heap :=
  if (h.node i).type = "list" then indexRoots h cs.roots (listStartOrOne (h.node i)) else h

/-- What the walk does from the moment it enters the first node of the chain
until it has left the last one. -/
def annot (h : Heap) : Forest → Heap
  | .nil => h
  | .cons i cs rest => annot (annot (annotNode h i cs) cs) rest

/-- Every node of a list node of the forest has, as index, the start value of
the list plus its position among the children. -/
def Indexed (h : Heap) : Forest → Prop
  | .nil => True
  | .cons i cs rest =>
    ((h.node i).type = "list" →
      ∀ k c, cs.roots[k]? = some c → (h.node c).index = some (listStartOrOne (h.node i) + k)) ∧
    Indexed h cs ∧ Indexed h rest

/-- The node without its item ordinal. -/
def Node.eraseIndex (n : Node) : Node := { n with index := none }

/-- The two heaps hold the same objects up to the item ordinals. -/
def EqUpToIndex (h k : Heap) : Prop :=
  (∀ j, (h.node j).eraseIndex = (k.node j).eraseIndex) ∧ h.size = k.size

instance Seg.instDecidable : ∀ (h : Heap) (par pv : Option Nat) (x : Forest) (nx : Option Nat),
    Decidable (Seg h par pv x nx)
  | _, _, _, .nil, _ => isTrue trivial
  | h, par, _, .cons i cs rest, nx =>
    have := Seg.instDecidable h (some i) none cs none
    have := Seg.instDecidable h par (some i) rest nx
    inferInstanceAs (Decidable (_ ∧ _ ∧ _ ∧ _ ∧ _ ∧ _ ∧ _))

/-! ### A position in a document

The path from a sibling chain up to the root: for every ancestor, the
ancestor with the chains of its left and of its right siblings, innermost
ancestor first. -/

/-- An ancestor `id` with its left and right siblings. -/
structure Frame where
  id : Nat
  left : Forest
  right : Forest

/-- The children of the root when the chain `y` sits below the path. -/
def plug : List Frame → Forest → Forest
  | [], y => y
  | fr :: path, y => plug path (fr.left.append (.cons fr.id y fr.right))

/-- The parent of the chain below the path. -/
def parentOf (root : Nat) : List Frame → Nat
  | [] => root
  | fr :: _ => fr.id

/-- The nodes that precede, in document order, the chain below the path. -/
def pathBefore : List Frame → List Nat
  | [] => []
  | fr :: path => pathBefore path ++ fr.left.ids ++ [fr.id]

/-- The nodes that follow, in document order, the chain below the path. -/
def pathAfter : List Frame → List Nat
  | [] => []
  | fr :: path => fr.right.ids ++ pathAfter path

/-- The innermost ancestor of the path, when it is not the root, has `v` as
last child. -/
def LastOK (h : Heap) : List Frame → Option Nat → Prop
  | [], _ => True
  | fr :: _, v => (h.node fr.id).lastChild = v

/-- The heap holds the ancestors of the path and their siblings, up to the
first and last child of the innermost ancestor. -/
def PathOK (h : Heap) (root : Nat) : List Frame → Prop
  | [] => True
  | fr :: path =>
    (h.node fr.id).parent = some (parentOf root path) ∧
    (h.node fr.id).prev = fr.left.lastOr none ∧
    (h.node fr.id).next = fr.right.headOr none ∧
    Seg h (some (parentOf root path)) none fr.left (some fr.id) ∧
    Seg h (some (parentOf root path)) (some fr.id) fr.right none ∧
    (h.node (parentOf root path)).firstChild = fr.left.headOr (some fr.id) ∧
    LastOK h path (fr.right.lastOr (some fr.id)) ∧
    PathOK h root path

/-- The right part during the split of an ancestor chain: a chain whose first
node may have any parent and any previous sibling. -/
def RightOK (h : Heap) (par : Nat) : Forest → Prop
  | .nil => True
  | .cons x xcs xrest =>
    (h.node x).firstChild = xcs.headOr none ∧ (h.node x).lastChild = xcs.lastOr none ∧
    (h.node x).next = xrest.headOr none ∧
    Seg h (some x) none xcs none ∧ Seg h (some par) (some x) xrest none

/-- The split of the ancestors of the path, innermost first: `lk` are the
children that stay with the ancestor, `rk` those that move to its copy; a
copy, with the next unused handle `c`, is made when there is something to the
right.  The result is the left and the right part at the root and the next
unused handle. -/
def splitUp : Nat → List Frame → Forest → Forest → Forest × Forest × Nat
  | c, [], lk, rk => (lk, rk, c)
  | c, fr :: path, lk, rk =>
    if rk ≠ .nil ∨ fr.right ≠ .nil then
      splitUp (c + 1) path (fr.left.append (.cons fr.id lk .nil)) (.cons c rk fr.right)
    else
      splitUp c path (fr.left.append (.cons fr.id lk .nil)) .nil

/-- The copies made by the ancestor-splitting loop, each with the ancestor it
is a copy of, in the order of their creation; `c` is the first unused handle. -/
def splitSrc : Nat → List Frame → Forest → List (Nat × Nat)
  | _, [], _ => []
  | c, fr :: path, rk =>
    if rk ≠ .nil ∨ fr.right ≠ .nil then
      (c, fr.id) :: splitSrc (c + 1) path (.cons c rk fr.right)
    else splitSrc c path .nil

/-- The nodes of the list get `c` as parent: the loop of lines 89-91 on a
chain held by the heap. -/
def setParents (h : Heap) : List Nat → Nat → Heap
  | [], _ => h
  | j :: l, c => setParents (h.setParent j (some c)) l c

/-- The assignment `i._next = v` guarded by `if (i)`. -/
def setNextOpt (h : Heap) (i : Option Nat) (v : Option Nat) : Heap :=
  match i with
  | some p => h.setNext p v
  | none => h

/-- The assignment `i._prev = v` guarded by `if (i)`. -/
def setPrevOpt (h : Heap) (i : Option Nat) (v : Option Nat) : Heap :=
  match i with
  | some p => h.setPrev p v
  | none => h

/-- The chain of `next` links that starts at `start` runs through the nodes
of `l` and ends there. -/
def NextChain (h : Heap) : Option Nat → List Nat → Prop
  | start, [] => start = none
  | start, j :: l => start = some j ∧ NextChain h (h.node j).next l

/-- The heap after `makeCopy` for the ancestor `p` with the children `lk`
to the left and `rk` to the right of the split, in closed form. -/
def copyHeap (h : Heap) (p : Nat) (lk rk : Forest) : Heap :=
  let c := h.size
  let h1 := h.alloc { copyNodeWithoutNeighbors (h.node p) with continuation := true }
  let h3 := (h1.setFirstChild c (rk.headOr none)).setLastChild c (rk.lastOr none)
  let h4 := (h3.setFirstChild p (lk.headOr none)).setLastChild p (lk.lastOr none)
  setParents h4 rk.roots c

/-- The heap after one turn of the ancestor-splitting loop in which a copy is
made, in closed form: `fr` is the ancestor with its siblings, `pp` its parent,
`lk` and `rk` the children to the left and to the right of the split. -/
def splitHeap (lastChildSetter : Bool) (h : Heap) (pp : Nat) (fr : Frame) (lk rk : Forest) :
    Heap :=
  let c := h.size
  let h5 := copyHeap h fr.id lk rk
  let h6 := match fr.right.headOr none with
    | some r => ((h5.setPrev r (some c)).setNext c (some r)).setNext fr.id (some c)
    | none => if lastChildSetter then h5.setLastChild pp (some c) else h5
  setPrevOpt (setNextOpt h6 (lk.lastOr none) none) (rk.headOr none) none

/-- The nodes of the ancestors of a path and of their siblings. -/
def pathIds : List Frame → List Nat
  | [] => []
  | fr :: path => fr.id :: (fr.left.ids ++ fr.right.ids) ++ pathIds path

/-- The facts that hold at the head of the ancestor-splitting loop when the
ancestors still to be split are those of `path`: the heap holds the path, the
children `lk` that stay to the left (the next sibling of the last of them may
be anything), and the chain `rk` that goes to the right. -/
structure SplitInv (h : Heap) (root : Nat) (path : List Frame) (lk rk : Forest) : Prop where
  pathOK : PathOK h root path
  left : ∃ nx, Seg h (some (parentOf root path)) none lk nx
  right : RightOK h (parentOf root path) rk
  first : (h.node (parentOf root path)).firstChild = (lk.append rk).headOr none
  last : rk = .nil → LastOK h path (lk.lastOr none)
  rootType : (h.node root).type = "document"
  rootParent : (h.node root).parent = none
  rootPrev : (h.node root).prev = none
  rootNext : (h.node root).next = none
  types : ∀ fr ∈ path, (h.node fr.id).type ≠ "document"
  nodup : (root :: (lk.ids ++ rk.ids ++ pathIds path)).Nodup
  bound : ∀ j ∈ root :: (lk.ids ++ rk.ids ++ pathIds path), j < h.size

/-- What the splitting loop leaves of the heap `h` in the heap `k`: the
objects of `h` keep their payload, those outside the nodes `fp` keep their
record, and every new object carries the payload of one of the ancestors
`anc`, with the continuation flag set. -/
structure SplitFrame (h k : Heap) (fp anc : List Nat) : Prop where
  size_le : h.size ≤ k.size
  payload : ∀ j, j < h.size →
    copyNodeWithoutNeighbors (k.node j) = copyNodeWithoutNeighbors (h.node j)
  outside : ∀ j, j < h.size → j ∉ fp → k.node j = h.node j
  copies : ∀ j, h.size ≤ j → j < k.size → ∃ a ∈ anc,
    copyNodeWithoutNeighbors (k.node j)
      = { copyNodeWithoutNeighbors (h.node a) with continuation := true }

/-- The heap after the image between the chains `lf` and `rt` has been taken
out of the children of `p` (lines 45-61), in closed form. -/
def detachHeap (h : Heap) (p : Nat) (lf rt : Forest) : Heap :=
  ((setPrevOpt (setNextOpt h (lf.lastOr none) (rt.headOr none)) (rt.headOr none)
    (lf.lastOr none)).setFirstChild p ((lf.append rt).headOr none)).setLastChild p
      ((lf.append rt).lastOr none)

/-- The heap after the image `i` has been linked in under the root between
the chains `lk` and `rk` (lines 120-144), in closed form. -/
def reinsertHeap (h : Heap) (root i : Nat) (lk rk : Forest) : Heap :=
  let h1 := h.setParent i (some root)
  let h2 := h1.setLastChild root (rk.headOr (some i))
  let h3 := h2.setPrev i (lk.lastOr none)
  let h4 := setNextOpt h3 (lk.lastOr none) (some i)
  let h5 := h4.setNext i (rk.headOr none)
  let h6 := setPrevOpt h5 (rk.headOr none) (some i)
  match rk.headOr none with
  | some n => h6.setParent n (some root)
  | none => h6

/-! ### The walk of `pullOutImages` over a document -/

/-- Every image of the document is a direct child of the root. -/
def AllTop (h : Heap) (top : Forest) : Prop :=
  ∀ j ∈ top.ids, (h.node j).type = "image" → j ∈ top.roots

/-- The number of images of the document that are not direct children of the
root. -/
def deepImages (h : Heap) (top : Forest) : Nat :=
  top.ids.countP (fun j => decide ((h.node j).type = "image" ∧ j ∉ top.roots))

/-- A bound on the number of turns the walk still makes above the chain it
is in, without a hoist. -/
def pathWeight : List Frame → Nat
  | [] => 0
  | fr :: path => 1 + 2 * fr.right.size + pathWeight path

/-- A bound on the number of turns the walk still makes, without a hoist,
from a node with children `cs` and right siblings `rt`. -/
def walkWeight (path : List Frame) (cs rt : Forest) (cameFromChild : Bool) : Nat :=
  (if cameFromChild then 1 else 2 * cs.size + 2) + 2 * rt.size + pathWeight path + 1

/-- The nodes the walk is done with when it stands at node `i`: those before
`i` in document order and, once it has come back from the children, `i` and
its subtree. -/
def doneIds (path : List Frame) (lf : Forest) (i : Nat) (cs : Forest) (cameFromChild : Bool) :
    List Nat :=
  pathBefore path ++ lf.ids ++ (if cameFromChild then i :: cs.ids else [])

/-- The facts that hold when the walk stands at node `i` with children `cs`,
left siblings `lf` and right siblings `rt` below the path: the heap holds the
document, and the images the walk is done with are children of the root. -/
structure WalkInv (h : Heap) (root : Nat) (path : List Frame) (lf : Forest) (i : Nat)
    (cs rt : Forest) (cameFromChild : Bool) : Prop where
  doc : IsDocW h root (plug path (lf.append (.cons i cs rt)))
  done : ∀ j ∈ doneIds path lf i cs cameFromChild, (h.node j).type = "image" →
    j ∈ (plug path (lf.append (.cons i cs rt))).roots

/-- What a part of the run of `pullOutImages` that starts with the document
`top` in the heap `h` leaves in the heap `k`, which then holds `top'`: the
objects of `h` keep their payload, the nodes of `top` are, in the same order,
the nodes of `top'` that existed before, and every other node of `top'`
carries the payload of a node of `top`, with the continuation flag set. -/
structure Grown (h : Heap) (top : Forest) (k : Heap) (top' : Forest) : Prop where
  size_le : h.size ≤ k.size
  payload : ∀ j, j < h.size →
    copyNodeWithoutNeighbors (k.node j) = copyNodeWithoutNeighbors (h.node j)
  order : top'.ids.filter (fun j => decide (j < h.size)) = top.ids
  copies : ∀ j ∈ top'.ids, h.size ≤ j → ∃ a ∈ top.ids,
    copyNodeWithoutNeighbors (k.node j)
      = { copyNodeWithoutNeighbors (h.node a) with continuation := true }

/-- What the loop of lines 36-158 for the block `b` does from the node `i`
of the document `top` on: it returns, with a heap `k` that holds a document
`top'`; either it has stopped at the block, an ancestor among `anc`, without
any change, and no image lies deep in the part of the block it went through,
or it has gone through the rest of the document and every image is a child
of the root. -/
def WalkPost (w : Bool) (root b : Nat) (h : Heap) (top : Forest) (anc : List Nat) (i : Nat)
    (cameFromChild : Bool) : Prop :=
  ∃ k top', IsDocW k root top' ∧ Grown h top k top' ∧ b ∈ top'.roots ∧
    (AllTop h top → k = h ∧ top' = top) ∧
    ((k = h ∧ top' = top ∧ b ∈ anc ∧ ∃ pre bcs post : Forest, top = pre.append (.cons b bcs post) ∧
        ∀ j ∈ pre.ids ++ b :: bcs.ids, (h.node j).type = "image" → j ∈ top.roots) ∨
      AllTop k top') ∧
    ∃ F0, ∀ F fuel, F0 ≤ F → F0 ≤ fuel → walkLoop w F b fuel h (some i) cameFromChild = some k

/-- Two node records with the same five links. -/
def SameLinks (a b : Node) : Prop :=
  a.parent = b.parent ∧ a.firstChild = b.firstChild ∧ a.lastChild = b.lastChild ∧
    a.prev = b.prev ∧ a.next = b.next

/-- A sibling chain of nodes without children. -/
def leaves : List Nat → Forest
  | [] => .nil
  | x :: xs => .cons x .nil (leaves xs)

/-- The heap with the item ordinal of every object removed. -/
def Heap.eraseIndices (h : Heap) : Heap := ⟨fun j => (h.node j).eraseIndex, h.size⟩

/-- The five tests of `verifyAst` on the node `n`, as a proposition: some
test fails. -/
def VerifyFails (fuel : Nat) (h : Heap) (n : Nat) : Prop :=
  (∃ p, (h.node n).prev = some p ∧ (h.node p).next ≠ some n) ∨
  (∃ x, (h.node n).next = some x ∧ (h.node x).prev ≠ some n) ∨
  (∃ c ∈ chain h fuel (h.node n).firstChild, (h.node c).parent ≠ some n) ∨
  (∃ c, (h.node n).firstChild = some c ∧ (h.node c).prev ≠ none) ∨
  (∃ c, (h.node n).lastChild = some c ∧ (h.node c).next ≠ none)

/-! ### Example documents

Descriptions as the tests of the repository give them to `makeAst`, and the
trees built from them on the empty heap.  The handles are given out in
document order, from `0` for the document node. -/

/-- A description of a text node. -/
def text (s : String) : Desc := .mk { type := "text", literal := some s } []

/-- A description of an image. -/
def image (dest : String) : Desc := .mk { type := "image", destination := some dest } []

/-- A description of a paragraph. -/
def paragraph (cs : List Desc) : Desc := .mk { type := "paragraph" } cs

/-- A description of a list item. -/
def item (cs : List Desc) : Desc := .mk { type := "item" } cs

/-- A description of a list with the given start value. -/
def list (start : Nat) (cs : List Desc) : Desc := .mk { type := "list", listStart := some start } cs

/-- A description of a document. -/
def document (cs : List Desc) : Desc := .mk { type := "document" } cs

/-- The tree `document[paragraph[text "a", image "x.png", text "b"]]`:
handles 0 (document), 1 (paragraph), 2, 3 (image), 4. -/
def exParagraph : Heap × Nat :=
  makeAst emptyHeap (document [paragraph [text "a", image "x.png", text "b"]])

/-- The children of the document of `exParagraph`. -/
def exParagraphTop : Forest :=
  .cons 1 (.cons 2 .nil (.cons 3 .nil (.cons 4 .nil .nil))) .nil

/-- The tree `document[list(start 1)[item[image "y.png"], item[text "second"]]]`:
handles 0 (document), 1 (list), 2 (item), 3 (image), 4 (item), 5 (text). -/
def exList : Heap × Nat :=
  makeAst emptyHeap (document [list 1 [item [image "y.png"], item [text "second"]]])

/-- The children of the document of `exList`. -/
def exListTop : Forest :=
  .cons 1 (.cons 2 (.cons 3 .nil .nil) (.cons 4 (.cons 5 .nil .nil) .nil)) .nil

/-- The tree `document[paragraph[text "a", image "x.png"], paragraph[text "c"]]`:
handles 0 (document), 1 (paragraph), 2 (text), 3 (image), 4 (paragraph), 5 (text). -/
def exTwoBlocks : Heap × Nat :=
  makeAst emptyHeap (document [paragraph [text "a", image "x.png"], paragraph [text "c"]])

/-- The children of the document of `exTwoBlocks`. -/
def exTwoBlocksTop : Forest :=
  .cons 1 (.cons 2 .nil (.cons 3 .nil .nil)) (.cons 4 (.cons 5 .nil .nil) .nil)

/-- The tree `document[list(start 1)[item[text "one"], item[text "a",
image "x.png", text "b"], item[text "three"]]]`: handles 0 (document), 1 (list),
2 (item), 3, 4 (item), 5, 6 (image), 7, 8 (item), 9. -/
def exThreeItems : Heap × Nat :=
  makeAst emptyHeap (document [list 1 [item [text "one"],
    item [text "a", image "x.png", text "b"], item [text "three"]]])

/-- The children of the document of `exThreeItems`. -/
def exThreeItemsTop : Forest :=
  .cons 1 (.cons 2 (.cons 3 .nil .nil) (.cons 4 (.cons 5 .nil (.cons 6 .nil (.cons 7 .nil .nil)))
    (.cons 8 (.cons 9 .nil .nil) .nil))) .nil

/-- The tree `document[list(start 3)[item[text "x"], item[text "y"]]]`: handles
0 (document), 1 (list), 2 (item), 3, 4 (item), 5. -/
def exStartThree : Heap × Nat :=
  makeAst emptyHeap (document [list 3 [item [text "x"], item [text "y"]]])

/-- The children of the document of `exStartThree`. -/
def exStartThreeTop : Forest :=
  .cons 1 (.cons 2 (.cons 3 .nil .nil) (.cons 4 (.cons 5 .nil .nil) .nil)) .nil

/-- A heap with two objects: the paragraph 0 has no first child, and the text
node 1 as last child; the text node has the paragraph as parent. -/
def exLastOnly : Heap :=
  ⟨fun j => if j = 0 then { type := "paragraph", lastChild := some 1 }
    else { type := "text", parent := some 0 }, 2⟩

end Transform

/-! ### Further examples and specifications -/

namespace Transform

/-- A heap with two objects: the paragraph 0 has the text node 1 as first and
last child, but the text node has no parent. -/
def exBadChild : Heap :=
  ⟨fun j => if j = 0 then { type := "paragraph", firstChild := some 1, lastChild := some 1 }
    else { type := "text" }, 2⟩

/-- The nodes of a chain in document order, each with its depth; `d` is the
depth of the chain itself. -/
def preorder (d : Nat) : Forest → List (Nat × Nat)
  | .nil => []
  | .cons i cs rest => (d, i) :: (preorder (d + 1) cs ++ preorder d rest)

/-- The string of `2 * d` spaces. -/
def spaces : Nat → String
  | 0 => ""
  | d + 1 => spaces d ++ "  "

/-- The text made of the given lines, each followed by a line break. -/
def concatLines : List String → String
  | [] => ""
  | l :: ls => l ++ "\n" ++ concatLines ls

/-- The tree `document[code_block "x", line break, "y"]`: handles 0 (document)
and 1 (code block). -/
def exCodeBlock : Heap × Nat :=
  makeAst emptyHeap (document [.mk { type := "code_block", literal := some "x\ny" } []])

/-! ### `astToJson`

The function works on any JavaScript object, not only on nodes: an object is
given by the list of its own enumerable keys with their values, in the order
of `Object.keys`, and a graph maps handles to objects. -/

/-- A JavaScript value as `astToJson` tells them apart: `null`, a number, a
string, a boolean, a reference to an object, or anything else (`undefined`, a
function), for which nothing is written. -/
inductive JsValue where
  | null
  | number (n : Nat)
  | string (s : String)
  | boolean (b : Bool)
  | object (ref : Nat)
  | undefined
deriving DecidableEq

/-- The keys that `astToJson` leaves out (line 258). -/
def ignoredKeys : List String :=
  ["_sourcepos", "_lastLineBlank", "_open", "_string_content", "_info", "_isFenced",
    "_fenceChar", "_fenceLength", "_fenceOffset", "_onEnter", "_onExit"]

/-- Lines 274-286: the text written for one value; `recurse` is the call of
`astToJson` on an object with the current path and the deeper indent. -/
def jsonValue (recurse : Nat → Option String) (visited : List Nat) : JsValue → Option String
  | .object r => if r ∈ visited then some "[Circular]" else recurse r
  | .null => some "null"
  | .number n => some (toString n)
  | .string s => some ("\x22" ++ s ++ "\x22")
  | .boolean b => some (if b then "true" else "false")
  | .undefined => some ""

/-- The loop of lines 270-291 over the keys that are left. -/
def jsonFields (recurse : Nat → Option String) (visited : List Nat) (indent : String) :
    List (String × JsValue) → Option String
  | [] => some ""
  | kv :: rest =>
    match jsonValue recurse visited kv.2, jsonFields recurse visited indent rest with
    | some v, some r =>
      some (indent ++ "  \x22" ++ kv.1 ++ "\x22:" ++ v ++ (if rest = [] then "" else ",\n") ++ r)
    | _, _ => none

/-- `astToJson(node, visited, indent)` on the graph `g`; the fuel bounds the
depth of the recursion. -/
def astToJson (g : Nat → List (String × JsValue)) :
    Nat → Nat → List Nat → String → Option String
  | 0, _, _, _ => none
  | fuel + 1, node, visited, indent =>
    let visited1 := visited ++ [node]
    let keys := (g node).filter (fun kv => !(ignoredKeys.contains kv.1))
    (jsonFields (fun r => astToJson g fuel r visited1 (indent ++ "  ")) visited1 indent keys).map
      fun body =>
        "\x7b" ++ (if keys = [] then "" else "\n") ++ body
          ++ (if keys = [] then "" else "\n" ++ indent) ++ "\x7d"

/-- Every reference held by one of the first `n` objects of the graph points
to one of them. -/
def ClosedGraph (g : Nat → List (String × JsValue)) (n : Nat) : Prop :=
  ∀ o, o < n → ∀ kv ∈ g o, ∀ r, kv.2 = .object r → r < n

/-- The number of places of the text at which the marker `[Circular]` starts. -/
def countMarkers : List Char → Nat
  | [] => 0
  | c :: cs => (if "[Circular]".toList.isPrefixOf (c :: cs) then 1 else 0) + countMarkers cs

/-- The link fields of a node with the given neighbours, as an object. -/
def linkObject (type : String) (parent firstChild lastChild prev next : JsValue) :
    List (String × JsValue) :=
  [("_type", .string type), ("_parent", parent), ("_firstChild", firstChild),
    ("_lastChild", lastChild), ("_prev", prev), ("_next", next)]

/-- The graph of a document (object 0) with three text children (objects 1,
2 and 3), with the link fields only. -/
def exThreeChildren : Nat → List (String × JsValue)
  | 0 => linkObject "document" .null (.object 1) (.object 3) .null .null
  | 1 => linkObject "text" (.object 0) .null .null .null (.object 2)
  | 2 => linkObject "text" (.object 0) .null .null (.object 1) (.object 3)
  | 3 => linkObject "text" (.object 0) .null .null (.object 2) .null
  | _ => []

/-- The number of references held by an object. -/
def countRefs (o : List (String × JsValue)) : Nat :=
  o.countP fun kv => match kv.2 with
    | .object _ => true
    | _ => false

/-! ### Positions, and the copies of one hoist -/

/-- The children of the root when the chain `y` sits below the path, the
path being given from the top-level block down to the innermost ancestor. -/
def plugOut : List Frame → Forest → Forest
  | [], y => y
  | fr :: path, y => fr.left.append (.cons fr.id (plugOut path y) fr.right)

/-- The forest holds, at any depth, the node `c` with the children `kids`. -/
def Forest.HasNode (c : Nat) (kids : Forest) : Forest → Prop
  | .nil => False
  | .cons i cs rest => (i = c ∧ cs = kids) ∨ Forest.HasNode c kids cs ∨ Forest.HasNode c kids rest

/-- The copies made by the ancestor-splitting loop, in the order of their
creation: the handle of the copy, the ancestor it is a copy of, and the
children the copy gets, which are the part `rk` of the children of the
ancestor to the right of the split (for the parent of the image its right
siblings, higher up the copy of the ancestor below followed by the right
siblings of that ancestor). -/
def splitKids : Nat → List Frame → Forest → List (Nat × Nat × Forest)
  | _, [], _ => []
  | c, fr :: path, rk =>
    if rk ≠ .nil ∨ fr.right ≠ .nil then
      (c, fr.id, rk) :: splitKids (c + 1) path (.cons c rk fr.right)
    else splitKids c path .nil

end Transform

namespace Transform

/-! ### The tree of a description

The shape and the content of the tree that `makeAst` builds for a description
whose node gets the handle `n`: the handles are given out in document order. -/

/-- The fields of a description. -/
def Desc.fields : Desc → Node
  | .mk f _ => f

/-- The child descriptions of a description. -/
def Desc.children : Desc → List Desc
  | .mk _ cs => cs

mutual
/-- The number of nodes of the tree of a description. -/
def Desc.size : Desc → Nat
  | .mk _ cs => Desc.sizeList cs + 1
/-- The number of nodes of the trees of a list of descriptions. -/
def Desc.sizeList : List Desc → Nat
  | [] => 0
  | c :: cs => Desc.size c + Desc.sizeList cs
end

mutual
/-- The children of the node built for a description, when the node has the
handle `n`. -/
def Desc.kids (n : Nat) : Desc → Forest
  | .mk _ cs => Desc.kidsList (n + 1) cs
/-- The chain of trees built for a list of descriptions, the first node
having the handle `n`. -/
def Desc.kidsList (n : Nat) : List Desc → Forest
  | [] => .nil
  | c :: cs => .cons n (Desc.kids n c) (Desc.kidsList (n + Desc.size c) cs)
end

mutual
/-- The handles of the nodes built for a description, each with the fields
its description gives, when the node of the description has the handle `n`. -/
def Desc.nodes (n : Nat) : Desc → List (Nat × Node)
  | .mk f cs => (n, f) :: Desc.nodesList (n + 1) cs
/-- The same for a list of descriptions. -/
def Desc.nodesList (n : Nat) : List Desc → List (Nat × Node)
  | [] => []
  | c :: cs => Desc.nodes n c ++ Desc.nodesList (n + Desc.size c) cs
end

end Transform

namespace Transform

/-- What the loop of `makeAst` over the child descriptions `cs` leaves, when
the node `p` has the children `done` so far. -/
def ChildrenBuilt (h : Heap) (p : Nat) (done : Forest) (cs : List Desc) (k : Heap) : Prop :=
  k.size = h.size + Desc.sizeList cs ∧
  (∀ j, j < h.size → j ≠ p → j ∉ done.roots → k.node j = h.node j) ∧
  (∀ j, j < h.size → copyNodeWithoutNeighbors (k.node j) = copyNodeWithoutNeighbors (h.node j)) ∧
  k.node p = { h.node p with
    firstChild := (done.append (Desc.kidsList h.size cs)).headOr none,
    lastChild := (done.append (Desc.kidsList h.size cs)).lastOr none } ∧
  Seg k (some p) none (done.append (Desc.kidsList h.size cs)) none ∧
  ∀ q ∈ Desc.nodesList h.size cs,
    copyNodeWithoutNeighbors (k.node q.1) = copyNodeWithoutNeighbors q.2

/-- What `makeAst` leaves for the description `d`. -/
def TreeBuilt (h : Heap) (d : Desc) (r : Heap × Nat) : Prop :=
  r.2 = h.size ∧ r.1.size = h.size + d.size ∧
  (∀ j, j < h.size → r.1.node j = h.node j) ∧
  Seg r.1 none none (.cons h.size (Desc.kids h.size d) .nil) none ∧
  ∀ q ∈ Desc.nodes h.size d,
    copyNodeWithoutNeighbors (r.1.node q.1) = copyNodeWithoutNeighbors q.2

end Transform

namespace Transform

/-- The tree `document[paragraph[text "p"], list(start 1)[item[image "y.png"],
item[text "second"]], paragraph[text "q"]]`: handles 0 (document),
1 (paragraph), 2, 3 (list), 4 (item), 5 (image), 6 (item), 7, 8 (paragraph), 9. -/
def exListBetween : Heap × Nat :=
  makeAst emptyHeap (document [paragraph [text "p"],
    list 1 [item [image "y.png"], item [text "second"]], paragraph [text "q"]])

/-- The children of the document of `exListBetween`. -/
def exListBetweenTop : Forest :=
  .cons 1 (.cons 2 .nil .nil) (.cons 3 (.cons 4 (.cons 5 .nil .nil) (.cons 6 (.cons 7 .nil .nil) .nil))
    (.cons 8 (.cons 9 .nil .nil) .nil))

end Transform

/-! ### Reading the heap after an assignment -/

namespace Transform

@[simp] theorem Heap.setParent_node (h : Heap) (i : Nat) (v : Option Nat) (j : Nat) :
    (h.setParent i v).node j
      = { h.node j with parent := if j = i then v else (h.node j).parent } := by
  unfold Heap.setParent
  by_cases hj : j = i
  · subst hj; simp
  · simp [hj]

@[simp] theorem Heap.setFirstChild_node (h : Heap) (i : Nat) (v : Option Nat) (j : Nat) :
    (h.setFirstChild i v).node j
      = { h.node j with firstChild := if j = i then v else (h.node j).firstChild } := by
  unfold Heap.setFirstChild
  by_cases hj : j = i
  · subst hj; simp
  · simp [hj]

@[simp] theorem Heap.setLastChild_node (h : Heap) (i : Nat) (v : Option Nat) (j : Nat) :
    (h.setLastChild i v).node j
      = { h.node j with lastChild := if j = i then v else (h.node j).lastChild } := by
  unfold Heap.setLastChild
  by_cases hj : j = i
  · subst hj; simp
  · simp [hj]

@[simp] theorem Heap.setPrev_node (h : Heap) (i : Nat) (v : Option Nat) (j : Nat) :
    (h.setPrev i v).node j
      = { h.node j with prev := if j = i then v else (h.node j).prev } := by
  unfold Heap.setPrev
  by_cases hj : j = i
  · subst hj; simp
  · simp [hj]

@[simp] theorem Heap.setNext_node (h : Heap) (i : Nat) (v : Option Nat) (j : Nat) :
    (h.setNext i v).node j
      = { h.node j with next := if j = i then v else (h.node j).next } := by
  unfold Heap.setNext
  by_cases hj : j = i
  · subst hj; simp
  · simp [hj]

@[simp] theorem Heap.setIndex_node (h : Heap) (i : Nat) (v : Nat) (j : Nat) :
    (h.setIndex i v).node j
      = { h.node j with index := if j = i then some v else (h.node j).index } := by
  unfold Heap.setIndex
  by_cases hj : j = i
  · subst hj; simp
  · simp [hj]

@[simp] theorem Heap.setParent_size (h : Heap) (i : Nat) (v : Option Nat) :
    (h.setParent i v).size = h.size := rfl

@[simp] theorem Heap.setFirstChild_size (h : Heap) (i : Nat) (v : Option Nat) :
    (h.setFirstChild i v).size = h.size := rfl

@[simp] theorem Heap.setLastChild_size (h : Heap) (i : Nat) (v : Option Nat) :
    (h.setLastChild i v).size = h.size := rfl

@[simp] theorem Heap.setPrev_size (h : Heap) (i : Nat) (v : Option Nat) :
    (h.setPrev i v).size = h.size := rfl

@[simp] theorem Heap.setNext_size (h : Heap) (i : Nat) (v : Option Nat) :
    (h.setNext i v).size = h.size := rfl

@[simp] theorem Heap.setIndex_size (h : Heap) (i : Nat) (v : Nat) :
    (h.setIndex i v).size = h.size := rfl

@[simp] theorem Heap.alloc_size (h : Heap) (n : Node) : (h.alloc n).size = h.size + 1 := rfl

theorem Heap.alloc_node (h : Heap) (n : Node) (j : Nat) :
    (h.alloc n).node j = if j = h.size then n else h.node j := rfl

@[simp] theorem Heap.alloc_node_self (h : Heap) (n : Node) : (h.alloc n).node h.size = n := by
  simp [Heap.alloc_node]

theorem Heap.alloc_node_of_lt (h : Heap) (n : Node) {j : Nat} (hj : j < h.size) :
    (h.alloc n).node j = h.node j := by
  simp [Heap.alloc_node, Nat.ne_of_lt hj]

theorem Heap.ext_iff' (h k : Heap) : h = k ↔ (∀ j, h.node j = k.node j) ∧ h.size = k.size := by
  constructor
  · rintro rfl; exact ⟨fun _ => rfl, rfl⟩
  · rintro ⟨h1, h2⟩
    cases h; cases k
    simp only at h1 h2
    subst h2
    congr
    funext j; exact h1 j

/-! ### Forests -/

namespace Forest

@[simp] theorem nil_append (y : Forest) : append nil y = y := rfl

@[simp] theorem cons_append (i : Nat) (cs rest y : Forest) :
    append (cons i cs rest) y = cons i cs (append rest y) := rfl

@[simp] theorem append_nil (x : Forest) : append x nil = x := by
  induction x with
  | nil => rfl
  | cons i cs rest _ ih => simp [ih]

theorem append_assoc (x y z : Forest) : append (append x y) z = append x (append y z) := by
  induction x with
  | nil => rfl
  | cons i cs rest _ ih => simp [ih]

@[simp] theorem ids_nil : ids nil = [] := rfl

@[simp] theorem ids_cons (i : Nat) (cs rest : Forest) :
    ids (cons i cs rest) = i :: (ids cs ++ ids rest) := rfl

@[simp] theorem ids_append (x y : Forest) : ids (append x y) = ids x ++ ids y := by
  induction x with
  | nil => rfl
  | cons i cs rest _ ih => simp [ih]

@[simp] theorem roots_nil : roots nil = [] := rfl

@[simp] theorem roots_cons (i : Nat) (cs rest : Forest) :
    roots (cons i cs rest) = i :: roots rest := rfl

@[simp] theorem roots_append (x y : Forest) : roots (append x y) = roots x ++ roots y := by
  induction x with
  | nil => rfl
  | cons i cs rest _ ih => simp [ih]

theorem roots_subset_ids (x : Forest) : ∀ i ∈ roots x, i ∈ ids x := by
  induction x with
  | nil => simp
  | cons i cs rest _ ih =>
    intro j hj
    simp only [roots_cons, List.mem_cons] at hj
    rcases hj with rfl | hj
    · simp
    · simp [ih j hj]

@[simp] theorem headOr_nil (d : Option Nat) : headOr nil d = d := rfl

@[simp] theorem headOr_cons (i : Nat) (cs rest : Forest) (d : Option Nat) :
    headOr (cons i cs rest) d = some i := rfl

@[simp] theorem lastOr_nil (d : Option Nat) : lastOr nil d = d := rfl

@[simp] theorem lastOr_cons (i : Nat) (cs rest : Forest) (d : Option Nat) :
    lastOr (cons i cs rest) d = lastOr rest (some i) := rfl

@[simp] theorem headOr_append (x y : Forest) (d : Option Nat) :
    headOr (append x y) d = headOr x (headOr y d) := by
  cases x <;> rfl

@[simp] theorem lastOr_append (x y : Forest) (d : Option Nat) :
    lastOr (append x y) d = lastOr y (lastOr x d) := by
  induction x generalizing d with
  | nil => rfl
  | cons i cs rest _ ih => simp [ih]

theorem headOr_eq_none {x : Forest} (hx : headOr x none = none) : x = nil := by
  cases x with
  | nil => rfl
  | cons i cs rest => simp at hx

theorem lastOr_isSome (x : Forest) (i : Nat) : ∃ j, lastOr x (some i) = some j := by
  induction x generalizing i with
  | nil => exact ⟨i, rfl⟩
  | cons k cs rest _ ih => exact ih k

theorem lastOr_eq_none {x : Forest} (hx : lastOr x none = none) : x = nil := by
  cases x with
  | nil => rfl
  | cons i cs rest =>
    obtain ⟨j, hj⟩ := lastOr_isSome rest i
    simp [hj] at hx

theorem headOr_mem_roots {x : Forest} {d : Option Nat} {j : Nat} (hx : x ≠ nil)
    (hj : headOr x d = some j) : j ∈ roots x := by
  cases x with
  | nil => exact absurd rfl hx
  | cons i cs rest => simp at hj; simp [hj]

theorem lastOr_mem_roots (x : Forest) (i j : Nat) (hj : lastOr x (some i) = some j) :
    j = i ∨ j ∈ roots x := by
  induction x generalizing i with
  | nil => simp at hj; exact Or.inl hj.symm
  | cons k cs rest _ ih =>
    simp only [lastOr_cons] at hj
    rcases ih k hj with h | h
    · right; simp [h]
    · right; simp [h]

theorem lastOr_none_mem_roots {x : Forest} {j : Nat} (hj : lastOr x none = some j) :
    j ∈ roots x := by
  cases x with
  | nil => simp at hj
  | cons k cs rest =>
    simp only [lastOr_cons] at hj
    rcases lastOr_mem_roots rest k j hj with h | h
    · simp [h]
    · simp [h]

@[simp] theorem size_nil : size nil = 0 := rfl

@[simp] theorem size_cons (i : Nat) (cs rest : Forest) :
    size (cons i cs rest) = size cs + size rest + 1 := rfl

@[simp] theorem size_append (x y : Forest) : size (append x y) = size x + size y := by
  induction x with
  | nil => simp
  | cons i cs rest _ ih => simp [ih]; omega

theorem length_ids (x : Forest) : (ids x).length = size x := by
  induction x with
  | nil => rfl
  | cons i cs rest ih1 ih2 => simp [ih1, ih2]

end Forest

/-! ### The representation predicate -/

theorem SameLinks.rfl' (a : Node) : SameLinks a a := ⟨rfl, rfl, rfl, rfl, rfl⟩

@[simp] theorem Seg_nil (h : Heap) (par pv nx : Option Nat) : Seg h par pv .nil nx = True := rfl

theorem Seg_cons (h : Heap) (par pv nx : Option Nat) (i : Nat) (cs rest : Forest) :
    Seg h par pv (.cons i cs rest) nx =
    ((h.node i).parent = par ∧ (h.node i).prev = pv ∧ (h.node i).next = rest.headOr nx ∧
    (h.node i).firstChild = cs.headOr none ∧ (h.node i).lastChild = cs.lastOr none ∧
    Seg h (some i) none cs none ∧ Seg h par (some i) rest nx) := rfl

/-- The predicate only reads the links of the nodes of the forest. -/
theorem Seg_congr {h k : Heap} {x : Forest} (hk : ∀ i ∈ x.ids, SameLinks (k.node i) (h.node i))
    {par pv nx : Option Nat} (hs : Seg h par pv x nx) : Seg k par pv x nx := by
  induction x generalizing par pv nx with
  | nil => trivial
  | cons i cs rest ih1 ih2 =>
    rw [Seg_cons] at hs ⊢
    obtain ⟨a, b, c, d, e, f, g⟩ := hs
    obtain ⟨a', b', c', d', e'⟩ := hk i (by simp)
    refine ⟨a' ▸ a, d' ▸ b, e' ▸ c, b' ▸ d, c' ▸ e, ih1 ?_ f, ih2 ?_ g⟩
    · intro j hj; exact hk j (by simp [hj])
    · intro j hj; exact hk j (by simp [hj])

/-- A chain that is cut in two. -/
theorem Seg_append {h : Heap} {x y : Forest} {par pv nx : Option Nat} :
    Seg h par pv (x.append y) nx ↔
      Seg h par pv x (y.headOr nx) ∧ Seg h par (x.lastOr pv) y nx := by
  induction x generalizing pv with
  | nil => simp
  | cons i cs rest _ ih =>
    simp only [Forest.cons_append, Seg_cons, Forest.headOr_append, Forest.lastOr_cons, ih]
    tauto

/-- The roots of a chain have the parent of the chain. -/
theorem Seg.parent_of_mem_roots {h : Heap} {x : Forest} {par pv nx : Option Nat}
    (hs : Seg h par pv x nx) : ∀ i ∈ x.roots, (h.node i).parent = par := by
  induction x generalizing pv with
  | nil => simp
  | cons i cs rest _ ih =>
    rw [Seg_cons] at hs
    intro j hj
    simp only [Forest.roots_cons, List.mem_cons] at hj
    rcases hj with rfl | hj
    · exact hs.1
    · exact ih hs.2.2.2.2.2.2 j hj

end Transform

/-! ### The annotator: `indexLoop` computes `annot` -/

namespace Transform

theorem Node.eraseIndex_links {a b : Node} (hab : a.eraseIndex = b.eraseIndex) :
    SameLinks a b := by
  unfold Node.eraseIndex at hab
  injection hab with h1 h2 h3 h4 h5 h6
  exact ⟨h2, h3, h4, h5, h6⟩

theorem Node.eraseIndex_type {a b : Node} (hab : a.eraseIndex = b.eraseIndex) :
    a.type = b.type := by
  unfold Node.eraseIndex at hab
  injection hab

theorem Node.eraseIndex_listStart {a b : Node} (hab : a.eraseIndex = b.eraseIndex) :
    listStartOrOne a = listStartOrOne b := by
  unfold Node.eraseIndex at hab
  have : a.listStart = b.listStart := by injection hab
  unfold listStartOrOne
  rw [this]

theorem Node.eraseIndex_continuation {a b : Node} (hab : a.eraseIndex = b.eraseIndex) :
    a.continuation = b.continuation := by
  unfold Node.eraseIndex at hab
  injection hab

theorem Node.eq_of_eraseIndex {a b : Node} (hab : a.eraseIndex = b.eraseIndex)
    (hi : a.index = b.index) : a = b := by
  cases a; cases b
  unfold Node.eraseIndex at hab
  simp only [Node.mk.injEq] at hab ⊢
  simp only at hi
  tauto

theorem eraseIndex_setIndex (h : Heap) (i v j : Nat) :
    ((h.setIndex i v).node j).eraseIndex = (h.node j).eraseIndex := by
  simp [Node.eraseIndex]

theorem EqUpToIndex.refl (h : Heap) : EqUpToIndex h h := ⟨fun _ => rfl, rfl⟩

theorem EqUpToIndex.symm {h k : Heap} (e : EqUpToIndex h k) : EqUpToIndex k h :=
  ⟨fun j => (e.1 j).symm, e.2.symm⟩

theorem EqUpToIndex.trans {h k l : Heap} (e : EqUpToIndex h k) (f : EqUpToIndex k l) :
    EqUpToIndex h l :=
  ⟨fun j => (e.1 j).trans (f.1 j), e.2.trans f.2⟩

theorem EqUpToIndex.seg {h k : Heap} (e : EqUpToIndex h k) {x : Forest} {par pv nx : Option Nat}
    (hs : Seg h par pv x nx) : Seg k par pv x nx :=
  Seg_congr (fun i _ => Node.eraseIndex_links (e.1 i).symm) hs

/-! #### `indexRoots` -/

theorem indexRoots_equiv (h : Heap) (l : List Nat) (i : Nat) :
    EqUpToIndex (indexRoots h l i) h := by
  induction l generalizing h i with
  | nil => exact EqUpToIndex.refl h
  | cons c cs ih =>
    exact (ih (h.setIndex c i) (i + 1)).trans ⟨fun j => eraseIndex_setIndex h c i j, rfl⟩

theorem indexRoots_node_of_not_mem (h : Heap) (l : List Nat) (i : Nat) {j : Nat}
    (hj : j ∉ l) : (indexRoots h l i).node j = h.node j := by
  induction l generalizing h i with
  | nil => rfl
  | cons c cs ih =>
    simp only [List.mem_cons, not_or] at hj
    simp only [indexRoots]
    rw [ih _ _ hj.2]
    simp [hj.1]

theorem indexRoots_index (h : Heap) (l : List Nat) (i : Nat) (hl : l.Nodup) {k c : Nat}
    (hk : l[k]? = some c) : ((indexRoots h l i).node c).index = some (i + k) := by
  induction l generalizing h i k with
  | nil => simp at hk
  | cons d ds ih =>
    simp only [List.nodup_cons] at hl
    simp only [indexRoots]
    cases k with
    | zero =>
      simp only [List.getElem?_cons_zero, Option.some.injEq] at hk
      subst hk
      rw [indexRoots_node_of_not_mem _ _ _ hl.1]
      simp
    | succ k =>
      simp only [List.getElem?_cons_succ] at hk
      rw [ih _ _ hl.2 hk]
      congr 1; omega

theorem setIndex_eq_self (h : Heap) (c v : Nat) (hc : (h.node c).index = some v) :
    h.setIndex c v = h := by
  rw [Heap.ext_iff']
  refine ⟨fun j => ?_, rfl⟩
  rw [Heap.setIndex_node]
  by_cases hj : j = c
  · subst hj; simp [← hc]
  · simp [hj]

theorem indexRoots_eq_self (h : Heap) (l : List Nat) (i : Nat)
    (hl : ∀ k c, l[k]? = some c → (h.node c).index = some (i + k)) :
    indexRoots h l i = h := by
  induction l generalizing i with
  | nil => rfl
  | cons d ds ih =>
    simp only [indexRoots]
    rw [setIndex_eq_self h d i (by simpa using hl 0 d (by simp))]
    apply ih
    intro k c hk
    rw [hl (k + 1) c (by simpa using hk)]
    congr 1; omega

/-- The loop of lines 18-22 on a child chain held by the heap. -/
theorem indexChildren_eq {h : Heap} {x : Forest} {par pv : Option Nat}
    (hs : Seg h par pv x none) {F : Nat} (hF : x.roots.length ≤ F) (i : Nat) :
    indexChildren F h (x.headOr none) i = some (indexRoots h x.roots i) := by
  induction x generalizing h F pv i with
  | nil => cases F <;> rfl
  | cons c cs rest _ ih =>
    cases F with
    | zero => simp at hF
    | succ F =>
      rw [Seg_cons] at hs
      simp only [Forest.headOr_cons, indexChildren, Forest.roots_cons, indexRoots]
      have h1 : ((h.setIndex c i).node c).next = rest.headOr none := by
        simpa using hs.2.2.1
      rw [h1]
      apply ih
      · exact Seg_congr (fun j _ => by simp [SameLinks]) hs.2.2.2.2.2.2
      · simpa using hF

theorem chain_eq_take {h : Heap} {x : Forest} {par pv : Option Nat}
    (hs : Seg h par pv x none) (F : Nat) :
    chain h F (x.headOr none) = x.roots.take F := by
  induction x generalizing F pv with
  | nil => cases F <;> rfl
  | cons c cs rest _ ih =>
    cases F with
    | zero => rfl
    | succ F =>
      rw [Seg_cons] at hs
      simp only [Forest.headOr_cons, chain, Forest.roots_cons, List.take_succ_cons]
      rw [hs.2.2.1, ih hs.2.2.2.2.2.2]

theorem roots_length_le_size (x : Forest) : x.roots.length ≤ x.size := by
  induction x with
  | nil => simp
  | cons i cs rest _ ih => simp; omega

/-! #### `annot` -/

theorem annotNode_equiv (h : Heap) (i : Nat) (cs : Forest) :
    EqUpToIndex (annotNode h i cs) h := by
  unfold annotNode
  split
  · exact indexRoots_equiv _ _ _
  · exact EqUpToIndex.refl h

theorem annot_equiv (h : Heap) (x : Forest) : EqUpToIndex (annot h x) h := by
  induction x generalizing h with
  | nil => exact EqUpToIndex.refl h
  | cons i cs rest ih1 ih2 =>
    simp only [annot]
    exact (ih2 _).trans ((ih1 _).trans (annotNode_equiv h i cs))

theorem annotNode_node_of_not_mem (h : Heap) (i : Nat) (cs : Forest) {j : Nat}
    (hj : j ∉ cs.roots) : (annotNode h i cs).node j = h.node j := by
  unfold annotNode
  split
  · exact indexRoots_node_of_not_mem _ _ _ hj
  · rfl

/-- The walk over a chain only writes to nodes below the chain itself. -/
theorem annot_node_of_not_mem (h : Heap) (x : Forest) (hx : x.ids.Nodup) {j : Nat}
    (hj : j ∉ x.ids ∨ j ∈ x.roots) : (annot h x).node j = h.node j := by
  induction x generalizing h with
  | nil => rfl
  | cons i cs rest ih1 ih2 =>
    simp only [Forest.ids_cons, List.nodup_cons, List.mem_append, not_or,
      List.nodup_append] at hx
    obtain ⟨⟨hi1, hi2⟩, hcs, hrest, hdisj⟩ := hx
    have hjcs : j ∉ cs.ids := by
      rcases hj with hj | hj
      · simp only [Forest.ids_cons, List.mem_cons, List.mem_append, not_or] at hj
        exact hj.2.1
      · simp only [Forest.roots_cons, List.mem_cons] at hj
        rcases hj with rfl | hj
        · exact hi1
        · intro hc
          exact hdisj hc (Forest.roots_subset_ids _ _ hj)
    have hjrest : j ∉ rest.ids ∨ j ∈ rest.roots := by
      rcases hj with hj | hj
      · simp only [Forest.ids_cons, List.mem_cons, List.mem_append, not_or] at hj
        exact Or.inl hj.2.2
      · simp only [Forest.roots_cons, List.mem_cons] at hj
        rcases hj with rfl | hj
        · exact Or.inl hi2
        · exact Or.inr hj
    simp only [annot]
    rw [ih2 _ hrest hjrest, ih1 _ hcs (Or.inl hjcs)]
    apply annotNode_node_of_not_mem
    intro hc
    exact hjcs (Forest.roots_subset_ids _ _ hc)

theorem Indexed_congr {h k : Heap} {x : Forest} (hk : ∀ i ∈ x.ids, k.node i = h.node i)
    (hx : Indexed h x) : Indexed k x := by
  induction x with
  | nil => trivial
  | cons i cs rest ih1 ih2 =>
    simp only [Indexed] at hx ⊢
    refine ⟨?_, ih1 (fun j hj => hk j (by simp [hj])) hx.2.1,
      ih2 (fun j hj => hk j (by simp [hj])) hx.2.2⟩
    intro ht k' c hc
    rw [hk i (by simp)] at ht ⊢
    have hcm : c ∈ cs.ids :=
      Forest.roots_subset_ids _ _ (List.getElem?_mem hc)
    rw [hk c (by simp [hcm])]
    exact hx.1 ht k' c hc

theorem roots_nodup {x : Forest} (hx : x.ids.Nodup) : x.roots.Nodup := by
  induction x with
  | nil => simp
  | cons i cs rest _ ih =>
    simp only [Forest.ids_cons, List.nodup_cons, List.mem_append, not_or,
      List.nodup_append] at hx
    simp only [Forest.roots_cons, List.nodup_cons]
    exact ⟨fun hc => hx.1.2 (Forest.roots_subset_ids _ _ hc), ih hx.2.2.1⟩

theorem annotNode_indexed (h : Heap) (i : Nat) (cs : Forest) (hcs : cs.ids.Nodup)
    (hi : i ∉ cs.ids) (ht : ((annotNode h i cs).node i).type = "list") {k c : Nat}
    (hc : cs.roots[k]? = some c) :
    ((annotNode h i cs).node c).index = some (listStartOrOne ((annotNode h i cs).node i) + k) := by
  have hir : i ∉ cs.roots := fun hc => hi (Forest.roots_subset_ids _ _ hc)
  rw [annotNode_node_of_not_mem h i cs hir] at ht ⊢
  unfold annotNode
  rw [if_pos ht]
  exact indexRoots_index _ _ _ (roots_nodup hcs) hc

/-- After the walk over a chain, the items of every list in it are numbered. -/
theorem annot_indexed (h : Heap) (x : Forest) (hx : x.ids.Nodup) : Indexed (annot h x) x := by
  induction x generalizing h with
  | nil => trivial
  | cons i cs rest ih1 ih2 =>
    have hx' := hx
    simp only [Forest.ids_cons, List.nodup_cons, List.mem_append, not_or,
      List.nodup_append] at hx
    obtain ⟨⟨hi1, hi2⟩, hcs, hrest, hdisj⟩ := hx
    simp only [annot, Indexed]
    refine ⟨?_, ?_, ih2 _ hrest⟩
    · intro ht k c hc
      have hcr : c ∈ cs.roots := List.getElem?_mem hc
      have hcm : c ∈ cs.ids := Forest.roots_subset_ids _ _ hcr
      have e1 : ∀ j, j = i ∨ j ∈ cs.roots →
          (annot (annot (annotNode h i cs) cs) rest).node j = (annotNode h i cs).node j := by
        intro j hj
        have hjr : j ∉ rest.ids := by
          rcases hj with rfl | hj
          · exact hi2
          · exact fun hc => hdisj (Forest.roots_subset_ids _ _ hj) hc
        have hjc : j ∉ cs.ids ∨ j ∈ cs.roots := by
          rcases hj with rfl | hj
          · exact Or.inl hi1
          · exact Or.inr hj
        rw [annot_node_of_not_mem _ _ hrest (Or.inl hjr), annot_node_of_not_mem _ _ hcs hjc]
      rw [e1 i (Or.inl rfl)] at ht ⊢
      rw [e1 c (Or.inr hcr)]
      exact annotNode_indexed h i cs hcs hi1 ht hc
    · apply Indexed_congr _ (ih1 (annotNode h i cs) hcs)
      intro j hj
      exact annot_node_of_not_mem _ _ hrest (Or.inl (fun hc => hdisj hj hc))

/-- On a forest whose lists are numbered the walk changes nothing. -/
theorem annot_eq_self (h : Heap) (x : Forest) (hx : Indexed h x) : annot h x = h := by
  induction x with
  | nil => rfl
  | cons i cs rest ih1 ih2 =>
    simp only [Indexed] at hx
    simp only [annot]
    have e : annotNode h i cs = h := by
      unfold annotNode
      split
      · next ht => exact indexRoots_eq_self _ _ _ (hx.1 ht)
      · rfl
    rw [e, ih1 hx.2.1, ih2 hx.2.2]

end Transform

/-! ### The annotator: the walk -/

namespace Transform

theorem indexLoop_succ (F fuel : Nat) (h : Heap) (w : Walker) :
    indexLoop F (fuel + 1) h w =
      match w.next h with
      | none => some h
      | some (e, w1) =>
        if e.1 = true ∧ (h.node e.2).type = "list" then do
          let h1 ← indexChildren F h (h.node e.2).firstChild (listStartOrOne (h.node e.2))
          indexLoop F fuel h1 w1
        else indexLoop F fuel h w1 := rfl

/-- Entering node `i`, whose children the heap holds: the items are numbered
when `i` is a list, and the walker goes on to the first child or, without
children, stays to leave `i`. -/
theorem indexLoop_enter {h : Heap} {i : Nat} {cs : Forest} (root : Nat)
    (hfc : (h.node i).firstChild = cs.headOr none) (hs : Seg h (some i) none cs none)
    {F : Nat} (hF : cs.size ≤ F) (fuel : Nat) :
    indexLoop F (fuel + 1) h ⟨some i, true, root⟩ =
      indexLoop F fuel (annotNode h i cs)
        ⟨some (match cs.headOr none with | some c => c | none => i),
          (cs.headOr none).isSome, root⟩ := by
  rw [indexLoop_succ]
  have hic : indexChildren F h (h.node i).firstChild (listStartOrOne (h.node i))
      = some (indexRoots h cs.roots (listStartOrOne (h.node i))) := by
    rw [hfc]
    exact indexChildren_eq hs (le_trans (roots_length_le_size cs) hF) _
  simp only [Walker.next, hfc]
  cases cs with
  | nil =>
    by_cases ht : (h.node i).type = "list"
    · simp [ht, annotNode, indexChildren, indexRoots]
    · simp [ht, annotNode]
  | cons c ccs crest =>
    by_cases ht : (h.node i).type = "list"
    · rw [hfc] at hic
      simp only [Forest.headOr_cons] at hic
      simp [ht, annotNode, hic]
    · simp [ht, annotNode]

/-- Leaving a node that is not the root of the walk. -/
theorem indexLoop_leave {h : Heap} {i : Nat} (root : Nat) (hi : i ≠ root)
    (F fuel : Nat) :
    indexLoop F (fuel + 1) h ⟨some i, false, root⟩ =
      indexLoop F fuel h
        (match (h.node i).next with
          | none => ⟨(h.node i).parent, false, root⟩
          | some n => ⟨some n, true, root⟩) := by
  rw [indexLoop_succ]
  simp only [Walker.next, hi]
  cases (h.node i).next <;> simp

/-- The walk over a chain held by the heap: from entering its first node to
the moment the walker is back at the parent, `indexLoop` has made
`2 * size` turns and has changed the heap as `annot` says. -/
theorem indexLoop_chain {x : Forest} : ∀ {h : Heap} {par : Nat} {pv : Option Nat} {root F : Nat}
    (_ : Seg h (some par) pv x none) (_ : root ∉ x.ids) (_ : x.size ≤ F) (fuel : Nat)
    (j : Nat) (_ : x.headOr none = some j),
    indexLoop F (fuel + 2 * x.size) h ⟨some j, true, root⟩ =
      indexLoop F fuel (annot h x) ⟨some par, false, root⟩ := by
  induction x with
  | nil => intro h par pv root F _ _ _ fuel j hj; simp at hj
  | cons i cs rest ih1 ih2 =>
    intro h par pv root F hs hroot hF fuel j hj
    simp only [Forest.headOr_cons, Option.some.injEq] at hj
    subst hj
    rw [Seg_cons] at hs
    obtain ⟨hpar, _, hnext, hfc, _, hscs, hsrest⟩ := hs
    simp only [Forest.ids_cons, List.mem_cons, List.mem_append, not_or] at hroot
    simp only [Forest.size_cons] at hF
    -- the heap after the children
    have e1 : EqUpToIndex (annot (annotNode h i cs) cs) h :=
      (annot_equiv _ _).trans (annotNode_equiv _ _ _)
    have hl := Node.eraseIndex_links (e1.1 i)
    -- entering `i`
    have hfuel : fuel + 2 * (Forest.cons i cs rest).size
        = (fuel + 2 * rest.size + 1 + 2 * cs.size) + 1 := by
      simp only [Forest.size_cons]; omega
    rw [hfuel, indexLoop_enter root hfc hscs (by omega)]
    -- the children, then leaving `i`
    have step2 : indexLoop F (fuel + 2 * rest.size + 1 + 2 * cs.size) (annotNode h i cs)
          ⟨some (match cs.headOr none with | some c => c | none => i),
            (cs.headOr none).isSome, root⟩
        = indexLoop F (fuel + 2 * rest.size + 1) (annot (annotNode h i cs) cs)
          ⟨some i, false, root⟩ := by
      cases cs with
      | nil => simp [annot]
      | cons c ccs crest =>
        simp only [Forest.headOr_cons, Option.isSome_some]
        exact ih1 ((annotNode_equiv h i _).symm.seg hscs) hroot.2.1 (by simp only [Forest.size_cons] at hF ⊢; omega) _ c rfl
    rw [step2, indexLoop_leave root (Ne.symm hroot.1)]
    rw [hl.2.2.2.2, hl.1, hnext, hpar]
    simp only [annot]
    cases rest with
    | nil => simp [annot]
    | cons r rcs rrest =>
      simp only [Forest.headOr_cons]
      exact ih2 (e1.symm.seg hsrest) hroot.2.2 (by simp only [Forest.size_cons] at hF ⊢; omega) _ r rfl

/-- The heap that `addListItemIndices` leaves for a tree. -/
theorem addListItemIndices_eq {h : Heap} {root : Nat} {kids : Forest}
    (ht : IsTree h root kids) {F : Nat} (hF : 2 * kids.size + 3 ≤ F) :
    addListItemIndices F h root = some (annot (annotNode h root kids) kids) := by
  have hroot : root ∉ kids.ids := (List.nodup_cons.mp ht.nodup).1
  unfold addListItemIndices
  obtain ⟨G, rfl⟩ : ∃ G, F = (G + 1 + 1 + 2 * kids.size) + 1 := ⟨F - (2 * kids.size + 3), by omega⟩
  rw [indexLoop_enter root ht.first ht.seg (by omega)]
  have e0 := annotNode_equiv h root kids
  have step2 : indexLoop (G + 1 + 1 + 2 * kids.size + 1) (G + 1 + 1 + 2 * kids.size)
        (annotNode h root kids)
        ⟨some (match kids.headOr none with | some c => c | none => root),
          (kids.headOr none).isSome, root⟩
      = indexLoop (G + 1 + 1 + 2 * kids.size + 1) (G + 1 + 1) (annot (annotNode h root kids) kids)
        ⟨some root, false, root⟩ := by
    cases kids with
    | nil => simp [annot]
    | cons c ccs crest =>
      simp only [Forest.headOr_cons, Option.isSome_some]
      exact indexLoop_chain (e0.symm.seg ht.seg) hroot (by simp only [Forest.size_cons] at hF ⊢; omega) _ c rfl
  rw [step2, indexLoop_succ]
  simp only [Walker.next, if_true, Bool.false_eq_true, false_and, if_false]
  rw [indexLoop_succ]
  simp [Walker.next]

end Transform

/-! ### Positions: what the heap holds around a chain -/

namespace Transform

theorem ids_plug (path : List Frame) (y : Forest) :
    (plug path y).ids = pathBefore path ++ y.ids ++ pathAfter path := by
  induction path generalizing y with
  | nil => simp [plug, pathBefore, pathAfter]
  | cons fr path ih =>
    simp only [plug, ih, Forest.ids_append, Forest.ids_cons, pathBefore, pathAfter]
    simp [List.append_assoc]

/-- The heap holds the document with the chain `y` below the path exactly
when it holds the path, the chain as the children of the innermost ancestor,
and the first and last child of that ancestor are those of the chain. -/
theorem seg_plug {h : Heap} {root : Nat} {path : List Frame} {y : Forest} :
    (Seg h (some root) none (plug path y) none ∧
        (h.node root).firstChild = (plug path y).headOr none) ↔
      (PathOK h root path ∧ Seg h (some (parentOf root path)) none y none ∧
        (h.node (parentOf root path)).firstChild = y.headOr none ∧
        LastOK h path (y.lastOr none)) := by
  induction path generalizing y with
  | nil => simp [plug, PathOK, parentOf, LastOK]
  | cons fr path ih =>
    simp only [plug, ih, PathOK, parentOf, LastOK, Seg_append, Seg_cons, Forest.headOr_append,
      Forest.headOr_cons, Forest.lastOr_append, Forest.lastOr_cons]
    constructor
    · rintro ⟨h1, ⟨h2, h3, h4, h5, h6, h7, h8, h9⟩, h10, h11⟩
      exact ⟨⟨h3, h4, h5, h2, h9, h10, h11, h1⟩, h8, h6, h7⟩
    · rintro ⟨⟨h3, h4, h5, h2, h9, h10, h11, h1⟩, h8, h6, h7⟩
      exact ⟨h1, ⟨h2, h3, h4, h5, h6, h7, h8, h9⟩, h10, h11⟩

/-- The first node of a chain is not among the later ones. -/
theorem head_not_mem_rest {i : Nat} {cs rest : Forest}
    (hx : (Forest.cons i cs rest).ids.Nodup) : i ∉ cs.ids ∧ i ∉ rest.ids := by
  simp only [Forest.ids_cons, List.nodup_cons, List.mem_append, not_or] at hx
  exact hx.1

theorem lastOr_ne_of_nodup {i : Nat} {cs rest : Forest}
    (hx : (Forest.cons i cs rest).ids.Nodup) (hr : rest ≠ .nil) :
    (Forest.cons i cs rest).lastOr none ≠ some i := by
  simp only [Forest.lastOr_cons]
  intro hc
  rcases Forest.lastOr_mem_roots rest i i hc with _ | hm
  · cases rest with
    | nil => exact hr rfl
    | cons r rcs rrest =>
      simp only [Forest.lastOr_cons] at hc
      rcases Forest.lastOr_mem_roots rrest r i hc with hm | hm
      · exact (head_not_mem_rest hx).2 (by simp [hm])
      · exact (head_not_mem_rest hx).2 (by simp [Forest.roots_subset_ids _ _ hm])
  · exact (head_not_mem_rest hx).2 (Forest.roots_subset_ids _ _ hm)

/-- A chain keeps being held when the heap changes only the outer links of
its nodes: the parent of all of them, the previous sibling of the first and
the next sibling of the last. -/
theorem Seg_change {h k : Heap} {x : Forest} (hx : x.ids.Nodup)
    {par pv nx par' pv' nx' : Option Nat}
    (hin : ∀ j ∈ x.ids, j ∉ x.roots → SameLinks (k.node j) (h.node j))
    (hch : ∀ j ∈ x.roots, (k.node j).firstChild = (h.node j).firstChild ∧
      (k.node j).lastChild = (h.node j).lastChild ∧ (k.node j).parent = par')
    (hprev : ∀ j ∈ x.roots,
      (k.node j).prev = if x.headOr none = some j then pv' else (h.node j).prev)
    (hnext : ∀ j ∈ x.roots,
      (k.node j).next = if x.lastOr none = some j then nx' else (h.node j).next)
    (hs : Seg h par pv x nx) : Seg k par' pv' x nx' := by
  induction x generalizing pv pv' with
  | nil => trivial
  | cons i cs rest _ ih =>
    have hx' := hx
    simp only [Forest.ids_cons, List.nodup_cons, List.mem_append, not_or,
      List.nodup_append] at hx
    obtain ⟨⟨hi1, hi2⟩, hcs, hrest, hdisj⟩ := hx
    rw [Seg_cons] at hs ⊢
    obtain ⟨_, _, s3, s4, s5, s6, s7⟩ := hs
    obtain ⟨c1, c2, c3⟩ := hch i (by simp)
    have hp := hprev i (by simp)
    have hn := hnext i (by simp)
    simp only [Forest.headOr_cons, if_true] at hp
    refine ⟨c3, hp, ?_, c1.trans s4, c2.trans s5, ?_, ?_⟩
    · cases rest with
      | nil => simpa using hn
      | cons r rcs rrest =>
        rw [if_neg (lastOr_ne_of_nodup hx' (by simp))] at hn
        rw [hn, s3]; rfl
    · apply Seg_congr _ s6
      intro j hj
      apply hin j (by simp [hj])
      simp only [Forest.roots_cons, List.mem_cons, not_or]
      exact ⟨fun e => hi1 (e ▸ hj), fun hr => hdisj hj (Forest.roots_subset_ids _ _ hr)⟩
    · apply ih hrest _ _ _ _ s7
      · intro j hj hjr
        apply hin j (by simp [hj])
        simp only [Forest.roots_cons, List.mem_cons, not_or]
        exact ⟨fun e => hi2 (e ▸ hj), hjr⟩
      · intro j hj
        exact hch j (by simp [hj])
      · intro j hj
        have hji : j ≠ i := fun e => hi2 (e ▸ Forest.roots_subset_ids _ _ hj)
        have := hprev j (by simp [hj])
        simp only [Forest.headOr_cons, Option.some.injEq, hji.symm, if_false] at this
        rw [this]
        split
        · next hh =>
          cases rest with
          | nil => simp at hj
          | cons r rcs rrest =>
            simp only [Forest.headOr_cons, Option.some.injEq] at hh
            subst hh
            rw [Seg_cons] at s7
            exact s7.2.1
        · rfl
      · intro j hj
        have := hnext j (by simp [hj])
        simp only [Forest.lastOr_cons] at this
        rw [this]
        cases rest with
        | nil => simp at hj
        | cons r rcs rrest => simp

end Transform

/-! ### The inner loops of the split on chains held by the heap -/

namespace Transform

@[simp] theorem setNextOpt_node (h : Heap) (i v : Option Nat) (j : Nat) :
    (setNextOpt h i v).node j
      = { h.node j with next := if i = some j then v else (h.node j).next } := by
  cases i with
  | none => simp [setNextOpt]
  | some p =>
    simp only [setNextOpt, Heap.setNext_node, Option.some.injEq]
    by_cases hj : j = p
    · subst hj; simp
    · simp [hj, Ne.symm hj]

@[simp] theorem setPrevOpt_node (h : Heap) (i v : Option Nat) (j : Nat) :
    (setPrevOpt h i v).node j
      = { h.node j with prev := if i = some j then v else (h.node j).prev } := by
  cases i with
  | none => simp [setPrevOpt]
  | some p =>
    simp only [setPrevOpt, Heap.setPrev_node, Option.some.injEq]
    by_cases hj : j = p
    · subst hj; simp
    · simp [hj, Ne.symm hj]

@[simp] theorem setNextOpt_size (h : Heap) (i v : Option Nat) : (setNextOpt h i v).size = h.size := by
  cases i <;> rfl

@[simp] theorem setPrevOpt_size (h : Heap) (i v : Option Nat) : (setPrevOpt h i v).size = h.size := by
  cases i <;> rfl

@[simp] theorem setParents_node (h : Heap) (l : List Nat) (c j : Nat) :
    (setParents h l c).node j
      = { h.node j with parent := if j ∈ l then some c else (h.node j).parent } := by
  induction l generalizing h with
  | nil => simp [setParents]
  | cons a l ih =>
    simp only [setParents, ih, Heap.setParent_node, List.mem_cons]
    by_cases h1 : j ∈ l
    · simp [h1]
    · by_cases h2 : j = a
      · simp [h1, h2]
      · simp [h1, h2]

@[simp] theorem setParents_size (h : Heap) (l : List Nat) (c : Nat) :
    (setParents h l c).size = h.size := by
  induction l generalizing h with
  | nil => rfl
  | cons a l ih => simp [setParents, ih]

theorem lastOr_some_of_ne_nil {x : Forest} (hx : x ≠ .nil) (d e : Option Nat) :
    x.lastOr d = x.lastOr e := by
  cases x with
  | nil => exact absurd rfl hx
  | cons i cs rest => rfl

theorem Seg.nextChain {h : Heap} {x : Forest} {par pv : Option Nat} (hs : Seg h par pv x none) :
    NextChain h (x.headOr none) x.roots := by
  induction x generalizing pv with
  | nil => rfl
  | cons i cs rest _ ih =>
    rw [Seg_cons] at hs
    refine ⟨rfl, ?_⟩
    rw [hs.2.2.1]
    exact ih hs.2.2.2.2.2.2

theorem RightOK.rightChain {h : Heap} {par : Nat} {x : Forest} (hs : RightOK h par x) :
    NextChain h (x.headOr none) x.roots := by
  cases x with
  | nil => rfl
  | cons i cs rest =>
    refine ⟨rfl, ?_⟩
    rw [hs.2.2.1]
    exact hs.2.2.2.2.nextChain

theorem NextChain.congr {h k : Heap} {l : List Nat} (hk : ∀ j ∈ l, (k.node j).next = (h.node j).next)
    {start : Option Nat} (hc : NextChain h start l) : NextChain k start l := by
  induction l generalizing start with
  | nil => exact hc
  | cons j l ih =>
    refine ⟨hc.1, ?_⟩
    rw [hk j (by simp)]
    exact ih (fun i hi => hk i (by simp [hi])) hc.2

theorem getLastSibling_eq {h : Heap} {l : List Nat} {start : Option Nat}
    (hc : NextChain h start l) {F : Nat} (hF : l.length ≤ F) :
    getLastSibling h F start = some l.getLast? := by
  induction l generalizing start F with
  | nil =>
    cases hc
    cases F <;> rfl
  | cons j l ih =>
    obtain ⟨rfl, hc⟩ := hc
    cases F with
    | zero => simp at hF
    | succ F =>
      simp only [getLastSibling]
      cases l with
      | nil =>
        have e : (h.node j).next = none := hc
        simp [e]
      | cons i l =>
        have := hc.1
        rw [this]
        simp only
        rw [← this, ih hc (by simpa using hF)]
        simp [List.getLast?_cons_cons]

theorem roots_getLast? (x : Forest) : x.roots.getLast? = x.lastOr none := by
  induction x with
  | nil => rfl
  | cons i cs rest _ ih =>
    cases rest with
    | nil => rfl
    | cons r rcs rrest =>
      simp only [Forest.roots_cons, List.getLast?_cons_cons] at ih ⊢
      rw [ih]
      rfl

theorem assignParents_eq {h : Heap} {l : List Nat} {start : Option Nat}
    (hc : NextChain h start l) {F : Nat} (hF : l.length ≤ F) (c : Nat) :
    assignParents c F h start = some (setParents h l c) := by
  induction l generalizing h start F with
  | nil =>
    cases hc
    cases F <;> rfl
  | cons j l ih =>
    obtain ⟨rfl, hc⟩ := hc
    cases F with
    | zero => simp at hF
    | succ F =>
      simp only [assignParents, setParents]
      apply ih _ (by simpa using hF)
      have e : ((h.setParent j (some c)).node j).next = (h.node j).next := by simp
      rw [e]
      exact hc.congr (fun i _ => by simp)

end Transform

/-! ### One turn of the ancestor-splitting loop -/

namespace Transform

theorem parentOf_mem (root : Nat) (path : List Frame) :
    parentOf root path = root ∨ parentOf root path ∈ pathIds path := by
  cases path with
  | nil => exact Or.inl rfl
  | cons fr rest => right; simp [parentOf, pathIds]

theorem headOr_ne_of_not_mem {x : Forest} {j : Nat} (hj : j ∉ x.ids) : x.headOr none ≠ some j := by
  intro e
  cases x with
  | nil => simp at e
  | cons a b c => simp at e; subst e; simp at hj

theorem lastOr_ne_of_not_mem {x : Forest} {j : Nat} (hj : j ∉ x.ids) : x.lastOr none ≠ some j :=
  fun e => hj (Forest.roots_subset_ids _ _ (Forest.lastOr_none_mem_roots e))

theorem not_mem_roots {x : Forest} {j : Nat} (hj : j ∉ x.ids) : j ∉ x.roots :=
  fun hm => hj (Forest.roots_subset_ids _ _ hm)

/-- Nodes away from the split keep their record, up to the last child of the
grandparent. -/
theorem splitHeap_frame {w : Bool} {h : Heap} {pp : Nat} {fr : Frame} {lk rk : Forest} {j : Nat}
    (hj : j < h.size) (h1 : j ∉ lk.ids) (h2 : j ∉ rk.ids) (h3 : j ≠ fr.id) (h4 : j ∉ fr.right.ids) :
    (splitHeap w h pp fr lk rk).node j
      = { h.node j with lastChild :=
            if w = true ∧ fr.right = .nil ∧ j = pp then some h.size
            else (h.node j).lastChild } := by
  have hc : j ≠ h.size := Nat.ne_of_lt hj
  have r1 := not_mem_roots h2
  have r2 := headOr_ne_of_not_mem h2
  have r3 := lastOr_ne_of_not_mem h1
  unfold splitHeap copyHeap
  cases hr : fr.right with
  | nil =>
    cases w <;> simp [Heap.alloc_node, hc, r1, r2, r3, h3]
  | cons r rcs rrest =>
    have r4 : j ≠ r := by rintro rfl; simp [hr] at h4
    simp [Heap.alloc_node, hc, r1, r2, r3, h3, r4]

/-- The children that stay: the last of them loses its next sibling. -/
theorem splitHeap_lk {w : Bool} {h : Heap} {pp : Nat} {fr : Frame} {lk rk : Forest} {j : Nat}
    (hj : j < h.size) (h2 : j ∉ rk.ids) (h3 : j ≠ fr.id) (h4 : j ∉ fr.right.ids)
    (h5 : j ≠ pp) :
    (splitHeap w h pp fr lk rk).node j
      = { h.node j with next := if lk.lastOr none = some j then none else (h.node j).next } := by
  have hc : j ≠ h.size := Nat.ne_of_lt hj
  have r1 := not_mem_roots h2
  have r2 := headOr_ne_of_not_mem h2
  unfold splitHeap copyHeap
  cases hr : fr.right with
  | nil =>
    cases w <;> simp [Heap.alloc_node, hc, r1, r2, h3, h5]
  | cons r rcs rrest =>
    have r4 : j ≠ r := by rintro rfl; simp [hr] at h4
    simp [Heap.alloc_node, hc, r1, r2, h3, r4]

/-- The children that move: they get the copy as parent, and the first of
them loses its previous sibling. -/
theorem splitHeap_rk {w : Bool} {h : Heap} {pp : Nat} {fr : Frame} {lk rk : Forest} {j : Nat}
    (hj : j < h.size) (h1 : j ∉ lk.ids) (h3 : j ≠ fr.id) (h4 : j ∉ fr.right.ids)
    (h5 : j ≠ pp) :
    (splitHeap w h pp fr lk rk).node j
      = { h.node j with
            parent := if j ∈ rk.roots then some h.size else (h.node j).parent,
            prev := if rk.headOr none = some j then none else (h.node j).prev } := by
  have hc : j ≠ h.size := Nat.ne_of_lt hj
  have r3 := lastOr_ne_of_not_mem h1
  unfold splitHeap copyHeap
  cases hr : fr.right with
  | nil =>
    cases w <;> simp [Heap.alloc_node, hc, r3, h3, h5]
  | cons r rcs rrest =>
    have r4 : j ≠ r := by rintro rfl; simp [hr] at h4
    simp [Heap.alloc_node, hc, r3, h3, r4]

/-- The right siblings of the ancestor: the first of them now follows the
copy. -/
theorem splitHeap_right {w : Bool} {h : Heap} {pp : Nat} {fr : Frame} {lk rk : Forest} {j : Nat}
    (hj : j < h.size) (h1 : j ∉ lk.ids) (h2 : j ∉ rk.ids) (h3 : j ≠ fr.id) (h5 : j ≠ pp) :
    (splitHeap w h pp fr lk rk).node j
      = { h.node j with
            prev := if fr.right.headOr none = some j then some h.size else (h.node j).prev } := by
  have hc : j ≠ h.size := Nat.ne_of_lt hj
  have r1 := not_mem_roots h2
  have r2 := headOr_ne_of_not_mem h2
  have r3 := lastOr_ne_of_not_mem h1
  unfold splitHeap copyHeap
  cases hr : fr.right with
  | nil =>
    cases w <;> simp [Heap.alloc_node, hc, r1, r2, r3, h3, h5]
  | cons r rcs rrest =>
    by_cases r4 : j = r
    · subst r4; simp [Heap.alloc_node, hc, r1, r2, r3, h3]
    · simp [Heap.alloc_node, hc, r1, r2, r3, h3, r4, Ne.symm r4]

/-- The ancestor that is split keeps the children to the left. -/
theorem splitHeap_self {w : Bool} {h : Heap} {pp : Nat} {fr : Frame} {lk rk : Forest}
    (hj : fr.id < h.size) (h1 : fr.id ∉ lk.ids) (h2 : fr.id ∉ rk.ids) (h4 : fr.id ∉ fr.right.ids)
    (h5 : fr.id ≠ pp) :
    (splitHeap w h pp fr lk rk).node fr.id
      = { h.node fr.id with
            firstChild := lk.headOr none, lastChild := lk.lastOr none,
            next := if fr.right = .nil then (h.node fr.id).next else some h.size } := by
  have hc : fr.id ≠ h.size := Nat.ne_of_lt hj
  have r1 := not_mem_roots h2
  have r2 := headOr_ne_of_not_mem h2
  have r3 := lastOr_ne_of_not_mem h1
  unfold splitHeap copyHeap
  cases hr : fr.right with
  | nil =>
    cases w <;> simp [Heap.alloc_node, hc, r1, r2, r3, h5]
  | cons r rcs rrest =>
    have r4 : fr.id ≠ r := by intro e; rw [hr] at h4; simp [← e] at h4
    simp [Heap.alloc_node, hc, r1, r2, r3, r4]

/-- The copy: the record of the ancestor with the continuation flag, the
children to the right, and the right siblings of the ancestor after it. -/
theorem splitHeap_copy {w : Bool} {h : Heap} {pp : Nat} {fr : Frame} {lk rk : Forest}
    (hp : fr.id < h.size) (h1 : ∀ j ∈ lk.ids, j < h.size) (h2 : ∀ j ∈ rk.ids, j < h.size)
    (h4 : ∀ j ∈ fr.right.ids, j < h.size) (h5 : pp < h.size) :
    (splitHeap w h pp fr lk rk).node h.size
      = { h.node fr.id with
            parent := none, prev := none, continuation := true,
            firstChild := rk.headOr none, lastChild := rk.lastOr none,
            next := fr.right.headOr none } := by
  have hc : fr.id ≠ h.size := Nat.ne_of_lt hp
  have q1 : h.size ∉ lk.ids := fun hm => Nat.lt_irrefl _ (h1 _ hm)
  have q2 : h.size ∉ rk.ids := fun hm => Nat.lt_irrefl _ (h2 _ hm)
  have q5 : h.size ≠ pp := Nat.ne_of_gt h5
  have r1 := not_mem_roots q2
  have r2 := headOr_ne_of_not_mem q2
  have r3 := lastOr_ne_of_not_mem q1
  unfold splitHeap copyHeap
  cases hr : fr.right with
  | nil =>
    cases w <;> simp [Heap.alloc_node, Ne.symm hc, r1, r2, r3, q5, copyNodeWithoutNeighbors]
  | cons r rcs rrest =>
    have r4 : h.size ≠ r := by
      intro e; have := h4 r (by simp [hr]); omega
    simp [Heap.alloc_node, Ne.symm hc, r1, r2, r3, r4, copyNodeWithoutNeighbors]

theorem splitHeap_size (w : Bool) (h : Heap) (pp : Nat) (fr : Frame) (lk rk : Forest) :
    (splitHeap w h pp fr lk rk).size = h.size + 1 := by
  unfold splitHeap copyHeap
  cases fr.right.headOr none <;> cases w <;> simp

/-- Every object that existed keeps its payload. -/
theorem splitHeap_payload (w : Bool) (h : Heap) (pp : Nat) (fr : Frame) (lk rk : Forest) {j : Nat}
    (hj : j < h.size) :
    copyNodeWithoutNeighbors ((splitHeap w h pp fr lk rk).node j)
      = copyNodeWithoutNeighbors (h.node j) := by
  have hc : j ≠ h.size := Nat.ne_of_lt hj
  unfold splitHeap copyHeap
  cases fr.right.headOr none <;> cases w <;>
    simp [Heap.alloc_node, hc, copyNodeWithoutNeighbors]

end Transform

/-! ### The body of the splitting loop computes `splitHeap` -/

namespace Transform


theorem nodup_parts {root p : Nat} {A B L R P : List Nat}
    (nd : (root :: (A ++ B ++ (p :: (L ++ R) ++ P))).Nodup) :
    (∀ j ∈ A, j ∉ B ∧ j ≠ p ∧ j ∉ L ∧ j ∉ R ∧ j ∉ P ∧ j ≠ root) ∧
    (∀ j ∈ B, j ≠ p ∧ j ∉ L ∧ j ∉ R ∧ j ∉ P ∧ j ≠ root) ∧
    (p ∉ A ∧ p ∉ B ∧ p ∉ L ∧ p ∉ R ∧ p ∉ P ∧ p ≠ root) ∧
    (∀ j ∈ L, j ∉ R ∧ j ∉ P ∧ j ≠ root) ∧
    (∀ j ∈ R, j ∉ P ∧ j ≠ root) ∧
    (root ∉ A ∧ root ∉ B ∧ root ∉ L ∧ root ∉ R ∧ root ∉ P) ∧
    (∀ j ∈ P, j ∉ A ∧ j ∉ B ∧ j ≠ p ∧ j ∉ L ∧ j ∉ R ∧ j ≠ root) := by
  simp only [List.nodup_cons, List.nodup_append, List.mem_cons, List.mem_append, not_or,
    List.cons_append, List.append_assoc, List.Disjoint] at nd
  obtain ⟨⟨r1, r2, r3, r4, r5, r6⟩, _, ⟨_, ⟨⟨p1, p2, p3⟩, _, ⟨_, _, d1⟩, d2⟩, d3⟩, d4⟩ := nd
  refine ⟨?_, ?_, ?_, ?_, ?_, ⟨r1, r2, r4, r5, r6⟩, ?_⟩
  · intro j hj
    refine ⟨fun q => d4 hj (Or.inl q), ?_, fun q => d4 hj (Or.inr (Or.inr (Or.inl q))),
      fun q => d4 hj (Or.inr (Or.inr (Or.inr (Or.inl q)))),
      fun q => d4 hj (Or.inr (Or.inr (Or.inr (Or.inr q)))), ?_⟩
    · rintro rfl; exact d4 hj (Or.inr (Or.inl rfl))
    · rintro rfl; exact r1 hj
  · intro j hj
    refine ⟨?_, fun q => d3 hj (Or.inr (Or.inl q)),
      fun q => d3 hj (Or.inr (Or.inr (Or.inl q))),
      fun q => d3 hj (Or.inr (Or.inr (Or.inr q))), ?_⟩
    · rintro rfl; exact d3 hj (Or.inl rfl)
    · rintro rfl; exact r2 hj
  · refine ⟨fun q => d4 q (Or.inr (Or.inl rfl)), fun q => d3 q (Or.inl rfl), p1, p2, p3,
      fun e => r3 e.symm⟩
  · intro j hj
    refine ⟨fun q => d2 hj (Or.inl q), fun q => d2 hj (Or.inr q), ?_⟩
    rintro rfl; exact r4 hj
  · intro j hj
    refine ⟨fun q => d1 hj q, ?_⟩
    rintro rfl; exact r5 hj
  · intro j hj
    refine ⟨fun q => d4 q (Or.inr (Or.inr (Or.inr (Or.inr hj)))),
      fun q => d3 q (Or.inr (Or.inr (Or.inr hj))), ?_, fun q => d2 q (Or.inr hj),
      fun q => d1 q hj, ?_⟩
    · rintro rfl; exact p3 hj
    · rintro rfl; exact r6 hj

theorem setFirstChild_eq_self (h : Heap) (i : Nat) (v : Option Nat)
    (hv : (h.node i).firstChild = v) : h.setFirstChild i v = h := by
  rw [Heap.ext_iff']
  refine ⟨fun j => ?_, rfl⟩
  rw [Heap.setFirstChild_node]
  by_cases hj : j = i
  · subst hj; simp [← hv]
  · simp [hj]

theorem SplitInv.lt_self {h : Heap} {root : Nat} {fr : Frame} {rest : List Frame}
    {lk rk : Forest} (inv : SplitInv h root (fr :: rest) lk rk) : fr.id < h.size :=
  inv.bound _ (by simp [pathIds])

theorem SplitInv.lt_rk {h : Heap} {root : Nat} {path : List Frame}
    {lk rk : Forest} (inv : SplitInv h root path lk rk) : ∀ j ∈ rk.ids, j < h.size :=
  fun j hj => inv.bound _ (by simp [hj])

theorem SplitInv.lt_lk {h : Heap} {root : Nat} {path : List Frame}
    {lk rk : Forest} (inv : SplitInv h root path lk rk) : ∀ j ∈ lk.ids, j < h.size :=
  fun j hj => inv.bound _ (by simp [hj])

theorem SplitInv.distinct {h : Heap} {root : Nat} {fr : Frame} {rest : List Frame}
    {lk rk : Forest} (inv : SplitInv h root (fr :: rest) lk rk) :
    (∀ j ∈ lk.ids, j ∉ rk.ids ∧ j ≠ fr.id ∧ j ∉ fr.left.ids ∧ j ∉ fr.right.ids ∧
      j ∉ pathIds rest ∧ j ≠ root) ∧
    (∀ j ∈ rk.ids, j ≠ fr.id ∧ j ∉ fr.left.ids ∧ j ∉ fr.right.ids ∧ j ∉ pathIds rest ∧
      j ≠ root) ∧
    (fr.id ∉ lk.ids ∧ fr.id ∉ rk.ids ∧ fr.id ∉ fr.left.ids ∧ fr.id ∉ fr.right.ids ∧
      fr.id ∉ pathIds rest ∧ fr.id ≠ root) ∧
    (∀ j ∈ fr.left.ids, j ∉ fr.right.ids ∧ j ∉ pathIds rest ∧ j ≠ root) ∧
    (∀ j ∈ fr.right.ids, j ∉ pathIds rest ∧ j ≠ root) ∧
    (root ∉ lk.ids ∧ root ∉ rk.ids ∧ root ∉ fr.left.ids ∧ root ∉ fr.right.ids ∧
      root ∉ pathIds rest) ∧
    (∀ j ∈ pathIds rest, j ∉ lk.ids ∧ j ∉ rk.ids ∧ j ≠ fr.id ∧ j ∉ fr.left.ids ∧
      j ∉ fr.right.ids ∧ j ≠ root) :=
  nodup_parts (by simpa [pathIds] using inv.nodup)

theorem SplitInv.self_ne_parent {h : Heap} {root : Nat} {fr : Frame} {rest : List Frame}
    {lk rk : Forest} (inv : SplitInv h root (fr :: rest) lk rk) :
    fr.id ≠ parentOf root rest := by
  obtain ⟨_, _, dp, _⟩ := inv.distinct
  rcases parentOf_mem root rest with e | e
  · rw [e]; exact dp.2.2.2.2.2
  · exact fun q => dp.2.2.2.2.1 (q ▸ e)

theorem head_mem_ids {x : Forest} {j : Nat} (e : x.headOr none = some j) : j ∈ x.ids := by
  cases x with
  | nil => simp at e
  | cons a b c => simp at e; simp [e]

/-- Lines 72-91 on a split position. -/
theorem makeCopy_eq {F : Nat} {h : Heap} {root : Nat} {fr : Frame}
    {rest : List Frame} {lk rk : Forest} (inv : SplitInv h root (fr :: rest) lk rk)
    (hF : rk.roots.length ≤ F) :
    makeCopy F h fr.id (lk.lastOr none) (rk.headOr none) = some (copyHeap h fr.id lk rk) := by
  have hp := inv.lt_self
  have hpc : fr.id ≠ h.size := Nat.ne_of_lt hp
  obtain ⟨dA, dB, dp, dL, dR, droot, dP⟩ := inv.distinct
  have hrkc : ∀ j ∈ rk.roots, j ≠ h.size := fun j hj =>
    Nat.ne_of_lt (inv.lt_rk j (Forest.roots_subset_ids _ _ hj))
  have L1 : ∀ n, getLastSibling ((h.alloc n).setFirstChild h.size (rk.headOr none)) F
      (rk.headOr none) = some (rk.lastOr none) := by
    intro n
    rw [getLastSibling_eq (l := rk.roots) _ hF, roots_getLast?]
    apply inv.right.rightChain.congr
    intro j hj
    simp [Heap.alloc_node, hrkc j hj]
  have L2 : ∀ h3 : Heap, (h3.node fr.id).firstChild = (h.node fr.id).firstChild →
      (if (h3.node fr.id).firstChild = rk.headOr none then
        (h3.setFirstChild fr.id none).setLastChild fr.id none
      else h3.setLastChild fr.id (lk.lastOr none))
      = (h3.setFirstChild fr.id (lk.headOr none)).setLastChild fr.id (lk.lastOr none) := by
    intro h3 e3
    have hf := inv.first
    simp only [parentOf, Forest.headOr_append] at hf
    rw [e3, hf]
    cases lk with
    | nil => simp
    | cons a b c =>
      have : some a ≠ rk.headOr none := by
        intro e
        exact (dA a (by simp)).1 (head_mem_ids e.symm)
      simp only [Forest.headOr_cons, this, if_false]
      rw [setFirstChild_eq_self]
      rw [e3, hf]; rfl
  have L3 : ∀ h4 : Heap, (h4.node h.size).firstChild = rk.headOr none →
      (∀ j ∈ rk.roots, (h4.node j).next = (h.node j).next) →
      assignParents h.size F h4 (h4.node h.size).firstChild
        = some (setParents h4 rk.roots h.size) := by
    intro h4 e4 e5
    rw [e4]
    exact assignParents_eq (inv.right.rightChain.congr e5) hF _
  unfold makeCopy copyHeap
  simp only [L1, Option.bind_eq_bind, Option.some_bind]
  rw [L2 _ (by simp [Heap.alloc_node, hpc])]
  rw [L3 _ (by simp [Heap.alloc_node, Ne.symm hpc]) (by
    intro j hj; simp [Heap.alloc_node, hrkc j hj])]

theorem copyHeap_next_self {h : Heap} {p : Nat} (lk rk : Forest) (hp : p < h.size) :
    ((copyHeap h p lk rk).node p).next = (h.node p).next := by
  simp [copyHeap, Heap.alloc_node, Nat.ne_of_lt hp]

theorem copyHeap_parent_self {h : Heap} {p : Nat} (lk : Forest) {rk : Forest} (hp : p < h.size)
    (hrk : p ∉ rk.ids) : ((copyHeap h p lk rk).node p).parent = (h.node p).parent := by
  simp [copyHeap, Heap.alloc_node, Nat.ne_of_lt hp, not_mem_roots hrk]

/-- One turn of the loop in which a copy is made. -/
theorem splitBody_clone {w : Bool} {F : Nat} {h : Heap} {root : Nat} {fr : Frame}
    {rest : List Frame} {lk rk : Forest} (inv : SplitInv h root (fr :: rest) lk rk)
    (hc : rk ≠ .nil ∨ fr.right ≠ .nil) (hF : rk.roots.length ≤ F) :
    splitBody w F h fr.id (lk.lastOr none) (rk.headOr none)
      = some ⟨splitHeap w h (parentOf root rest) fr lk rk, some (parentOf root rest),
          some fr.id, some h.size⟩ := by
  obtain ⟨hpar, hprev, hnext, hsl, hsr, hfpp, hlpp, hrest⟩ := inv.pathOK
  have hcond : (rk.headOr none).isSome ∨ ((h.node fr.id).next).isSome := by
    rcases hc with hc | hc
    · left; cases rk with
      | nil => exact absurd rfl hc
      | cons _ _ _ => rfl
    · right; rw [hnext]; cases hr : fr.right with
      | nil => exact absurd hr hc
      | cons _ _ _ => rfl
  have hp := inv.lt_self
  obtain ⟨dA, dB, dp, dL, dR, droot, dP⟩ := inv.distinct
  have hself := @splitHeap_self w h (parentOf root rest) fr lk rk
    hp dp.1 dp.2.1 dp.2.2.2.1 inv.self_ne_parent
  have hparent : ((splitHeap w h (parentOf root rest) fr lk rk).node fr.id).parent
      = some (parentOf root rest) := by
    rw [hself]; exact hpar
  have hins : insertCopy w (copyHeap h fr.id lk rk) fr.id h.size
      = some (match fr.right.headOr none with
        | some r => (((copyHeap h fr.id lk rk).setPrev r (some h.size)).setNext h.size
            (some r)).setNext fr.id (some h.size)
        | none => if w then (copyHeap h fr.id lk rk).setLastChild (parentOf root rest)
            (some h.size) else copyHeap h fr.id lk rk) := by
    unfold insertCopy
    rw [copyHeap_next_self lk rk hp, copyHeap_parent_self lk hp dp.2.1, hnext, hpar]
    cases hr : fr.right.headOr none with
    | none => rfl
    | some r =>
      simp only [Heap.setPrev_node]
      rw [copyHeap_next_self lk rk hp, hnext, hr]
  unfold splitBody
  rw [if_pos hcond]
  simp only [makeCopy_eq inv hF, hins, Option.bind_eq_bind, Option.some_bind]
  have e : unlinkSides (match fr.right.headOr none with
        | some r => (((copyHeap h fr.id lk rk).setPrev r (some h.size)).setNext h.size
            (some r)).setNext fr.id (some h.size)
        | none => if w then (copyHeap h fr.id lk rk).setLastChild (parentOf root rest)
            (some h.size) else copyHeap h fr.id lk rk) (lk.lastOr none) (rk.headOr none)
      = splitHeap w h (parentOf root rest) fr lk rk := by
    unfold unlinkSides splitHeap setNextOpt setPrevOpt
    rfl
  rw [e, hparent]

/-- One turn of the loop in which no copy is made. -/
theorem splitBody_noclone {w : Bool} {F : Nat} {h : Heap} {root : Nat} {fr : Frame}
    {rest : List Frame} {lk : Forest} (inv : SplitInv h root (fr :: rest) lk .nil)
    (hc : fr.right = .nil) :
    splitBody w F h fr.id (lk.lastOr none) none
      = some ⟨setNextOpt h (lk.lastOr none) none, some (parentOf root rest),
          some fr.id, none⟩ := by
  obtain ⟨hpar, hprev, hnext, hsl, hsr, hfpp, hlpp, hrest⟩ := inv.pathOK
  have hcond : ¬ ((none : Option Nat).isSome ∨ ((h.node fr.id).next).isSome) := by
    rw [hnext, hc]; simp
  unfold splitBody
  rw [if_neg hcond]
  have e : unlinkSides h (lk.lastOr none) none = setNextOpt h (lk.lastOr none) none := by
    unfold unlinkSides setNextOpt; rfl
  simp only [e, setNextOpt_node, hpar]

end Transform

/-! ### The splitting loop keeps its invariant -/

namespace Transform

theorem mem_pathIds_of_mem {path : List Frame} {fr : Frame} (hfr : fr ∈ path) :
    fr.id ∈ pathIds path ∧ (∀ j ∈ fr.left.ids, j ∈ pathIds path) ∧
      (∀ j ∈ fr.right.ids, j ∈ pathIds path) := by
  induction path with
  | nil => simp at hfr
  | cons a path ih =>
    simp only [List.mem_cons] at hfr
    rcases hfr with rfl | hfr
    · refine ⟨by simp [pathIds], fun j hj => by simp [pathIds, hj], fun j hj => by simp [pathIds, hj]⟩
    · obtain ⟨i1, i2, i3⟩ := ih hfr
      refine ⟨by simp [pathIds, i1], fun j hj => by simp [pathIds, i2 j hj],
        fun j hj => by simp [pathIds, i3 j hj]⟩

/-- The path is still held when the heap changes no link of its nodes, apart
from the last child of the innermost ancestor. -/
theorem PathOK_congr {h k : Heap} {root : Nat} {path : List Frame}
    (nd : (root :: pathIds path).Nodup)
    (hk : ∀ j ∈ root :: pathIds path,
      (k.node j).parent = (h.node j).parent ∧ (k.node j).prev = (h.node j).prev ∧
      (k.node j).next = (h.node j).next ∧
      (j ≠ parentOf root path → (k.node j).firstChild = (h.node j).firstChild) ∧
      (j ≠ parentOf root path → (k.node j).lastChild = (h.node j).lastChild))
    (hp : PathOK h root path) : PathOK k root path := by
  induction path with
  | nil => trivial
  | cons fr path ih =>
    obtain ⟨c1, c2, c3, c4, c5, c6, c7, c8⟩ := hp
    simp only [pathIds, List.nodup_cons, List.mem_cons, List.mem_append, not_or,
      List.cons_append, List.append_assoc, List.nodup_append] at nd
    obtain ⟨⟨r1, r2, r3, r4⟩, ⟨p2, p3, p4⟩, nL, ⟨nR, nP, dRP⟩, dL⟩ := nd
    have hsame : ∀ j, j ≠ fr.id → j ∈ root :: pathIds (fr :: path) →
        SameLinks (k.node j) (h.node j) := by
      intro j hne hj
      obtain ⟨a, b, c, d, e⟩ := hk j hj
      exact ⟨a, d (by simpa [parentOf] using hne), e (by simpa [parentOf] using hne), b, c⟩
    obtain ⟨a, b, c, _, _⟩ := hk fr.id (by simp [pathIds])
    have hpp : parentOf root path ∈ root :: pathIds (fr :: path) := by
      rcases parentOf_mem root path with e | e
      · simp [e]
      · simp [pathIds, e]
    have hppne : parentOf root path ≠ fr.id := by
      rcases parentOf_mem root path with e | e
      · rw [e]; exact r1
      · exact fun q => p4 (q ▸ e)
    refine ⟨a.trans c1, b.trans c2, c.trans c3, ?_, ?_, ?_, ?_, ?_⟩
    · apply Seg_congr _ c4
      intro j hj
      exact hsame j (fun e => p2 (e ▸ hj)) (by simp [pathIds, hj])
    · apply Seg_congr _ c5
      intro j hj
      exact hsame j (fun e => p3 (e ▸ hj)) (by simp [pathIds, hj])
    · rw [(hsame _ hppne hpp).2.1]; exact c6
    · cases path with
      | nil => trivial
      | cons fr' path' =>
        simp only [LastOK] at c7 ⊢
        rw [(hsame fr'.id hppne hpp).2.2.1]; exact c7
    · apply ih _ _ c8
      · simp only [List.nodup_cons]
        exact ⟨r4, nP⟩
      · intro j hj
        have hne : j ≠ fr.id := by
          simp only [List.mem_cons] at hj
          rcases hj with rfl | hj
          · exact r1
          · exact fun e => p4 (e ▸ hj)
        have hm : j ∈ root :: pathIds (fr :: path) := by
          simp only [List.mem_cons] at hj
          rcases hj with rfl | hj
          · simp
          · simp [pathIds, hj]
        obtain ⟨a, b, c, d, e⟩ := hsame j hne hm
        exact ⟨a, d, e, fun _ => b, fun _ => c⟩

/-- The chain that moves to the copy, once its nodes have the copy as parent
and its first node has lost its previous sibling. -/
theorem RightOK.reparent {h k : Heap} {p c : Nat} {rk : Forest} (nd : rk.ids.Nodup)
    (hk : ∀ j ∈ rk.ids, k.node j = { h.node j with
      parent := if j ∈ rk.roots then some c else (h.node j).parent,
      prev := if rk.headOr none = some j then none else (h.node j).prev })
    (hs : RightOK h p rk) : Seg k (some c) none rk none := by
  cases rk with
  | nil => trivial
  | cons x xcs xrest =>
    obtain ⟨s1, s2, s3, s4, s5⟩ := hs
    have nd' := nd
    simp only [Forest.ids_cons, List.nodup_cons, List.mem_append, not_or,
      List.nodup_append] at nd
    obtain ⟨⟨hx1, hx2⟩, ncs, nrest, dj⟩ := nd
    rw [Seg_cons]
    have ex := hk x (by simp)
    refine ⟨by simp [ex], by simp [ex], by simp [ex, s3], by simp [ex, s1], by simp [ex, s2],
      ?_, ?_⟩
    · apply Seg_congr _ s4
      intro j hj
      have hjr : j ∉ xrest.roots := fun hr => dj hj (Forest.roots_subset_ids _ _ hr)
      have hjx : ¬ x = j := fun e => hx1 (e ▸ hj)
      rw [hk j (by simp [hj])]
      simp [SameLinks, hjr, hjx, Ne.symm hjx]
    · apply Seg_change nrest _ _ _ _ s5
      · intro j hj hjr
        have hjx : ¬ x = j := fun e => hx2 (e ▸ hj)
        rw [hk j (by simp [hj])]
        simp [SameLinks, hjr, hjx, Ne.symm hjx]
      · intro j hj
        rw [hk j (by simp [Forest.roots_subset_ids _ _ hj])]
        simp [hj]
      · intro j hj
        have hjx : ¬ x = j := fun e => hx2 (e ▸ Forest.roots_subset_ids _ _ hj)
        rw [hk j (by simp [Forest.roots_subset_ids _ _ hj])]
        simp only [Forest.headOr_cons, Option.some.injEq, hjx, if_false]
        split
        · next hh =>
          cases xrest with
          | nil => simp at hj
          | cons r rcs rrest =>
            simp only [Forest.headOr_cons, Option.some.injEq] at hh
            subst hh
            rw [Seg_cons] at s5
            exact s5.2.1
        · rfl
      · intro j hj
        rw [hk j (by simp [Forest.roots_subset_ids _ _ hj])]
        simp only
        split
        · next hh =>
          have := Seg.nextChain s5
          clear this
          -- the last node of the chain has no next sibling
          have : ∀ (y : Forest) (pv : Option Nat), Seg h (some p) pv y none →
              ∀ j, y.lastOr none = some j → y ≠ .nil → (h.node j).next = none := by
            intro y
            induction y with
            | nil => intro _ _ _ _ hne; exact absurd rfl hne
            | cons a b c _ ih =>
              intro pv hs j hl _
              rw [Seg_cons] at hs
              cases c with
              | nil =>
                simp at hl; subst hl
                simpa using hs.2.2.1
              | cons a' b' c' =>
                exact ih _ hs.2.2.2.2.2.2 j (by simpa using hl) (by simp)
          exact this xrest _ s5 j hh (by rintro rfl; simp at hj)
        · rfl

end Transform

/-! ### One turn of the splitting loop keeps the invariant -/

namespace Transform

theorem ne_parentOf {root : Nat} {path : List Frame} {j : Nat} (h1 : j ≠ root)
    (h2 : j ∉ pathIds path) : j ≠ parentOf root path := by
  rcases parentOf_mem root path with e | e
  · rw [e]; exact h1
  · exact fun q => h2 (q ▸ e)

theorem Seg.last_next {h : Heap} {y : Forest} {par pv nx : Option Nat}
    (hs : Seg h par pv y nx) {j : Nat} (hl : y.lastOr none = some j) :
    (h.node j).next = nx := by
  induction y generalizing pv with
  | nil => simp at hl
  | cons a b c _ ih =>
    rw [Seg_cons] at hs
    cases c with
    | nil =>
      simp at hl; subst hl
      simpa using hs.2.2.1
    | cons a' b' c' =>
      exact ih hs.2.2.2.2.2.2 (by simpa using hl)

theorem Seg.head_prev {h : Heap} {y : Forest} {par pv nx : Option Nat}
    (hs : Seg h par pv y nx) {j : Nat} (hl : y.headOr none = some j) :
    (h.node j).prev = pv := by
  cases y with
  | nil => simp at hl
  | cons a b c =>
    rw [Seg_cons] at hs
    simp at hl; subst hl
    exact hs.2.1

/-- The children that stay under the ancestor, once the last of them has
lost its next sibling. -/
theorem Seg.close {h k : Heap} {lk : Forest} {par : Option Nat} {nx : Option Nat}
    (nd : lk.ids.Nodup)
    (hk : ∀ j ∈ lk.ids, k.node j = { h.node j with
      next := if lk.lastOr none = some j then none else (h.node j).next })
    (hs : Seg h par none lk nx) : Seg k par none lk none := by
  apply Seg_change nd _ _ _ _ hs
  · intro j hj hjr
    rw [hk j hj]
    have : lk.lastOr none ≠ some j := fun e => hjr (Forest.lastOr_none_mem_roots e)
    simp [SameLinks, this]
  · intro j hj
    rw [hk j (Forest.roots_subset_ids _ _ hj)]
    exact ⟨rfl, rfl, hs.parent_of_mem_roots j hj⟩
  · intro j hj
    rw [hk j (Forest.roots_subset_ids _ _ hj)]
    simp only
    split
    · next hh => exact hs.head_prev hh
    · rfl
  · intro j hj
    rw [hk j (Forest.roots_subset_ids _ _ hj)]

theorem perm_split_clone (root p c : Nat) (A B L R P : List Nat) :
    (root :: ((L ++ p :: (A ++ [])) ++ (c :: (B ++ R)) ++ P)).Perm
      (c :: root :: (A ++ B ++ (p :: (L ++ R) ++ P))) := by
  rw [List.perm_iff_count]
  intro a
  simp only [List.count_append, List.count_cons, List.count_nil]
  omega

theorem perm_split_noclone (root p : Nat) (A L P : List Nat) :
    (root :: ((L ++ p :: (A ++ [])) ++ [] ++ P)).Perm
      (root :: (A ++ [] ++ (p :: (L ++ []) ++ P))) := by
  rw [List.perm_iff_count]
  intro a
  simp only [List.count_append, List.count_cons, List.count_nil]
  omega

/-- A turn of the loop that makes a copy leads to the invariant for the
remaining ancestors. -/
theorem SplitInv.step_clone {w : Bool} {h : Heap} {root : Nat} {fr : Frame}
    {rest : List Frame} {lk rk : Forest} (inv : SplitInv h root (fr :: rest) lk rk) :
    SplitInv (splitHeap w h (parentOf root rest) fr lk rk) root rest
      (fr.left.append (.cons fr.id lk .nil)) (.cons h.size rk fr.right) := by
  obtain ⟨hpar, hprev, hnext, hsl, hsr, hfpp, hlpp, hrest⟩ := inv.pathOK
  obtain ⟨dA, dB, dp, dL, dR, droot, dP⟩ := inv.distinct
  have hb := inv.bound
  have hp := inv.lt_self
  have hrootlt : root < h.size := hb _ (by simp)
  have hpp := inv.self_ne_parent
  have hpplt : parentOf root rest < h.size := by
    rcases parentOf_mem root rest with e | e
    · rw [e]; exact hrootlt
    · exact hb _ (by simp [pathIds, e])
  have nd := inv.nodup
  have ndlk : lk.ids.Nodup := by
    simp only [List.nodup_cons, List.nodup_append] at nd; exact nd.2.1.1
  have ndrk : rk.ids.Nodup := by
    simp only [List.nodup_cons, List.nodup_append] at nd; exact nd.2.1.2.1
  have ndright : fr.right.ids.Nodup := by
    simp only [pathIds, List.nodup_cons, List.nodup_append, List.cons_append] at nd
    exact nd.2.2.1.2.1.2.1
  have ndrest : (root :: pathIds rest).Nodup := by
    simp only [pathIds, List.nodup_cons, List.nodup_append, List.cons_append] at nd
    exact List.nodup_cons.mpr ⟨droot.2.2.2.2, nd.2.2.1.2.2.1⟩
  -- the nodes of the remaining path
  have kP : ∀ j ∈ root :: pathIds rest,
      (splitHeap w h (parentOf root rest) fr lk rk).node j
        = { h.node j with lastChild :=
              if w = true ∧ fr.right = .nil ∧ j = parentOf root rest then some h.size
              else (h.node j).lastChild } := by
    intro j hj
    simp only [List.mem_cons] at hj
    rcases hj with rfl | hj
    · exact splitHeap_frame hrootlt droot.1 droot.2.1 (Ne.symm dp.2.2.2.2.2) droot.2.2.2.1
    · obtain ⟨q1, q2, q3, q4, q5, q6⟩ := dP j hj
      exact splitHeap_frame (hb _ (by simp [pathIds, hj])) q1 q2 q3 q5
  have kL : ∀ j ∈ fr.left.ids,
      (splitHeap w h (parentOf root rest) fr lk rk).node j = h.node j := by
    intro j hj
    obtain ⟨q1, q2, q3⟩ := dL j hj
    rw [splitHeap_frame (hb _ (by simp [pathIds, hj])) (fun q => (dA j q).2.2.1 hj)
      (fun q => (dB j q).2.1 hj) (fun q => dp.2.2.1 (q ▸ hj)) q1]
    simp [ne_parentOf q3 q2]
  have kself := @splitHeap_self w h (parentOf root rest) fr lk rk
    hp dp.1 dp.2.1 dp.2.2.2.1 hpp
  have kcopy := @splitHeap_copy w h (parentOf root rest) fr lk rk
    hp inv.lt_lk inv.lt_rk (fun j hj => hb _ (by simp [pathIds, hj])) hpplt
  refine ⟨?_, ?_, ?_, ?_, ?_, ?_, ?_, ?_, ?_, ?_, ?_, ?_⟩
  · -- the path
    apply PathOK_congr ndrest _ hrest
    intro j hj
    rw [kP j hj]
    refine ⟨rfl, rfl, rfl, fun _ => rfl, fun hne => ?_⟩
    simp [hne]
  · -- the left part
    refine ⟨((splitHeap w h (parentOf root rest) fr lk rk).node fr.id).next, ?_⟩
    rw [Seg_append]
    refine ⟨Seg_congr (fun j hj => by rw [kL j hj]; exact SameLinks.rfl' _) hsl, ?_⟩
    rw [Seg_cons]
    refine ⟨by rw [kself]; exact hpar, by rw [kself]; exact hprev, rfl, by rw [kself],
      by rw [kself], ?_, trivial⟩
    obtain ⟨nx, hs⟩ := inv.left
    apply Seg.close ndlk _ hs
    intro j hj
    obtain ⟨q1, q2, q3, q4, q5, q6⟩ := dA j hj
    exact splitHeap_lk (inv.lt_lk j hj) q1 q2 q4 (ne_parentOf q6 q5)
  · -- the right part
    refine ⟨by rw [kcopy], by rw [kcopy], by rw [kcopy], ?_, ?_⟩
    · apply RightOK.reparent ndrk _ inv.right
      intro j hj
      obtain ⟨q2, q3, q4, q5, q6⟩ := dB j hj
      exact splitHeap_rk (inv.lt_rk j hj) (fun q => (dA j q).1 hj) q2 q4 (ne_parentOf q6 q5)
    · apply Seg_change ndright _ _ _ _ hsr
      · intro j hj hjr
        obtain ⟨q5, q6⟩ := dR j hj
        rw [splitHeap_right (hb _ (by simp [pathIds, hj])) (fun q => (dA j q).2.2.2.1 hj)
          (fun q => (dB j q).2.2.1 hj) (fun q => dp.2.2.2.1 (q ▸ hj)) (ne_parentOf q6 q5)]
        have : fr.right.headOr none ≠ some j := by
          intro e
          cases hr : fr.right with
          | nil => rw [hr] at e; simp at e
          | cons a b c => rw [hr] at e hjr; simp at e; simp [e] at hjr
        simp [SameLinks, this]
      · intro j hj
        have hj' := Forest.roots_subset_ids _ _ hj
        obtain ⟨q5, q6⟩ := dR j hj'
        rw [splitHeap_right (hb _ (by simp [pathIds, hj'])) (fun q => (dA j q).2.2.2.1 hj')
          (fun q => (dB j q).2.2.1 hj') (fun q => dp.2.2.2.1 (q ▸ hj')) (ne_parentOf q6 q5)]
        exact ⟨rfl, rfl, hsr.parent_of_mem_roots j hj⟩
      · intro j hj
        have hj' := Forest.roots_subset_ids _ _ hj
        obtain ⟨q5, q6⟩ := dR j hj'
        rw [splitHeap_right (hb _ (by simp [pathIds, hj'])) (fun q => (dA j q).2.2.2.1 hj')
          (fun q => (dB j q).2.2.1 hj') (fun q => dp.2.2.2.1 (q ▸ hj')) (ne_parentOf q6 q5)]
      · intro j hj
        have hj' := Forest.roots_subset_ids _ _ hj
        obtain ⟨q5, q6⟩ := dR j hj'
        rw [splitHeap_right (hb _ (by simp [pathIds, hj'])) (fun q => (dA j q).2.2.2.1 hj')
          (fun q => (dB j q).2.2.1 hj') (fun q => dp.2.2.2.1 (q ▸ hj')) (ne_parentOf q6 q5)]
        simp only
        split
        · next hh => exact hsr.last_next hh
        · rfl
  · -- the first child of the parent
    rw [kP _ (by
      rcases parentOf_mem root rest with e | e
      · simp [e]
      · simp [e])]
    simpa using hfpp
  · intro hc; simp at hc
  · rw [kP root (by simp)]; exact inv.rootType
  · rw [kP root (by simp)]; exact inv.rootParent
  · rw [kP root (by simp)]; exact inv.rootPrev
  · rw [kP root (by simp)]; exact inv.rootNext
  · intro fr' hfr'
    rw [kP fr'.id (by simp [(mem_pathIds_of_mem hfr').1])]
    exact inv.types fr' (by simp [hfr'])
  · -- no node twice
    have hperm := perm_split_clone root fr.id h.size lk.ids rk.ids fr.left.ids fr.right.ids
      (pathIds rest)
    have : (root :: ((fr.left.append (.cons fr.id lk .nil)).ids
        ++ (Forest.cons h.size rk fr.right).ids ++ pathIds rest))
        = root :: ((fr.left.ids ++ fr.id :: (lk.ids ++ [])) ++ (h.size :: (rk.ids ++ fr.right.ids))
          ++ pathIds rest) := by simp
    rw [this, hperm.nodup_iff, List.nodup_cons]
    refine ⟨fun hm => ?_, by simpa [pathIds] using nd⟩
    have := hb _ (by simpa [pathIds] using hm)
    omega
  · intro j hj
    rw [splitHeap_size]
    have hperm := perm_split_clone root fr.id h.size lk.ids rk.ids fr.left.ids fr.right.ids
      (pathIds rest)
    have hj' : j ∈ h.size :: root :: (lk.ids ++ rk.ids ++ (fr.id :: (fr.left.ids ++ fr.right.ids)
        ++ pathIds rest)) := by
      apply hperm.subset
      simpa using hj
    simp only [List.mem_cons] at hj'
    rcases hj' with rfl | hj'
    · omega
    · have := hb j (by simpa [pathIds] using hj')
      omega

end Transform

/-! ### The splitting loop as a whole -/

namespace Transform

/-- A turn of the loop that makes no copy leads to the invariant for the
remaining ancestors. -/
theorem SplitInv.step_noclone {h : Heap} {root : Nat} {fr : Frame}
    {rest : List Frame} {lk : Forest} (inv : SplitInv h root (fr :: rest) lk .nil)
    (hr : fr.right = .nil) :
    SplitInv (setNextOpt h (lk.lastOr none) none) root rest
      (fr.left.append (.cons fr.id lk .nil)) .nil := by
  obtain ⟨hpar, hprev, hnext, hsl, hsr, hfpp, hlpp, hrest⟩ := inv.pathOK
  obtain ⟨dA, dB, dp, dL, dR, droot, dP⟩ := inv.distinct
  have nd := inv.nodup
  have ndlk : lk.ids.Nodup := by
    simp only [List.nodup_cons, List.nodup_append] at nd; exact nd.2.1.1
  have ndrest : (root :: pathIds rest).Nodup := by
    simp only [pathIds, List.nodup_cons, List.nodup_append, List.cons_append] at nd
    exact List.nodup_cons.mpr ⟨droot.2.2.2.2, nd.2.2.1.2.2.1⟩
  have kout : ∀ j, j ∉ lk.ids → (setNextOpt h (lk.lastOr none) none).node j = h.node j := by
    intro j hj
    simp [lastOr_ne_of_not_mem hj]
  have hlast := inv.last rfl
  simp only [LastOK] at hlast
  have hfirst := inv.first
  simp only [Forest.append_nil, parentOf] at hfirst
  refine ⟨?_, ?_, trivial, ?_, ?_, ?_, ?_, ?_, ?_, ?_, ?_, ?_⟩
  · apply PathOK_congr ndrest _ hrest
    intro j hj
    have : j ∉ lk.ids := by
      simp only [List.mem_cons] at hj
      rcases hj with rfl | hj
      · exact droot.1
      · exact (dP j hj).1
    rw [kout j this]
    exact ⟨rfl, rfl, rfl, fun _ => rfl, fun _ => rfl⟩
  · refine ⟨((setNextOpt h (lk.lastOr none) none).node fr.id).next, ?_⟩
    rw [Seg_append]
    refine ⟨Seg_congr (fun j hj => by
      rw [kout j (fun q => (dA j q).2.2.1 hj)]; exact SameLinks.rfl' _) hsl, ?_⟩
    rw [Seg_cons]
    rw [kout fr.id dp.1]
    refine ⟨hpar, hprev, rfl, hfirst, hlast, ?_, trivial⟩
    obtain ⟨nx, hs⟩ := inv.left
    exact Seg.close ndlk (fun j _ => setNextOpt_node _ _ _ _) hs
  · rw [kout _ (by
      rcases parentOf_mem root rest with e | e
      · rw [e]; exact droot.1
      · exact (dP _ e).1)]
    simpa using hfpp
  · intro _
    cases rest with
    | nil => trivial
    | cons fr' rest' =>
      simp only [LastOK] at hlpp ⊢
      rw [kout _ (dP _ (by simp [pathIds])).1]
      simpa [hr] using hlpp
  · rw [kout root droot.1]; exact inv.rootType
  · rw [kout root droot.1]; exact inv.rootParent
  · rw [kout root droot.1]; exact inv.rootPrev
  · rw [kout root droot.1]; exact inv.rootNext
  · intro fr' hfr'
    rw [kout fr'.id (dP _ (mem_pathIds_of_mem hfr').1).1]
    exact inv.types fr' (by simp [hfr'])
  · have hperm := perm_split_noclone root fr.id lk.ids fr.left.ids (pathIds rest)
    have : (root :: ((fr.left.append (.cons fr.id lk .nil)).ids
        ++ Forest.nil.ids ++ pathIds rest))
        = root :: ((fr.left.ids ++ fr.id :: (lk.ids ++ [])) ++ [] ++ pathIds rest) := by simp
    rw [this, hperm.nodup_iff]
    simpa [pathIds, hr] using nd
  · intro j hj
    rw [setNextOpt_size]
    have hperm := perm_split_noclone root fr.id lk.ids fr.left.ids (pathIds rest)
    have hj' : j ∈ root :: (lk.ids ++ [] ++ (fr.id :: (fr.left.ids ++ []) ++ pathIds rest)) := by
      apply hperm.subset
      simpa using hj
    exact inv.bound j (by simpa [pathIds, hr] using hj')

end Transform

namespace Transform

theorem SplitFrame.reflFrame (h : Heap) (fp : List Nat) : SplitFrame h h fp [] :=
  ⟨le_refl _, fun _ _ => rfl, fun _ _ _ => rfl, fun j h1 h2 => absurd h2 (by omega)⟩

theorem SplitFrame.transFrame {h k l : Heap} {fp fp' anc anc' : List Nat}
    (a : SplitFrame h k fp anc) (b : SplitFrame k l fp' anc')
    (hfp : ∀ j, j < h.size → j ∈ fp' → j ∈ fp) (hanc : ∀ j ∈ anc', j < h.size) :
    SplitFrame h l fp (anc ++ anc') := by
  refine ⟨le_trans a.size_le b.size_le, ?_, ?_, ?_⟩
  · intro j hj
    rw [b.payload j (lt_of_lt_of_le hj a.size_le), a.payload j hj]
  · intro j hj hfpj
    rw [b.outside j (lt_of_lt_of_le hj a.size_le) (fun q => hfpj (hfp j hj q)), a.outside j hj hfpj]
  · intro j h1 h2
    by_cases hjk : j < k.size
    · obtain ⟨x, hx, e⟩ := a.copies j h1 hjk
      exact ⟨x, by simp [hx], by rw [b.payload j hjk, e]⟩
    · obtain ⟨x, hx, e⟩ := b.copies j (by omega) h2
      refine ⟨x, by simp [hx], ?_⟩
      rw [e, a.payload x (hanc x hx)]

theorem SplitFrame.mono {h k : Heap} {fp anc anc' : List Nat} (a : SplitFrame h k fp anc)
    (hanc : ∀ j ∈ anc, j ∈ anc') : SplitFrame h k fp anc' :=
  ⟨a.size_le, a.payload, a.outside, fun j h1 h2 => by
    obtain ⟨x, hx, e⟩ := a.copies j h1 h2
    exact ⟨x, hanc x hx, e⟩⟩

theorem splitHeap_splitFrame {w : Bool} {h : Heap} {root : Nat} {fr : Frame}
    {rest : List Frame} {lk rk : Forest} (inv : SplitInv h root (fr :: rest) lk rk) :
    SplitFrame h (splitHeap w h (parentOf root rest) fr lk rk)
      (root :: (lk.ids ++ rk.ids ++ pathIds (fr :: rest))) [fr.id] := by
  have hp := inv.lt_self
  have hb := inv.bound
  have hpplt : parentOf root rest < h.size := by
    rcases parentOf_mem root rest with e | e
    · rw [e]; exact hb _ (by simp)
    · exact hb _ (by simp [pathIds, e])
  refine ⟨by rw [splitHeap_size]; omega, fun j hj => splitHeap_payload _ _ _ _ _ _ hj, ?_, ?_⟩
  · intro j hj hfp
    simp only [pathIds, List.mem_cons, List.mem_append, not_or, List.cons_append,
      List.append_assoc] at hfp
    obtain ⟨q0, q1, q2, q3, q4, q5, q6⟩ := hfp
    rw [splitHeap_frame hj q1 q2 q3 q5]
    simp [ne_parentOf q0 q6]
  · intro j h1 h2
    rw [splitHeap_size] at h2
    have : j = h.size := by omega
    subst this
    refine ⟨fr.id, by simp, ?_⟩
    rw [splitHeap_copy hp inv.lt_lk inv.lt_rk (fun j hj => hb _ (by simp [pathIds, hj])) hpplt]
    simp [copyNodeWithoutNeighbors]

theorem splitLoop_succ (w : Bool) (F fuel : Nat) (s : SplitState) :
    splitLoop w F (fuel + 1) s =
      match s.parent with
      | none => some s
      | some p =>
        if (s.heap.node p).type = "document" then some s
        else (splitBody w F s.heap p s.prev s.next).bind (splitLoop w F fuel) := rfl

/-- The ancestor-splitting loop on a split position: it ends at the root,
with the heap holding what `splitUp` computes. -/
theorem splitSrc_mem {path : List Frame} : ∀ {c : Nat} {rk : Forest} {p : Nat × Nat},
    p ∈ splitSrc c path rk → c ≤ p.1 ∧ p.2 ∈ path.map Frame.id := by
  induction path with
  | nil => intro c rk p hp; simp [splitSrc] at hp
  | cons fr rest ih =>
    intro c rk p hp
    simp only [splitSrc] at hp
    split at hp
    · simp only [List.mem_cons] at hp
      rcases hp with rfl | hp
      · simp
      · have := ih hp
        exact ⟨by omega, by simp [this.2]⟩
    · have := ih hp
      exact ⟨this.1, by simp [this.2]⟩

theorem splitLoop_spec {w : Bool} {F root : Nat} (path : List Frame) :
    ∀ {h : Heap} {lk rk : Forest} (fuel : Nat), SplitInv h root path lk rk →
      path.length < fuel → rk.roots.length ≤ F → (∀ fr ∈ path, fr.right.roots.length < F) →
      ∃ k, splitLoop w F fuel ⟨h, some (parentOf root path), lk.lastOr none, rk.headOr none⟩
          = some ⟨k, some root, (splitUp h.size path lk rk).1.lastOr none,
              (splitUp h.size path lk rk).2.1.headOr none⟩ ∧
        SplitInv k root [] (splitUp h.size path lk rk).1 (splitUp h.size path lk rk).2.1 ∧
        k.size = (splitUp h.size path lk rk).2.2 ∧
        SplitFrame h k (root :: (lk.ids ++ rk.ids ++ pathIds path)) (path.map Frame.id) ∧
        (∀ j, h.size ≤ j → j < k.size → j ∉ (splitUp h.size path lk rk).2.1.roots →
          ∃ a ∈ (path.map Frame.id).dropLast, copyNodeWithoutNeighbors (k.node j)
            = { copyNodeWithoutNeighbors (h.node a) with continuation := true }) ∧
        (∀ p ∈ splitSrc h.size path rk, copyNodeWithoutNeighbors (k.node p.1)
          = { copyNodeWithoutNeighbors (h.node p.2) with continuation := true }) := by
  induction path with
  | nil =>
    intro h lk rk fuel inv hfuel _ _
    obtain ⟨f, rfl⟩ : ∃ f, fuel = f + 1 := ⟨fuel - 1, by simp at hfuel; omega⟩
    refine ⟨h, ?_, inv, rfl, SplitFrame.reflFrame h _, fun j h1 h2 => absurd h2 (by omega),
      fun p hp => by simp [splitSrc] at hp⟩
    rw [splitLoop_succ]
    simp [parentOf, inv.rootType, splitUp]
  | cons fr rest ih =>
    intro h lk rk fuel inv hfuel hF1 hF2
    obtain ⟨f, rfl⟩ : ∃ f, fuel = f + 1 := ⟨fuel - 1, by simp at hfuel; omega⟩
    have hty := inv.types fr (by simp)
    have hancs : ∀ j ∈ rest.map Frame.id, j < h.size := by
      intro j hj
      obtain ⟨fr', hfr', rfl⟩ := List.mem_map.mp hj
      exact inv.bound _ (by simp [pathIds, (mem_pathIds_of_mem hfr').1])
    rw [splitLoop_succ]
    simp only [parentOf, hty, if_false]
    by_cases hc : rk ≠ .nil ∨ fr.right ≠ .nil
    · rw [splitBody_clone inv hc hF1]
      simp only [Option.some_bind]
      have inv1 := inv.step_clone (w := w)
      obtain ⟨k, e1, e2, e3, e4, e5, e6⟩ := ih f inv1 (by simp at hfuel; omega)
        (by simpa using hF2 fr (by simp)) (fun fr' hfr' => hF2 fr' (by simp [hfr']))
      simp only [Forest.lastOr_append, Forest.lastOr_cons, Forest.lastOr_nil, Forest.headOr_cons,
        splitHeap_size] at e1 e2 e3 e6
      have hsu : splitUp h.size (fr :: rest) lk rk
          = splitUp (h.size + 1) rest (fr.left.append (.cons fr.id lk .nil))
            (.cons h.size rk fr.right) := by
        simp only [splitUp]; rw [if_pos hc]
      rw [hsu]
      have hf1 := splitHeap_splitFrame (w := w) inv
      have hsrc : splitSrc h.size (fr :: rest) rk
          = (h.size, fr.id) :: splitSrc (h.size + 1) rest (.cons h.size rk fr.right) := by
        simp only [splitSrc]; rw [if_pos hc]
      rw [hsrc]
      refine ⟨k, e1, e2, e3, ?_, ?_, ?_⟩
      rotate_left
      rotate_left
      · intro p hp
        simp only [List.mem_cons] at hp
        rcases hp with rfl | hp
        · show copyNodeWithoutNeighbors (k.node h.size) = _
          rw [e4.payload _ (by rw [splitHeap_size]; omega)]
          obtain ⟨x, hx, e⟩ := hf1.copies h.size (le_refl _) (by rw [splitHeap_size]; omega)
          simp only [List.mem_singleton] at hx
          subst hx
          exact e
        · rw [e6 p hp, hf1.payload p.2 (hancs p.2 (splitSrc_mem hp).2)]
      rotate_left
      · intro j h1 h2 h3
        rw [splitHeap_size] at e5
        by_cases hj : j = h.size
        · subst hj
          cases rest with
          | nil => simp [splitUp] at h3
          | cons fr' rest' =>
            refine ⟨fr.id, by simp, ?_⟩
            rw [e4.payload _ (by rw [splitHeap_size]; omega)]
            obtain ⟨x, hx, e⟩ := hf1.copies h.size (le_refl _) (by rw [splitHeap_size]; omega)
            simp only [List.mem_singleton] at hx
            subst hx
            exact e
        · obtain ⟨a, ha, e⟩ := e5 j (by omega) h2 h3
          have ha' : a ∈ rest.map Frame.id := List.mem_of_mem_dropLast ha
          refine ⟨a, ?_, ?_⟩
          · cases rest with
            | nil => simp at ha
            | cons fr' rest' =>
              simp only [List.map_cons, List.dropLast_cons₂] at ha ⊢
              exact List.mem_cons_of_mem _ ha
          · rw [e, hf1.payload a (hancs a ha')]
      have := hf1.transFrame e4 ?_ hancs
      · simpa using this
      · intro j hj hm
        have hperm := perm_split_clone root fr.id h.size lk.ids rk.ids fr.left.ids
          fr.right.ids (pathIds rest)
        have hj' : j ∈ h.size :: root :: (lk.ids ++ rk.ids
            ++ (fr.id :: (fr.left.ids ++ fr.right.ids) ++ pathIds rest)) := by
          apply hperm.subset
          simpa using hm
        simp only [List.mem_cons] at hj'
        rcases hj' with rfl | hj'
        · omega
        · simpa [pathIds] using hj'
    · simp only [not_or, not_not] at hc
      obtain ⟨rfl, hr⟩ := hc
      have e0 := splitBody_noclone (w := w) (F := F) inv hr
      simp only [Forest.headOr_nil]
      rw [e0]
      simp only [Option.some_bind]
      have inv1 := inv.step_noclone hr
      obtain ⟨k, e1, e2, e3, e4, e5, e6⟩ := ih f inv1 (by simp at hfuel; omega)
        (by simp) (fun fr' hfr' => hF2 fr' (by simp [hfr']))
      simp only [Forest.lastOr_append, Forest.lastOr_cons, Forest.lastOr_nil, Forest.headOr_nil,
        setNextOpt_size] at e1 e2 e3 e6
      have hsu : splitUp h.size (fr :: rest) lk .nil
          = splitUp h.size rest (fr.left.append (.cons fr.id lk .nil)) .nil := by
        simp only [splitUp]; rw [if_neg (by simp [hr])]
      rw [hsu]
      have hsrc : splitSrc h.size (fr :: rest) .nil = splitSrc h.size rest .nil := by
        simp only [splitSrc]; rw [if_neg (by simp [hr])]
      rw [hsrc]
      refine ⟨k, e1, e2, e3, ?_, ?_, ?_⟩
      rotate_left
      rotate_left
      · intro p hp
        rw [e6 p hp]; simp [copyNodeWithoutNeighbors]
      rotate_left
      · intro j h1 h2 h3
        simp only [setNextOpt_size] at e5
        obtain ⟨a, ha, e⟩ := e5 j h1 h2 h3
        have ha' : a ∈ rest.map Frame.id := List.mem_of_mem_dropLast ha
        refine ⟨a, ?_, ?_⟩
        · cases rest with
          | nil => simp at ha
          | cons fr' rest' =>
            simp only [List.map_cons, List.dropLast_cons₂] at ha ⊢
            exact List.mem_cons_of_mem _ ha
        · rw [e]; simp [copyNodeWithoutNeighbors]
      have f0 : SplitFrame h (setNextOpt h (lk.lastOr none) none)
          (root :: (lk.ids ++ Forest.nil.ids ++ pathIds (fr :: rest))) [] := by
        refine ⟨by simp, fun j _ => by simp [copyNodeWithoutNeighbors], ?_,
          fun j h1 h2 => absurd h2 (by simp; omega)⟩
        intro j _ hfp
        have : j ∉ lk.ids := fun q => hfp (by simp [q])
        simp [lastOr_ne_of_not_mem this]
      have := @SplitFrame.mono _ _ _ _ (fr.id :: rest.map Frame.id) (f0.transFrame e4 ?_ hancs)
        (fun j hj => by simp at hj ⊢; exact Or.inr hj)
      · simpa using this
      · intro j hj hm
        have hperm := perm_split_noclone root fr.id lk.ids fr.left.ids (pathIds rest)
        have hj' : j ∈ root :: (lk.ids ++ [] ++ (fr.id :: (fr.left.ids ++ []) ++ pathIds rest)) := by
          apply hperm.subset
          simpa using hm
        simpa [pathIds, hr] using hj'

end Transform

/-! ### Taking the image out of its chain -/

namespace Transform

theorem count_pathIds (a : Nat) (path : List Frame) :
    (pathIds path).count a = (pathBefore path).count a + (pathAfter path).count a := by
  induction path with
  | nil => rfl
  | cons fr path ih =>
    simp only [pathIds, pathBefore, pathAfter, List.count_append, List.count_cons, List.count_nil,
      List.cons_append, ih]
    omega

/-- The nodes of a document, seen from a position in it. -/
theorem perm_position (root i : Nat) (path : List Frame) (lf ics rt : Forest) :
    (root :: (plug path (lf.append (.cons i ics rt))).ids).Perm
      (i :: (ics.ids ++ root :: (lf.ids ++ rt.ids ++ pathIds path))) := by
  rw [List.perm_iff_count]
  intro a
  simp only [ids_plug, Forest.ids_append, Forest.ids_cons, List.count_append, List.count_cons,
    count_pathIds]
  omega

/-- The links around a position in a document. -/
theorem IsDocW.position {h : Heap} {root i : Nat} {path : List Frame} {lf ics rt : Forest}
    (hd : IsDocW h root (plug path (lf.append (.cons i ics rt)))) :
    PathOK h root path ∧ Seg h (some (parentOf root path)) none lf (some i) ∧
    (h.node i).parent = some (parentOf root path) ∧ (h.node i).prev = lf.lastOr none ∧
    (h.node i).next = rt.headOr none ∧ (h.node i).firstChild = ics.headOr none ∧
    (h.node i).lastChild = ics.lastOr none ∧ Seg h (some i) none ics none ∧
    Seg h (some (parentOf root path)) (some i) rt none ∧
    (h.node (parentOf root path)).firstChild = lf.headOr (some i) ∧
    LastOK h path (rt.lastOr (some i)) := by
  obtain ⟨a, b, c, d⟩ := seg_plug.mp ⟨hd.seg, hd.first⟩
  rw [Seg_append, Seg_cons] at b
  obtain ⟨b1, b2, b3, b4, b5, b6, b7, b8⟩ := b
  simp only [Forest.headOr_cons] at b1
  simp only [Forest.headOr_append, Forest.headOr_cons] at c
  simp only [Forest.lastOr_append, Forest.lastOr_cons] at d
  exact ⟨a, b1, b2, b3, b4, b5, b6, b7, b8, c, d⟩

theorem detachHeap_outside {h : Heap} {p : Nat} {lf rt : Forest} {j : Nat}
    (h1 : j ∉ lf.ids) (h2 : j ∉ rt.ids) (h3 : j ≠ p) :
    (detachHeap h p lf rt).node j = h.node j := by
  simp [detachHeap, lastOr_ne_of_not_mem h1, headOr_ne_of_not_mem h2, h3]

theorem detachHeap_lf {h : Heap} {p : Nat} {lf rt : Forest} {j : Nat}
    (h2 : j ∉ rt.ids) (h3 : j ≠ p) :
    (detachHeap h p lf rt).node j
      = { h.node j with
            next := if lf.lastOr none = some j then rt.headOr none else (h.node j).next } := by
  simp [detachHeap, headOr_ne_of_not_mem h2, h3]

theorem detachHeap_rt {h : Heap} {p : Nat} {lf rt : Forest} {j : Nat}
    (h1 : j ∉ lf.ids) (h3 : j ≠ p) :
    (detachHeap h p lf rt).node j
      = { h.node j with
            prev := if rt.headOr none = some j then lf.lastOr none else (h.node j).prev } := by
  simp [detachHeap, lastOr_ne_of_not_mem h1, h3]

theorem detachHeap_self {h : Heap} {p : Nat} {lf rt : Forest}
    (h1 : p ∉ lf.ids) (h2 : p ∉ rt.ids) :
    (detachHeap h p lf rt).node p
      = { h.node p with
            firstChild := (lf.append rt).headOr none, lastChild := (lf.append rt).lastOr none } := by
  simp [detachHeap, lastOr_ne_of_not_mem h1, headOr_ne_of_not_mem h2]

theorem setLastChild_eq_self (h : Heap) (i : Nat) (v : Option Nat)
    (hv : (h.node i).lastChild = v) : h.setLastChild i v = h := by
  rw [Heap.ext_iff']
  refine ⟨fun j => ?_, rfl⟩
  rw [Heap.setLastChild_node]
  by_cases hj : j = i
  · subst hj; simp [← hv]
  · simp [hj]

/-- No node occurs twice around a position. -/
theorem position_nodup {root i : Nat} {path : List Frame} {lf ics rt : Forest}
    (nd : (root :: (plug path (lf.append (.cons i ics rt))).ids).Nodup) :
    (root :: (lf.ids ++ rt.ids ++ pathIds path)).Nodup ∧ (i :: ics.ids).Nodup ∧
      ∀ j ∈ i :: ics.ids, j ∉ root :: (lf.ids ++ rt.ids ++ pathIds path) := by
  have := (perm_position root i path lf ics rt).nodup_iff.mp nd
  rw [← List.cons_append, List.nodup_append] at this
  exact ⟨this.2.1, this.1, fun j hj hm => this.2.2 hj hm⟩

/-- Lines 39-61 at a position of the document whose parent is the ancestor
`fr`. -/
theorem detachImage_eq {h : Heap} {root i : Nat} {fr : Frame} {rest : List Frame}
    {lf ics rt : Forest}
    (hd : IsDocW h root (plug (fr :: rest) (lf.append (.cons i ics rt)))) :
    detachImage h i fr.id = detachHeap h fr.id lf rt := by
  obtain ⟨_, _, _, hprev, hnext, _, _, _, _, hfc, hlc⟩ := hd.position
  simp only [parentOf, LastOK] at hfc hlc
  obtain ⟨nd1, nd2, nd3⟩ := position_nodup hd.nodup
  obtain ⟨dA, dB, dp, dL, dR, droot, dP⟩ :=
    @nodup_parts root fr.id lf.ids rt.ids fr.left.ids fr.right.ids (pathIds rest)
      (by simpa [pathIds] using nd1)
  have n3 : i ∉ lf.ids := fun q => nd3 i (by simp) (by simp [q])
  have n4 : i ∉ rt.ids := fun q => nd3 i (by simp) (by simp [q])
  have hpl : lf.lastOr none ≠ some fr.id := lastOr_ne_of_not_mem dp.1
  have hpr : rt.headOr none ≠ some fr.id := headOr_ne_of_not_mem dp.2.1
  have key : ∀ h2 : Heap, (h2.node fr.id).firstChild = lf.headOr (some i) →
      (h2.node fr.id).lastChild = rt.lastOr (some i) →
      (let h3 := if (h2.node fr.id).firstChild = some i then
          h2.setFirstChild fr.id (rt.headOr none) else h2
       if (h3.node fr.id).lastChild = some i then h3.setLastChild fr.id (lf.lastOr none) else h3)
      = (h2.setFirstChild fr.id ((lf.append rt).headOr none)).setLastChild fr.id
          ((lf.append rt).lastOr none) := by
    intro h2 f1 f2
    have g1 : (if (h2.node fr.id).firstChild = some i then
        h2.setFirstChild fr.id (rt.headOr none) else h2)
        = h2.setFirstChild fr.id ((lf.append rt).headOr none) := by
      rw [f1]
      cases lf with
      | nil => simp
      | cons a b c =>
        have : a ≠ i := by rintro rfl; simp at n3
        simp only [Forest.headOr_cons, Option.some.injEq, this, if_false, Forest.cons_append]
        rw [setFirstChild_eq_self]
        exact f1
    simp only [g1]
    have f2' : ((h2.setFirstChild fr.id ((lf.append rt).headOr none)).node fr.id).lastChild
        = rt.lastOr (some i) := by simpa using f2
    rw [f2']
    cases rt with
    | nil => simp
    | cons a b c =>
      have : Forest.lastOr (Forest.cons a b c) (some i) ≠ some i := by
        intro e
        simp only [Forest.lastOr_cons] at e
        rcases Forest.lastOr_mem_roots c a i e with q | q
        · subst q; simp at n4
        · exact n4 (by simp [Forest.roots_subset_ids _ _ q])
      rw [if_neg this, Forest.lastOr_append]
      rw [setLastChild_eq_self]
      rw [f2']; rfl
  unfold detachImage detachHeap
  rw [hprev, hnext]
  exact key (setPrevOpt (setNextOpt h (lf.lastOr none) (rt.headOr none)) (rt.headOr none)
    (lf.lastOr none)) (by simpa using hfc) (by simpa using hlc)

end Transform

/-! ### From the document to the split position and back -/

namespace Transform

/-- After the image has been taken out, the invariant of the splitting loop
holds for the chains to the left and to the right of it. -/
theorem detach_splitInv {h : Heap} {root i : Nat} {fr : Frame} {rest : List Frame}
    {lf ics rt : Forest}
    (hd : IsDocW h root (plug (fr :: rest) (lf.append (.cons i ics rt)))) :
    SplitInv (detachHeap h fr.id lf rt) root (fr :: rest) lf rt := by
  obtain ⟨hpath, hslf, hipar, hprev, hnext, hifc, hilc, hsics, hsrt, hfc, hlc⟩ := hd.position
  simp only [parentOf, LastOK] at hfc hlc hslf hsrt
  obtain ⟨nd1, nd2, nd3⟩ := position_nodup hd.nodup
  obtain ⟨dA, dB, dp, dL, dR, droot, dP⟩ :=
    @nodup_parts root fr.id lf.ids rt.ids fr.left.ids fr.right.ids (pathIds rest)
      (by simpa [pathIds] using nd1)
  have ndlf : lf.ids.Nodup := by
    simp only [List.nodup_cons, List.nodup_append] at nd1; exact nd1.2.1.1
  have ndrt : rt.ids.Nodup := by
    simp only [List.nodup_cons, List.nodup_append] at nd1; exact nd1.2.1.2.1
  have kout : ∀ j, j ∉ lf.ids → j ∉ rt.ids → j ≠ fr.id →
      (detachHeap h fr.id lf rt).node j = h.node j := fun j a b c => detachHeap_outside a b c
  have kroot : (detachHeap h fr.id lf rt).node root = h.node root :=
    kout root droot.1 droot.2.1 (Ne.symm dp.2.2.2.2.2)
  have kself := detachHeap_self (h := h) dp.1 dp.2.1
  refine ⟨?_, ?_, ?_, ?_, ?_, ?_, ?_, ?_, ?_, ?_, nd1, ?_⟩
  · apply PathOK_congr (by
      simp only [pathIds, List.nodup_cons, List.nodup_append, List.cons_append, List.mem_append,
        List.mem_cons, not_or] at nd1 ⊢
      tauto) _ hpath
    intro j hj
    simp only [List.mem_cons, pathIds, List.cons_append, List.mem_append] at hj
    rcases hj with rfl | rfl | hj
    · rw [kroot]; exact ⟨rfl, rfl, rfl, fun _ => rfl, fun _ => rfl⟩
    · rw [kself]; exact ⟨rfl, rfl, rfl, fun q => absurd rfl q, fun q => absurd rfl q⟩
    · have : j ∉ lf.ids ∧ j ∉ rt.ids ∧ j ≠ fr.id := by
        rcases hj with (hj | hj) | hj
        · exact ⟨fun q => (dA j q).2.2.1 hj, fun q => (dB j q).2.1 hj, fun q => dp.2.2.1 (q ▸ hj)⟩
        · exact ⟨fun q => (dA j q).2.2.2.1 hj, fun q => (dB j q).2.2.1 hj,
            fun q => dp.2.2.2.1 (q ▸ hj)⟩
        · exact ⟨(dP j hj).1, (dP j hj).2.1, (dP j hj).2.2.1⟩
      rw [kout j this.1 this.2.1 this.2.2]
      exact ⟨rfl, rfl, rfl, fun _ => rfl, fun _ => rfl⟩
  · refine ⟨rt.headOr none, ?_⟩
    apply Seg_change ndlf _ _ _ _ hslf
    · intro j hj hjr
      rw [detachHeap_lf (dA j hj).1 (dA j hj).2.1]
      have : lf.lastOr none ≠ some j := fun e => hjr (Forest.lastOr_none_mem_roots e)
      simp [SameLinks, this]
    · intro j hj
      have hj' := Forest.roots_subset_ids _ _ hj
      rw [detachHeap_lf (dA j hj').1 (dA j hj').2.1]
      exact ⟨rfl, rfl, hslf.parent_of_mem_roots j hj⟩
    · intro j hj
      have hj' := Forest.roots_subset_ids _ _ hj
      rw [detachHeap_lf (dA j hj').1 (dA j hj').2.1]
      simp only
      split
      · next hh => exact hslf.head_prev hh
      · rfl
    · intro j hj
      have hj' := Forest.roots_subset_ids _ _ hj
      rw [detachHeap_lf (dA j hj').1 (dA j hj').2.1]
  · cases rt with
    | nil => trivial
    | cons x xcs xrest =>
      rw [Seg_cons] at hsrt
      obtain ⟨s1, s2, s3, s4, s5, s6, s7⟩ := hsrt
      have hx : x ∈ (Forest.cons x xcs xrest).ids := by simp
      have ndx := head_not_mem_rest ndrt
      have ex := @detachHeap_rt h fr.id lf (.cons x xcs xrest) x
        (fun q => (dA x q).1 hx) (dB x hx).1
      have esame : ∀ j ∈ (Forest.cons x xcs xrest).ids, j ≠ x →
          (detachHeap h fr.id lf (.cons x xcs xrest)).node j = h.node j := by
        intro j hj hne
        rw [detachHeap_rt (fun q => (dA j q).1 hj) (dB j hj).1]
        simp [Ne.symm hne]
      refine ⟨by rw [ex]; exact s4, by rw [ex]; exact s5, by rw [ex]; exact s3, ?_, ?_⟩
      · apply Seg_congr _ s6
        intro j hj
        rw [esame j (by simp [hj]) (fun e => ndx.1 (e ▸ hj))]
        exact SameLinks.rfl' _
      · apply Seg_congr _ s7
        intro j hj
        rw [esame j (by simp [hj]) (fun e => ndx.2 (e ▸ hj))]
        exact SameLinks.rfl' _
  · simp only [parentOf]; rw [kself]
  · rintro rfl
    simp only [LastOK]; rw [kself]; simp
  · rw [kroot]; exact hd.rootType
  · rw [kroot]; exact hd.rootParent
  · rw [kroot]; exact hd.rootPrev
  · rw [kroot]; exact hd.rootNext
  · intro fr' hfr'
    have hm : fr'.id ∈ (plug (fr :: rest) (lf.append (.cons i ics rt))).ids := by
      have := (perm_position root i (fr :: rest) lf ics rt).symm.subset
        (a := fr'.id) (by simp [(mem_pathIds_of_mem hfr').1])
      simp only [List.mem_cons] at this
      rcases this with e | e
      · exfalso
        have h1 := (mem_pathIds_of_mem hfr').1
        simp only [List.nodup_cons, List.mem_append, not_or] at nd1
        exact nd1.1.2 (e ▸ h1)
      · exact e
    have hty := hd.types _ hm
    have : copyNodeWithoutNeighbors ((detachHeap h fr.id lf rt).node fr'.id)
        = copyNodeWithoutNeighbors (h.node fr'.id) := by
      simp [detachHeap, copyNodeWithoutNeighbors]
    have e : ((detachHeap h fr.id lf rt).node fr'.id).type = (h.node fr'.id).type := by
      simpa [copyNodeWithoutNeighbors] using congrArg Node.type this
    rw [e]; exact hty
  · intro j hj
    have : (detachHeap h fr.id lf rt).size = h.size := by simp [detachHeap]
    rw [this]
    apply hd.bound
    apply (perm_position root i (fr :: rest) lf ics rt).symm.subset
    simp only [List.mem_cons, List.mem_append] at hj ⊢
    tauto

end Transform

/-! ### Linking the image in under the root -/

namespace Transform

theorem reinsertHeap_payload (h : Heap) (root i : Nat) (lk rk : Forest) (j : Nat) :
    copyNodeWithoutNeighbors ((reinsertHeap h root i lk rk).node j)
      = copyNodeWithoutNeighbors (h.node j) := by
  unfold reinsertHeap
  cases rk.headOr none <;> simp [copyNodeWithoutNeighbors]

theorem reinsertHeap_size (h : Heap) (root i : Nat) (lk rk : Forest) :
    (reinsertHeap h root i lk rk).size = h.size := by
  unfold reinsertHeap
  cases rk.headOr none <;> simp

theorem reinsertHeap_outside {h : Heap} {root i : Nat} {lk rk : Forest} {j : Nat}
    (h1 : j ∉ lk.ids) (h2 : j ∉ rk.ids) (h3 : j ≠ i) (h4 : j ≠ root) :
    (reinsertHeap h root i lk rk).node j = h.node j := by
  have r1 := lastOr_ne_of_not_mem h1
  have r2 := headOr_ne_of_not_mem h2
  unfold reinsertHeap
  cases hr : rk.headOr none with
  | none => simp [r1, h3, h4]
  | some n =>
    have : j ≠ n := by rintro rfl; exact r2 hr
    simp [r1, h3, h4, this, Ne.symm this]

theorem reinsertHeap_image {h : Heap} {root i : Nat} {lk rk : Forest}
    (h1 : i ∉ lk.ids) (h2 : i ∉ rk.ids) (h4 : i ≠ root) :
    (reinsertHeap h root i lk rk).node i
      = { h.node i with
            parent := some root, prev := lk.lastOr none, next := rk.headOr none } := by
  have r1 := lastOr_ne_of_not_mem h1
  have r2 := headOr_ne_of_not_mem h2
  unfold reinsertHeap
  cases hr : rk.headOr none with
  | none => simp [r1, h4]
  | some n =>
    have : i ≠ n := by rintro rfl; exact r2 hr
    simp [r1, h4, this, Ne.symm this]

theorem reinsertHeap_root {h : Heap} {root i : Nat} {lk rk : Forest}
    (h1 : root ∉ lk.ids) (h2 : root ∉ rk.ids) (h4 : i ≠ root) :
    (reinsertHeap h root i lk rk).node root
      = { h.node root with lastChild := rk.headOr (some i) } := by
  have r1 := lastOr_ne_of_not_mem h1
  have r2 := headOr_ne_of_not_mem h2
  unfold reinsertHeap
  cases hr : rk.headOr none with
  | none => simp [r1, Ne.symm h4]
  | some n =>
    have : root ≠ n := by rintro rfl; exact r2 hr
    simp [r1, Ne.symm h4, this, Ne.symm this]

theorem reinsertHeap_lk {h : Heap} {root i : Nat} {lk rk : Forest} {j : Nat}
    (h2 : j ∉ rk.ids) (h3 : j ≠ i) (h4 : j ≠ root) :
    (reinsertHeap h root i lk rk).node j
      = { h.node j with next := if lk.lastOr none = some j then some i else (h.node j).next } := by
  have r2 := headOr_ne_of_not_mem h2
  unfold reinsertHeap
  cases hr : rk.headOr none with
  | none => simp [h3, h4]
  | some n =>
    have : j ≠ n := by rintro rfl; exact r2 hr
    simp [h3, h4, this, Ne.symm this]

theorem reinsertHeap_rk {h : Heap} {root i : Nat} {lk rk : Forest} {j : Nat}
    (h1 : j ∉ lk.ids) (h3 : j ≠ i) (h4 : j ≠ root) :
    (reinsertHeap h root i lk rk).node j
      = { h.node j with
            parent := if rk.headOr none = some j then some root else (h.node j).parent,
            prev := if rk.headOr none = some j then some i else (h.node j).prev } := by
  have r1 := lastOr_ne_of_not_mem h1
  unfold reinsertHeap
  cases hr : rk.headOr none with
  | none => simp [r1, h3, h4]
  | some n =>
    by_cases hn : j = n
    · subst hn; simp [r1, h3, h4]
    · simp [r1, h3, h4, hn, Ne.symm hn]

theorem reinsertImage_eq (h : Heap) (root i a : Nat) (lk rk : Forest)
    (ha : lk.lastOr none = some a) :
    reinsertImage ⟨h, some root, lk.lastOr none, rk.headOr none⟩ i
      = some (reinsertHeap h root i lk rk) := by
  unfold reinsertImage reinsertHeap
  simp only [ha]
  cases rk <;> rfl

theorem perm_reinsert (root i : Nat) (A B C : List Nat) :
    (root :: (A ++ i :: (C ++ B))).Perm (i :: (C ++ root :: (A ++ B ++ []))) := by
  rw [List.perm_iff_count]
  intro a
  simp only [List.count_append, List.count_cons, List.count_nil]
  omega

/-- After the image has been linked in, the heap holds the document whose
top-level chain is the left part, the image, and the right part. -/
theorem reinsert_isDocW {h : Heap} {root i : Nat} {lk rk ics : Forest}
    (inv : SplitInv h root [] lk rk) (hlk : lk ≠ .nil)
    (hifc : (h.node i).firstChild = ics.headOr none)
    (hilc : (h.node i).lastChild = ics.lastOr none)
    (hsics : Seg h (some i) none ics none)
    (nd2 : (i :: ics.ids).Nodup)
    (nd3 : ∀ j ∈ i :: ics.ids, j ∉ root :: (lk.ids ++ rk.ids))
    (hb : ∀ j ∈ i :: ics.ids, j < h.size)
    (hty : ∀ j ∈ lk.ids ++ i :: (ics.ids ++ rk.ids), (h.node j).type ≠ "document") :
    IsDocW (reinsertHeap h root i lk rk) root (lk.append (.cons i ics rk)) := by
  have nd1 := inv.nodup
  simp only [pathIds, List.append_nil] at nd1
  have ndlk : lk.ids.Nodup := by
    simp only [List.nodup_cons, List.nodup_append] at nd1; exact nd1.2.1
  have ndrk : rk.ids.Nodup := by
    simp only [List.nodup_cons, List.nodup_append] at nd1; exact nd1.2.2.1
  have dlr : ∀ j ∈ lk.ids, j ∉ rk.ids := by
    simp only [List.nodup_cons, List.nodup_append] at nd1
    exact fun j a b => nd1.2.2.2 a b
  have drl : root ∉ lk.ids ∧ root ∉ rk.ids := by
    simp only [List.nodup_cons, List.mem_append, not_or] at nd1; exact nd1.1
  have di : i ∉ lk.ids ∧ i ∉ rk.ids ∧ i ≠ root := by
    have := nd3 i (by simp)
    simp only [List.mem_cons, List.mem_append, not_or] at this
    exact ⟨this.2.1, this.2.2, this.1⟩
  have dics : ∀ j ∈ ics.ids, j ∉ lk.ids ∧ j ∉ rk.ids ∧ j ≠ root ∧ j ≠ i := by
    intro j hj
    have := nd3 j (by simp [hj])
    simp only [List.mem_cons, List.mem_append, not_or] at this
    refine ⟨this.2.1, this.2.2, this.1, ?_⟩
    rintro rfl
    exact (List.nodup_cons.mp nd2).1 hj
  have kimg := reinsertHeap_image (h := h) di.1 di.2.1 di.2.2
  have kroot := reinsertHeap_root (h := h) (i := i) drl.1 drl.2 di.2.2
  have hfirst := inv.first
  simp only [parentOf, Forest.headOr_append] at hfirst
  refine ⟨⟨?_, ?_, ?_⟩, ?_, ?_, ?_, ?_, ?_, ?_⟩
  · rw [kroot]
    simp only [Forest.headOr_append, Forest.headOr_cons]
    cases lk with
    | nil => exact absurd rfl hlk
    | cons a b c => simpa using hfirst
  · rw [Seg_append, Seg_cons]
    obtain ⟨nx, hs⟩ := inv.left
    simp only [parentOf] at hs
    have klk : ∀ j ∈ lk.ids, (reinsertHeap h root i lk rk).node j
        = { h.node j with
              next := if lk.lastOr none = some j then some i else (h.node j).next } :=
      fun j hj => reinsertHeap_lk (dlr j hj) (by rintro rfl; exact di.1 hj)
        (by rintro rfl; exact drl.1 hj)
    refine ⟨?_, by rw [kimg], by rw [kimg], by rw [kimg], by rw [kimg]; exact hifc,
      by rw [kimg]; exact hilc, ?_, ?_⟩
    · apply Seg_change ndlk _ _ _ _ hs
      · intro j hj hjr
        rw [klk j hj]
        have : lk.lastOr none ≠ some j := fun e => hjr (Forest.lastOr_none_mem_roots e)
        simp [SameLinks, this]
      · intro j hj
        have hj' := Forest.roots_subset_ids _ _ hj
        rw [klk j hj']
        exact ⟨rfl, rfl, hs.parent_of_mem_roots j hj⟩
      · intro j hj
        have hj' := Forest.roots_subset_ids _ _ hj
        rw [klk j hj']
        simp only
        split
        · next hh => exact hs.head_prev hh
        · rfl
      · intro j hj
        have hj' := Forest.roots_subset_ids _ _ hj
        rw [klk j hj']
        simp
    · apply Seg_congr _ hsics
      intro j hj
      obtain ⟨q1, q2, q3, q4⟩ := dics j hj
      rw [reinsertHeap_outside q1 q2 q4 q3]
      exact SameLinks.rfl' _
    · have hr := inv.right
      simp only [parentOf] at hr
      cases rk with
      | nil => trivial
      | cons x xcs xrest =>
        obtain ⟨s1, s2, s3, s4, s5⟩ := hr
        have ndx := head_not_mem_rest ndrk
        have krk : ∀ j ∈ (Forest.cons x xcs xrest).ids,
            (reinsertHeap h root i lk (.cons x xcs xrest)).node j
              = { h.node j with
                    parent := if x = j then some root else (h.node j).parent,
                    prev := if x = j then some i else (h.node j).prev } := by
          intro j hj
          have := @reinsertHeap_rk h root i lk (.cons x xcs xrest) j
            (fun q => dlr j q hj)
            (by rintro rfl; exact di.2.1 hj) (by rintro rfl; exact drl.2 hj)
          rw [this]
          simp
        rw [Seg_cons]
        have ex := krk x (by simp)
        refine ⟨by rw [ex]; simp, by rw [ex]; simp, by rw [ex]; exact s3, by rw [ex]; exact s1,
          by rw [ex]; exact s2, ?_, ?_⟩
        · apply Seg_congr _ s4
          intro j hj
          rw [krk j (by simp [hj])]
          have : ¬ x = j := fun e => ndx.1 (e ▸ hj)
          simp [SameLinks, this]
        · apply Seg_congr _ s5
          intro j hj
          rw [krk j (by simp [hj])]
          have : ¬ x = j := fun e => ndx.2 (e ▸ hj)
          simp [SameLinks, this]
  · have hperm := perm_reinsert root i lk.ids rk.ids ics.ids
    simp only [Forest.ids_append, Forest.ids_cons]
    rw [hperm.nodup_iff, ← List.cons_append, List.nodup_append]
    refine ⟨nd2, by simpa using nd1, ?_⟩
    intro j hj hm
    exact nd3 j hj (by simpa using hm)
  · rw [kroot]; exact inv.rootType
  · rw [kroot]; exact inv.rootParent
  · rw [kroot]; exact inv.rootPrev
  · rw [kroot]; exact inv.rootNext
  · intro j hj
    have e : ((reinsertHeap h root i lk rk).node j).type = (h.node j).type := by
      simpa [copyNodeWithoutNeighbors] using
        congrArg Node.type (reinsertHeap_payload h root i lk rk j)
    rw [e]
    exact hty j (by simpa using hj)
  · intro j hj
    rw [reinsertHeap_size]
    have hperm := perm_reinsert root i lk.ids rk.ids ics.ids
    have hj' := hperm.subset (by simpa using hj)
    rw [← List.cons_append, List.mem_append] at hj'
    rcases hj' with hj' | hj'
    · exact hb j hj'
    · exact inv.bound j (by simpa [pathIds] using hj')

end Transform

/-! ### What `splitUp` does to the forest -/

namespace Transform

theorem splitUp_cons (c : Nat) (fr : Frame) (path : List Frame) (lk rk : Forest) :
    splitUp c (fr :: path) lk rk =
      if rk ≠ .nil ∨ fr.right ≠ .nil then
        splitUp (c + 1) path (fr.left.append (.cons fr.id lk .nil)) (.cons c rk fr.right)
      else
        splitUp c path (fr.left.append (.cons fr.id lk .nil)) .nil := rfl

theorem splitUp_le (c : Nat) (path : List Frame) (lk rk : Forest) :
    c ≤ (splitUp c path lk rk).2.2 := by
  induction path generalizing c lk rk with
  | nil => exact le_refl _
  | cons fr path ih =>
    rw [splitUp_cons]
    split
    · exact le_trans (Nat.le_succ c) (ih _ _ _)
    · exact ih _ _ _

/-- The left part of the split holds, in document order, the nodes that
precede the position and the children to the left: no copy is among them. -/
theorem splitUp_left_ids (c : Nat) (path : List Frame) (lk rk : Forest) :
    (splitUp c path lk rk).1.ids = pathBefore path ++ lk.ids := by
  induction path generalizing c lk rk with
  | nil => simp [splitUp, pathBefore]
  | cons fr path ih =>
    rw [splitUp_cons]
    split <;> simp [ih, pathBefore]

/-- The right part of the split holds, in document order, the children to
the right and the nodes that follow the position, and the copies. -/
theorem splitUp_right_ids (c : Nat) (path : List Frame) (lk rk : Forest)
    (hrk : ∀ j ∈ rk.ids, j < c) (hpath : ∀ j ∈ pathAfter path, j < c) :
    (splitUp c path lk rk).2.1.ids.filter (fun j => decide (j < c)) = rk.ids ++ pathAfter path ∧
    ∀ j ∈ (splitUp c path lk rk).2.1.ids, j < (splitUp c path lk rk).2.2 := by
  induction path generalizing c lk rk with
  | nil =>
    simp only [splitUp, pathAfter, List.append_nil]
    refine ⟨?_, hrk⟩
    rw [List.filter_eq_self]
    intro j hj
    simpa using hrk j hj
  | cons fr path ih =>
    have hR : ∀ j ∈ fr.right.ids, j < c := fun j hj => hpath j (by simp [pathAfter, hj])
    have hP : ∀ j ∈ pathAfter path, j < c := fun j hj => hpath j (by simp [pathAfter, hj])
    rw [splitUp_cons]
    split
    · obtain ⟨e1, e2⟩ := ih (c + 1) (fr.left.append (.cons fr.id lk .nil)) (.cons c rk fr.right)
        (by
          intro j hj
          simp only [Forest.ids_cons, List.mem_cons, List.mem_append] at hj
          rcases hj with rfl | hj | hj
          · omega
          · have := hrk j hj; omega
          · have := hR j hj; omega)
        (fun j hj => by have := hP j hj; omega)
      refine ⟨?_, e2⟩
      have key : ∀ l : List Nat, l.filter (fun j => decide (j < c))
          = (l.filter (fun j => decide (j < c + 1))).filter (fun j => decide (j < c)) := by
        intro l
        rw [List.filter_filter]
        congr 1
        funext j
        simp only [Bool.and_eq_decide, decide_eq_decide]
        constructor
        · intro hj; exact ⟨hj, by omega⟩
        · intro hj; exact hj.1
      rw [key, e1]
      simp only [Forest.ids_cons, List.cons_append, List.append_assoc, pathAfter]
      rw [List.filter_cons_of_neg (by simp)]
      rw [List.filter_eq_self]
      intro j hj
      simp only [List.mem_append] at hj
      rcases hj with hj | hj | hj
      · simpa using hrk j hj
      · simpa using hR j hj
      · simpa using hP j hj
    · next hc =>
      simp only [not_or, not_not] at hc
      obtain ⟨rfl, hr⟩ := hc
      obtain ⟨e1, e2⟩ := ih c (fr.left.append (.cons fr.id lk .nil)) .nil (by simp) hP
      refine ⟨?_, e2⟩
      rw [e1]
      simp [pathAfter, hr]

/-- The top-level ancestor of the position ends the left part. -/
theorem splitUp_left_last (c : Nat) (fr : Frame) (path : List Frame) (lk rk : Forest) :
    ∃ a, (splitUp c (fr :: path) lk rk).1.lastOr none = some a ∧
      a ∈ (fr :: path).map Frame.id := by
  induction path generalizing c lk rk fr with
  | nil =>
    rw [splitUp_cons]
    split <;> exact ⟨fr.id, by simp [splitUp], by simp⟩
  | cons fr' path ih =>
    rw [splitUp_cons]
    split
    · obtain ⟨a, h1, h2⟩ := ih (c + 1) fr' (fr.left.append (.cons fr.id lk .nil))
        (.cons c rk fr.right)
      exact ⟨a, h1, by simp at h2 ⊢; tauto⟩
    · obtain ⟨a, h1, h2⟩ := ih c fr' (fr.left.append (.cons fr.id lk .nil)) .nil
      exact ⟨a, h1, by simp at h2 ⊢; tauto⟩

theorem length_le_of_nodup_of_lt {l : List Nat} {n : Nat} (nd : l.Nodup) (hl : ∀ j ∈ l, j < n) :
    l.length ≤ n := by
  have h1 : l.toFinset ⊆ Finset.range n := by
    intro j hj
    simp only [List.mem_toFinset] at hj
    simpa using hl j hj
  have h2 := Finset.card_le_card h1
  rw [List.toFinset_card_of_nodup nd, Finset.card_range] at h2
  exact h2

end Transform

/-! ### The hoist of one image -/

namespace Transform

theorem type_eq_of_payload {a b : Node}
    (e : copyNodeWithoutNeighbors a = copyNodeWithoutNeighbors b) : a.type = b.type := by
  simpa [copyNodeWithoutNeighbors] using congrArg Node.type e

theorem type_eq_of_copy {a b : Node}
    (e : copyNodeWithoutNeighbors a = { copyNodeWithoutNeighbors b with continuation := true }) :
    a.type = b.type := by
  simpa [copyNodeWithoutNeighbors] using congrArg Node.type e

theorem mem_pathIds_of_before {path : List Frame} {j : Nat} (hj : j ∈ pathBefore path) :
    j ∈ pathIds path := by
  induction path with
  | nil => simp [pathBefore] at hj
  | cons fr path ih =>
    simp only [pathBefore, List.mem_append, List.mem_singleton] at hj
    simp only [pathIds, List.cons_append, List.mem_cons, List.mem_append]
    rcases hj with (hj | hj) | hj
    · exact Or.inr (Or.inr (ih hj))
    · exact Or.inr (Or.inl (Or.inl hj))
    · exact Or.inl hj

theorem mem_pathIds_of_after {path : List Frame} {j : Nat} (hj : j ∈ pathAfter path) :
    j ∈ pathIds path := by
  induction path with
  | nil => simp [pathAfter] at hj
  | cons fr path ih =>
    simp only [pathAfter, List.mem_append] at hj
    simp only [pathIds, List.cons_append, List.mem_cons, List.mem_append]
    rcases hj with hj | hj
    · exact Or.inr (Or.inl (Or.inr hj))
    · exact Or.inr (Or.inr (ih hj))

theorem mem_ids_plug {path : List Frame} {y : Forest} {j : Nat} :
    j ∈ (plug path y).ids ↔ j ∈ y.ids ∨ j ∈ pathIds path := by
  rw [ids_plug]
  simp only [List.mem_append]
  constructor
  · rintro ((hj | hj) | hj)
    · exact Or.inr (mem_pathIds_of_before hj)
    · exact Or.inl hj
    · exact Or.inr (mem_pathIds_of_after hj)
  · rintro (hj | hj)
    · exact Or.inl (Or.inr hj)
    · have : (pathIds path).count j ≠ 0 := by
        rw [Ne, List.count_eq_zero]; exact fun q => q hj
      rw [count_pathIds] at this
      have : (pathBefore path).count j ≠ 0 ∨ (pathAfter path).count j ≠ 0 := by omega
      rcases this with q | q
      · rw [Ne, List.count_eq_zero, not_not] at q; exact Or.inl (Or.inl q)
      · rw [Ne, List.count_eq_zero, not_not] at q; exact Or.inr q

/-- The nodes of the two parts of the split are the nodes around the
position, or copies. -/
theorem splitUp_mem {c : Nat} {path : List Frame} {lk rk : Forest}
    (hrk : ∀ j ∈ rk.ids, j < c) (hpath : ∀ j ∈ pathIds path, j < c) {j : Nat}
    (hj : j ∈ (splitUp c path lk rk).1.ids ∨ j ∈ (splitUp c path lk rk).2.1.ids) :
    (j ∈ lk.ids ∨ j ∈ rk.ids ∨ j ∈ pathIds path) ∨
      (c ≤ j ∧ j < (splitUp c path lk rk).2.2) := by
  rcases hj with hj | hj
  · rw [splitUp_left_ids, List.mem_append] at hj
    rcases hj with hj | hj
    · exact Or.inl (Or.inr (Or.inr (mem_pathIds_of_before hj)))
    · exact Or.inl (Or.inl hj)
  · obtain ⟨e1, e2⟩ := splitUp_right_ids c path lk rk hrk
      (fun j hj => hpath j (mem_pathIds_of_after hj))
    by_cases hjc : j < c
    · have : j ∈ (splitUp c path lk rk).2.1.ids.filter (fun j => decide (j < c)) := by
        rw [List.mem_filter]; exact ⟨hj, by simpa using hjc⟩
      rw [e1, List.mem_append] at this
      rcases this with q | q
      · exact Or.inl (Or.inr (Or.inl q))
      · exact Or.inl (Or.inr (Or.inr (mem_pathIds_of_after q)))
    · exact Or.inr ⟨by omega, e2 j hj⟩

/-- The first two steps of the hoist: the image is taken out and its
ancestors are split. -/
theorem hoist_split {w : Bool} {F : Nat} {h : Heap} {root i : Nat} {fr : Frame}
    {rest : List Frame} {lf ics rt : Forest}
    (hd : IsDocW h root (plug (fr :: rest) (lf.append (.cons i ics rt))))
    (hF : h.size ≤ F) :
    ∃ k1, splitLoop w F F ⟨detachImage h i fr.id, some fr.id, (h.node i).prev, (h.node i).next⟩
        = some ⟨k1, some root, (splitUp h.size (fr :: rest) lf rt).1.lastOr none,
            (splitUp h.size (fr :: rest) lf rt).2.1.headOr none⟩ ∧
      SplitInv k1 root [] (splitUp h.size (fr :: rest) lf rt).1
        (splitUp h.size (fr :: rest) lf rt).2.1 ∧
      k1.size = (splitUp h.size (fr :: rest) lf rt).2.2 ∧
      SplitFrame h k1 (root :: (lf.ids ++ rt.ids ++ pathIds (fr :: rest)))
        ((fr :: rest).map Frame.id) ∧
      (∀ j, h.size ≤ j → j < k1.size → j ∉ (splitUp h.size (fr :: rest) lf rt).2.1.roots →
        ∃ a ∈ ((fr :: rest).map Frame.id).dropLast, copyNodeWithoutNeighbors (k1.node j)
          = { copyNodeWithoutNeighbors (h.node a) with continuation := true }) ∧
      (∀ p ∈ splitSrc h.size (fr :: rest) rt, copyNodeWithoutNeighbors (k1.node p.1)
        = { copyNodeWithoutNeighbors (h.node p.2) with continuation := true }) := by
  obtain ⟨hpath, hslf, hipar, hprev, hnext, hifc, hilc, hsics, hsrt, hfc, hlc⟩ := hd.position
  obtain ⟨nd1, nd2, nd3⟩ := position_nodup hd.nodup
  have hperm := perm_position root i (fr :: rest) lf ics rt
  have hbnd : ∀ j ∈ i :: (ics.ids ++ root :: (lf.ids ++ rt.ids ++ pathIds (fr :: rest))),
      j < h.size := fun j hj => hd.bound j (hperm.symm.subset hj)
  have inv0 := detach_splitInv hd
  have hsz0 : (detachHeap h fr.id lf rt).size = h.size := by simp [detachHeap]
  have hlen : (root :: (lf.ids ++ rt.ids ++ pathIds (fr :: rest))).length ≤ h.size :=
    length_le_of_nodup_of_lt nd1 (fun j hj => hbnd j (by
      simp only [List.mem_cons, List.mem_append] at hj ⊢; tauto))
  have hpl : ∀ p : List Frame, p.length ≤ (pathIds p).length := by
    intro p
    induction p with
    | nil => simp
    | cons a p ih => simp [pathIds]; omega
  have hrl : ∀ fr' ∈ fr :: rest, fr'.right.roots.length < (pathIds (fr :: rest)).length := by
    intro fr' hfr'
    have : ∀ p : List Frame, fr' ∈ p → fr'.right.ids.length < (pathIds p).length := by
      intro p hp
      induction p with
      | nil => simp at hp
      | cons a p ih =>
        simp only [List.mem_cons] at hp
        rcases hp with rfl | hp
        · simp [pathIds]; omega
        · have := ih hp; simp [pathIds]; omega
    have h1 := this _ hfr'
    have h2 := roots_length_le_size fr'.right
    rw [← Forest.length_ids] at h2
    omega
  simp only [List.length_cons, List.length_append] at hlen
  have hrt := roots_length_le_size rt
  rw [← Forest.length_ids] at hrt
  have hp0 := hpl (fr :: rest)
  obtain ⟨k1, e1, inv1, esz, efr, edeep, esrc⟩ :=
    splitLoop_spec (w := w) (F := F) (fr :: rest) F inv0
      (by omega) (by omega) (fun fr' hfr' => by have := hrl fr' hfr'; omega)
  rw [hsz0] at esz e1 inv1 edeep esrc
  have f0 : SplitFrame h (detachHeap h fr.id lf rt)
      (root :: (lf.ids ++ rt.ids ++ pathIds (fr :: rest))) [] := by
    refine ⟨by rw [hsz0], fun j _ => by simp [detachHeap, copyNodeWithoutNeighbors], ?_,
      fun j h1 h2 => absurd h2 (by rw [hsz0]; omega)⟩
    intro j _ hfp
    simp only [pathIds, List.mem_cons, List.mem_append, not_or, List.cons_append] at hfp
    exact detachHeap_outside hfp.2.1.1 hfp.2.1.2 hfp.2.2.1
  have f01 := (f0.transFrame efr (fun _ _ q => q) (by
    intro j hj
    obtain ⟨fr', hfr', rfl⟩ := List.mem_map.mp hj
    exact hbnd _ (by simp [(mem_pathIds_of_mem hfr').1]))).mono
      (fun j hj => (by simpa using hj : j ∈ (fr :: rest).map Frame.id))
  refine ⟨k1, ?_, inv1, esz, f01, ?_, ?_⟩
  · rw [hprev, hnext, detachImage_eq hd]
    exact e1
  · intro j h1 h2 h3
    obtain ⟨a, ha, e⟩ := edeep j h1 h2 h3
    refine ⟨a, ha, ?_⟩
    rw [e]
    simp [detachHeap, copyNodeWithoutNeighbors]
  · intro p hp
    rw [esrc p hp]
    simp [detachHeap, copyNodeWithoutNeighbors]

/-- The last step of the hoist, for any two parts `lk` and `rk` that the
split may have produced from the nodes around the position and from copies. -/
theorem hoist_reinsert {h k1 : Heap} {root i : Nat} {path : List Frame}
    {lf ics rt lk rk : Forest} {anc : List Nat}
    (hd : IsDocW h root (plug path (lf.append (.cons i ics rt))))
    (inv1 : SplitInv k1 root [] lk rk) (hlk : lk ≠ .nil)
    (f01 : SplitFrame h k1 (root :: (lf.ids ++ rt.ids ++ pathIds path)) anc)
    (hanc : ∀ a ∈ anc, a ∈ pathIds path)
    (hmem : ∀ j, j ∈ lk.ids ∨ j ∈ rk.ids →
      (j ∈ lf.ids ∨ j ∈ rt.ids ∨ j ∈ pathIds path) ∨ (h.size ≤ j ∧ j < k1.size)) :
    IsDocW (reinsertHeap k1 root i lk rk) root (lk.append (.cons i ics rk)) ∧
    SplitFrame h (reinsertHeap k1 root i lk rk)
      (root :: i :: (lf.ids ++ rt.ids ++ pathIds path)) anc := by
  obtain ⟨hpath, hslf, hipar, hprev, hnext, hifc, hilc, hsics, hsrt, hfc, hlc⟩ := hd.position
  obtain ⟨nd1, nd2, nd3⟩ := position_nodup hd.nodup
  have hperm := perm_position root i path lf ics rt
  have hbnd : ∀ j ∈ i :: (ics.ids ++ root :: (lf.ids ++ rt.ids ++ pathIds path)),
      j < h.size := fun j hj => hd.bound j (hperm.symm.subset hj)
  have hout : ∀ j ∈ i :: ics.ids, k1.node j = h.node j := by
    intro j hj
    exact f01.outside j (hbnd j (by
      simp only [List.mem_cons, List.mem_append] at hj ⊢; tauto)) (nd3 j hj)
  have hin : ∀ j, (j ∈ lf.ids ∨ j ∈ rt.ids ∨ j ∈ pathIds path) ∨ j = i ∨ j ∈ ics.ids →
      j ∈ (plug path (lf.append (.cons i ics rt))).ids ∧ j < h.size := by
    intro j hj
    refine ⟨?_, hbnd j (by simp only [List.mem_cons, List.mem_append]; tauto)⟩
    rw [mem_ids_plug]
    simp only [Forest.ids_append, Forest.ids_cons, List.mem_append, List.mem_cons]
    tauto
  have f2 : SplitFrame k1 (reinsertHeap k1 root i lk rk)
      (root :: i :: (lk.ids ++ rk.ids)) [] := by
    refine ⟨by rw [reinsertHeap_size], fun j _ => reinsertHeap_payload _ _ _ _ _ _, ?_,
      fun j h1 h2 => absurd h2 (by rw [reinsertHeap_size]; omega)⟩
    intro j _ hfp
    simp only [List.mem_cons, List.mem_append, not_or] at hfp
    exact reinsertHeap_outside hfp.2.2.1 hfp.2.2.2 hfp.2.1 hfp.1
  constructor
  · apply reinsert_isDocW inv1 hlk
    · rw [hout i (by simp)]; exact hifc
    · rw [hout i (by simp)]; exact hilc
    · exact Seg_congr (fun j hj => by rw [hout j (by simp [hj])]; exact SameLinks.rfl' _) hsics
    · exact nd2
    · intro j hj hm
      simp only [List.mem_cons, List.mem_append] at hm
      have hjlt := hbnd j (by simp only [List.mem_cons, List.mem_append] at hj ⊢; tauto)
      rcases hm with rfl | hm
      · exact nd3 j hj (by simp)
      · rcases hmem j hm with q | q
        · exact nd3 j hj (by simp only [List.mem_cons, List.mem_append]; tauto)
        · omega
    · intro j hj
      have := hbnd j (by simp only [List.mem_cons, List.mem_append] at hj ⊢; tauto)
      have := f01.size_le
      omega
    · intro j hj
      have hcase : (j ∈ (plug path (lf.append (.cons i ics rt))).ids ∧ j < h.size) ∨
          (h.size ≤ j ∧ j < k1.size) := by
        simp only [List.mem_append, List.mem_cons] at hj
        rcases hj with hj | rfl | hj | hj
        · rcases hmem j (Or.inl hj) with q | q
          · exact Or.inl (hin j (Or.inl q))
          · exact Or.inr q
        · exact Or.inl (hin j (Or.inr (Or.inl rfl)))
        · exact Or.inl (hin j (Or.inr (Or.inr hj)))
        · rcases hmem j (Or.inr hj) with q | q
          · exact Or.inl (hin j (Or.inl q))
          · exact Or.inr q
      rcases hcase with ⟨h1, h2⟩ | ⟨h1, h2⟩
      · rw [type_eq_of_payload (f01.payload j h2)]
        exact hd.types j h1
      · obtain ⟨x, hx, e⟩ := f01.copies j h1 h2
        rw [type_eq_of_copy e]
        apply hd.types
        rw [mem_ids_plug]
        exact Or.inr (hanc x hx)
  · refine ⟨le_trans f01.size_le f2.size_le, ?_, ?_, ?_⟩
    · intro j hj
      rw [f2.payload j (lt_of_lt_of_le hj f01.size_le), f01.payload j hj]
    · intro j hj hfp
      simp only [List.mem_cons, List.mem_append, not_or] at hfp
      rw [f2.outside j (lt_of_lt_of_le hj f01.size_le), f01.outside j hj]
      · simp only [List.mem_cons, List.mem_append, not_or]; tauto
      · simp only [List.mem_cons, List.mem_append, not_or]
        refine ⟨hfp.1, hfp.2.1, fun q => ?_, fun q => ?_⟩
        · rcases hmem j (Or.inl q) with q | q
          · tauto
          · omega
        · rcases hmem j (Or.inr q) with q | q
          · tauto
          · omega
    · intro j h1 h2
      rw [reinsertHeap_size] at h2
      obtain ⟨x, hx, e⟩ := f01.copies j h1 h2
      exact ⟨x, hx, by rw [f2.payload j h2, e]⟩

/-- Lines 39-144 for an image at a position of the document below a
top-level block: the function returns, and the heap then holds the document
in which the ancestors of the image are split as `splitUp` says and the image
stands between the two parts, directly under the root. -/
theorem hoistImage_spec {w : Bool} {F : Nat} {h : Heap} {root i : Nat} {fr : Frame}
    {rest : List Frame} {lf ics rt : Forest}
    (hd : IsDocW h root (plug (fr :: rest) (lf.append (.cons i ics rt))))
    (hF : h.size ≤ F) :
    ∃ k, hoistImage w F h i fr.id = some k ∧
      IsDocW k root ((splitUp h.size (fr :: rest) lf rt).1.append
        (.cons i ics (splitUp h.size (fr :: rest) lf rt).2.1)) ∧
      k.size = (splitUp h.size (fr :: rest) lf rt).2.2 ∧
      SplitFrame h k (root :: i :: (lf.ids ++ rt.ids ++ pathIds (fr :: rest)))
        ((fr :: rest).map Frame.id) ∧
      (∀ j, h.size ≤ j → j < k.size → j ∉ (splitUp h.size (fr :: rest) lf rt).2.1.roots →
        ∃ a ∈ ((fr :: rest).map Frame.id).dropLast, copyNodeWithoutNeighbors (k.node j)
          = { copyNodeWithoutNeighbors (h.node a) with continuation := true }) ∧
      (∀ p ∈ splitSrc h.size (fr :: rest) rt, copyNodeWithoutNeighbors (k.node p.1)
        = { copyNodeWithoutNeighbors (h.node p.2) with continuation := true }) := by
  obtain ⟨k1, e1, inv1, esz, f01, edeep, esrc⟩ := hoist_split (w := w) hd hF
  obtain ⟨a, ha, _⟩ := splitUp_left_last h.size fr rest lf rt
  obtain ⟨nd1, nd2, nd3⟩ := position_nodup hd.nodup
  have hperm := perm_position root i (fr :: rest) lf ics rt
  have hbnd : ∀ j ∈ i :: (ics.ids ++ root :: (lf.ids ++ rt.ids ++ pathIds (fr :: rest))),
      j < h.size := fun j hj => hd.bound j (hperm.symm.subset hj)
  have hmem : ∀ j, j ∈ (splitUp h.size (fr :: rest) lf rt).1.ids ∨
      j ∈ (splitUp h.size (fr :: rest) lf rt).2.1.ids →
      (j ∈ lf.ids ∨ j ∈ rt.ids ∨ j ∈ pathIds (fr :: rest)) ∨ (h.size ≤ j ∧ j < k1.size) := by
    intro j hj
    rw [esz]
    exact splitUp_mem (fun j hj => hbnd j (by simp [hj]))
      (fun j hj => hbnd j (by simp [hj])) hj
  generalize splitUp h.size (fr :: rest) lf rt = r at e1 inv1 esz ha hmem edeep ⊢
  have hlkne : r.1 ≠ .nil := by
    intro e; rw [e] at ha; simp at ha
  obtain ⟨g1, g2⟩ := hoist_reinsert hd inv1 hlkne f01 (by
    intro x hx
    obtain ⟨fr', hfr', rfl⟩ := List.mem_map.mp hx
    exact (mem_pathIds_of_mem hfr').1) hmem
  refine ⟨reinsertHeap k1 root i r.1 r.2.1, ?_, g1, ?_, g2, ?_,
    fun p hp => by rw [reinsertHeap_payload, esrc p hp]⟩
  · unfold hoistImage
    simp only [Option.bind_eq_bind]
    rw [e1]
    simp only [Option.some_bind]
    exact reinsertImage_eq k1 root i a _ _ ha
  · rw [reinsertHeap_size, esz]
  · intro j h1 h2 h3
    rw [reinsertHeap_size] at h2
    obtain ⟨x, hx, e⟩ := edeep j h1 h2 h3
    exact ⟨x, hx, by rw [reinsertHeap_payload, e]⟩

end Transform

/-! ### The top-level chain seen from a position -/

namespace Transform

theorem roots_plug_congr (fr : Frame) (path : List Frame) (y y' : Forest) :
    (plug (fr :: path) y).roots = (plug (fr :: path) y').roots := by
  induction path generalizing fr y y' with
  | nil => simp [plug]
  | cons fr' path ih =>
    show (plug (fr' :: path) _).roots = (plug (fr' :: path) _).roots
    exact ih fr' _ _

theorem roots_plug_subset (fr : Frame) (path : List Frame) (y : Forest) :
    ∀ j ∈ (plug (fr :: path) y).roots, j ∈ pathIds (fr :: path) := by
  induction path generalizing fr y with
  | nil =>
    intro j hj
    simp only [plug, Forest.roots_append, Forest.roots_cons, List.mem_append, List.mem_cons] at hj
    simp only [pathIds, List.cons_append, List.mem_cons, List.mem_append, List.append_nil]
    rcases hj with hj | rfl | hj
    · exact Or.inr (Or.inl (Forest.roots_subset_ids _ _ hj))
    · exact Or.inl rfl
    · exact Or.inr (Or.inr (Forest.roots_subset_ids _ _ hj))
  | cons fr' path ih =>
    intro j hj
    have := ih fr' _ j hj
    simp only [pathIds, List.cons_append, List.mem_cons, List.mem_append] at this ⊢
    tauto

/-- The nodes of the top-level chain stay in it when an image is hoisted. -/
theorem roots_plug_splitUp (c : Nat) (fr : Frame) (path : List Frame) (y lk rk : Forest) :
    ∀ j ∈ (plug (fr :: path) y).roots,
      j ∈ (splitUp c (fr :: path) lk rk).1.roots ∨ j ∈ (splitUp c (fr :: path) lk rk).2.1.roots := by
  induction path generalizing c fr y lk rk with
  | nil =>
    intro j hj
    simp only [plug, Forest.roots_append, Forest.roots_cons, List.mem_append, List.mem_cons] at hj
    rw [splitUp_cons]
    split
    · simp only [splitUp, Forest.roots_append, Forest.roots_cons, List.mem_append, List.mem_cons,
        Forest.roots_nil, List.not_mem_nil, or_false]
      tauto
    · next hc =>
      simp only [not_or, not_not] at hc
      rw [hc.2] at hj
      simp only [splitUp, Forest.roots_append, Forest.roots_cons, List.mem_append, List.mem_cons,
        Forest.roots_nil, List.not_mem_nil, or_false] at hj ⊢
      tauto
  | cons fr' path ih =>
    intro j hj
    rw [splitUp_cons]
    split
    · exact ih _ fr' _ _ _ j hj
    · exact ih _ fr' _ _ _ j hj

/-- An ancestor other than the top-level one is not in the top-level chain. -/
theorem dropLast_not_mem_roots {path : List Frame} (nd : (pathIds path).Nodup) (y : Forest)
    {a : Nat} (ha : a ∈ (path.map Frame.id).dropLast) : a ∉ (plug path y).roots := by
  induction path generalizing y with
  | nil => simp at ha
  | cons fr path ih =>
    cases path with
    | nil => simp at ha
    | cons fr' path' =>
      simp only [List.map_cons, List.dropLast_cons₂, List.mem_cons] at ha
      have nd' : (pathIds (fr' :: path')).Nodup := by
        simp only [pathIds, List.cons_append, List.nodup_cons, List.nodup_append] at nd ⊢
        exact ⟨nd.2.2.1.1, nd.2.2.1.2⟩
      rcases ha with rfl | ha
      · intro hm
        have := roots_plug_subset fr' path' _ _ hm
        simp only [pathIds, List.cons_append, List.nodup_cons, List.mem_append, not_or] at nd
        simp only [pathIds, List.cons_append] at this
        exact nd.1.2 this
      · exact ih nd' _ (by simpa using ha)

/-- A node strictly below the top-level chain is not in it. -/
theorem not_mem_roots_plug {fr : Frame} {path : List Frame} {y : Forest}
    (nd : (plug (fr :: path) y).ids.Nodup) {j : Nat} (hj : j ∈ y.ids) :
    j ∉ (plug (fr :: path) y).roots := by
  intro hm
  have h1 := roots_plug_subset fr path y j hm
  rw [ids_plug] at nd
  have hc : ((pathBefore (fr :: path) ++ y.ids ++ pathAfter (fr :: path)).count j) ≤ 1 :=
    List.nodup_iff_count_le_one.mp nd j
  simp only [List.count_append] at hc
  have h2 : 0 < y.ids.count j := List.count_pos_iff.mpr hj
  have h3 : 0 < (pathIds (fr :: path)).count j := List.count_pos_iff.mpr h1
  rw [count_pathIds] at h3
  omega

end Transform

/-! ### The hoist of an image during the walk -/

namespace Transform

theorem countP_filter_add (p q : Nat → Bool) (l : List Nat) :
    l.countP p = (l.filter q).countP p + (l.filter (fun j => !q j)).countP p := by
  induction l with
  | nil => rfl
  | cons a l ih =>
    by_cases hq : q a = true
    · by_cases hp : p a = true
      · simp [List.filter_cons, hq, hp, ih, List.countP_cons]; omega
      · simp [List.filter_cons, hq, hp, ih, List.countP_cons]
    · simp only [Bool.not_eq_true] at hq
      by_cases hp : p a = true
      · simp [List.filter_cons, hq, hp, ih, List.countP_cons]; omega
      · simp [List.filter_cons, hq, hp, ih, List.countP_cons]

theorem countP_lt_of_imp {p p' : Nat → Bool} {l : List Nat}
    (himp : ∀ j ∈ l, p' j = true → p j = true) {i : Nat} (hi : i ∈ l) (hp : p i = true)
    (hp' : p' i = false) : l.countP p' < l.countP p := by
  induction l with
  | nil => simp at hi
  | cons a l ih =>
    have hle : l.countP p' ≤ l.countP p :=
      List.countP_mono_left (fun j hj => himp j (List.mem_cons_of_mem _ hj))
    simp only [List.mem_cons] at hi
    rw [List.countP_cons, List.countP_cons]
    rcases hi with rfl | hi
    · rw [hp, hp']
      simp only [if_true, Bool.false_eq_true, if_false, Nat.add_zero]
      omega
    · have := ih (fun j hj => himp j (List.mem_cons_of_mem _ hj)) hi
      by_cases ha : p' a = true
      · rw [ha, himp a (List.mem_cons_self _ _) ha]
        omega
      · simp only [Bool.not_eq_true] at ha
        rw [ha]
        simp only [Bool.false_eq_true, if_false, Nat.add_zero]
        split <;> omega

theorem mem_pathBefore_of_mem {path : List Frame} {fr : Frame} (hfr : fr ∈ path) :
    fr.id ∈ pathBefore path := by
  induction path with
  | nil => simp at hfr
  | cons a path ih =>
    simp only [List.mem_cons] at hfr
    simp only [pathBefore, List.mem_append, List.mem_singleton]
    rcases hfr with rfl | hfr
    · exact Or.inr rfl
    · exact Or.inl (Or.inl (ih hfr))

theorem deepImages_eq_zero {h : Heap} {top : Forest} :
    deepImages h top = 0 ↔ AllTop h top := by
  unfold deepImages AllTop
  rw [List.countP_eq_zero]
  constructor
  · intro hz j hj ht
    by_contra hn
    exact hz j hj (by simpa using ⟨ht, hn⟩)
  · intro ha j hj hc
    simp only [decide_eq_true_eq] at hc
    exact hc.2 (ha j hj hc.1)

/-- The test of the walk on a node that is not hoisted. -/
theorem visitNode_skip {w : Bool} {F : Nat} {h : Heap} {root i : Nat} {path : List Frame}
    {lf cs rt : Forest} (hd : IsDocW h root (plug path (lf.append (.cons i cs rt))))
    (hi : (h.node i).type = "image" → path = []) :
    visitNode w F h i = some h := by
  unfold visitNode
  split
  · next ht =>
    have := hi ht
    subst this
    obtain ⟨_, _, hipar, _⟩ := hd.position
    rw [hipar]
    simp [parentOf, hd.rootType]
  · rfl

/-- The test of the walk on an image below a top-level block. -/
theorem visitNode_hoist {w : Bool} {F : Nat} {h : Heap} {root i : Nat} {fr : Frame}
    {rest : List Frame} {lf cs rt : Forest}
    (hd : IsDocW h root (plug (fr :: rest) (lf.append (.cons i cs rt))))
    (hi : (h.node i).type = "image") :
    visitNode w F h i = hoistImage w F h i fr.id := by
  unfold visitNode
  rw [if_pos hi]
  obtain ⟨_, _, hipar, _⟩ := hd.position
  rw [hipar]
  have : (h.node fr.id).type ≠ "document" :=
    hd.types _ (by rw [mem_ids_plug]; exact Or.inr (by simp [pathIds]))
  simp [parentOf, this]

/-- The successor of the cursor at a position of the document. -/
theorem walkNext_eq {h : Heap} {root i : Nat} {path : List Frame} {lf cs rt : Forest}
    (hd : IsDocW h root (plug path (lf.append (.cons i cs rt)))) (cfc : Bool) :
    walkNext h i cfc =
      if (cs.headOr none).isSome ∧ cfc = false then (cs.headOr none, false)
      else if (rt.headOr none).isSome then (rt.headOr none, false)
      else (some (parentOf root path), true) := by
  obtain ⟨_, _, hipar, _, hnext, hifc, _⟩ := hd.position
  unfold walkNext
  rw [hifc, hnext, hipar]

/-- The document after the hoist of the image at a position below a
top-level block. -/
theorem hoist_step_at {w : Bool} {F : Nat} {h : Heap} {root i : Nat} {fr : Frame}
    {rest : List Frame} {lf cs rt : Forest} {cfc : Bool}
    (inv : WalkInv h root (fr :: rest) lf i cs rt cfc) (hi : (h.node i).type = "image")
    (hF : h.size ≤ F) :
    ∃ k, visitNode w F h i = some k ∧
      WalkInv k root [] (splitUp h.size (fr :: rest) lf rt).1 i cs
        (splitUp h.size (fr :: rest) lf rt).2.1 false ∧
      Grown h (plug (fr :: rest) (lf.append (.cons i cs rt))) k
        ((splitUp h.size (fr :: rest) lf rt).1.append
          (.cons i cs (splitUp h.size (fr :: rest) lf rt).2.1)) ∧
      deepImages k ((splitUp h.size (fr :: rest) lf rt).1.append
          (.cons i cs (splitUp h.size (fr :: rest) lf rt).2.1))
        < deepImages h (plug (fr :: rest) (lf.append (.cons i cs rt))) ∧
      (∀ j ∈ (plug (fr :: rest) (lf.append (.cons i cs rt))).roots,
        j ∈ (splitUp h.size (fr :: rest) lf rt).1.roots ∨
          j ∈ (splitUp h.size (fr :: rest) lf rt).2.1.roots) ∧
      (splitUp h.size (fr :: rest) lf rt).1.ids = pathBefore (fr :: rest) ++ lf.ids ∧
      (∀ p ∈ splitSrc h.size (fr :: rest) rt, copyNodeWithoutNeighbors (k.node p.1)
        = { copyNodeWithoutNeighbors (h.node p.2) with continuation := true }) := by
  have hd := inv.doc
  obtain ⟨k, e1, hdk, esz, hfr, hdeep, hsrc⟩ := hoistImage_spec (w := w) hd hF
  obtain ⟨nd1, nd2, nd3⟩ := position_nodup hd.nodup
  have hperm := perm_position root i (fr :: rest) lf cs rt
  have hbnd : ∀ j ∈ i :: (cs.ids ++ root :: (lf.ids ++ rt.ids ++ pathIds (fr :: rest))),
      j < h.size := fun j hj => hd.bound j (hperm.symm.subset hj)
  have hroots := roots_plug_splitUp h.size fr rest (lf.append (.cons i cs rt)) lf rt
  have hleft := splitUp_left_ids h.size (fr :: rest) lf rt
  obtain ⟨hright, hrlt⟩ := splitUp_right_ids h.size (fr :: rest) lf rt
    (fun j hj => hbnd j (by simp [hj]))
    (fun j hj => hbnd j (by simp [mem_pathIds_of_after hj]))
  generalize splitUp h.size (fr :: rest) lf rt = r at hdk esz hdeep hroots hleft hright hrlt ⊢
  have holdlt : ∀ j ∈ (plug (fr :: rest) (lf.append (.cons i cs rt))).ids, j < h.size :=
    fun j hj => hd.bound j (by simp [hj])
  have htype : ∀ j, j < h.size → (k.node j).type = (h.node j).type :=
    fun j hj => type_eq_of_payload (hfr.payload j hj)
  have hrootsub : ∀ j ∈ (plug (fr :: rest) (lf.append (.cons i cs rt))).roots,
      j ∈ (r.1.append (.cons i cs r.2.1)).roots := by
    intro j hj
    simp only [Forest.roots_append, Forest.roots_cons, List.mem_append, List.mem_cons]
    rcases hroots j hj with q | q
    · exact Or.inl q
    · exact Or.inr (Or.inr q)
  have hdoneB : ∀ j ∈ pathBefore (fr :: rest) ++ lf.ids,
      j ∈ doneIds (fr :: rest) lf i cs cfc := by
    intro j hj
    unfold doneIds
    exact List.mem_append_left _ hj
  have hgrown : Grown h (plug (fr :: rest) (lf.append (.cons i cs rt))) k
      (r.1.append (.cons i cs r.2.1)) := by
    refine ⟨hfr.size_le, hfr.payload, ?_, ?_⟩
    · simp only [Forest.ids_append, Forest.ids_cons, List.filter_append, List.filter_cons,
        ids_plug, hleft, hright]
      have e1 : ∀ l : List Nat, (∀ j ∈ l, j < h.size) →
          l.filter (fun j => decide (j < h.size)) = l := by
        intro l hl
        rw [List.filter_eq_self]
        intro j hj; simpa using hl j hj
      rw [e1 (pathBefore (fr :: rest)) (fun j hj => hbnd j (by simp [mem_pathIds_of_before hj])),
        e1 lf.ids (fun j hj => hbnd j (by simp [hj])),
        e1 cs.ids (fun j hj => hbnd j (by simp [hj]))]
      simp [hbnd i (by simp)]
    · intro j hj hge
      have hjk : j < k.size := hdk.bound j (List.mem_cons_of_mem _ hj)
      obtain ⟨a, ha, e⟩ := hfr.copies j hge hjk
      obtain ⟨fr', hfr', rfl⟩ := List.mem_map.mp ha
      refine ⟨fr'.id, ?_, e⟩
      rw [mem_ids_plug]
      exact Or.inr (mem_pathIds_of_mem hfr').1
  refine ⟨k, ?_, ⟨hdk, ?_⟩, hgrown, ?_, hroots, hleft, hsrc⟩
  · rw [visitNode_hoist hd hi]; exact e1
  · intro j hj ht
    have hj' : j ∈ pathBefore (fr :: rest) ++ lf.ids := by
      unfold doneIds at hj
      simpa [pathBefore, hleft] using hj
    have hjlt : j < h.size := by
      simp only [List.mem_append] at hj'
      rcases hj' with q | q
      · exact hbnd j (by simp [mem_pathIds_of_before q])
      · exact hbnd j (by simp [q])
    rw [htype j hjlt] at ht
    have := inv.done j (hdoneB j hj') ht
    simpa [plug] using hrootsub j this
  · -- fewer images below the top level
    unfold deepImages
    rw [countP_filter_add _ (fun j => decide (j < h.size)) (r.1.append (.cons i cs r.2.1)).ids,
      hgrown.order]
    have hz : ((r.1.append (.cons i cs r.2.1)).ids.filter
        (fun j => !decide (j < h.size))).countP
        (fun j => decide ((k.node j).type = "image" ∧ j ∉ (r.1.append (.cons i cs r.2.1)).roots))
        = 0 := by
      rw [List.countP_eq_zero]
      intro j hj hc
      rw [List.mem_filter] at hj
      obtain ⟨hj1, hj2⟩ := hj
      simp only [Bool.not_eq_true', decide_eq_false_iff_not, not_lt] at hj2
      simp only [decide_eq_true_eq] at hc
      obtain ⟨hc1, hc2⟩ := hc
      have hjk : j < k.size := hdk.bound j (List.mem_cons_of_mem _ hj1)
      have hnr : j ∉ r.2.1.roots := by
        intro q
        exact hc2 (by simp [q])
      obtain ⟨a, ha, e⟩ := hdeep j hj2 hjk hnr
      have hta : (h.node a).type = "image" := by rw [← type_eq_of_copy e]; exact hc1
      obtain ⟨fr', hfr', rfl⟩ := List.mem_map.mp (List.mem_of_mem_dropLast ha)
      have hdn := inv.done fr'.id (hdoneB _ (List.mem_append_left _ (mem_pathBefore_of_mem hfr'))) hta
      have ndp : (pathIds (fr :: rest)).Nodup := by
        simp only [List.nodup_cons, List.nodup_append] at nd1
        exact nd1.2.2.1
      exact dropLast_not_mem_roots ndp _ ha hdn
    rw [hz, Nat.add_zero]
    apply countP_lt_of_imp (i := i)
    · intro j hj hc
      simp only [decide_eq_true_eq] at hc ⊢
      rw [htype j (holdlt j hj)] at hc
      exact ⟨hc.1, fun q => hc.2 (hrootsub j q)⟩
    · rw [mem_ids_plug]; simp
    · simp only [decide_eq_true_eq]
      exact ⟨hi, not_mem_roots_plug (List.nodup_cons.mp hd.nodup).2 (by simp)⟩
    · simp

theorem hoist_step {w : Bool} {F : Nat} {h : Heap} {root i : Nat} {fr : Frame}
    {rest : List Frame} {lf cs rt : Forest} {cfc : Bool}
    (inv : WalkInv h root (fr :: rest) lf i cs rt cfc) (hi : (h.node i).type = "image")
    (hF : h.size ≤ F) :
    ∃ k lk rk, visitNode w F h i = some k ∧ WalkInv k root [] lk i cs rk false ∧
      Grown h (plug (fr :: rest) (lf.append (.cons i cs rt))) k (lk.append (.cons i cs rk)) ∧
      deepImages k (lk.append (.cons i cs rk))
        < deepImages h (plug (fr :: rest) (lf.append (.cons i cs rt))) ∧
      (∀ j ∈ (plug (fr :: rest) (lf.append (.cons i cs rt))).roots, j ∈ lk.roots ∨ j ∈ rk.roots) ∧
      lk.ids = pathBefore (fr :: rest) ++ lf.ids := by
  obtain ⟨k, a1, a2, a3, a4, a5, a6, _⟩ := hoist_step_at (w := w) inv hi hF
  exact ⟨k, _, _, a1, a2, a3, a4, a5, a6⟩

end Transform

/-! ### The walk over a document -/

namespace Transform

theorem walkLoop_succ (w : Bool) (F b fuel : Nat) (h : Heap) (n : Nat) (cfc : Bool) :
    walkLoop w F b (fuel + 1) h (some n) cfc =
      if n = b then some h
      else (visitNode w F h n).bind fun h1 =>
        walkLoop w F b fuel h1 (walkNext h1 n cfc).1 (walkNext h1 n cfc).2 := by
  simp only [walkLoop]
  split
  · rfl
  · cases visitNode w F h n <;> rfl

theorem walkLoop_none (w : Bool) (F b fuel : Nat) (h : Heap) (cfc : Bool) :
    walkLoop w F b (fuel + 1) h none cfc = some h := rfl

/-- A turn of the walk on a node that is not hoisted. -/
theorem walkLoop_skip {w : Bool} {F b : Nat} {h : Heap} {root i : Nat} {path : List Frame}
    {lf cs rt : Forest} (hd : IsDocW h root (plug path (lf.append (.cons i cs rt))))
    (hib : i ≠ b) (hi : (h.node i).type = "image" → path = []) (cfc : Bool) (fuel : Nat) :
    walkLoop w F b (fuel + 1) h (some i) cfc =
      if (cs.headOr none).isSome ∧ cfc = false then walkLoop w F b fuel h (cs.headOr none) false
      else if (rt.headOr none).isSome then walkLoop w F b fuel h (rt.headOr none) false
      else walkLoop w F b fuel h (some (parentOf root path)) true := by
  rw [walkLoop_succ, if_neg hib, visitNode_skip hd hi]
  simp only [Option.some_bind, walkNext_eq hd]
  split
  · rfl
  · split <;> rfl

/-- The walk at the root, which it reaches after the last top-level node. -/
theorem walkLoop_root {w : Bool} {F b : Nat} {h : Heap} {root : Nat} {top : Forest}
    (hd : IsDocW h root top) (hb : root ≠ b) (fuel : Nat) :
    walkLoop w F b (fuel + 2) h (some root) true = some h := by
  rw [walkLoop_succ, if_neg hb]
  have hv : visitNode w F h root = some h := by
    unfold visitNode
    rw [if_neg (by rw [hd.rootType]; decide)]
  rw [hv]
  simp only [Option.some_bind]
  have hn : walkNext h root true = (none, true) := by
    unfold walkNext
    simp [hd.rootNext, hd.rootParent]
  rw [hn]
  rfl

theorem Grown.reflGrown {h : Heap} {root : Nat} {top : Forest} (hd : IsDocW h root top) :
    Grown h top h top := by
  refine ⟨le_refl _, fun _ _ => rfl, ?_, ?_⟩
  · rw [List.filter_eq_self]
    intro j hj
    simpa using hd.bound j (by simp [hj])
  · intro j hj hge
    have := hd.bound j (by simp [hj])
    omega

theorem Grown.transGrown {h k l : Heap} {top top' top'' : Forest}
    (a : Grown h top k top') (b : Grown k top' l top'') :
    Grown h top l top'' := by
  refine ⟨le_trans a.size_le b.size_le, ?_, ?_, ?_⟩
  · intro j hj
    rw [b.payload j (lt_of_lt_of_le hj a.size_le), a.payload j hj]
  · have key : top''.ids.filter (fun j => decide (j < h.size))
        = (top''.ids.filter (fun j => decide (j < k.size))).filter
            (fun j => decide (j < h.size)) := by
      rw [List.filter_filter]
      congr 1
      funext j
      have := a.size_le
      simp only [Bool.and_eq_decide, decide_eq_decide]
      constructor
      · intro hj; exact ⟨hj, by omega⟩
      · intro hj; exact hj.1
    rw [key, b.order, a.order]
  · intro j hj hge
    by_cases hjk : j < k.size
    · have hj' : j ∈ top'.ids := by
        have : j ∈ top''.ids.filter (fun j => decide (j < k.size)) := by
          rw [List.mem_filter]; exact ⟨hj, by simpa using hjk⟩
        rwa [b.order] at this
      obtain ⟨x, hx, e⟩ := a.copies j hj' hge
      exact ⟨x, hx, by rw [b.payload j hjk, e]⟩
    · obtain ⟨x, hx, e⟩ := b.copies j hj (by omega)
      by_cases hxh : x < h.size
      · have hx' : x ∈ top.ids := by
          have : x ∈ top'.ids.filter (fun j => decide (j < h.size)) := by
            rw [List.mem_filter]; exact ⟨hx, by simpa using hxh⟩
          rwa [a.order] at this
        exact ⟨x, hx', by rw [e, a.payload x hxh]⟩
      · obtain ⟨y, hy, e'⟩ := a.copies x hx (by omega)
        refine ⟨y, hy, ?_⟩
        rw [e, e']

end Transform

/-! ### More fuel does not change a result -/

namespace Transform

theorem getLastSibling_mono {h : Heap} {F F' : Nat} {s r : Option Nat}
    (e : getLastSibling h F s = some r) (hF : F ≤ F') : getLastSibling h F' s = some r := by
  induction F generalizing F' s with
  | zero =>
    cases s with
    | none => cases F' <;> exact e
    | some s => simp [getLastSibling] at e
  | succ F ih =>
    obtain ⟨G, rfl⟩ : ∃ G, F' = G + 1 := ⟨F' - 1, by omega⟩
    cases s with
    | none => exact e
    | some s =>
      simp only [getLastSibling] at e ⊢
      cases hn : (h.node s).next with
      | none => rw [hn] at e; exact e
      | some n => rw [hn] at e; exact ih e (by omega)

theorem assignParents_mono {c : Nat} {h r : Heap} {F F' : Nat} {s : Option Nat}
    (e : assignParents c F h s = some r) (hF : F ≤ F') : assignParents c F' h s = some r := by
  induction F generalizing F' s h with
  | zero =>
    cases s with
    | none => cases F' <;> exact e
    | some s => simp [assignParents] at e
  | succ F ih =>
    obtain ⟨G, rfl⟩ : ∃ G, F' = G + 1 := ⟨F' - 1, by omega⟩
    cases s with
    | none => exact e
    | some s =>
      simp only [assignParents] at e ⊢
      exact ih e (by omega)

theorem makeCopy_mono {h r : Heap} {F F' : Nat} {p : Nat} {prev next : Option Nat}
    (e : makeCopy F h p prev next = some r) (hF : F ≤ F') :
    makeCopy F' h p prev next = some r := by
  unfold makeCopy at e ⊢
  simp only [Option.bind_eq_bind] at e ⊢
  cases h1 : getLastSibling (((h.alloc
      { copyNodeWithoutNeighbors (h.node p) with continuation := true })).setFirstChild
      h.size next) F next with
  | none => rw [h1] at e; simp at e
  | some last =>
    rw [h1] at e
    rw [getLastSibling_mono h1 hF]
    simp only [Option.some_bind] at e ⊢
    exact assignParents_mono e hF

theorem splitBody_mono {w : Bool} {h : Heap} {r : SplitState} {F F' : Nat} {p : Nat}
    {prev next : Option Nat} (e : splitBody w F h p prev next = some r) (hF : F ≤ F') :
    splitBody w F' h p prev next = some r := by
  unfold splitBody at e ⊢
  split
  · next hc =>
    rw [if_pos hc] at e
    simp only [Option.bind_eq_bind] at e ⊢
    cases h1 : makeCopy F h p prev next with
    | none => rw [h1] at e; simp at e
    | some h5 =>
      rw [h1] at e
      rw [makeCopy_mono h1 hF]
      exact e
  · next hc =>
    rw [if_neg hc] at e
    exact e

theorem splitLoop_mono {w : Bool} {F F' : Nat} (hF : F ≤ F') {fuel : Nat} :
    ∀ {fuel' : Nat} {s r : SplitState}, splitLoop w F fuel s = some r → fuel ≤ fuel' →
      splitLoop w F' fuel' s = some r := by
  induction fuel with
  | zero => intro fuel' s r e; simp [splitLoop] at e
  | succ fuel ih =>
    intro fuel' s r e hfuel
    obtain ⟨G, rfl⟩ : ∃ G, fuel' = G + 1 := ⟨fuel' - 1, by omega⟩
    rw [splitLoop_succ] at e ⊢
    cases hp : s.parent with
    | none => rw [hp] at e; exact e
    | some p =>
      rw [hp] at e
      simp only at e ⊢
      split
      · next ht => rw [if_pos ht] at e; exact e
      · next ht =>
        rw [if_neg ht] at e
        cases h1 : splitBody w F s.heap p s.prev s.next with
        | none => rw [h1] at e; simp at e
        | some s1 =>
          rw [h1] at e
          rw [splitBody_mono h1 hF]
          simp only [Option.some_bind] at e ⊢
          exact ih e (by omega)

theorem hoistImage_mono {w : Bool} {h r : Heap} {F F' : Nat} {i p : Nat}
    (e : hoistImage w F h i p = some r) (hF : F ≤ F') : hoistImage w F' h i p = some r := by
  unfold hoistImage at e ⊢
  simp only [Option.bind_eq_bind] at e ⊢
  cases h1 : splitLoop w F F ⟨detachImage h i p, some p, (h.node i).prev, (h.node i).next⟩ with
  | none => rw [h1] at e; simp at e
  | some s =>
    rw [h1] at e
    rw [splitLoop_mono hF h1 hF]
    exact e

theorem visitNode_mono {w : Bool} {h r : Heap} {F F' : Nat} {i : Nat}
    (e : visitNode w F h i = some r) (hF : F ≤ F') : visitNode w F' h i = some r := by
  unfold visitNode at e ⊢
  split
  · next ht =>
    rw [if_pos ht] at e
    cases hp : (h.node i).parent with
    | none => rw [hp] at e; simp at e
    | some p =>
      rw [hp] at e
      simp only at e ⊢
      split
      · next hd => rw [if_pos hd] at e; exact hoistImage_mono e hF
      · next hd => rw [if_neg hd] at e; exact e
  · next ht => rw [if_neg ht] at e; exact e

end Transform

/-! ### The walk over a document: the main induction -/

namespace Transform

theorem WalkPost.of_step {w : Bool} {root b : Nat} {h : Heap} {top : Forest}
    {anc anc' : List Nat} {i i' : Nat} {cfc cfc' : Bool}
    (hstep : ∀ F fuel, walkLoop w F b (fuel + 1) h (some i) cfc
      = walkLoop w F b fuel h (some i') cfc')
    (hanc : ∀ a ∈ anc', a = b → a ∈ anc)
    (hp : WalkPost w root b h top anc' i' cfc') : WalkPost w root b h top anc i cfc := by
  obtain ⟨k, top', h1, h2, h3, h4, h5, F0, h6⟩ := hp
  refine ⟨k, top', h1, h2, h3, h4, ?_, F0 + 1, ?_⟩
  · rcases h5 with ⟨a, b', c, d⟩ | h5
    · exact Or.inl ⟨a, b', hanc _ c rfl, d⟩
    · exact Or.inr h5
  · intro F fuel hF hfuel
    obtain ⟨f, rfl⟩ : ∃ f, fuel = f + 1 := ⟨fuel - 1, by omega⟩
    rw [hstep]
    exact h6 F f (by omega) (by omega)

theorem root_not_mem_of_doc {h : Heap} {root : Nat} {top : Forest} (hd : IsDocW h root top) :
    root ∉ top.ids := (List.nodup_cons.mp hd.nodup).1

theorem ne_of_mem_roots {h : Heap} {root b : Nat} {top : Forest} (hd : IsDocW h root top)
    (hb : b ∈ top.roots) : root ≠ b :=
  fun e => root_not_mem_of_doc hd (e ▸ Forest.roots_subset_ids _ _ hb)

/-- The node at the cursor is not the block of the walk. -/
theorem cursor_ne_block {path : List Frame} {lf cs rt : Forest} {i b : Nat}
    (nd : (plug path (lf.append (.cons i cs rt))).ids.Nodup)
    (hb : b ∈ pathBefore path ++ lf.ids) : i ≠ b := by
  rintro rfl
  rw [ids_plug] at nd
  have hc := List.nodup_iff_count_le_one.mp nd i
  simp only [Forest.ids_append, Forest.ids_cons, List.count_append, List.count_cons_self] at hc
  have : 0 < (pathBefore path ++ lf.ids).count i := List.count_pos_iff.mpr hb
  simp only [List.count_append] at this
  omega

theorem walkWeight_down (path : List Frame) (i : Nat) (lf rt ccs crest : Forest) (c : Nat) :
    walkWeight (⟨i, lf, rt⟩ :: path) ccs crest false + 1
      = walkWeight path (.cons c ccs crest) rt false := by
  simp only [walkWeight, pathWeight, Forest.size_cons, Bool.false_eq_true, if_false]
  omega

theorem walkWeight_right (path : List Frame) (cs rcs rrest : Forest) (r : Nat) (cfc : Bool) :
    walkWeight path rcs rrest false < walkWeight path cs (.cons r rcs rrest) cfc := by
  simp only [walkWeight, Forest.size_cons]
  cases cfc
  · simp only [Bool.false_eq_true, if_false]; omega
  · simp only [Bool.false_eq_true, if_false, if_true]; omega

theorem walkWeight_up (fr : Frame) (rest : List Frame) (cs ncs : Forest) (cfc : Bool) :
    walkWeight rest ncs fr.right true < walkWeight (fr :: rest) cs .nil cfc := by
  simp only [walkWeight, pathWeight, Forest.size_nil]
  cases cfc
  · simp only [Bool.false_eq_true, if_false, if_true]; omega
  · simp only [if_true]; omega

end Transform

/-! ### The walk over a document -/

namespace Transform

/-- The walk from any position of a document: by induction on the number of
images that lie deep and, between two hoists, on the number of turns left. -/
theorem walk_spec (w : Bool) (root b : Nat) : ∀ (M μ : Nat) (h : Heap) (path : List Frame)
    (lf : Forest) (i : Nat) (cs rt : Forest) (cfc : Bool),
    IsDocW h root (plug path (lf.append (.cons i cs rt))) →
    (∀ j ∈ doneIds path lf i cs cfc, (h.node j).type = "image" →
      j ∈ (plug path (lf.append (.cons i cs rt))).roots) →
    b ∈ pathBefore path ++ lf.ids → b ∈ (plug path (lf.append (.cons i cs rt))).roots →
    deepImages h (plug path (lf.append (.cons i cs rt))) ≤ M → walkWeight path cs rt cfc ≤ μ →
    WalkPost w root b h (plug path (lf.append (.cons i cs rt))) (path.map Frame.id) i cfc := by
  intro M
  induction M using Nat.strong_induction_on with
  | _ M ihM =>
  intro μ
  induction μ using Nat.strong_induction_on with
  | _ μ ihμ =>
  intro h path lf i cs rt cfc hd hdone hb1 hb2 hM hμ
  have hnd : (plug path (lf.append (.cons i cs rt))).ids.Nodup := hd.nodup.of_cons
  have hib : i ≠ b := cursor_ne_block hnd hb1
  by_cases hcase : (h.node i).type = "image" ∧ path ≠ []
  · obtain ⟨hi, hp⟩ := hcase
    obtain ⟨fr, rest, rfl⟩ : ∃ fr rest, path = fr :: rest := List.exists_cons_of_ne_nil hp
    have hcfc : cfc = false := by
      cases cfc with
      | false => rfl
      | true =>
        exfalso
        have hm := hdone i (by simp [doneIds]) hi
        exact not_mem_roots_plug hnd (by simp) hm
    subst hcfc
    obtain ⟨k1, lk, rk, ev, inv1, hg, hlt, hroots, hleft⟩ :=
      hoist_step (w := w) (F := h.size) ⟨hd, hdone⟩ hi (le_refl _)
    have hb1' : b ∈ pathBefore [] ++ lk.ids := by
      rw [hleft]; simpa [pathBefore] using hb1
    have hb2' : b ∈ (plug [] (lk.append (.cons i cs rk))).roots := by
      simp only [plug, Forest.roots_append, Forest.roots_cons, List.mem_append, List.mem_cons]
      rcases hroots b hb2 with hh | hh
      · exact Or.inl hh
      · exact Or.inr (Or.inr hh)
    obtain ⟨k, top', p1, p2, p3, p4, p5, F0, p6⟩ :=
      ihM (deepImages k1 (lk.append (.cons i cs rk))) (lt_of_lt_of_le hlt hM)
        (walkWeight [] cs rk false) k1 [] lk i cs rk false inv1.doc inv1.done hb1' hb2'
        (le_refl _) (le_refl _)
    refine ⟨k, top', p1, hg.transGrown p2, p3, ?_, Or.inr ?_, max (F0 + 1) h.size, ?_⟩
    · intro hall
      have := deepImages_eq_zero.mpr hall
      omega
    · rcases p5 with ⟨_, _, hmem, _⟩ | p5
      · simp at hmem
      · exact p5
    · intro F fuel hF hfuel
      obtain ⟨f, rfl⟩ : ∃ f, fuel = f + 1 := ⟨fuel - 1, by omega⟩
      have e1 : visitNode w F h i = some k1 := visitNode_mono ev (by omega)
      have e2 : visitNode w F k1 i = some k1 :=
        @visitNode_skip w F k1 root i [] lk cs rk inv1.doc (fun _ => rfl)
      have e3 := p6 F (f + 1) (by omega) (by omega)
      rw [walkLoop_succ, if_neg hib, e2] at e3
      rw [walkLoop_succ, if_neg hib, e1]
      exact e3
  · have hi : (h.node i).type = "image" → path = [] := by
      intro ht; by_contra hne; exact hcase ⟨ht, hne⟩
    have hstep := fun F fuel => @walkLoop_skip w F b h root i path lf cs rt hd hib hi cfc fuel
    have hpre : ∀ j, j ∈ pathBefore path ∨ j ∈ lf.ids ∨ j = i → (h.node j).type = "image" →
        j ∈ (plug path (lf.append (.cons i cs rt))).roots := by
      intro j hj ht
      rcases hj with hj | hj | rfl
      · exact hdone j (by simp [doneIds, hj]) ht
      · exact hdone j (by simp [doneIds, hj]) ht
      · have := hi ht
        subst this
        simp [plug]
    by_cases ha : (cs.headOr none).isSome ∧ cfc = false
    · obtain ⟨hcs, rfl⟩ := ha
      cases cs with
      | nil => simp at hcs
      | cons c ccs crest =>
        have hpl : plug (⟨i, lf, rt⟩ :: path) (Forest.nil.append (.cons c ccs crest))
            = plug path (lf.append (.cons i (.cons c ccs crest) rt)) := by
          simp [plug]
        rw [← hpl] at hd hb2 hM hpre ⊢
        have hpost := ihμ (walkWeight (⟨i, lf, rt⟩ :: path) ccs crest false)
          (by have := walkWeight_down path i lf rt ccs crest c; omega)
          h (⟨i, lf, rt⟩ :: path) .nil c ccs crest false hd
          (by
            intro j hj ht
            simp only [doneIds, pathBefore, Forest.ids_nil, List.append_nil, Bool.false_eq_true,
              if_false, List.mem_append, List.mem_singleton] at hj
            exact hpre j (by tauto) ht)
          (by
            simp only [pathBefore, Forest.ids_nil, List.append_nil, List.mem_append,
              List.mem_singleton]
            simp only [List.mem_append] at hb1
            tauto)
          hb2 hM (le_refl _)
        refine WalkPost.of_step ?_ ?_ hpost
        · intro F fuel
          rw [hstep, if_pos ⟨hcs, rfl⟩]
          rfl
        · intro a ha' hab
          simp only [List.map_cons, List.mem_cons] at ha'
          rcases ha' with rfl | ha'
          · exact absurd hab hib
          · exact ha'
    · have hsub : ∀ j ∈ cs.ids, (h.node j).type = "image" →
          j ∈ (plug path (lf.append (.cons i cs rt))).roots := by
        intro j hj ht
        cases cfc with
        | true => exact hdone j (by simp [doneIds, hj]) ht
        | false =>
          have hn : cs.headOr none = none := by
            cases hh : cs.headOr none with
            | none => rfl
            | some x => exact absurd ⟨by simp [hh], rfl⟩ ha
          rw [Forest.headOr_eq_none hn] at hj
          simp at hj
      simp only [if_neg ha] at hstep
      cases rt with
      | cons r rcs rrest =>
        have hpl : plug path ((lf.append (.cons i cs .nil)).append (.cons r rcs rrest))
            = plug path (lf.append (.cons i cs (.cons r rcs rrest))) := by
          rw [Forest.append_assoc]; rfl
        rw [← hpl] at hd hb2 hM hpre hsub ⊢
        have hpost := ihμ (walkWeight path rcs rrest false)
          (lt_of_lt_of_le (walkWeight_right path cs rcs rrest r cfc) hμ)
          h path (lf.append (.cons i cs .nil)) r rcs rrest false hd
          (by
            intro j hj ht
            simp only [doneIds, Forest.ids_append, Forest.ids_cons, Forest.ids_nil,
              List.append_nil, Bool.false_eq_true, if_false, List.mem_append, List.mem_cons] at hj
            have hj' : (j ∈ pathBefore path ∨ j ∈ lf.ids ∨ j = i) ∨ j ∈ cs.ids := by
              tauto
            rcases hj' with hj' | hj'
            · exact hpre j hj' ht
            · exact hsub j hj' ht)
          (by
            simp only [Forest.ids_append, List.mem_append] at hb1 ⊢
            tauto)
          hb2 hM (le_refl _)
        refine WalkPost.of_step ?_ (fun a ha' _ => ha') hpost
        intro F fuel
        rw [hstep]
        simp
      | nil =>
        simp only [Forest.headOr_nil, Option.isSome_none, Bool.false_eq_true, if_false] at hstep
        cases path with
        | nil =>
          refine ⟨h, _, hd, Grown.reflGrown hd, hb2, fun _ => ⟨rfl, rfl⟩, Or.inr ?_, 3, ?_⟩
          · intro j hj ht
            simp only [plug, Forest.ids_append, Forest.ids_cons, Forest.ids_nil, List.append_nil,
              List.mem_append, List.mem_cons] at hj
            rcases hj with hj | hj | hj
            · exact hpre j (Or.inr (Or.inl hj)) ht
            · exact hpre j (Or.inr (Or.inr hj)) ht
            · exact hsub j hj ht
          · intro F fuel _ hfuel
            obtain ⟨f, rfl⟩ : ∃ f, fuel = f + 3 := ⟨fuel - 3, by omega⟩
            rw [hstep]
            exact walkLoop_root hd (ne_of_mem_roots hd hb2) f
        | cons fr rest =>
          by_cases hfb : fr.id = b
          · cases rest with
            | cons fr' rest' =>
              exfalso
              have hmem : fr.id ∈ (fr.left.append
                  (.cons fr.id (lf.append (.cons i cs .nil)) fr.right)).ids := by simp
              have hb2' : fr.id ∈ (plug (fr :: fr' :: rest')
                  (lf.append (.cons i cs .nil))).roots := by
                rw [hfb]; exact hb2
              exact @not_mem_roots_plug fr' rest' _ hnd fr.id hmem hb2'
            | nil =>
              refine ⟨h, _, hd, Grown.reflGrown hd, hb2, fun _ => ⟨rfl, rfl⟩, Or.inl ?_, 2, ?_⟩
              · refine ⟨rfl, rfl, by simp [hfb], fr.left, lf.append (.cons i cs .nil), fr.right,
                  by rw [← hfb]; rfl, ?_⟩
                intro j hj ht
                simp only [Forest.ids_append, Forest.ids_cons, Forest.ids_nil, List.append_nil,
                  List.mem_append, List.mem_cons] at hj
                rcases hj with hj | hj | hj | hj | hj
                · exact hpre j (Or.inl (by simp [pathBefore, hj])) ht
                · exact hpre j (Or.inl (by simp [pathBefore, hj, hfb])) ht
                · exact hpre j (Or.inr (Or.inl hj)) ht
                · exact hpre j (Or.inr (Or.inr hj)) ht
                · exact hsub j hj ht
              · intro F fuel _ hfuel
                obtain ⟨f, rfl⟩ : ∃ f, fuel = f + 2 := ⟨fuel - 2, by omega⟩
                rw [hstep, walkLoop_succ]
                simp only [parentOf]
                rw [if_pos hfb]
          · have hpost := ihμ (walkWeight rest (lf.append (.cons i cs .nil)) fr.right true)
              (lt_of_lt_of_le (walkWeight_up fr rest cs (lf.append (.cons i cs .nil)) cfc) hμ)
              h rest fr.left fr.id (lf.append (.cons i cs .nil)) fr.right true hd
              (by
                intro j hj ht
                simp only [doneIds, Forest.ids_append, Forest.ids_cons, Forest.ids_nil,
                  List.append_nil, if_true, List.mem_append, List.mem_cons] at hj
                rcases hj with (hj | hj) | hj | hj | hj | hj
                · exact hpre j (Or.inl (by simp [pathBefore, hj])) ht
                · exact hpre j (Or.inl (by simp [pathBefore, hj])) ht
                · exact hpre j (Or.inl (by simp [pathBefore, hj])) ht
                · exact hpre j (Or.inr (Or.inl hj)) ht
                · exact hpre j (Or.inr (Or.inr hj)) ht
                · exact hsub j hj ht)
              (by
                simp only [pathBefore, List.mem_append, List.mem_singleton] at hb1 ⊢
                rcases hb1 with ((hj | hj) | hj) | hj
                · exact Or.inl hj
                · exact Or.inr hj
                · exact absurd hj.symm hfb
                · exfalso
                  exact not_mem_roots_plug hnd (by simp [hj]) hb2)
              hb2 hM (le_refl _)
            refine WalkPost.of_step ?_ ?_ hpost
            · intro F fuel
              rw [hstep]
              rfl
            · intro a ha' _
              simp [ha']

end Transform

/-! ### The loop over the blocks, and `pullOutImages` -/

namespace Transform

theorem Forest.exists_split {x : Forest} {b : Nat} (hb : b ∈ x.roots) :
    ∃ pre bcs post : Forest, x = pre.append (.cons b bcs post) := by
  induction x with
  | nil => simp at hb
  | cons j cs rest _ ih =>
    simp only [Forest.roots_cons, List.mem_cons] at hb
    rcases hb with rfl | hb
    · exact ⟨.nil, cs, rest, rfl⟩
    · obtain ⟨pre, bcs, post, e⟩ := ih hb
      exact ⟨.cons j cs pre, bcs, post, by rw [e]; rfl⟩

/-- A chain without repetition splits in one way only around the subtree
that holds a given node. -/
theorem Forest.split_unique {x : Forest} : ∀ {x' c c' z z' : Forest} {a a' t : Nat},
    x.append (.cons a c z) = x'.append (.cons a' c' z') →
    (x.append (.cons a c z)).ids.Nodup → t ∈ a :: c.ids → t ∈ a' :: c'.ids →
    x = x' ∧ a = a' ∧ c = c' ∧ z = z' := by
  induction x with
  | nil =>
    intro x' c c' z z' a a' t e nd ht ht'
    cases x' with
    | nil =>
      simp only [Forest.nil_append, Forest.cons.injEq] at e
      exact ⟨rfl, e⟩
    | cons j cj r' =>
      exfalso
      simp only [Forest.nil_append, Forest.cons_append, Forest.cons.injEq] at e
      obtain ⟨rfl, rfl, rfl⟩ := e
      simp only [Forest.nil_append, Forest.ids_cons, Forest.ids_append] at nd
      have hc := List.nodup_iff_count_le_one.mp nd t
      have h1 : 0 < (a :: c.ids).count t := List.count_pos_iff.mpr ht
      have h2 : 0 < (a' :: c'.ids).count t := List.count_pos_iff.mpr ht'
      simp only [List.count_cons, List.count_append] at hc h1 h2
      omega
  | cons j cj r _ ih =>
    intro x' c c' z z' a a' t e nd ht ht'
    cases x' with
    | nil =>
      exfalso
      simp only [Forest.nil_append, Forest.cons_append, Forest.cons.injEq] at e
      obtain ⟨rfl, rfl, rfl⟩ := e
      simp only [Forest.cons_append, Forest.ids_cons, Forest.ids_append] at nd
      have hc := List.nodup_iff_count_le_one.mp nd t
      have h1 : 0 < (a :: c.ids).count t := List.count_pos_iff.mpr ht
      have h2 : 0 < (j :: cj.ids).count t := List.count_pos_iff.mpr ht'
      simp only [List.count_cons, List.count_append] at hc h1 h2
      omega
    | cons j' cj' r' =>
      simp only [Forest.cons_append, Forest.cons.injEq] at e
      obtain ⟨rfl, rfl, e⟩ := e
      simp only [Forest.cons_append, Forest.ids_cons] at nd
      have nd' : (r.append (.cons a c z)).ids.Nodup :=
        (List.nodup_append.mp (List.nodup_cons.mp nd).2).2.1
      obtain ⟨rfl, q⟩ := ih e nd' ht ht'
      exact ⟨rfl, q⟩

theorem blockLoop_succ (w : Bool) (F fuel : Nat) (h : Heap) (b : Nat) :
    blockLoop w F (fuel + 1) h (some b) =
      (walkLoop w F b F h (h.node b).firstChild false).bind fun h1 =>
        blockLoop w F fuel h1 (h1.node b).next := by
  simp only [blockLoop]
  cases walkLoop w F b F h (h.node b).firstChild false <;> rfl

/-- The links of a child of the root. -/
theorem IsDocW.block {h : Heap} {root b : Nat} {pre bcs post : Forest}
    (hd : IsDocW h root (pre.append (.cons b bcs post))) :
    (h.node b).firstChild = bcs.headOr none ∧ (h.node b).next = post.headOr none := by
  have hd' : IsDocW h root (plug [] (pre.append (.cons b bcs post))) := hd
  obtain ⟨_, _, _, _, hn, hf, _⟩ := hd'.position
  exact ⟨hf, hn⟩

/-- The walk of one block. -/
theorem walk_block (w : Bool) {h : Heap} {root b : Nat} {pre bcs post : Forest}
    (hd : IsDocW h root (pre.append (.cons b bcs post)))
    (hpre : ∀ j ∈ pre.ids, (h.node j).type = "image" →
      j ∈ (pre.append (.cons b bcs post)).roots) :
    ∃ k top', IsDocW k root top' ∧ Grown h (pre.append (.cons b bcs post)) k top' ∧
      b ∈ top'.roots ∧
      (AllTop h (pre.append (.cons b bcs post)) → k = h ∧ top' = pre.append (.cons b bcs post)) ∧
      ((k = h ∧ top' = pre.append (.cons b bcs post) ∧
          ∀ j ∈ pre.ids ++ b :: bcs.ids, (h.node j).type = "image" →
            j ∈ (pre.append (.cons b bcs post)).roots) ∨ AllTop k top') ∧
      ∃ F0, ∀ F, F0 ≤ F → walkLoop w F b F h (h.node b).firstChild false = some k := by
  have hbroot : b ∈ (pre.append (.cons b bcs post)).roots := by simp
  rw [hd.block.1]
  cases bcs with
  | nil =>
    refine ⟨h, _, hd, Grown.reflGrown hd, hbroot, fun _ => ⟨rfl, rfl⟩, Or.inl ⟨rfl, rfl, ?_⟩, 1, ?_⟩
    · intro j hj ht
      simp only [Forest.ids_nil, List.mem_append, List.mem_cons, List.not_mem_nil, or_false] at hj
      rcases hj with hj | rfl
      · exact hpre j hj ht
      · exact hbroot
    · intro F hF
      obtain ⟨f, rfl⟩ : ∃ f, F = f + 1 := ⟨F - 1, by omega⟩
      rfl
  | cons c ccs crest =>
    have hd' : IsDocW h root (plug [⟨b, pre, post⟩] (Forest.nil.append (.cons c ccs crest))) := hd
    obtain ⟨k, top', p1, p2, p3, p4, p5, F0, p6⟩ :=
      walk_spec w root b _ _ h [⟨b, pre, post⟩] .nil c ccs crest false hd'
        (by
          intro j hj ht
          simp only [doneIds, pathBefore, Forest.ids_nil, List.append_nil, List.nil_append,
            Bool.false_eq_true, if_false, List.mem_append, List.mem_singleton] at hj
          rcases hj with hj | rfl
          · exact hpre j hj ht
          · exact hbroot)
        (by simp [pathBefore]) hbroot (le_refl _) (le_refl _)
    refine ⟨k, top', p1, p2, p3, p4, ?_, F0, fun F hF => p6 F F hF hF⟩
    rcases p5 with ⟨e1, e2, _, pre', bcs', post', e3, hA⟩ | p5
    · refine Or.inl ⟨e1, e2, ?_⟩
      have e3' : pre.append (.cons b (.cons c ccs crest) post) = pre'.append (.cons b bcs' post') :=
        e3
      obtain ⟨rfl, _, rfl, _⟩ := Forest.split_unique e3' hd.nodup.of_cons
        (List.mem_cons_self b _) (List.mem_cons_self b _)
      exact hA
    · exact Or.inr p5

/-- The loop over the blocks from any child of the root on: by induction on
the number of images that lie deep and on the number of blocks left. -/
theorem blockLoop_spec (w : Bool) (root : Nat) : ∀ (M n : Nat) (h : Heap) (pre post : Forest),
    IsDocW h root (pre.append post) →
    (∀ j ∈ pre.ids, (h.node j).type = "image" → j ∈ (pre.append post).roots) →
    deepImages h (pre.append post) ≤ M → post.size ≤ n →
    ∃ k top', IsDocW k root top' ∧ Grown h (pre.append post) k top' ∧ AllTop k top' ∧
      (AllTop h (pre.append post) → k = h ∧ top' = pre.append post) ∧
      ∃ F0, ∀ F fuel, F0 ≤ F → F0 ≤ fuel →
        blockLoop w F fuel h (post.headOr none) = some k := by
  intro M
  induction M using Nat.strong_induction_on with
  | _ M ihM =>
  intro n
  induction n using Nat.strong_induction_on with
  | _ n ihn =>
  intro h pre post hd hpre hM hn
  cases post with
  | nil =>
    refine ⟨h, _, hd, Grown.reflGrown hd, ?_, fun _ => ⟨rfl, rfl⟩, 1, ?_⟩
    · intro j hj ht
      exact hpre j (by simpa using hj) ht
    · intro F fuel _ hfuel
      obtain ⟨f, rfl⟩ : ∃ f, fuel = f + 1 := ⟨fuel - 1, by omega⟩
      rfl
  | cons b bcs post2 =>
    obtain ⟨k1, top1, q1, q2, q3, q4, q5, F1, q6⟩ := walk_block w hd hpre
    -- what is left to do once the block has been walked
    have cont : ∀ (pre1 bcs1 post1 : Forest), top1 = pre1.append (.cons b bcs1 post1) →
        (∃ k top', IsDocW k root top' ∧
          Grown k1 ((pre1.append (.cons b bcs1 .nil)).append post1) k top' ∧ AllTop k top' ∧
          (AllTop k1 ((pre1.append (.cons b bcs1 .nil)).append post1) →
            k = k1 ∧ top' = (pre1.append (.cons b bcs1 .nil)).append post1) ∧
          ∃ F0, ∀ F fuel, F0 ≤ F → F0 ≤ fuel →
            blockLoop w F fuel k1 (post1.headOr none) = some k) →
        ∃ k top', IsDocW k root top' ∧ Grown h (pre.append (.cons b bcs post2)) k top' ∧
          AllTop k top' ∧
          (AllTop h (pre.append (.cons b bcs post2)) →
            k = h ∧ top' = pre.append (.cons b bcs post2)) ∧
          ∃ F0, ∀ F fuel, F0 ≤ F → F0 ≤ fuel →
            blockLoop w F fuel h ((Forest.cons b bcs post2).headOr none) = some k := by
      intro pre1 bcs1 post1 e1 ⟨k, top', r1, r2, r3, r4, F2, r5⟩
      have e2 : (pre1.append (.cons b bcs1 .nil)).append post1 = top1 := by
        rw [e1, Forest.append_assoc]; rfl
      rw [e2] at r2 r4
      refine ⟨k, top', r1, q2.transGrown r2, r3, ?_, max F1 (F2 + 1), ?_⟩
      · intro hall
        obtain ⟨rfl, rfl⟩ := q4 hall
        exact r4 hall
      · intro F fuel hF hfuel
        obtain ⟨f, rfl⟩ : ∃ f, fuel = f + 1 := ⟨fuel - 1, by omega⟩
        rw [Forest.headOr_cons, blockLoop_succ, q6 F (by omega)]
        simp only [Option.some_bind]
        have hq1 := q1
        rw [e1] at hq1
        rw [hq1.block.2]
        exact r5 F f (by omega) (by omega)
    have hcases : (k1 = h ∧ top1 = pre.append (.cons b bcs post2) ∧
        ∀ j ∈ pre.ids ++ b :: bcs.ids, (h.node j).type = "image" →
          j ∈ (pre.append (.cons b bcs post2)).roots) ∨
        (¬ AllTop h (pre.append (.cons b bcs post2)) ∧ AllTop k1 top1) := by
      by_cases hall : AllTop h (pre.append (.cons b bcs post2))
      · obtain ⟨e1, e2⟩ := q4 hall
        refine Or.inl ⟨e1, e2, fun j hj ht => hall j ?_ ht⟩
        simp only [List.mem_append, List.mem_cons] at hj
        simp only [Forest.ids_append, Forest.ids_cons, List.mem_append, List.mem_cons]
        tauto
      · rcases q5 with q5 | q5
        · exact Or.inl q5
        · exact Or.inr ⟨hall, q5⟩
    rcases hcases with ⟨e1, e2, hA⟩ | ⟨hall, q5⟩
    · subst e1
      apply cont pre bcs post2 e2
      have e3 : (pre.append (.cons b bcs .nil)).append post2 = pre.append (.cons b bcs post2) := by
        rw [Forest.append_assoc]; rfl
      refine ihn post2.size (by simp only [Forest.size_cons] at hn; omega) k1
        (pre.append (.cons b bcs .nil)) post2 (e3 ▸ hd) ?_ (e3 ▸ hM) (le_refl _)
      rw [e3]
      intro j hj ht
      exact hA j (by simpa using hj) ht
    · obtain ⟨pre1, bcs1, post1, e1⟩ := Forest.exists_split q3
      apply cont pre1 bcs1 post1 e1
      have e3 : (pre1.append (.cons b bcs1 .nil)).append post1 = top1 := by
        rw [e1, Forest.append_assoc]; rfl
      have hz : deepImages k1 top1 = 0 := deepImages_eq_zero.mpr q5
      have hpos : deepImages h (pre.append (.cons b bcs post2)) ≠ 0 :=
        fun q => hall (deepImages_eq_zero.mp q)
      refine ihM 0 (by omega) post1.size k1 (pre1.append (.cons b bcs1 .nil)) post1
        (e3 ▸ q1) ?_ (by rw [e3, hz]) (le_refl _)
      rw [e3]
      intro j hj ht
      exact q5 j (by
        rw [e1]
        simp only [Forest.ids_append, Forest.ids_cons, Forest.ids_nil, List.append_nil,
          List.mem_append, List.mem_cons] at hj ⊢
        tauto) ht

/-- The run of `pullOutImages` on a document: with enough fuel it returns,
the heap then holds a document in which every image is a child of the root,
the objects of the input keep their payload and their order, and the heap is
unchanged when every image was a child of the root already. -/
theorem pullOutImages_spec (w : Bool) {h : Heap} {root : Nat} {top : Forest}
    (hd : IsDocW h root top) :
    ∃ k top', IsDocW k root top' ∧ Grown h top k top' ∧ AllTop k top' ∧
      (AllTop h top → k = h ∧ top' = top) ∧
      ∃ F0, ∀ F, F0 ≤ F → pullOutImages w F h root = some k := by
  obtain ⟨k, top', r1, r2, r3, r4, F0, r5⟩ :=
    blockLoop_spec w root _ _ h .nil top hd (by simp) (le_refl _) (le_refl _)
  refine ⟨k, top', r1, r2, r3, r4, F0, fun F hF => ?_⟩
  unfold pullOutImages
  rw [hd.first]
  exact r5 F F hF hF

end Transform

/-! ### Documents with a single image below the top level -/

namespace Transform

theorem countP_le_one_of_nodup {l : List Nat} (hl : l.Nodup) {p : Nat → Bool} {i : Nat}
    (hp : ∀ j ∈ l, p j = true → j = i) : l.countP p ≤ 1 := by
  induction l with
  | nil => simp
  | cons a l ih =>
    rw [List.nodup_cons] at hl
    rw [List.countP_cons]
    by_cases ha : p a = true
    · have hai := hp a (by simp) ha
      have hz : l.countP p = 0 := by
        rw [List.countP_eq_zero]
        intro j hj hpj
        have hji := hp j (by simp [hj]) hpj
        rw [hji, ← hai] at hj
        exact hl.1 hj
      simp [ha, hz]
    · have := ih hl.2 (fun j hj => hp j (by simp [hj]))
      simpa [ha] using this

/-- The walk from an image that is the only one below the top level: the
image is hoisted, and the rest of the walk changes nothing. -/
theorem hoist_finish (w : Bool) {h : Heap} {root b i : Nat} {fr : Frame} {rest : List Frame}
    {lf cs rt : Forest}
    (hd : IsDocW h root (plug (fr :: rest) (lf.append (.cons i cs rt))))
    (hi : (h.node i).type = "image")
    (hone : ∀ j ∈ (plug (fr :: rest) (lf.append (.cons i cs rt))).ids, j ≠ i →
      (h.node j).type = "image" → j ∈ (plug (fr :: rest) (lf.append (.cons i cs rt))).roots)
    (hb1 : b ∈ pathBefore (fr :: rest) ++ lf.ids)
    (hb2 : b ∈ (plug (fr :: rest) (lf.append (.cons i cs rt))).roots) :
    ∃ k, IsDocW k root ((splitUp h.size (fr :: rest) lf rt).1.append
          (.cons i cs (splitUp h.size (fr :: rest) lf rt).2.1)) ∧
      Grown h (plug (fr :: rest) (lf.append (.cons i cs rt))) k
        ((splitUp h.size (fr :: rest) lf rt).1.append
          (.cons i cs (splitUp h.size (fr :: rest) lf rt).2.1)) ∧
      AllTop k ((splitUp h.size (fr :: rest) lf rt).1.append
          (.cons i cs (splitUp h.size (fr :: rest) lf rt).2.1)) ∧
      b ∈ ((splitUp h.size (fr :: rest) lf rt).1.append
          (.cons i cs (splitUp h.size (fr :: rest) lf rt).2.1)).roots ∧
      (∀ p ∈ splitSrc h.size (fr :: rest) rt, copyNodeWithoutNeighbors (k.node p.1)
        = { copyNodeWithoutNeighbors (h.node p.2) with continuation := true }) ∧
      visitNode w h.size h i = some k ∧
      ∃ F0, ∀ F fuel, F0 ≤ F → F0 ≤ fuel → walkLoop w F b fuel h (some i) false = some k := by
  have hnd : (plug (fr :: rest) (lf.append (.cons i cs rt))).ids.Nodup := hd.nodup.of_cons
  have hib : i ≠ b := cursor_ne_block hnd hb1
  have inv : WalkInv h root (fr :: rest) lf i cs rt false := by
    refine ⟨hd, fun j hj ht => hone j ?_ ?_ ht⟩
    · rw [mem_ids_plug]
      simp only [doneIds, Bool.false_eq_true, if_false, List.append_nil, List.mem_append] at hj
      simp only [Forest.ids_append, List.mem_append]
      rcases hj with hj | hj
      · exact Or.inr (mem_pathIds_of_before hj)
      · exact Or.inl (Or.inl hj)
    · simp only [doneIds, Bool.false_eq_true, if_false, List.append_nil] at hj
      exact fun e => cursor_ne_block hnd hj e.symm
  obtain ⟨k1, ev, inv1, hg, hlt, hroots, hleft, hsrc⟩ :=
    hoist_step_at (w := w) (F := h.size) inv hi (le_refl _)
  have hle : deepImages h (plug (fr :: rest) (lf.append (.cons i cs rt))) ≤ 1 := by
    unfold deepImages
    apply countP_le_one_of_nodup hnd (i := i)
    intro j hj hp
    simp only [decide_eq_true_eq] at hp
    by_contra hne
    exact hp.2 (hone j hj hne hp.1)
  have hall : AllTop k1 ((splitUp h.size (fr :: rest) lf rt).1.append
      (.cons i cs (splitUp h.size (fr :: rest) lf rt).2.1)) :=
    deepImages_eq_zero.mp (by omega)
  have hb1' : b ∈ pathBefore [] ++ (splitUp h.size (fr :: rest) lf rt).1.ids := by
    rw [hleft]; simpa [pathBefore] using hb1
  have hb2' : b ∈ ((splitUp h.size (fr :: rest) lf rt).1.append
      (.cons i cs (splitUp h.size (fr :: rest) lf rt).2.1)).roots := by
    simp only [Forest.roots_append, Forest.roots_cons, List.mem_append, List.mem_cons]
    rcases hroots b hb2 with hh | hh
    · exact Or.inl hh
    · exact Or.inr (Or.inr hh)
  obtain ⟨k, top', p1, p2, p3, p4, p5, F0, p6⟩ :=
    walk_spec w root b _ _ k1 [] _ i cs _ false inv1.doc inv1.done hb1' hb2'
      (le_refl _) (le_refl _)
  obtain ⟨rfl, rfl⟩ := p4 hall
  refine ⟨k, inv1.doc, hg, hall, hb2', hsrc, ev, max (F0 + 1) h.size, ?_⟩
  intro F fuel hF hfuel
  obtain ⟨f, rfl⟩ : ∃ f, fuel = f + 1 := ⟨fuel - 1, by omega⟩
  have e1 : visitNode w F h i = some k := visitNode_mono ev (by omega)
  have e2 : visitNode w F k i = some k :=
    @visitNode_skip w F k root i [] _ cs _ inv1.doc (fun _ => rfl)
  have e3 := p6 F (f + 1) (by omega) (by omega)
  rw [walkLoop_succ, if_neg hib, e2] at e3
  rw [walkLoop_succ, if_neg hib, e1]
  exact e3

/-- The run of `pullOutImages` on a document whose only image below the top
level lies in the first block, and is reached from the first child of the
block in `n` turns of the walk: the result is the document with the
ancestors of the image split as `splitUp` says. -/
theorem pull_single (w : Bool) {h : Heap} {root b i : Nat} {fr : Frame} {rest : List Frame}
    {lf cs rt : Forest} {n : Nat}
    (hd : IsDocW h root (plug (fr :: rest) (lf.append (.cons i cs rt))))
    (hi : (h.node i).type = "image")
    (hone : ∀ j ∈ (plug (fr :: rest) (lf.append (.cons i cs rt))).ids, j ≠ i →
      (h.node j).type = "image" → j ∈ (plug (fr :: rest) (lf.append (.cons i cs rt))).roots)
    (hb1 : b ∈ pathBefore (fr :: rest) ++ lf.ids)
    (hfirst : (plug (fr :: rest) (lf.append (.cons i cs rt))).headOr none = some b)
    (hreach : ∀ F fuel, walkLoop w F b (fuel + n) h (h.node b).firstChild false
      = walkLoop w F b fuel h (some i) false) :
    ∃ k, IsDocW k root ((splitUp h.size (fr :: rest) lf rt).1.append
          (.cons i cs (splitUp h.size (fr :: rest) lf rt).2.1)) ∧
      Grown h (plug (fr :: rest) (lf.append (.cons i cs rt))) k
        ((splitUp h.size (fr :: rest) lf rt).1.append
          (.cons i cs (splitUp h.size (fr :: rest) lf rt).2.1)) ∧
      (∀ p ∈ splitSrc h.size (fr :: rest) rt, copyNodeWithoutNeighbors (k.node p.1)
        = { copyNodeWithoutNeighbors (h.node p.2) with continuation := true }) ∧
      ∃ F0, ∀ F, F0 ≤ F → pullOutImages w F h root = some k := by
  have hb2 : b ∈ (plug (fr :: rest) (lf.append (.cons i cs rt))).roots := by
    cases hx : plug (fr :: rest) (lf.append (.cons i cs rt)) with
    | nil => rw [hx] at hfirst; simp at hfirst
    | cons a acs arest =>
      rw [hx] at hfirst
      simp only [Forest.headOr_cons, Option.some.injEq] at hfirst
      simp [hfirst]
  obtain ⟨k, q1, q2, q3, q4, q5, _, F0, q6⟩ := hoist_finish w hd hi hone hb1 hb2
  obtain ⟨pre1, bcs1, post1, e1⟩ := Forest.exists_split q4
  have e3 : (pre1.append (.cons b bcs1 .nil)).append post1
      = (splitUp h.size (fr :: rest) lf rt).1.append
          (.cons i cs (splitUp h.size (fr :: rest) lf rt).2.1) := by
    rw [e1, Forest.append_assoc]; rfl
  have hpre1 : ∀ j ∈ (pre1.append (.cons b bcs1 .nil)).ids, (k.node j).type = "image" →
      j ∈ ((pre1.append (.cons b bcs1 .nil)).append post1).roots := by
    rw [e3]
    intro j hj ht
    refine q3 j ?_ ht
    rw [e1]
    simp only [Forest.ids_append, Forest.ids_cons, Forest.ids_nil, List.append_nil,
      List.mem_append, List.mem_cons] at hj ⊢
    tauto
  obtain ⟨k', top', r1, r2, r3, r4, F1, r5⟩ :=
    blockLoop_spec w root 0 post1.size k (pre1.append (.cons b bcs1 .nil)) post1
      (e3 ▸ q1) hpre1 (by rw [e3]; exact le_of_eq (deepImages_eq_zero.mpr q3)) (le_refl _)
  rw [e3] at r4
  obtain ⟨rfl, _⟩ := r4 q3
  refine ⟨k', q1, q2, q5, max (F0 + n) (F1 + 1), ?_⟩
  intro F hF
  obtain ⟨f, rfl⟩ : ∃ f, F = f + 1 := ⟨F - 1, by omega⟩
  unfold pullOutImages
  rw [hd.first, hfirst, blockLoop_succ]
  obtain ⟨g, hg⟩ : ∃ g, f + 1 = g + n := ⟨f + 1 - n, by omega⟩
  have hw : walkLoop w (f + 1) b (f + 1) h (h.node b).firstChild false = some k' := by
    conv_lhs => rw [show walkLoop w (f + 1) b (f + 1) h (h.node b).firstChild false
      = walkLoop w (f + 1) b (g + n) h (h.node b).firstChild false from by rw [← hg]]
    rw [hreach]
    exact q6 (f + 1) g (by omega) (by omega)
  rw [hw]
  simp only [Option.some_bind]
  have hq1 := q1
  rw [e1] at hq1
  rw [hq1.block.2]
  exact r5 (f + 1) f (by omega) (by omega)

theorem Forest.headOr_isSome (x : Forest) (j : Nat) : (x.headOr (some j)).isSome = true := by
  cases x <;> rfl

theorem roots_leaves (L : List Nat) : (leaves L).roots = L := by
  induction L with
  | nil => rfl
  | cons x xs ih => simp [leaves, ih]

theorem ids_leaves (L : List Nat) : (leaves L).ids = L := by
  induction L with
  | nil => rfl
  | cons x xs ih => simp [leaves, ih]

theorem leaves_ne_nil {L : List Nat} (hL : L ≠ []) : leaves L ≠ .nil := by
  cases L with
  | nil => exact absurd rfl hL
  | cons x xs => simp [leaves]

/-- The walk over a chain of nodes without children, none of them an image,
up to the node `i` that follows them. -/
theorem walk_leaves (w : Bool) {h : Heap} {root b i : Nat} {fr : Frame} {cs rt : Forest} :
    ∀ (L : List Nat) (lf : Forest),
    IsDocW h root (plug [fr] (lf.append ((leaves L).append (.cons i cs rt)))) →
    (∀ j ∈ L, (h.node j).type ≠ "image") → fr.id = b →
    ∀ F fuel, walkLoop w F b (fuel + L.length) h
        (((leaves L).append (.cons i cs rt)).headOr none) false
      = walkLoop w F b fuel h (some i) false := by
  intro L
  induction L with
  | nil => intro lf _ _ _ F fuel; rfl
  | cons x xs ih =>
    intro lf hd hL hb F fuel
    have hd' : IsDocW h root (plug [fr]
        (lf.append (.cons x .nil ((leaves xs).append (.cons i cs rt))))) := hd
    have hxb : x ≠ b := cursor_ne_block hd'.nodup.of_cons (by simp [pathBefore, hb])
    have hstep := @walkLoop_skip w F b h root x [fr] lf .nil
      ((leaves xs).append (.cons i cs rt)) hd' hxb
      (fun ht => absurd ht (hL x (by simp))) false (fuel + xs.length)
    have hsome : (((leaves xs).append (.cons i cs rt)).headOr none).isSome = true := by
      rw [Forest.headOr_append, Forest.headOr_cons]
      exact Forest.headOr_isSome _ _
    simp only [Forest.headOr_nil, Option.isSome_none, Bool.false_eq_true, false_and, if_false,
      hsome, if_true] at hstep
    have e : ((leaves (x :: xs)).append (.cons i cs rt)).headOr none = some x := rfl
    rw [e, List.length_cons, ← Nat.add_assoc, hstep]
    refine ih (lf.append (.cons x .nil .nil)) ?_ (fun j hj => hL j (by simp [hj])) hb F fuel
    have e2 : (lf.append (.cons x .nil .nil)).append ((leaves xs).append (.cons i cs rt))
        = lf.append (.cons x .nil ((leaves xs).append (.cons i cs rt))) := by
      rw [Forest.append_assoc]; rfl
    rw [e2]
    exact hd'

/-- A node of a chain on the heap is a node of the chain itself, or has a
node of the chain as parent. -/
theorem Seg.parent_mem {h : Heap} {x : Forest} {par pv nx : Option Nat}
    (hs : Seg h par pv x nx) : ∀ j ∈ x.ids, j ∈ x.roots ∨ ∃ p ∈ x.ids, (h.node j).parent = some p := by
  induction x generalizing par pv nx with
  | nil => simp
  | cons i cs rest ih1 ih2 =>
    rw [Seg_cons] at hs
    obtain ⟨_, _, _, _, _, h6, h7⟩ := hs
    intro j hj
    simp only [Forest.ids_cons, List.mem_cons, List.mem_append] at hj
    rcases hj with rfl | hj | hj
    · exact Or.inl (by simp)
    · right
      rcases ih1 h6 j hj with q | ⟨p, hp, e⟩
      · exact ⟨i, by simp, Seg.parent_of_mem_roots h6 j q⟩
      · exact ⟨p, by simp [hp], e⟩
    · rcases ih2 h7 j hj with q | ⟨p, hp, e⟩
      · exact Or.inl (by simp [q])
      · exact Or.inr ⟨p, by simp [hp], e⟩

/-- In a document the children of the root are the nodes whose parent is the
root. -/
theorem IsDocW.mem_roots_iff {h : Heap} {root : Nat} {top : Forest} (hd : IsDocW h root top)
    {j : Nat} (hj : j ∈ top.ids) : j ∈ top.roots ↔ (h.node j).parent = some root := by
  constructor
  · exact fun q => Seg.parent_of_mem_roots hd.seg j q
  · intro e
    rcases Seg.parent_mem hd.seg j hj with q | ⟨p, hp, e'⟩
    · exact q
    · rw [e] at e'
      simp only [Option.some.injEq] at e'
      subst e'
      exact absurd hp (root_not_mem_of_doc hd)

end Transform

/-! ### The hoister does not look at the item ordinals -/

namespace Transform

@[simp] theorem Heap.eraseIndices_node (h : Heap) (j : Nat) :
    h.eraseIndices.node j = (h.node j).eraseIndex := rfl

@[simp] theorem Heap.eraseIndices_size (h : Heap) : h.eraseIndices.size = h.size := rfl

@[simp] theorem Node.eraseIndex_parent (n : Node) : n.eraseIndex.parent = n.parent := rfl
@[simp] theorem Node.eraseIndex_firstChild (n : Node) : n.eraseIndex.firstChild = n.firstChild :=
  rfl
@[simp] theorem Node.eraseIndex_lastChild (n : Node) : n.eraseIndex.lastChild = n.lastChild := rfl
@[simp] theorem Node.eraseIndex_prev (n : Node) : n.eraseIndex.prev = n.prev := rfl
@[simp] theorem Node.eraseIndex_next (n : Node) : n.eraseIndex.next = n.next := rfl
@[simp] theorem Node.eraseIndex_type' (n : Node) : n.eraseIndex.type = n.type := rfl

theorem EqUpToIndex_iff (h k : Heap) : EqUpToIndex h k ↔ h.eraseIndices = k.eraseIndices := by
  rw [Heap.ext_iff']
  rfl

theorem Heap.eraseIndices_setParent (h : Heap) (i : Nat) (v : Option Nat) :
    h.eraseIndices.setParent i v = (h.setParent i v).eraseIndices := by
  rw [Heap.ext_iff']
  refine ⟨fun j => ?_, rfl⟩
  simp only [Heap.setParent_node, Heap.eraseIndices_node]
  rfl

theorem Heap.eraseIndices_setFirstChild (h : Heap) (i : Nat) (v : Option Nat) :
    h.eraseIndices.setFirstChild i v = (h.setFirstChild i v).eraseIndices := by
  rw [Heap.ext_iff']
  refine ⟨fun j => ?_, rfl⟩
  simp only [Heap.setFirstChild_node, Heap.eraseIndices_node]
  rfl

theorem Heap.eraseIndices_setLastChild (h : Heap) (i : Nat) (v : Option Nat) :
    h.eraseIndices.setLastChild i v = (h.setLastChild i v).eraseIndices := by
  rw [Heap.ext_iff']
  refine ⟨fun j => ?_, rfl⟩
  simp only [Heap.setLastChild_node, Heap.eraseIndices_node]
  rfl

theorem Heap.eraseIndices_setPrev (h : Heap) (i : Nat) (v : Option Nat) :
    h.eraseIndices.setPrev i v = (h.setPrev i v).eraseIndices := by
  rw [Heap.ext_iff']
  refine ⟨fun j => ?_, rfl⟩
  simp only [Heap.setPrev_node, Heap.eraseIndices_node]
  rfl

theorem Heap.eraseIndices_setNext (h : Heap) (i : Nat) (v : Option Nat) :
    h.eraseIndices.setNext i v = (h.setNext i v).eraseIndices := by
  rw [Heap.ext_iff']
  refine ⟨fun j => ?_, rfl⟩
  simp only [Heap.setNext_node, Heap.eraseIndices_node]
  rfl

theorem Heap.eraseIndices_alloc (h : Heap) (n : Node) :
    h.eraseIndices.alloc n.eraseIndex = (h.alloc n).eraseIndices := by
  rw [Heap.ext_iff']
  refine ⟨fun j => ?_, rfl⟩
  simp only [Heap.alloc_node, Heap.eraseIndices_node, Heap.eraseIndices_size]
  split <;> rfl

theorem getLastSibling_erase (h : Heap) (F : Nat) (s : Option Nat) :
    getLastSibling h.eraseIndices F s = getLastSibling h F s := by
  induction F generalizing s with
  | zero => cases s <;> rfl
  | succ F ih =>
    cases s with
    | none => rfl
    | some s =>
      simp only [getLastSibling, Heap.eraseIndices_node, Node.eraseIndex_next]
      cases (h.node s).next with
      | none => rfl
      | some n => exact ih _

theorem assignParents_erase (c : Nat) (F : Nat) (h : Heap) (s : Option Nat) :
    assignParents c F h.eraseIndices s = (assignParents c F h s).map Heap.eraseIndices := by
  induction F generalizing h s with
  | zero => cases s <;> rfl
  | succ F ih =>
    cases s with
    | none => rfl
    | some s =>
      simp only [assignParents, Heap.eraseIndices_setParent, Heap.eraseIndices_node,
        Node.eraseIndex_next]
      exact ih _ _

theorem makeCopy_erase (F : Nat) (h : Heap) (p : Nat) (prev next : Option Nat) :
    makeCopy F h.eraseIndices p prev next
      = (makeCopy F h p prev next).map Heap.eraseIndices := by
  unfold makeCopy
  have e : ({ copyNodeWithoutNeighbors (h.eraseIndices.node p) with continuation := true } : Node)
      = ({ copyNodeWithoutNeighbors (h.node p) with continuation := true } : Node).eraseIndex :=
    rfl
  simp only [Option.bind_eq_bind, e, Heap.eraseIndices_alloc, Heap.eraseIndices_size,
    Heap.eraseIndices_setFirstChild, getLastSibling_erase]
  cases getLastSibling (((h.alloc
      { copyNodeWithoutNeighbors (h.node p) with continuation := true })).setFirstChild
      h.size next) F next with
  | none => rfl
  | some last =>
    simp only [Option.some_bind, Heap.eraseIndices_setLastChild, Heap.eraseIndices_node,
      Node.eraseIndex_firstChild]
    split
    · simp only [Heap.eraseIndices_setFirstChild, Heap.eraseIndices_setLastChild,
        Heap.eraseIndices_node, Node.eraseIndex_firstChild]
      exact assignParents_erase _ _ _ _
    · simp only [Heap.eraseIndices_setLastChild, Heap.eraseIndices_node,
        Node.eraseIndex_firstChild]
      exact assignParents_erase _ _ _ _

theorem insertCopy_erase (w : Bool) (h : Heap) (p c : Nat) :
    insertCopy w h.eraseIndices p c = (insertCopy w h p c).map Heap.eraseIndices := by
  unfold insertCopy
  simp only [Heap.eraseIndices_node, Node.eraseIndex_next, Node.eraseIndex_parent]
  cases (h.node p).next with
  | some pn =>
    simp only [Heap.eraseIndices_setPrev, Heap.eraseIndices_node, Node.eraseIndex_next,
      Heap.eraseIndices_setNext]
    rfl
  | none =>
    cases (h.node p).parent with
    | none => rfl
    | some g =>
      cases w
      · rfl
      · simp only [if_true, Heap.eraseIndices_setLastChild]; rfl

theorem unlinkSides_erase (h : Heap) (prev next : Option Nat) :
    unlinkSides h.eraseIndices prev next = (unlinkSides h prev next).eraseIndices := by
  unfold unlinkSides
  cases prev <;> cases next <;>
    simp only [Heap.eraseIndices_setNext, Heap.eraseIndices_setPrev]

/-- The state of the ancestor-splitting loop with the item ordinals removed
from the heap. -/
theorem splitBody_erase (w : Bool) (F : Nat) (h : Heap) (p : Nat) (prev next : Option Nat) :
    splitBody w F h.eraseIndices p prev next
      = (splitBody w F h p prev next).map fun s => ⟨s.heap.eraseIndices, s.parent, s.prev, s.next⟩ := by
  unfold splitBody
  simp only [Heap.eraseIndices_node, Node.eraseIndex_next, Heap.eraseIndices_size]
  split
  · simp only [Option.bind_eq_bind, makeCopy_erase]
    cases makeCopy F h p prev next with
    | none => rfl
    | some h5 =>
      simp only [Option.map_some', Option.some_bind, insertCopy_erase]
      cases insertCopy w h5 p h.size with
      | none => rfl
      | some h6 =>
        simp only [Option.map_some', Option.some_bind, unlinkSides_erase,
          Heap.eraseIndices_node, Node.eraseIndex_parent]
  · simp only [unlinkSides_erase, Heap.eraseIndices_node, Node.eraseIndex_parent,
      Option.map_some']

theorem splitLoop_erase (w : Bool) (F : Nat) (fuel : Nat) (s : SplitState) :
    splitLoop w F fuel ⟨s.heap.eraseIndices, s.parent, s.prev, s.next⟩
      = (splitLoop w F fuel s).map fun s => ⟨s.heap.eraseIndices, s.parent, s.prev, s.next⟩ := by
  induction fuel generalizing s with
  | zero => rfl
  | succ fuel ih =>
    obtain ⟨hh, par, pv, nx⟩ := s
    rw [splitLoop_succ, splitLoop_succ]
    cases par with
    | none => rfl
    | some p =>
      simp only [Heap.eraseIndices_node, Node.eraseIndex_type', splitBody_erase]
      split
      · rfl
      · cases splitBody w F hh p pv nx with
        | none => rfl
        | some s1 =>
          simp only [Option.map_some', Option.some_bind]
          exact ih s1

theorem detachImage_erase (h : Heap) (i p : Nat) :
    detachImage h.eraseIndices i p = (detachImage h i p).eraseIndices := by
  unfold detachImage
  simp only [Heap.eraseIndices_node, Node.eraseIndex_next, Node.eraseIndex_prev]
  cases (h.node i).prev <;> cases (h.node i).next <;>
    simp only [Heap.eraseIndices_setNext, Heap.eraseIndices_setPrev, Heap.eraseIndices_node,
      Node.eraseIndex_firstChild, Node.eraseIndex_lastChild] <;>
    split <;>
    simp only [Heap.eraseIndices_setFirstChild, Heap.eraseIndices_node,
      Node.eraseIndex_lastChild] <;>
    split <;> simp only [Heap.eraseIndices_setLastChild]

theorem reinsertImage_erase (s : SplitState) (i : Nat) :
    reinsertImage ⟨s.heap.eraseIndices, s.parent, s.prev, s.next⟩ i
      = (reinsertImage s i).map Heap.eraseIndices := by
  unfold reinsertImage
  cases s.parent with
  | none => rfl
  | some p =>
    cases s.prev with
    | none => rfl
    | some pv =>
      cases s.next <;>
        simp only [Heap.eraseIndices_setParent, Heap.eraseIndices_setLastChild,
          Heap.eraseIndices_setPrev, Heap.eraseIndices_setNext, Option.map_some']

theorem hoistImage_erase (w : Bool) (F : Nat) (h : Heap) (i p : Nat) :
    hoistImage w F h.eraseIndices i p = (hoistImage w F h i p).map Heap.eraseIndices := by
  unfold hoistImage
  simp only [Option.bind_eq_bind, Heap.eraseIndices_node, Node.eraseIndex_next,
    Node.eraseIndex_prev, detachImage_erase]
  have e := splitLoop_erase w F F ⟨detachImage h i p, some p, (h.node i).prev, (h.node i).next⟩
  simp only at e
  rw [e]
  cases splitLoop w F F ⟨detachImage h i p, some p, (h.node i).prev, (h.node i).next⟩ with
  | none => rfl
  | some s =>
    simp only [Option.map_some', Option.some_bind]
    exact reinsertImage_erase s i

theorem visitNode_erase (w : Bool) (F : Nat) (h : Heap) (i : Nat) :
    visitNode w F h.eraseIndices i = (visitNode w F h i).map Heap.eraseIndices := by
  unfold visitNode
  simp only [Heap.eraseIndices_node, Node.eraseIndex_type', Node.eraseIndex_parent]
  split
  · cases (h.node i).parent with
    | none => rfl
    | some p =>
      simp only
      split
      · exact hoistImage_erase w F h i p
      · rfl
  · rfl

theorem walkNext_erase (h : Heap) (i : Nat) (cfc : Bool) :
    walkNext h.eraseIndices i cfc = walkNext h i cfc := rfl

theorem walkLoop_erase (w : Bool) (F b : Nat) (fuel : Nat) (h : Heap) (n : Option Nat)
    (cfc : Bool) :
    walkLoop w F b fuel h.eraseIndices n cfc
      = (walkLoop w F b fuel h n cfc).map Heap.eraseIndices := by
  induction fuel generalizing h n cfc with
  | zero => rfl
  | succ fuel ih =>
    cases n with
    | none => rfl
    | some n =>
      rw [walkLoop_succ, walkLoop_succ]
      split
      · rfl
      · rw [visitNode_erase]
        cases visitNode w F h n with
        | none => rfl
        | some h1 =>
          simp only [Option.map_some', Option.some_bind, walkNext_erase]
          exact ih _ _ _

theorem blockLoop_erase (w : Bool) (F : Nat) (fuel : Nat) (h : Heap) (b : Option Nat) :
    blockLoop w F fuel h.eraseIndices b = (blockLoop w F fuel h b).map Heap.eraseIndices := by
  induction fuel generalizing h b with
  | zero => rfl
  | succ fuel ih =>
    cases b with
    | none => rfl
    | some b =>
      rw [blockLoop_succ, blockLoop_succ]
      simp only [Heap.eraseIndices_node, Node.eraseIndex_firstChild, walkLoop_erase]
      cases walkLoop w F b F h (h.node b).firstChild false with
      | none => rfl
      | some h1 =>
        simp only [Option.map_some', Option.some_bind]
        exact ih _ _

/-- The hoister does not read the item ordinals and writes none: it commutes
with their removal. -/
theorem pullOutImages_erase (w : Bool) (F : Nat) (h : Heap) (root : Nat) :
    pullOutImages w F h.eraseIndices root
      = (pullOutImages w F h root).map Heap.eraseIndices := by
  unfold pullOutImages
  exact blockLoop_erase w F F h _

theorem EqUpToIndex.isDocW {h k : Heap} (e : EqUpToIndex h k) {root : Nat} {top : Forest}
    (hd : IsDocW h root top) : IsDocW k root top := by
  have hl := fun j => Node.eraseIndex_links (e.1 j)
  have ht := fun j => Node.eraseIndex_type (e.1 j)
  refine ⟨⟨(hl root).2.1 ▸ hd.first, e.seg hd.seg, hd.nodup⟩, ?_, ?_, ?_, ?_, ?_, ?_⟩
  · rw [← ht]; exact hd.rootType
  · rw [← (hl root).1]; exact hd.rootParent
  · rw [← (hl root).2.2.2.1]; exact hd.rootPrev
  · rw [← (hl root).2.2.2.2]; exact hd.rootNext
  · intro i hi; rw [← ht]; exact hd.types i hi
  · intro i hi; rw [← e.2]; exact hd.bound i hi

end Transform

/-! ### Consequences used for the properties of the passes -/

namespace Transform

theorem EqUpToIndex.isTree {h k : Heap} (e : EqUpToIndex h k) {root : Nat} {kids : Forest}
    (ht : IsTree h root kids) : IsTree k root kids :=
  ⟨(Node.eraseIndex_links (e.1 root)).2.1 ▸ ht.first, e.seg ht.seg, ht.nodup⟩

theorem childrenOf_eq_take {h : Heap} {i : Nat} {cs : Forest}
    (hfc : (h.node i).firstChild = cs.headOr none) (hs : Seg h (some i) none cs none) (F : Nat) :
    childrenOf h F i = cs.roots.take F := by
  unfold childrenOf
  rw [hfc]
  exact chain_eq_take hs F

theorem getElem?_of_take {l : List Nat} {F k c : Nat} (hk : (l.take F)[k]? = some c) :
    l[k]? = some c := by
  rw [List.getElem?_take] at hk
  split at hk
  · exact hk
  · simp at hk

/-- In a numbered forest the children of every list node, read off the heap,
carry the start value of the list plus their position. -/
theorem Indexed.children {h : Heap} {x : Forest} {par pv nx : Option Nat}
    (hs : Seg h par pv x nx) (hx : Indexed h x) (F : Nat) :
    ∀ l ∈ x.ids, (h.node l).type = "list" → ∀ k c, (childrenOf h F l)[k]? = some c →
      (h.node c).index = some (listStartOrOne (h.node l) + k) := by
  induction x generalizing par pv nx with
  | nil => simp
  | cons i cs rest ih1 ih2 =>
    rw [Seg_cons] at hs
    simp only [Indexed] at hx
    intro l hl ht k c hc
    simp only [Forest.ids_cons, List.mem_cons, List.mem_append] at hl
    rcases hl with rfl | hl | hl
    · rw [childrenOf_eq_take hs.2.2.2.1 hs.2.2.2.2.2.1] at hc
      exact hx.1 ht k c (getElem?_of_take hc)
    · exact ih1 hs.2.2.2.2.2.1 hx.2.1 l hl ht k c hc
    · exact ih2 hs.2.2.2.2.2.2 hx.2.2 l hl ht k c hc

/-- The result of `addListItemIndices` on a tree is a numbered tree. -/
theorem addListItemIndices_indexed {h : Heap} {root : Nat} {kids : Forest}
    (ht : IsTree h root kids) {F : Nat} (hF : 2 * kids.size + 3 ≤ F) :
    ∃ k, addListItemIndices F h root = some k ∧ EqUpToIndex k h ∧
      Indexed k (.cons root kids .nil) := by
  refine ⟨annot h (.cons root kids .nil), ?_, annot_equiv _ _, annot_indexed _ _ ?_⟩
  · rw [addListItemIndices_eq ht hF]; rfl
  · simpa using ht.nodup

/-- The result of `addListItemIndices` in closed form, with what it shares
with the input. -/
theorem addListItemIndices_annot {h : Heap} {root : Nat} {kids : Forest}
    (ht : IsTree h root kids) {F : Nat} (hF : 2 * kids.size + 3 ≤ F) :
    addListItemIndices F h root = some (annot (annotNode h root kids) kids) ∧
      EqUpToIndex (annot (annotNode h root kids) kids) h :=
  ⟨addListItemIndices_eq ht hF, (annot_equiv _ _).trans (annotNode_equiv _ _ _)⟩

/-- A node on the heap has no first child exactly when it has no last child. -/
theorem Seg.first_none_iff {h : Heap} {x : Forest} {par pv nx : Option Nat}
    (hs : Seg h par pv x nx) :
    ∀ j ∈ x.ids, (h.node j).firstChild = none ↔ (h.node j).lastChild = none := by
  induction x generalizing par pv nx with
  | nil => simp
  | cons i cs rest ih1 ih2 =>
    rw [Seg_cons] at hs
    obtain ⟨_, _, _, h4, h5, h6, h7⟩ := hs
    intro j hj
    simp only [Forest.ids_cons, List.mem_cons, List.mem_append] at hj
    rcases hj with rfl | hj | hj
    · rw [h4, h5]
      constructor
      · intro e; rw [Forest.headOr_eq_none e]; rfl
      · intro e; rw [Forest.lastOr_eq_none e]; rfl
    · exact ih1 h6 j hj
    · exact ih2 h7 j hj

/-- The messages of the loop of `verifyAst` over the children, when the chain
of children ends within the fuel. -/
theorem verifyChildren_spec (h : Heap) (n : Nat) : ∀ (fuel : Nat) (s : Option Nat),
    (chain h fuel s).length < fuel →
    ∃ m, verifyChildren h n fuel s = some m ∧
      (m ≠ [] ↔ ∃ c ∈ chain h fuel s, (h.node c).parent ≠ some n) := by
  intro fuel
  induction fuel with
  | zero => intro s hs; simp at hs
  | succ fuel ih =>
    intro s hs
    cases s with
    | none => exact ⟨[], rfl, by simp [chain]⟩
    | some c =>
      simp only [chain, List.length_cons, Nat.add_lt_add_iff_right] at hs
      obtain ⟨m, e, hm⟩ := ih (h.node c).next hs
      refine ⟨(if (h.node c).parent ≠ some n then ["node is not linked properly to child"]
        else []) ++ m, by simp only [verifyChildren, e, Option.map_some'], ?_⟩
      simp only [chain, List.mem_cons, exists_eq_or_imp]
      by_cases hc : (h.node c).parent ≠ some n
      · simp [hc]
      · simp only [hc, if_false, List.nil_append, false_or]
        exact hm

theorem exParagraph_isDoc : IsDoc exParagraph.1 0 exParagraphTop := by
  refine ⟨⟨⟨?_, ?_, ?_⟩, ?_, ?_, ?_, ?_, ?_, ?_⟩, ?_⟩ <;> decide

theorem exList_isDoc : IsDoc exList.1 0 exListTop := by
  refine ⟨⟨⟨?_, ?_, ?_⟩, ?_, ?_, ?_, ?_, ?_, ?_⟩, ?_⟩ <;> decide

theorem exTwoBlocks_isDoc : IsDoc exTwoBlocks.1 0 exTwoBlocksTop := by
  refine ⟨⟨⟨?_, ?_, ?_⟩, ?_, ?_, ?_, ?_, ?_, ?_⟩, ?_⟩ <;> decide

set_option maxRecDepth 100000 in
theorem exThreeItems_isDoc : IsDoc exThreeItems.1 0 exThreeItemsTop := by
  refine ⟨⟨⟨?_, ?_, ?_⟩, ?_, ?_, ?_, ?_, ?_, ?_⟩, ?_⟩ <;> decide

theorem exStartThree_isDoc : IsDoc exStartThree.1 0 exStartThreeTop := by
  refine ⟨⟨⟨?_, ?_, ?_⟩, ?_, ?_, ?_, ?_, ?_, ?_⟩, ?_⟩ <;> decide

end Transform

/-! ### The annotator writes item ordinals of list children only -/

namespace Transform

/-- The walk over a chain on the heap leaves every node whose parent is not a
list as it is. -/
theorem annot_node_of_parent {x : Forest} : ∀ {h : Heap} {par pv nx : Option Nat},
    Seg h par pv x nx → ∀ j, (∀ p, (h.node j).parent = some p → (h.node p).type ≠ "list") →
    (annot h x).node j = h.node j := by
  induction x with
  | nil => intro h par pv nx _ j _; rfl
  | cons i cs rest ih1 ih2 =>
    intro h par pv nx hs j hj
    rw [Seg_cons] at hs
    obtain ⟨_, _, _, _, _, h6, h7⟩ := hs
    have e1 : EqUpToIndex (annotNode h i cs) h := annotNode_equiv h i cs
    have e2 : EqUpToIndex (annot (annotNode h i cs) cs) h := (annot_equiv _ _).trans e1
    have n1 : (annotNode h i cs).node j = h.node j := by
      unfold annotNode
      by_cases ht : (h.node i).type = "list"
      · rw [if_pos ht]
        apply indexRoots_node_of_not_mem
        intro hc
        exact hj i (Seg.parent_of_mem_roots h6 j hc) ht
      · rw [if_neg ht]
    have hyp : ∀ {k : Heap}, EqUpToIndex k h →
        ∀ p, (k.node j).parent = some p → (k.node p).type ≠ "list" := by
      intro k e p hp
      rw [Node.eraseIndex_type (e.1 p)]
      rw [(Node.eraseIndex_links (e.1 j)).1] at hp
      exact hj p hp
    simp only [annot]
    rw [ih2 (e2.symm.seg h7) j (hyp e2), ih1 (e1.symm.seg h6) j (hyp e1), n1]

/-- The run of `addListItemIndices` in terms of what it leaves alone. -/
theorem addListItemIndices_frame {h : Heap} {root : Nat} {kids : Forest}
    (ht : IsTree h root kids) {F : Nat} (hF : 2 * kids.size + 3 ≤ F) :
    ∃ k, addListItemIndices F h root = some k ∧ EqUpToIndex k h ∧
      ∀ j, (∀ p, (h.node j).parent = some p → (h.node p).type ≠ "list") →
        k.node j = h.node j := by
  obtain ⟨e, he⟩ := addListItemIndices_annot ht hF
  refine ⟨_, e, he, fun j hj => ?_⟩
  have e1 : EqUpToIndex (annotNode h root kids) h := annotNode_equiv h root kids
  have n1 : (annotNode h root kids).node j = h.node j := by
    unfold annotNode
    by_cases hty : (h.node root).type = "list"
    · rw [if_pos hty]
      apply indexRoots_node_of_not_mem
      intro hc
      exact hj root (Seg.parent_of_mem_roots ht.seg j hc) hty
    · rw [if_neg hty]
  rw [annot_node_of_parent (e1.symm.seg ht.seg) j ?_, n1]
  intro p hp
  rw [Node.eraseIndex_type (e1.1 p)]
  rw [(Node.eraseIndex_links (e1.1 j)).1] at hp
  exact hj p hp

end Transform

/-! ### The text of `astToString` -/

namespace Transform

theorem concatLines_append (a b : List String) :
    concatLines (a ++ b) = concatLines a ++ concatLines b := by
  induction a with
  | nil => simp [concatLines]
  | cons l ls ih => simp [concatLines, ih, String.append_assoc]

theorem preorder_snd (d : Nat) (x : Forest) : (preorder d x).map Prod.snd = x.ids := by
  induction x generalizing d with
  | nil => rfl
  | cons i cs rest ih1 ih2 => simp [preorder, ih1, ih2]

theorem astToString_none (h : Heap) (fuel : Nat) (indent : String) :
    astToString h fuel none indent = some "" := by
  cases fuel <;> simp [astToString]

theorem astToStringChildren_none (h : Heap) (fuel : Nat) (indent : String) :
    astToStringChildren h fuel none indent = some "" := by
  cases fuel <;> simp [astToStringChildren]

/-- The text written for a chain on the heap: one record per node, in
document order. -/
theorem astToStringChildren_eq {x : Forest} : ∀ {h : Heap} {par pv : Option Nat} (d : Nat)
    (indent : String) (fuel : Nat), Seg h par pv x none → 2 * x.size ≤ fuel →
    astToStringChildren h fuel (x.headOr none) (indent ++ spaces d)
      = some (concatLines ((preorder d x).map
          (fun p => indent ++ spaces p.1 ++ nodeToString h p.2))) := by
  induction x with
  | nil =>
    intro h par pv d indent fuel _ _
    exact astToStringChildren_none h fuel _
  | cons i cs rest ih1 ih2 =>
    intro h par pv d indent fuel hs hf
    rw [Seg_cons] at hs
    obtain ⟨_, _, hn, hfc, _, h6, h7⟩ := hs
    simp only [Forest.size_cons] at hf
    obtain ⟨f, rfl⟩ : ∃ f, fuel = f + 2 := ⟨fuel - 2, by omega⟩
    have e1 := ih1 (d + 1) indent f h6 (by omega)
    have e2 := ih2 d indent (f + 1) h7 (by omega)
    have esp : indent ++ spaces d ++ "  " = indent ++ spaces (d + 1) := by
      simp [spaces, String.append_assoc]
    simp only [Forest.headOr_cons, astToStringChildren, astToString, hfc, hn, esp, e1, e2,
      Option.map_some', preorder, List.map_cons, List.map_append, concatLines,
      concatLines_append, String.append_assoc]

theorem nodeToString_type (h : Heap) (j : Nat) :
    ∃ t, nodeToString h j = (h.node j).type ++ t := by
  unfold nodeToString
  simp only [String.append_assoc]
  exact ⟨_, rfl⟩

end Transform

/-! ### `astToJson` returns on every finite graph -/

namespace Transform

theorem jsonFields_isSome {recurse : Nat → Option String} {visited : List Nat}
    (indent : String) :
    ∀ (keys : List (String × JsValue)),
    (∀ kv ∈ keys, ∀ r, kv.2 = .object r → r ∉ visited → ∃ s, recurse r = some s) →
    ∃ s, jsonFields recurse visited indent keys = some s := by
  intro keys
  induction keys with
  | nil => intro _; exact ⟨_, rfl⟩
  | cons kv rest ih =>
    intro hk
    obtain ⟨r, hr⟩ := ih (fun kv' hkv' => hk kv' (List.mem_cons_of_mem _ hkv'))
    have hv : ∃ v, jsonValue recurse visited kv.2 = some v := by
      cases hkv : kv.2 with
      | object o =>
        simp only [jsonValue]
        by_cases ho : o ∈ visited
        · rw [if_pos ho]; exact ⟨_, rfl⟩
        · rw [if_neg ho]; exact hk kv (List.mem_cons_self _ _) o hkv ho
      | null => exact ⟨_, rfl⟩
      | number n => exact ⟨_, rfl⟩
      | string s => exact ⟨_, rfl⟩
      | boolean b => exact ⟨_, rfl⟩
      | undefined => exact ⟨_, rfl⟩
    obtain ⟨v, hv⟩ := hv
    simp only [jsonFields, hv, hr]
    exact ⟨_, rfl⟩

/-- The recursion of `astToJson` only enters objects that are not on the
path, so that a fuel of the number of objects not on the path is enough. -/
theorem astToJson_isSome {g : Nat → List (String × JsValue)} {n : Nat} (hc : ClosedGraph g n) :
    ∀ (fuel node : Nat) (visited : List Nat) (indent : String),
    (visited ++ [node]).Nodup → (∀ j ∈ visited ++ [node], j < n) → n ≤ fuel + visited.length →
    ∃ s, astToJson g fuel node visited indent = some s := by
  intro fuel
  induction fuel with
  | zero =>
    intro node visited indent nd hlt hf
    have := length_le_of_nodup_of_lt nd hlt
    simp only [List.length_append, List.length_singleton] at this
    omega
  | succ fuel ih =>
    intro node visited indent nd hlt hf
    have hnode : node < n := hlt node (by simp)
    obtain ⟨s, hs⟩ := @jsonFields_isSome
      (fun r => astToJson g fuel r (visited ++ [node]) (indent ++ "  "))
      (visited ++ [node]) indent
      ((g node).filter (fun kv => !(ignoredKeys.contains kv.1)))
      (by
        intro kv hkv r hr hnot
        have hmem : kv ∈ g node := (List.mem_filter.mp hkv).1
        have hrn : r < n := hc node hnode kv hmem r hr
        apply ih r (visited ++ [node]) (indent ++ "  ")
        · rw [List.nodup_append]
          refine ⟨nd, List.nodup_singleton r, ?_⟩
          intro a ha hb
          simp only [List.mem_singleton] at hb
          subst hb
          exact hnot ha
        · intro j hj
          simp only [List.mem_append, List.mem_singleton] at hj
          rcases hj with hj | rfl
          · exact hlt j (by simpa using hj)
          · exact hrn
        · simp only [List.length_append, List.length_singleton]
          omega)
    simp only [astToJson, hs, Option.map_some']
    exact ⟨_, rfl⟩

theorem exThreeChildren_closed : ClosedGraph exThreeChildren 4 := by
  intro o ho kv hkv r hr
  have h4 : o = 0 ∨ o = 1 ∨ o = 2 ∨ o = 3 := by omega
  rcases h4 with rfl | rfl | rfl | rfl <;>
    simp only [exThreeChildren, linkObject, List.mem_cons, List.mem_singleton,
      List.not_mem_nil, or_false] at hkv <;>
    rcases hkv with rfl | rfl | rfl | rfl | rfl | rfl <;>
    simp only [JsValue.object.injEq, reduceCtorEq] at hr <;> omega

end Transform

/-! ### Positions in a forest are unique; the shape of a split -/

namespace Transform

theorem plugOut_append (p q : List Frame) (y : Forest) :
    plugOut (p ++ q) y = plugOut p (plugOut q y) := by
  induction p with
  | nil => rfl
  | cons fr p ih => simp [plugOut, ih]

theorem plug_eq_plugOut (path : List Frame) (y : Forest) :
    plug path y = plugOut path.reverse y := by
  induction path generalizing y with
  | nil => rfl
  | cons fr p ih =>
    simp only [plug, List.reverse_cons, plugOut_append, ih]
    rfl

theorem plugOut_eq_plug (ps : List Frame) (y : Forest) : plugOut ps y = plug ps.reverse y := by
  rw [plug_eq_plugOut, List.reverse_reverse]

theorem mem_ids_plugOut {ps : List Frame} {y : Forest} {j : Nat} (hj : j ∈ y.ids) :
    j ∈ (plugOut ps y).ids := by
  induction ps with
  | nil => exact hj
  | cons fr ps ih => simp [plugOut, ih]

/-- A chain without repetition has one position only for a given node. -/
theorem plugOut_unique {t : Nat} : ∀ (ps qs : List Frame) (y y' : Forest),
    plugOut ps y = plugOut qs y' → (plugOut ps y).ids.Nodup → t ∈ y.roots → t ∈ y'.roots →
    ps = qs ∧ y = y' := by
  have key : ∀ (fT : Frame) (qs : List Frame) (y y' : Forest),
      y = plugOut (fT :: qs) y' → y.ids.Nodup → t ∈ y.roots → t ∈ y'.roots → False := by
    intro fT qs y y' e nd ht ht'
    have hin : t ∈ (plugOut qs y').ids := mem_ids_plugOut (Forest.roots_subset_ids _ _ ht')
    rw [e] at nd ht
    simp only [plugOut, Forest.roots_append, Forest.roots_cons, List.mem_append,
      List.mem_cons] at ht
    simp only [plugOut, Forest.ids_append, Forest.ids_cons] at nd
    have hc := List.nodup_iff_count_le_one.mp nd t
    have h0 : 0 < (plugOut qs y').ids.count t := List.count_pos_iff.mpr hin
    simp only [List.count_append, List.count_cons] at hc
    rcases ht with h1 | h1 | h1
    · have : 0 < fT.left.ids.count t :=
        List.count_pos_iff.mpr (Forest.roots_subset_ids _ _ h1)
      omega
    · subst h1
      simp only [beq_self_eq_true, if_true] at hc
      omega
    · have : 0 < fT.right.ids.count t :=
        List.count_pos_iff.mpr (Forest.roots_subset_ids _ _ h1)
      omega
  intro ps
  induction ps with
  | nil =>
    intro qs y y' e nd ht ht'
    cases qs with
    | nil => exact ⟨rfl, e⟩
    | cons fT qs => exact (key fT qs y y' e nd ht ht').elim
  | cons fT ps ih =>
    intro qs y y' e nd ht ht'
    cases qs with
    | nil =>
      exfalso
      have e' : y' = plugOut (fT :: ps) y := e.symm
      have nd' : y'.ids.Nodup := by rw [e']; exact nd
      exact key fT ps y' y e' nd' ht' ht
    | cons fT' qs =>
      have h1 : t ∈ fT.id :: (plugOut ps y).ids :=
        List.mem_cons_of_mem _ (mem_ids_plugOut (Forest.roots_subset_ids _ _ ht))
      have h2 : t ∈ fT'.id :: (plugOut qs y').ids :=
        List.mem_cons_of_mem _ (mem_ids_plugOut (Forest.roots_subset_ids _ _ ht'))
      have e' : fT.left.append (.cons fT.id (plugOut ps y) fT.right)
          = fT'.left.append (.cons fT'.id (plugOut qs y') fT'.right) := e
      have nd' : (fT.left.append (.cons fT.id (plugOut ps y) fT.right)).ids.Nodup := nd
      obtain ⟨a1, a2, a3, a4⟩ := Forest.split_unique e' nd' h1 h2
      have nd2 : (plugOut ps y).ids.Nodup := by
        simp only [Forest.ids_append, Forest.ids_cons] at nd'
        have := (List.nodup_append.mp nd').2.1
        exact (List.nodup_append.mp (List.nodup_cons.mp this).2).1
      obtain ⟨b1, b2⟩ := ih qs y y' a3 nd2 ht ht'
      refine ⟨?_, b2⟩
      rw [b1]
      congr 1
      cases fT; cases fT'
      simp only at a1 a2 a4
      rw [a1, a2, a4]

/-- The position of a node in a document is unique. -/
theorem plug_unique {path path' : List Frame} {lf lf' cs cs' rt rt' : Forest} {i : Nat}
    (e : plug path (lf.append (.cons i cs rt)) = plug path' (lf'.append (.cons i cs' rt')))
    (nd : (plug path (lf.append (.cons i cs rt))).ids.Nodup) :
    path = path' ∧ lf = lf' ∧ cs = cs' ∧ rt = rt' := by
  have nd0 : (lf.append (.cons i cs rt)).ids.Nodup := by
    rw [ids_plug] at nd
    exact (List.nodup_append.mp (List.nodup_append.mp nd).1).2.1
  rw [plug_eq_plugOut, plug_eq_plugOut] at e
  rw [plug_eq_plugOut] at nd
  obtain ⟨a, b⟩ := plugOut_unique (t := i) _ _ _ _ e nd (by simp) (by simp)
  obtain ⟨b1, _, b3, b4⟩ := Forest.split_unique b nd0 (List.mem_cons_self i _)
    (List.mem_cons_self i _)
  exact ⟨List.reverse_injective a, b1, b3, b4⟩

/-- Every node of a forest has a position. -/
theorem exists_plugOut {x : Forest} {j : Nat} (hj : j ∈ x.ids) :
    ∃ (ps : List Frame) (lf cs rt : Forest), x = plugOut ps (lf.append (.cons j cs rt)) := by
  induction x with
  | nil => simp at hj
  | cons i c rest ih1 ih2 =>
    simp only [Forest.ids_cons, List.mem_cons, List.mem_append] at hj
    rcases hj with rfl | hj | hj
    · exact ⟨[], .nil, c, rest, rfl⟩
    · obtain ⟨ps, lf, cs, rt, e⟩ := ih1 hj
      exact ⟨⟨i, .nil, rest⟩ :: ps, lf, cs, rt, by rw [e]; rfl⟩
    · obtain ⟨ps, lf, cs, rt, e⟩ := ih2 hj
      cases ps with
      | nil => exact ⟨[], .cons i c lf, cs, rt, by rw [e]; rfl⟩
      | cons T qs => exact ⟨⟨T.id, .cons i c T.left, T.right⟩ :: qs, lf, cs, rt, by rw [e]; rfl⟩

/-- The two parts of a split around the top-level block `T`: the left part
ends with `T`, and the right part is what followed `T`, after at most one
copy of `T`. -/
theorem splitUp_top (T : Frame) : ∀ (p : List Frame) (c : Nat) (lk rk : Forest),
    ∃ X, (splitUp c (p ++ [T]) lk rk).1 = T.left.append (.cons T.id X .nil) ∧
      ((splitUp c (p ++ [T]) lk rk).2.1 = T.right ∨
        ∃ Y c', (splitUp c (p ++ [T]) lk rk).2.1 = .cons c' Y T.right ∧
          (c', T.id) ∈ splitSrc c (p ++ [T]) rk) := by
  intro p
  induction p with
  | nil =>
    intro c lk rk
    simp only [List.nil_append, splitUp_cons, splitSrc]
    split
    · exact ⟨lk, rfl, Or.inr ⟨rk, c, rfl, by simp⟩⟩
    · next hc =>
      simp only [not_or, not_not] at hc
      exact ⟨lk, rfl, Or.inl (by simp [splitUp, hc.2])⟩
  | cons fr p ih =>
    intro c lk rk
    simp only [List.cons_append, splitUp_cons, splitSrc]
    split
    · obtain ⟨X, e1, e2⟩ := ih (c + 1) (fr.left.append (.cons fr.id lk .nil))
        (.cons c rk fr.right)
      refine ⟨X, e1, ?_⟩
      rcases e2 with e2 | ⟨Y, c', e2, e3⟩
      · exact Or.inl e2
      · exact Or.inr ⟨Y, c', e2, List.mem_cons_of_mem _ e3⟩
    · exact ih c (fr.left.append (.cons fr.id lk .nil)) .nil

theorem splitUp_size (path : List Frame) : ∀ (c : Nat) (lk rk : Forest),
    (splitUp c path lk rk).2.2 = c + (splitSrc c path rk).length := by
  induction path with
  | nil => intro c lk rk; rfl
  | cons fr p ih =>
    intro c lk rk
    simp only [splitUp_cons, splitSrc]
    split
    · rw [ih]; simp only [List.length_cons]; omega
    · exact ih _ _ _

theorem splitSrc_fst (path : List Frame) : ∀ (c : Nat) (rk : Forest),
    (splitSrc c path rk).map Prod.fst = List.range' c (splitSrc c path rk).length := by
  induction path with
  | nil => intro c rk; rfl
  | cons fr p ih =>
    intro c rk
    simp only [splitSrc]
    split
    · simp only [List.map_cons, List.length_cons, List.range'_succ, ih]
    · exact ih _ _

theorem splitKids_src (path : List Frame) : ∀ (c : Nat) (rk : Forest),
    (splitKids c path rk).map (fun p => (p.1, p.2.1)) = splitSrc c path rk := by
  induction path with
  | nil => intro c rk; rfl
  | cons fr p ih =>
    intro c rk
    simp only [splitKids, splitSrc]
    split
    · simp only [List.map_cons, ih]
    · exact ih _ _

/-- The ancestors that are copied: those with something to the right of the
split at their level. -/
theorem splitSrc_snd (path : List Frame) : ∀ (c : Nat) (rk : Forest) (a : Nat),
    a ∈ (splitSrc c path rk).map Prod.snd ↔
      ∃ pre g post, path = pre ++ g :: post ∧ g.id = a ∧
        (rk ≠ .nil ∨ ∃ g' ∈ pre ++ [g], g'.right ≠ .nil) := by
  induction path with
  | nil =>
    intro c rk a
    simp [splitSrc]
  | cons fr p ih =>
    intro c rk a
    simp only [splitSrc]
    by_cases hc : rk ≠ .nil ∨ fr.right ≠ .nil
    · rw [if_pos hc]
      simp only [List.map_cons, List.mem_cons, ih]
      constructor
      · rintro (rfl | ⟨pre, g, post, e, e2, _⟩)
        · refine ⟨[], fr, p, rfl, rfl, ?_⟩
          rcases hc with hc | hc
          · exact Or.inl hc
          · exact Or.inr ⟨fr, by simp, hc⟩
        · refine ⟨fr :: pre, g, post, by rw [e]; rfl, e2, ?_⟩
          rcases hc with hc | hc
          · exact Or.inl hc
          · exact Or.inr ⟨fr, by simp, hc⟩
      · rintro ⟨pre, g, post, e, e2, _⟩
        cases pre with
        | nil =>
          simp only [List.nil_append, List.cons.injEq] at e
          left; rw [← e2, ← e.1]
        | cons x pre =>
          simp only [List.cons_append, List.cons.injEq] at e
          right
          exact ⟨pre, g, post, e.2, e2, Or.inl (by simp)⟩
    · rw [if_neg hc]
      simp only [not_or, not_not] at hc
      obtain ⟨hrk, hfr⟩ := hc
      rw [ih]
      constructor
      · rintro ⟨pre, g, post, e, e2, e3⟩
        refine ⟨fr :: pre, g, post, by rw [e]; rfl, e2, ?_⟩
        rcases e3 with e3 | ⟨g', hg', e3⟩
        · exact absurd rfl e3
        · exact Or.inr ⟨g', by simp only [List.cons_append, List.mem_cons]; exact Or.inr hg', e3⟩
      · rintro ⟨pre, g, post, e, e2, e3⟩
        cases pre with
        | nil =>
          exfalso
          simp only [List.nil_append, List.cons.injEq] at e
          rcases e3 with e3 | ⟨g', hg', e3⟩
          · exact e3 hrk
          · simp only [List.nil_append, List.mem_singleton] at hg'
            rw [hg', ← e.1] at e3
            exact e3 hfr
        | cons x pre =>
          simp only [List.cons_append, List.cons.injEq] at e
          refine ⟨pre, g, post, e.2, e2, Or.inr ?_⟩
          rcases e3 with e3 | ⟨g', hg', e3⟩
          · exact absurd hrk e3
          · simp only [List.cons_append, List.mem_cons] at hg'
            rcases hg' with rfl | hg'
            · exact absurd (e.1 ▸ hfr) e3
            · exact ⟨g', hg', e3⟩

theorem Forest.hasNode_append_right {c : Nat} {kids y : Forest} (x : Forest)
    (hy : Forest.HasNode c kids y) : Forest.HasNode c kids (x.append y) := by
  induction x with
  | nil => exact hy
  | cons i cs rest _ ih => exact Or.inr (Or.inr ih)

theorem hasNode_splitUp {c : Nat} {kids : Forest} (path : List Frame) :
    ∀ (c' : Nat) (lk rk : Forest), Forest.HasNode c kids rk →
      Forest.HasNode c kids (splitUp c' path lk rk).2.1 := by
  induction path with
  | nil => intro c' lk rk hr; exact hr
  | cons fr p ih =>
    intro c' lk rk hr
    rw [splitUp_cons]
    have hne : rk ≠ .nil := by
      rintro rfl
      exact hr
    rw [if_pos (Or.inl hne)]
    exact ih _ _ _ (Or.inr (Or.inl hr))

/-- Every copy stands in the right part of the split, with its children. -/
theorem splitKids_hasNode (path : List Frame) : ∀ (c : Nat) (lk rk : Forest),
    ∀ p ∈ splitKids c path rk, Forest.HasNode p.1 p.2.2 (splitUp c path lk rk).2.1 := by
  induction path with
  | nil => intro c lk rk p hp; simp [splitKids] at hp
  | cons fr q ih =>
    intro c lk rk p hp
    simp only [splitKids] at hp
    rw [splitUp_cons]
    by_cases hc : rk ≠ .nil ∨ fr.right ≠ .nil
    · rw [if_pos hc] at hp ⊢
      simp only [List.mem_cons] at hp
      rcases hp with rfl | hp
      · exact hasNode_splitUp q _ _ _ (Or.inl ⟨rfl, rfl⟩)
      · exact ih _ _ _ p hp
    · rw [if_neg hc] at hp ⊢
      exact ih _ _ _ p hp

/-- A node that the forest holds has its children on the heap. -/
theorem Seg.hasNode {h : Heap} {x : Forest} {c : Nat} {kids : Forest} :
    ∀ {par pv nx : Option Nat}, Seg h par pv x nx → Forest.HasNode c kids x →
      (h.node c).firstChild = kids.headOr none ∧ (h.node c).lastChild = kids.lastOr none ∧
        Seg h (some c) none kids none := by
  induction x with
  | nil => intro par pv nx _ hn; exact hn.elim
  | cons i cs rest ih1 ih2 =>
    intro par pv nx hs hn
    rw [Seg_cons] at hs
    obtain ⟨_, _, _, h4, h5, h6, h7⟩ := hs
    rcases hn with ⟨rfl, rfl⟩ | hn | hn
    · exact ⟨h4, h5, h6⟩
    · exact ih1 h6 hn
    · exact ih2 h7 hn

end Transform

/-! ### The run on a document with one image below the top level -/

namespace Transform

/-- The value the hoist leaves in the last-child field of the root. -/
theorem hoistImage_root_lastChild {w : Bool} {F : Nat} {h k : Heap} {root i : Nat} {fr : Frame}
    {rest : List Frame} {lf ics rt : Forest}
    (hd : IsDocW h root (plug (fr :: rest) (lf.append (.cons i ics rt))))
    (hF : h.size ≤ F) (e : hoistImage w F h i fr.id = some k) :
    (k.node root).lastChild = (splitUp h.size (fr :: rest) lf rt).2.1.headOr (some i) := by
  obtain ⟨k1, e1, inv1, _, _, _, _⟩ := hoist_split (w := w) hd hF
  obtain ⟨a, ha, _⟩ := splitUp_left_last h.size fr rest lf rt
  have hir : i ≠ root := by
    rintro rfl
    exact root_not_mem_of_doc hd (by rw [mem_ids_plug]; simp)
  generalize splitUp h.size (fr :: rest) lf rt = r at e1 inv1 ha ⊢
  have hnd := inv1.nodup
  have hr1 : root ∉ r.1.ids := fun q => (List.nodup_cons.mp hnd).1 (by simp [q])
  have hr2 : root ∉ r.2.1.ids := fun q => (List.nodup_cons.mp hnd).1 (by simp [q])
  unfold hoistImage at e
  simp only [Option.bind_eq_bind] at e
  rw [e1] at e
  simp only [Option.some_bind] at e
  rw [reinsertImage_eq k1 root i a _ _ ha] at e
  rw [← Option.some.inj e, reinsertHeap_root hr1 hr2 hir]

/-- One turn of the walk on a node that is not hoisted: either the walk ends,
or it stands at another node, nearer to its end. -/
theorem walk_step (w : Bool) {root b : Nat} {h : Heap} {path : List Frame} {lf : Forest}
    {c : Nat} {cs rt : Forest} {cfc : Bool}
    (hd : IsDocW h root (plug path (lf.append (.cons c cs rt))))
    (hdone : ∀ j ∈ doneIds path lf c cs cfc, (h.node j).type = "image" →
      j ∈ (plug path (lf.append (.cons c cs rt))).roots)
    (hb1 : b ∈ pathBefore path ++ lf.ids)
    (hb2 : b ∈ (plug path (lf.append (.cons c cs rt))).roots)
    (hi : (h.node c).type = "image" → path = []) :
    ((∀ F fuel, walkLoop w F b (fuel + 3) h (some c) cfc = some h) ∧
      ((∃ pre bcs post : Forest,
          plug path (lf.append (.cons c cs rt)) = pre.append (.cons b bcs post) ∧
          ∀ j ∈ pre.ids ++ b :: bcs.ids, (h.node j).type = "image" →
            j ∈ (plug path (lf.append (.cons c cs rt))).roots) ∨
        AllTop h (plug path (lf.append (.cons c cs rt))))) ∨
    ∃ (path' : List Frame) (lf' : Forest) (c' : Nat) (cs' rt' : Forest) (cfc' : Bool),
      plug path' (lf'.append (.cons c' cs' rt')) = plug path (lf.append (.cons c cs rt)) ∧
      (∀ j ∈ doneIds path' lf' c' cs' cfc', (h.node j).type = "image" →
        j ∈ (plug path (lf.append (.cons c cs rt))).roots) ∧
      b ∈ pathBefore path' ++ lf'.ids ∧
      walkWeight path' cs' rt' cfc' < walkWeight path cs rt cfc ∧
      ∀ F fuel, walkLoop w F b (fuel + 1) h (some c) cfc
        = walkLoop w F b fuel h (some c') cfc' := by
  have hnd : (plug path (lf.append (.cons c cs rt))).ids.Nodup := hd.nodup.of_cons
  have hib : c ≠ b := cursor_ne_block hnd hb1
  have hstep := fun F fuel => @walkLoop_skip w F b h root c path lf cs rt hd hib hi cfc fuel
  have hpre : ∀ j, j ∈ pathBefore path ∨ j ∈ lf.ids ∨ j = c → (h.node j).type = "image" →
      j ∈ (plug path (lf.append (.cons c cs rt))).roots := by
    intro j hj ht
    rcases hj with hj | hj | rfl
    · exact hdone j (by simp [doneIds, hj]) ht
    · exact hdone j (by simp [doneIds, hj]) ht
    · have := hi ht
      subst this
      simp [plug]
  by_cases ha : (cs.headOr none).isSome ∧ cfc = false
  · obtain ⟨hcs, rfl⟩ := ha
    cases cs with
    | nil => simp at hcs
    | cons x ccs crest =>
      right
      refine ⟨⟨c, lf, rt⟩ :: path, .nil, x, ccs, crest, false, by simp [plug], ?_, ?_, ?_, ?_⟩
      · intro j hj ht
        simp only [doneIds, pathBefore, Forest.ids_nil, List.append_nil, Bool.false_eq_true,
          if_false, List.mem_append, List.mem_singleton] at hj
        exact hpre j (by tauto) ht
      · simp only [pathBefore, Forest.ids_nil, List.append_nil, List.mem_append,
          List.mem_singleton]
        simp only [List.mem_append] at hb1
        tauto
      · have := walkWeight_down path c lf rt ccs crest x
        omega
      · intro F fuel
        rw [hstep, if_pos ⟨hcs, rfl⟩]
        rfl
  · have hsub : ∀ j ∈ cs.ids, (h.node j).type = "image" →
        j ∈ (plug path (lf.append (.cons c cs rt))).roots := by
      intro j hj ht
      cases cfc with
      | true => exact hdone j (by simp [doneIds, hj]) ht
      | false =>
        have hn : cs.headOr none = none := by
          cases hh : cs.headOr none with
          | none => rfl
          | some x => exact absurd ⟨by simp [hh], rfl⟩ ha
        rw [Forest.headOr_eq_none hn] at hj
        simp at hj
    simp only [if_neg ha] at hstep
    cases rt with
    | cons r rcs rrest =>
      right
      have hpl : plug path ((lf.append (.cons c cs .nil)).append (.cons r rcs rrest))
          = plug path (lf.append (.cons c cs (.cons r rcs rrest))) := by
        rw [Forest.append_assoc]; rfl
      refine ⟨path, lf.append (.cons c cs .nil), r, rcs, rrest, false, hpl, ?_, ?_,
        walkWeight_right path cs rcs rrest r cfc, ?_⟩
      · intro j hj ht
        simp only [doneIds, Forest.ids_append, Forest.ids_cons, Forest.ids_nil,
          List.append_nil, Bool.false_eq_true, if_false, List.mem_append, List.mem_cons] at hj
        have hj' : (j ∈ pathBefore path ∨ j ∈ lf.ids ∨ j = c) ∨ j ∈ cs.ids := by tauto
        rcases hj' with hj' | hj'
        · exact hpre j hj' ht
        · exact hsub j hj' ht
      · simp only [Forest.ids_append, List.mem_append] at hb1 ⊢
        tauto
      · intro F fuel
        rw [hstep]
        simp
    | nil =>
      simp only [Forest.headOr_nil, Option.isSome_none, Bool.false_eq_true, if_false] at hstep
      cases path with
      | nil =>
        left
        refine ⟨?_, Or.inr ?_⟩
        · intro F fuel
          rw [hstep]
          exact walkLoop_root hd (ne_of_mem_roots hd hb2) fuel
        · intro j hj ht
          simp only [plug, Forest.ids_append, Forest.ids_cons, Forest.ids_nil, List.append_nil,
            List.mem_append, List.mem_cons] at hj
          rcases hj with hj | hj | hj
          · exact hpre j (Or.inr (Or.inl hj)) ht
          · exact hpre j (Or.inr (Or.inr hj)) ht
          · exact hsub j hj ht
      | cons fr rest =>
        by_cases hfb : fr.id = b
        · left
          cases rest with
          | cons fr' rest' =>
            exfalso
            have hmem : fr.id ∈ (fr.left.append
                (.cons fr.id (lf.append (.cons c cs .nil)) fr.right)).ids := by simp
            have hb2' : fr.id ∈ (plug (fr :: fr' :: rest')
                (lf.append (.cons c cs .nil))).roots := by
              rw [hfb]; exact hb2
            exact @not_mem_roots_plug fr' rest' _ hnd fr.id hmem hb2'
          | nil =>
            refine ⟨?_, Or.inl ⟨fr.left, lf.append (.cons c cs .nil), fr.right,
              by rw [← hfb]; rfl, ?_⟩⟩
            · intro F fuel
              rw [hstep, walkLoop_succ]
              simp only [parentOf]
              rw [if_pos hfb]
            · intro j hj ht
              simp only [Forest.ids_append, Forest.ids_cons, Forest.ids_nil, List.append_nil,
                List.mem_append, List.mem_cons] at hj
              rcases hj with hj | hj | hj | hj | hj
              · exact hpre j (Or.inl (by simp [pathBefore, hj])) ht
              · exact hpre j (Or.inl (by simp [pathBefore, hj, hfb])) ht
              · exact hpre j (Or.inr (Or.inl hj)) ht
              · exact hpre j (Or.inr (Or.inr hj)) ht
              · exact hsub j hj ht
        · right
          refine ⟨rest, fr.left, fr.id, lf.append (.cons c cs .nil), fr.right, true, rfl, ?_, ?_,
            walkWeight_up fr rest cs (lf.append (.cons c cs .nil)) cfc, ?_⟩
          · intro j hj ht
            simp only [doneIds, Forest.ids_append, Forest.ids_cons, Forest.ids_nil,
              List.append_nil, if_true, List.mem_append, List.mem_cons] at hj
            rcases hj with (hj | hj) | hj | hj | hj | hj
            · exact hpre j (Or.inl (by simp [pathBefore, hj])) ht
            · exact hpre j (Or.inl (by simp [pathBefore, hj])) ht
            · exact hpre j (Or.inl (by simp [pathBefore, hj])) ht
            · exact hpre j (Or.inr (Or.inl hj)) ht
            · exact hpre j (Or.inr (Or.inr hj)) ht
            · exact hsub j hj ht
          · simp only [pathBefore, List.mem_append, List.mem_singleton] at hb1 ⊢
            rcases hb1 with ((hj | hj) | hj) | hj
            · exact Or.inl hj
            · exact Or.inr hj
            · exact absurd hj.symm hfb
            · exfalso
              exact not_mem_roots_plug hnd (by simp [hj]) hb2
          · intro F fuel
            rw [hstep]
            rfl

/-- The walk up to the first image that it hoists, if there is one. -/
theorem walk_reach (w : Bool) (root b : Nat) (h : Heap) (top : Forest) : ∀ (μ : Nat)
    (path : List Frame) (lf : Forest) (c : Nat) (cs rt : Forest) (cfc : Bool),
    plug path (lf.append (.cons c cs rt)) = top → IsDocW h root top →
    (∀ j ∈ doneIds path lf c cs cfc, (h.node j).type = "image" → j ∈ top.roots) →
    b ∈ pathBefore path ++ lf.ids → b ∈ top.roots → walkWeight path cs rt cfc ≤ μ →
    (∃ F0, (∀ F fuel, F0 ≤ fuel → walkLoop w F b fuel h (some c) cfc = some h) ∧
      ((∃ pre bcs post : Forest, top = pre.append (.cons b bcs post) ∧
          ∀ j ∈ pre.ids ++ b :: bcs.ids, (h.node j).type = "image" → j ∈ top.roots) ∨
        AllTop h top)) ∨
    ∃ (fr : Frame) (rest : List Frame) (lf' : Forest) (i : Nat) (cs' rt' : Forest) (n : Nat),
      plug (fr :: rest) (lf'.append (.cons i cs' rt')) = top ∧ (h.node i).type = "image" ∧
      (∀ j ∈ pathBefore (fr :: rest) ++ lf'.ids, (h.node j).type = "image" → j ∈ top.roots) ∧
      b ∈ pathBefore (fr :: rest) ++ lf'.ids ∧
      ∀ F fuel, walkLoop w F b (fuel + n) h (some c) cfc
        = walkLoop w F b fuel h (some i) false := by
  intro μ
  induction μ using Nat.strong_induction_on with
  | _ μ ih =>
  intro path lf c cs rt cfc htop hd hdone hb1 hb2 hμ
  subst htop
  have hnd : (plug path (lf.append (.cons c cs rt))).ids.Nodup := hd.nodup.of_cons
  by_cases hcase : (h.node c).type = "image" ∧ path ≠ []
  · obtain ⟨hi, hp⟩ := hcase
    obtain ⟨fr, rest, rfl⟩ : ∃ fr rest, path = fr :: rest := List.exists_cons_of_ne_nil hp
    have hcfc : cfc = false := by
      cases cfc with
      | false => rfl
      | true =>
        exfalso
        have hm := hdone c (by simp [doneIds]) hi
        exact not_mem_roots_plug hnd (by simp) hm
    subst hcfc
    right
    refine ⟨fr, rest, lf, c, cs, rt, 0, rfl, hi, ?_, hb1, fun F fuel => rfl⟩
    intro j hj ht
    exact hdone j (by simpa [doneIds] using hj) ht
  · have hi : (h.node c).type = "image" → path = [] := by
      intro ht; by_contra hne; exact hcase ⟨ht, hne⟩
    rcases walk_step w hd hdone hb1 hb2 hi with ⟨e1, e2⟩ | ⟨path', lf', c', cs', rt', cfc', e1,
      e2, e3, e4, e5⟩
    · left
      refine ⟨3, ?_, e2⟩
      intro F fuel hfuel
      obtain ⟨f, rfl⟩ : ∃ f, fuel = f + 3 := ⟨fuel - 3, by omega⟩
      exact e1 F f
    · rcases ih (walkWeight path' cs' rt' cfc') (by omega) path' lf' c' cs' rt' cfc' e1 hd e2 e3
          hb2 (le_refl _) with ⟨F0, g1, g2⟩ | ⟨fr, rest, lf2, i, cs2, rt2, n, g1, g2, g3, g4, g5⟩
      · left
        refine ⟨F0 + 1, ?_, g2⟩
        intro F fuel hfuel
        obtain ⟨f, rfl⟩ : ∃ f, fuel = f + 1 := ⟨fuel - 1, by omega⟩
        rw [e5]
        exact g1 F f (by omega)
      · right
        refine ⟨fr, rest, lf2, i, cs2, rt2, n + 1, g1, g2, g3, g4, ?_⟩
        intro F fuel
        rw [← Nat.add_assoc, e5]
        exact g5 F fuel

end Transform

/-! ### The run on a document with one image below the top level: the result -/

namespace Transform

/-- The loop over the blocks of a document whose only image below the top
level is `i0`: it returns the heap that the hoist of `i0` leaves. -/
theorem blockLoop_one (w : Bool) (root i0 : Nat) : ∀ (n : Nat) (h : Heap) (pre post : Forest),
    IsDocW h root (pre.append post) →
    (∀ j ∈ pre.ids, (h.node j).type = "image" → j ∈ (pre.append post).roots) →
    (h.node i0).type = "image" → i0 ∉ (pre.append post).roots →
    (∀ j ∈ (pre.append post).ids, j ≠ i0 → (h.node j).type = "image" →
      j ∈ (pre.append post).roots) →
    i0 ∈ (pre.append post).ids → post.size ≤ n →
    ∃ (fr : Frame) (rest : List Frame) (lf cs rt : Forest) (k : Heap),
      plug (fr :: rest) (lf.append (.cons i0 cs rt)) = pre.append post ∧
      IsDocW k root ((splitUp h.size (fr :: rest) lf rt).1.append
        (.cons i0 cs (splitUp h.size (fr :: rest) lf rt).2.1)) ∧
      Grown h (pre.append post) k ((splitUp h.size (fr :: rest) lf rt).1.append
        (.cons i0 cs (splitUp h.size (fr :: rest) lf rt).2.1)) ∧
      (∀ p ∈ splitSrc h.size (fr :: rest) rt, copyNodeWithoutNeighbors (k.node p.1)
        = { copyNodeWithoutNeighbors (h.node p.2) with continuation := true }) ∧
      visitNode w h.size h i0 = some k ∧
      ∃ F0, ∀ F fuel, F0 ≤ F → F0 ≤ fuel →
        blockLoop w F fuel h (post.headOr none) = some k := by
  intro n
  induction n using Nat.strong_induction_on with
  | _ n ih =>
  intro h pre post hd hpre hi0 hdeep hone hmem hn
  cases post with
  | nil =>
    exfalso
    apply hdeep
    exact hpre i0 (by simpa using hmem) hi0
  | cons b bcs post2 =>
    have hbroot : b ∈ (pre.append (.cons b bcs post2)).roots := by simp
    have e3 : (pre.append (.cons b bcs .nil)).append post2 = pre.append (.cons b bcs post2) := by
      rw [Forest.append_assoc]; rfl
    -- the walk of the block changes nothing: the loop goes on with the next block
    have cont : (∃ F1, ∀ F, F1 ≤ F → walkLoop w F b F h (h.node b).firstChild false = some h) →
        (∀ j ∈ pre.ids ++ b :: bcs.ids, (h.node j).type = "image" →
          j ∈ (pre.append (.cons b bcs post2)).roots) →
        ∃ (fr : Frame) (rest : List Frame) (lf cs rt : Forest) (k : Heap),
          plug (fr :: rest) (lf.append (.cons i0 cs rt)) = pre.append (.cons b bcs post2) ∧
          IsDocW k root ((splitUp h.size (fr :: rest) lf rt).1.append
            (.cons i0 cs (splitUp h.size (fr :: rest) lf rt).2.1)) ∧
          Grown h (pre.append (.cons b bcs post2)) k
            ((splitUp h.size (fr :: rest) lf rt).1.append
              (.cons i0 cs (splitUp h.size (fr :: rest) lf rt).2.1)) ∧
          (∀ p ∈ splitSrc h.size (fr :: rest) rt, copyNodeWithoutNeighbors (k.node p.1)
            = { copyNodeWithoutNeighbors (h.node p.2) with continuation := true }) ∧
          visitNode w h.size h i0 = some k ∧
          ∃ F0, ∀ F fuel, F0 ≤ F → F0 ≤ fuel →
            blockLoop w F fuel h ((Forest.cons b bcs post2).headOr none) = some k := by
      rintro ⟨F1, hw⟩ hA
      have hih := ih post2.size (by simp only [Forest.size_cons] at hn; omega) h
        (pre.append (.cons b bcs .nil)) post2 (e3 ▸ hd)
        (by rw [e3]; exact fun j hj ht => hA j (by simpa using hj) ht) hi0
        (by rw [e3]; exact hdeep) (by rw [e3]; exact hone) (by rw [e3]; exact hmem) (le_refl _)
      rw [e3] at hih
      obtain ⟨fr, rest, lf, cs, rt, k, a1, a2, a3, a4, a5, F0, a6⟩ := hih
      refine ⟨fr, rest, lf, cs, rt, k, a1, a2, a3, a4, a5, max F1 (F0 + 1), ?_⟩
      intro F fuel hF hfuel
      obtain ⟨f, rfl⟩ : ∃ f, fuel = f + 1 := ⟨fuel - 1, by omega⟩
      rw [Forest.headOr_cons, blockLoop_succ, hw F (by omega)]
      simp only [Option.some_bind]
      rw [hd.block.2]
      exact a6 F f (by omega) (by omega)
    rw [hd.block.1] at cont
    cases bcs with
    | nil =>
      apply cont
      · refine ⟨1, fun F hF => ?_⟩
        obtain ⟨f, rfl⟩ : ∃ f, F = f + 1 := ⟨F - 1, by omega⟩
        rfl
      · intro j hj ht
        simp only [Forest.ids_nil, List.mem_append, List.mem_cons, List.not_mem_nil,
          or_false] at hj
        rcases hj with hj | rfl
        · exact hpre j hj ht
        · exact hbroot
    | cons c ccs crest =>
      have hd' : IsDocW h root (plug [⟨b, pre, post2⟩] (Forest.nil.append (.cons c ccs crest))) :=
        hd
      rcases walk_reach w root b h (pre.append (.cons b (.cons c ccs crest) post2)) _
          [⟨b, pre, post2⟩] .nil c ccs crest false rfl hd
          (by
            intro j hj ht
            simp only [doneIds, pathBefore, Forest.ids_nil, List.append_nil, List.nil_append,
              Bool.false_eq_true, if_false, List.mem_append, List.mem_singleton] at hj
            rcases hj with hj | rfl
            · exact hpre j hj ht
            · exact hbroot)
          (by simp [pathBefore]) hbroot (le_refl _) with
        ⟨F0, g1, g2⟩ | ⟨fr, rest, lf', i, cs', rt', m, g1, g2, g3, g4, g5⟩
      · apply cont ⟨F0, fun F hF => g1 F F hF⟩
        rcases g2 with ⟨pre', bcs', post', g2, g3⟩ | g2
        · obtain ⟨rfl, _, rfl, _⟩ := Forest.split_unique g2 hd.nodup.of_cons
            (List.mem_cons_self b _) (List.mem_cons_self b _)
          exact g3
        · exact absurd (g2 i0 hmem hi0) hdeep
      · -- the walk reaches a hoist: it is the hoist of `i0`
        have hdi : IsDocW h root (plug (fr :: rest) (lf'.append (.cons i cs' rt'))) := g1 ▸ hd
        have hii : i = i0 := by
          by_contra hne
          have hin : i ∈ (pre.append (.cons b (.cons c ccs crest) post2)).ids := by
            rw [← g1, mem_ids_plug]; simp
          have hr := hone i hin hne g2
          rw [← g1] at hr
          exact not_mem_roots_plug hdi.nodup.of_cons (by simp) hr
        subst hii
        obtain ⟨k, q1, q2, q3, q4, q5, ev, F0, q6⟩ := hoist_finish w hdi g2
          (by rw [g1]; exact hone) g4 (by rw [g1]; exact hbroot)
        rw [g1] at q2
        obtain ⟨pre1, bcs1, post1, e1⟩ := Forest.exists_split q4
        have e4 : (pre1.append (.cons b bcs1 .nil)).append post1
            = (splitUp h.size (fr :: rest) lf' rt').1.append
                (.cons i cs' (splitUp h.size (fr :: rest) lf' rt').2.1) := by
          rw [e1, Forest.append_assoc]; rfl
        have hpre1 : ∀ j ∈ (pre1.append (.cons b bcs1 .nil)).ids, (k.node j).type = "image" →
            j ∈ ((pre1.append (.cons b bcs1 .nil)).append post1).roots := by
          rw [e4]
          intro j hj ht
          refine q3 j ?_ ht
          rw [e1]
          simp only [Forest.ids_append, Forest.ids_cons, Forest.ids_nil, List.append_nil,
            List.mem_append, List.mem_cons] at hj ⊢
          tauto
        obtain ⟨k', top', r1, r2, r3, r4, F1, r5⟩ :=
          blockLoop_spec w root 0 post1.size k (pre1.append (.cons b bcs1 .nil)) post1
            (e4 ▸ q1) hpre1 (by rw [e4]; exact le_of_eq (deepImages_eq_zero.mpr q3)) (le_refl _)
        rw [e4] at r4
        obtain ⟨rfl, _⟩ := r4 q3
        refine ⟨fr, rest, lf', cs', rt', k', g1, q1, q2, q5, ev, max (F0 + m) (F1 + 1), ?_⟩
        intro F fuel hF hfuel
        obtain ⟨f, rfl⟩ : ∃ f, fuel = f + 1 := ⟨fuel - 1, by omega⟩
        rw [Forest.headOr_cons, blockLoop_succ, hd.block.1, Forest.headOr_cons]
        obtain ⟨g, hg⟩ : ∃ g, F = g + m := ⟨F - m, by omega⟩
        have hw : walkLoop w F b F h (some c) false = some k' := by
          conv_lhs => rw [show walkLoop w F b F h (some c) false
            = walkLoop w F b (g + m) h (some c) false from by rw [← hg]]
          rw [g5]
          exact q6 F g (by omega) (by omega)
        rw [hw]
        simp only [Option.some_bind]
        have hq1 := q1
        rw [e1] at hq1
        rw [hq1.block.2]
        exact r5 F f (by omega) (by omega)

/-- The run of `pullOutImages` on a document whose only image below the top
level is `i`, at a given position: the result is the document with the
ancestors of the image split as `splitUp` says, the copies being those of
`splitSrc`, and it is what the hoist of the image leaves. -/
theorem pullOutImages_one (w : Bool) {h : Heap} {root i : Nat} {fr : Frame} {rest : List Frame}
    {lf cs rt : Forest}
    (hd : IsDocW h root (plug (fr :: rest) (lf.append (.cons i cs rt))))
    (hi : (h.node i).type = "image")
    (hone : ∀ j ∈ (plug (fr :: rest) (lf.append (.cons i cs rt))).ids, j ≠ i →
      (h.node j).type = "image" → j ∈ (plug (fr :: rest) (lf.append (.cons i cs rt))).roots) :
    ∃ k, IsDocW k root ((splitUp h.size (fr :: rest) lf rt).1.append
          (.cons i cs (splitUp h.size (fr :: rest) lf rt).2.1)) ∧
      Grown h (plug (fr :: rest) (lf.append (.cons i cs rt))) k
        ((splitUp h.size (fr :: rest) lf rt).1.append
          (.cons i cs (splitUp h.size (fr :: rest) lf rt).2.1)) ∧
      (∀ p ∈ splitSrc h.size (fr :: rest) rt, copyNodeWithoutNeighbors (k.node p.1)
        = { copyNodeWithoutNeighbors (h.node p.2) with continuation := true }) ∧
      k.size = h.size + (splitSrc h.size (fr :: rest) rt).length ∧
      (k.node root).lastChild = (splitUp h.size (fr :: rest) lf rt).2.1.headOr (some i) ∧
      ∃ F0, ∀ F, F0 ≤ F → pullOutImages w F h root = some k := by
  have hnd := hd.nodup.of_cons
  have hdeep : i ∉ (plug (fr :: rest) (lf.append (.cons i cs rt))).roots :=
    not_mem_roots_plug hnd (by simp)
  have hmem : i ∈ (plug (fr :: rest) (lf.append (.cons i cs rt))).ids := by
    rw [mem_ids_plug]; simp
  obtain ⟨fr', rest', lf', cs', rt', k, a1, a2, a3, a4, a5, F0, a6⟩ :=
    blockLoop_one w root i _ h .nil (plug (fr :: rest) (lf.append (.cons i cs rt))) hd
      (by simp) hi hdeep hone hmem (le_refl _)
  have a1' : plug (fr' :: rest') (lf'.append (.cons i cs' rt'))
      = plug (fr :: rest) (lf.append (.cons i cs rt)) := a1
  obtain ⟨b1, rfl, rfl, rfl⟩ := plug_unique a1'.symm hnd
  rw [← b1] at a2 a3 a4
  have a3' : Grown h (plug (fr :: rest) (lf.append (.cons i cs rt))) k
      ((splitUp h.size (fr :: rest) lf rt).1.append
        (.cons i cs (splitUp h.size (fr :: rest) lf rt).2.1)) := a3
  have hsz : k.size = h.size + (splitSrc h.size (fr :: rest) rt).length := by
    obtain ⟨k2, e1, _, esz, _⟩ := hoistImage_spec (w := w) hd (le_refl h.size)
    rw [visitNode_hoist hd hi, e1] at a5
    rw [← Option.some.inj a5, esz, splitUp_size]
  refine ⟨k, a2, a3', a4, hsz, ?_, F0, fun F hF => ?_⟩
  · rw [visitNode_hoist hd hi] at a5
    exact hoistImage_root_lastChild hd (le_refl _) a5
  · unfold pullOutImages
    rw [hd.first]
    exact a6 F F hF hF

end Transform

/-! ### Nodes that a hoist leaves as they are -/

namespace Transform

/-- A chain held by two heaps in the same place has the same links in both. -/
theorem Seg.sameLinks {x : Forest} : ∀ {h k : Heap} {par pv nx : Option Nat},
    Seg h par pv x nx → Seg k par pv x nx → ∀ j ∈ x.ids, SameLinks (k.node j) (h.node j) := by
  induction x with
  | nil => intro h k par pv nx _ _ j hj; simp at hj
  | cons i cs rest ih1 ih2 =>
    intro h k par pv nx hs ks j hj
    rw [Seg_cons] at hs ks
    obtain ⟨a1, a2, a3, a4, a5, a6, a7⟩ := hs
    obtain ⟨b1, b2, b3, b4, b5, b6, b7⟩ := ks
    simp only [Forest.ids_cons, List.mem_cons, List.mem_append] at hj
    rcases hj with rfl | hj | hj
    · exact ⟨by rw [a1, b1], by rw [a4, b4], by rw [a5, b5], by rw [a2, b2], by rw [a3, b3]⟩
    · exact ih1 a6 b6 j hj
    · exact ih2 a7 b7 j hj

theorem node_eq_of_payload {a b : Node}
    (e : copyNodeWithoutNeighbors a = copyNodeWithoutNeighbors b) (l : SameLinks a b) :
    a = b := by
  obtain ⟨l1, l2, l3, l4, l5⟩ := l
  cases a; cases b
  simp only [copyNodeWithoutNeighbors, Node.mk.injEq] at e
  simp only at l1 l2 l3 l4 l5
  simp only [Node.mk.injEq]
  tauto

/-- No ancestor has anything to its right: the split makes no copy. -/
theorem splitSrc_of_no_right (path : List Frame) (c : Nat)
    (hr : ∀ g ∈ path, g.right = .nil) : splitSrc c path .nil = [] := by
  induction path generalizing c with
  | nil => rfl
  | cons fr p ih =>
    simp only [splitSrc]
    rw [if_neg (by simp [hr fr (by simp)])]
    exact ih c (fun g hg => hr g (by simp [hg]))

theorem splitUp_of_no_right (path : List Frame) (c : Nat) (lk : Forest)
    (hr : ∀ g ∈ path, g.right = .nil) : (splitUp c path lk .nil).2.1 = .nil := by
  induction path generalizing c lk with
  | nil => rfl
  | cons fr p ih =>
    rw [splitUp_cons, if_neg (by simp [hr fr (by simp)])]
    exact ih c _ (fun g hg => hr g (by simp [hg]))

end Transform

/-! ### The run on a document with one image below the top level is its hoist -/

namespace Transform

/-- On a document whose only image below the top level is `i`, the run of
`pullOutImages` returns the heap that the hoist of `i` leaves. -/
theorem pullOutImages_one_visit (w : Bool) {h : Heap} {root i : Nat} {fr : Frame}
    {rest : List Frame} {lf cs rt : Forest}
    (hd : IsDocW h root (plug (fr :: rest) (lf.append (.cons i cs rt))))
    (hi : (h.node i).type = "image")
    (hone : ∀ j ∈ (plug (fr :: rest) (lf.append (.cons i cs rt))).ids, j ≠ i →
      (h.node j).type = "image" → j ∈ (plug (fr :: rest) (lf.append (.cons i cs rt))).roots) :
    ∃ k, visitNode w h.size h i = some k ∧
      ∃ F0, ∀ F, F0 ≤ F → pullOutImages w F h root = some k := by
  have hnd := hd.nodup.of_cons
  have hdeep : i ∉ (plug (fr :: rest) (lf.append (.cons i cs rt))).roots :=
    not_mem_roots_plug hnd (by simp)
  have hmem : i ∈ (plug (fr :: rest) (lf.append (.cons i cs rt))).ids := by
    rw [mem_ids_plug]; simp
  obtain ⟨fr', rest', lf', cs', rt', k, _, _, _, _, a5, F0, a6⟩ :=
    blockLoop_one w root i _ h .nil (plug (fr :: rest) (lf.append (.cons i cs rt))) hd
      (by simp) hi hdeep hone hmem (le_refl _)
  refine ⟨k, a5, F0, fun F hF => ?_⟩
  unfold pullOutImages
  rw [hd.first]
  exact a6 F F hF hF

/-- Every copy made by a hoist is linked in with the children that
`splitKids` lists for it. -/
theorem hoist_copy_children {k : Heap} {root i c a : Nat} {path : List Frame}
    {lf cs rt kids : Forest} {n : Nat}
    (hk : IsDocW k root ((splitUp n path lf rt).1.append
      (.cons i cs (splitUp n path lf rt).2.1)))
    (hp : (c, a, kids) ∈ splitKids n path rt) (G : Nat) (hG : kids.roots.length ≤ G) :
    childrenOf k G c = kids.roots := by
  have h1 := splitKids_hasNode path n lf rt _ hp
  have h2 : Forest.HasNode c kids ((splitUp n path lf rt).1.append
      (.cons i cs (splitUp n path lf rt).2.1)) :=
    Forest.hasNode_append_right _ (Or.inr (Or.inr h1))
  obtain ⟨e1, _, e3⟩ := Seg.hasNode hk.seg h2
  rw [childrenOf_eq_take e1 e3, List.take_of_length_le hG]

end Transform

/-! ### `makeAst` builds the tree of the description -/

namespace Transform

@[simp] theorem Desc.size_mk (f : Node) (cs : List Desc) :
    (Desc.mk f cs).size = Desc.sizeList cs + 1 := by
  simp only [Desc.size]

@[simp] theorem Desc.sizeList_nil : Desc.sizeList [] = 0 := by
  simp only [Desc.sizeList]

@[simp] theorem Desc.sizeList_cons (c : Desc) (cs : List Desc) :
    Desc.sizeList (c :: cs) = c.size + Desc.sizeList cs := by
  simp only [Desc.sizeList]

@[simp] theorem Desc.kids_mk (n : Nat) (f : Node) (cs : List Desc) :
    Desc.kids n (.mk f cs) = Desc.kidsList (n + 1) cs := by
  simp only [Desc.kids]

@[simp] theorem Desc.kidsList_nil (n : Nat) : Desc.kidsList n [] = .nil := by
  simp only [Desc.kidsList]

@[simp] theorem Desc.kidsList_cons (n : Nat) (c : Desc) (cs : List Desc) :
    Desc.kidsList n (c :: cs) = .cons n (Desc.kids n c) (Desc.kidsList (n + c.size) cs) := by
  simp only [Desc.kidsList]

@[simp] theorem Desc.nodes_mk (n : Nat) (f : Node) (cs : List Desc) :
    Desc.nodes n (.mk f cs) = (n, f) :: Desc.nodesList (n + 1) cs := by
  simp only [Desc.nodes]

@[simp] theorem Desc.nodesList_nil (n : Nat) : Desc.nodesList n [] = [] := by
  simp only [Desc.nodesList]

@[simp] theorem Desc.nodesList_cons (n : Nat) (c : Desc) (cs : List Desc) :
    Desc.nodesList n (c :: cs) = Desc.nodes n c ++ Desc.nodesList (n + c.size) cs := by
  simp only [Desc.nodesList]

theorem makeAst_mk (h : Heap) (f : Node) (cs : List Desc) :
    makeAst h (.mk f cs)
      = (makeAstChildren (h.alloc (copyNodeWithoutNeighbors f)) h.size cs, h.size) := by
  simp only [makeAst]

theorem makeAstChildren_nil (h : Heap) (p : Nat) : makeAstChildren h p [] = h := by
  simp only [makeAstChildren]

theorem makeAstChildren_cons (h : Heap) (p : Nat) (c : Desc) (cs : List Desc) :
    makeAstChildren h p (c :: cs)
      = makeAstChildren (appendChild (makeAst h c).1 p (makeAst h c).2) p cs := by
  simp only [makeAstChildren]

/-- The handles of the tree of a description lie in the range that its size
gives, and none occurs twice. -/
theorem Desc.kids_range (d : Desc) : ∀ n : Nat,
    (∀ j ∈ (Desc.kids n d).ids, n < j ∧ j < n + d.size) ∧ (Desc.kids n d).ids.Nodup := by
  refine @Desc.rec
    (fun d => ∀ n : Nat,
      (∀ j ∈ (Desc.kids n d).ids, n < j ∧ j < n + d.size) ∧ (Desc.kids n d).ids.Nodup)
    (fun cs => ∀ n : Nat,
      (∀ j ∈ (Desc.kidsList n cs).ids, n ≤ j ∧ j < n + Desc.sizeList cs) ∧
        (Desc.kidsList n cs).ids.Nodup) ?_ ?_ ?_ d
  · intro f cs ih n
    obtain ⟨a, b⟩ := ih (n + 1)
    refine ⟨fun j hj => ?_, by simpa using b⟩
    have := a j (by simpa using hj)
    simp only [Desc.size_mk]
    omega
  · intro n
    simp
  · intro c cs ih1 ih2 n
    obtain ⟨a1, b1⟩ := ih1 n
    obtain ⟨a2, b2⟩ := ih2 (n + c.size)
    constructor
    · intro j hj
      simp only [Desc.kidsList_cons, Forest.ids_cons, List.mem_cons, List.mem_append] at hj
      simp only [Desc.sizeList_cons]
      have hpos : 0 < c.size := by cases c; simp
      rcases hj with rfl | hj | hj
      · omega
      · have := a1 j hj; omega
      · have := a2 j hj; omega
    · simp only [Desc.kidsList_cons, Forest.ids_cons, List.nodup_cons, List.mem_append, not_or,
        List.nodup_append]
      refine ⟨⟨fun hj => ?_, fun hj => ?_⟩, b1, b2, fun j h1 h2 => ?_⟩
      · have := a1 n hj; omega
      · have := a2 n hj
        have hpos : 0 < c.size := by cases c; simp
        omega
      · have := a1 j h1
        have := a2 j h2
        omega

theorem Desc.kidsList_range (cs : List Desc) : ∀ n : Nat,
    (∀ j ∈ (Desc.kidsList n cs).ids, n ≤ j ∧ j < n + Desc.sizeList cs) ∧
      (Desc.kidsList n cs).ids.Nodup := by
  induction cs with
  | nil => intro n; simp
  | cons c cs ih =>
    intro n
    obtain ⟨a1, b1⟩ := Desc.kids_range c n
    obtain ⟨a2, b2⟩ := ih (n + c.size)
    have hpos : 0 < c.size := by cases c; simp
    constructor
    · intro j hj
      simp only [Desc.kidsList_cons, Forest.ids_cons, List.mem_cons, List.mem_append] at hj
      simp only [Desc.sizeList_cons]
      rcases hj with rfl | hj | hj
      · omega
      · have := a1 j hj; omega
      · have := a2 j hj; omega
    · simp only [Desc.kidsList_cons, Forest.ids_cons, List.nodup_cons, List.mem_append, not_or,
        List.nodup_append]
      refine ⟨⟨fun hj => ?_, fun hj => ?_⟩, b1, b2, fun j h1 h2 => ?_⟩
      · have := a1 n hj; omega
      · have := a2 n hj; omega
      · have := a1 j h1
        have := a2 j h2
        omega

/-- The handles listed by `Desc.nodes` lie in the range of the tree. -/
theorem Desc.nodes_range (d : Desc) : ∀ n : Nat,
    ∀ q ∈ Desc.nodes n d, n ≤ q.1 ∧ q.1 < n + d.size := by
  refine @Desc.rec
    (fun d => ∀ n : Nat, ∀ q ∈ Desc.nodes n d, n ≤ q.1 ∧ q.1 < n + d.size)
    (fun cs => ∀ n : Nat, ∀ q ∈ Desc.nodesList n cs, n ≤ q.1 ∧ q.1 < n + Desc.sizeList cs)
    ?_ ?_ ?_ d
  · intro f cs ih n q hq
    simp only [Desc.nodes_mk, List.mem_cons] at hq
    simp only [Desc.size_mk]
    rcases hq with rfl | hq
    · simp
    · have := ih (n + 1) q hq; omega
  · intro n q hq
    simp at hq
  · intro c cs ih1 ih2 n q hq
    simp only [Desc.nodesList_cons, List.mem_append] at hq
    simp only [Desc.sizeList_cons]
    rcases hq with hq | hq
    · have := ih1 n q hq; omega
    · have := ih2 (n + c.size) q hq; omega

theorem Desc.roots_kidsList (cs : List Desc) : ∀ n : Nat,
    (Desc.kidsList n cs).roots.length = cs.length := by
  induction cs with
  | nil => intro n; simp
  | cons c cs ih => intro n; simp [ih]

end Transform

namespace Transform

/-! ### `appendChild` -/

theorem appendChild_none (h : Heap) {p : Nat} (ch : Nat) (hl : (h.node p).lastChild = none) :
    appendChild h p ch
      = ((h.setParent ch (some p)).setFirstChild p (some ch)).setLastChild p (some ch) := by
  unfold appendChild
  simp [hl]

theorem appendChild_some (h : Heap) {p l : Nat} (ch : Nat)
    (hl : (h.node p).lastChild = some l) :
    appendChild h p ch
      = (((h.setParent ch (some p)).setNext l (some ch)).setPrev ch (some l)).setLastChild p
          (some ch) := by
  unfold appendChild
  simp [hl]

theorem appendChild_size (h : Heap) (p ch : Nat) : (appendChild h p ch).size = h.size := by
  cases hl : (h.node p).lastChild with
  | none => rw [appendChild_none h ch hl]; rfl
  | some l => rw [appendChild_some h ch hl]; rfl

theorem appendChild_payload (h : Heap) (p ch j : Nat) :
    copyNodeWithoutNeighbors ((appendChild h p ch).node j) = copyNodeWithoutNeighbors (h.node j) := by
  cases hl : (h.node p).lastChild with
  | none => rw [appendChild_none h ch hl]; simp [copyNodeWithoutNeighbors]
  | some l => rw [appendChild_some h ch hl]; simp [copyNodeWithoutNeighbors]

theorem appendChild_other (h : Heap) {p ch j : Nat} (h1 : j ≠ p) (h2 : j ≠ ch)
    (h3 : (h.node p).lastChild ≠ some j) : (appendChild h p ch).node j = h.node j := by
  cases hl : (h.node p).lastChild with
  | none => rw [appendChild_none h ch hl]; simp [h1, h2]
  | some l =>
    have : j ≠ l := by
      rintro rfl
      exact h3 hl
    rw [appendChild_some h ch hl]; simp [h1, h2, this]

theorem appendChild_child (h : Heap) {p ch : Nat} (h1 : ch ≠ p)
    (h2 : (h.node p).lastChild ≠ some ch) (h3 : (h.node ch).prev = none) :
    (appendChild h p ch).node ch
      = { h.node ch with parent := some p, prev := (h.node p).lastChild } := by
  cases hl : (h.node p).lastChild with
  | none => rw [appendChild_none h ch hl]; simp [h1, h3]
  | some l =>
    have : ch ≠ l := by
      rintro rfl
      exact h2 hl
    rw [appendChild_some h ch hl]; simp [h1, this]

theorem appendChild_parent (h : Heap) {p ch : Nat} (h1 : ch ≠ p)
    (h2 : (h.node p).lastChild ≠ some p) :
    (appendChild h p ch).node p
      = { h.node p with lastChild := some ch, firstChild :=
          if (h.node p).lastChild = none then some ch else (h.node p).firstChild } := by
  cases hl : (h.node p).lastChild with
  | none => rw [appendChild_none h ch hl]; simp [h1.symm]
  | some l =>
    have : p ≠ l := by
      rintro rfl
      exact h2 hl
    rw [appendChild_some h ch hl]; simp [h1.symm, this]

theorem appendChild_last (h : Heap) {p ch l : Nat} (h1 : l ≠ p) (h2 : l ≠ ch)
    (h3 : (h.node p).lastChild = some l) :
    (appendChild h p ch).node l = { h.node l with next := some ch } := by
  rw [appendChild_some h ch h3]; simp [h1, h2]

end Transform

namespace Transform

/-- One turn of the loop of `makeAst`: the tree built for the description is
appended to the children `done` of `p`. -/
theorem appendChild_seg {h g : Heap} {p : Nat} {done K : Forest}
    (hp : p < h.size) (hlt : ∀ j ∈ done.ids, j < h.size) (hpd : p ∉ done.ids)
    (hnd : done.ids.Nodup)
    (hfc : (h.node p).firstChild = done.headOr none)
    (hlc : (h.node p).lastChild = done.lastOr none)
    (hs : Seg h (some p) none done none)
    (hframe : ∀ j, j < h.size → g.node j = h.node j)
    (hK : ∀ j ∈ K.ids, h.size < j)
    (hg : Seg g none none (.cons h.size K .nil) none) :
    (appendChild g p h.size).node p = { h.node p with
        firstChild := (done.append (.cons h.size K .nil)).headOr none,
        lastChild := (done.append (.cons h.size K .nil)).lastOr none } ∧
      Seg (appendChild g p h.size) (some p) none (done.append (.cons h.size K .nil)) none ∧
      ∀ j, j < h.size → j ≠ p → j ∉ done.roots → (appendChild g p h.size).node j = h.node j := by
  rw [Seg_cons] at hg
  obtain ⟨g1, g2, g3, g4, g5, g6, _⟩ := hg
  have hcp : h.size ≠ p := by omega
  have glc : (g.node p).lastChild = done.lastOr none := by rw [hframe p hp, hlc]
  have hlast : ∀ j, done.lastOr none = some j → j ∈ done.ids := fun j hj =>
    Forest.roots_subset_ids _ _ (Forest.lastOr_none_mem_roots hj)
  have n1 : (g.node p).lastChild ≠ some h.size := by
    rw [glc]
    intro e
    exact absurd (hlt _ (hlast _ e)) (by omega)
  have n2 : (g.node p).lastChild ≠ some p := by
    rw [glc]
    intro e
    exact hpd (hlast _ e)
  have ec := appendChild_child g hcp n1 g2
  have ep := appendChild_parent g hcp n2
  have hother : ∀ j, j ≠ p → j ≠ h.size → done.lastOr none ≠ some j →
      (appendChild g p h.size).node j = g.node j := fun j a b c =>
    appendChild_other g a b (by rw [glc]; exact c)
  refine ⟨?_, ?_, ?_⟩
  · rw [ep, glc, hframe p hp]
    cases done with
    | nil => simp
    | cons a b c =>
      have : (Forest.cons a b c).lastOr none ≠ none := fun e => by
        have := Forest.lastOr_eq_none e
        simp at this
      simp only [this, if_false, hfc]
      simp
  · rw [Seg_append]
    constructor
    · have hs' : Seg g (some p) none done none :=
        Seg_congr (fun j hj => by rw [hframe j (hlt j hj)]; exact SameLinks.rfl' _) hs
      apply Seg_change hnd _ _ _ _ hs'
      · intro j hj hjr
        rw [hother j (fun e => hpd (e ▸ hj)) (by have := hlt j hj; omega)
          (fun e => hjr (Forest.lastOr_none_mem_roots e))]
        exact SameLinks.rfl' _
      · intro j hj
        have hji := Forest.roots_subset_ids _ _ hj
        have hjp : j ≠ p := fun e => hpd (e ▸ hji)
        have hjc : j ≠ h.size := by have := hlt j hji; omega
        by_cases hl : done.lastOr none = some j
        · rw [appendChild_last g hjp hjc (by rw [glc, hl])]
          exact ⟨rfl, rfl, hs'.parent_of_mem_roots j hj⟩
        · rw [hother j hjp hjc hl]
          exact ⟨rfl, rfl, hs'.parent_of_mem_roots j hj⟩
      · intro j hj
        have hji := Forest.roots_subset_ids _ _ hj
        have hjp : j ≠ p := fun e => hpd (e ▸ hji)
        have hjc : j ≠ h.size := by have := hlt j hji; omega
        have e : ((appendChild g p h.size).node j).prev = (g.node j).prev := by
          by_cases hl : done.lastOr none = some j
          · rw [appendChild_last g hjp hjc (by rw [glc, hl])]
          · rw [hother j hjp hjc hl]
        rw [e]
        split
        · next hh => exact hs'.head_prev hh
        · rfl
      · intro j hj
        have hji := Forest.roots_subset_ids _ _ hj
        have hjp : j ≠ p := fun e => hpd (e ▸ hji)
        have hjc : j ≠ h.size := by have := hlt j hji; omega
        by_cases hl : done.lastOr none = some j
        · rw [appendChild_last g hjp hjc (by rw [glc, hl]), if_pos hl]
          simp
        · rw [hother j hjp hjc hl, if_neg hl]
    · rw [Seg_cons]
      refine ⟨by rw [ec], by rw [ec, glc], by rw [ec]; simpa using g3, by rw [ec]; exact g4,
        by rw [ec]; exact g5, ?_, trivial⟩
      apply Seg_congr _ g6
      intro j hj
      have hj1 := hK j hj
      rw [hother j (by omega) (by omega)
        (fun e => by have := hlt j (hlast j e); omega)]
      exact SameLinks.rfl' _
  · intro j hj hjp hjr
    rw [hother j hjp (by omega) (fun e => hjr (Forest.lastOr_none_mem_roots e)), hframe j hj]

end Transform

namespace Transform

theorem makeAst_built (d : Desc) : ∀ h : Heap, TreeBuilt h d (makeAst h d) := by
  refine @Desc.rec (fun d => ∀ h : Heap, TreeBuilt h d (makeAst h d))
    (fun cs => ∀ (h : Heap) (p : Nat) (done : Forest), p < h.size →
      (∀ j ∈ done.ids, j < h.size) → p ∉ done.ids → done.ids.Nodup →
      (h.node p).firstChild = done.headOr none → (h.node p).lastChild = done.lastOr none →
      Seg h (some p) none done none → ChildrenBuilt h p done cs (makeAstChildren h p cs))
    ?_ ?_ ?_ d
  · intro f cs ih h
    rw [makeAst_mk]
    obtain ⟨a1, a2, a3, a4, a5, a6⟩ := ih (h.alloc (copyNodeWithoutNeighbors f)) h.size .nil
      (by simp) (by simp) (by simp) (by simp) (by simp [copyNodeWithoutNeighbors])
      (by simp [copyNodeWithoutNeighbors]) trivial
    simp only [Heap.alloc_size, Forest.nil_append, Heap.alloc_node_self] at a1 a4 a5 a6
    refine ⟨rfl, ?_, ?_, ?_, ?_⟩
    · simp only [Desc.size_mk]; rw [a1]; omega
    · intro j hj
      rw [a2 j (by simp; omega) (by omega) (by simp), Heap.alloc_node_of_lt _ _ hj]
    · rw [Seg_cons]
      simp only [Desc.kids_mk]
      refine ⟨?_, ?_, ?_, ?_, ?_, a5, trivial⟩ <;> rw [a4] <;> simp [copyNodeWithoutNeighbors]
    · intro q hq
      simp only [Desc.nodes_mk, List.mem_cons] at hq
      rcases hq with rfl | hq
      · have := a3 h.size (by simp)
        simp only [Heap.alloc_node_self] at this
        rw [this]
        simp [copyNodeWithoutNeighbors]
      · exact a6 q hq
  · intro h p done hp hlt hpd hnd hfc hlc hs
    rw [makeAstChildren_nil]
    refine ⟨by simp, fun _ _ _ _ => rfl, fun _ _ => rfl, ?_, by simpa using hs, by simp⟩
    simp only [Desc.kidsList_nil, Forest.append_nil, ← hfc, ← hlc]
  · intro c cs ih1 ih2 h p done hp hlt hpd hnd hfc hlc hs
    obtain ⟨e1, e2, e3, e4, e5⟩ := ih1 h
    rw [makeAstChildren_cons, e1]
    have hr := Desc.kids_range c h.size
    obtain ⟨b1, b2, b3⟩ := appendChild_seg hp hlt hpd hnd hfc hlc hs e3
      (fun j hj => (hr.1 j hj).1) e4
    have hsz : (appendChild (makeAst h c).1 p h.size).size = h.size + c.size := by
      rw [appendChild_size, e2]
    have hpos : 0 < c.size := by cases c; simp
    have hF : done.append (Desc.kidsList h.size (c :: cs))
        = (done.append (.cons h.size (Desc.kids h.size c) .nil)).append
            (Desc.kidsList (h.size + c.size) cs) := by
      rw [Forest.append_assoc]; rfl
    obtain ⟨a1, a2, a3, a4, a5, a6⟩ := ih2 (appendChild (makeAst h c).1 p h.size) p
      (done.append (.cons h.size (Desc.kids h.size c) .nil)) (by rw [hsz]; omega)
      (by
        intro j hj
        rw [hsz]
        simp only [Forest.ids_append, Forest.ids_cons, Forest.ids_nil, List.append_nil,
          List.mem_append, List.mem_cons] at hj
        rcases hj with hj | rfl | hj
        · have := hlt j hj; omega
        · omega
        · have := hr.1 j hj; omega)
      (by
        simp only [Forest.ids_append, Forest.ids_cons, Forest.ids_nil, List.append_nil,
          List.mem_append, List.mem_cons, not_or]
        exact ⟨hpd, by omega, fun hj => by have := hr.1 p hj; omega⟩)
      (by
        simp only [Forest.ids_append, Forest.ids_cons, Forest.ids_nil, List.append_nil,
          List.nodup_append, List.nodup_cons]
        refine ⟨hnd, ⟨fun hj => by have := hr.1 _ hj; omega, hr.2⟩, ?_⟩
        intro j h1 h2
        have := hlt j h1
        simp only [List.mem_cons] at h2
        rcases h2 with rfl | h2
        · omega
        · have := hr.1 j h2; omega)
      (by rw [b1]) (by rw [b1]) b2
    rw [hsz] at a1 a4 a5 a6
    rw [← hF] at a4 a5
    refine ⟨?_, ?_, ?_, ?_, a5, ?_⟩
    · rw [a1, Desc.sizeList_cons]; omega
    · intro j hj hjp hjr
      rw [a2 j (by rw [hsz]; omega) hjp
        (by simp only [Forest.roots_append, Forest.roots_cons, Forest.roots_nil,
              List.mem_append, List.mem_singleton, not_or]
            exact ⟨hjr, by omega⟩), b3 j hj hjp hjr]
    · intro j hj
      rw [a3 j (by rw [hsz]; omega), appendChild_payload, e3 j hj]
    · rw [a4, b1]
    · intro q hq
      simp only [Desc.nodesList_cons, List.mem_append] at hq
      rcases hq with hq | hq
      · have := Desc.nodes_range c h.size q hq
        rw [a3 q.1 (by rw [hsz]; omega), appendChild_payload, e5 q hq]
      · exact a6 q hq

end Transform

namespace Transform

/-- The five tests of `verifyAst` pass at every node of a chain that the heap
holds, when the neighbours of the chain point back at its ends. -/
theorem verifyAst_of_seg {h : Heap} {x : Forest} : ∀ {par pv nx : Option Nat},
    Seg h par pv x nx →
    (∀ p, pv = some p → (h.node p).next = x.headOr nx) →
    (∀ q, nx = some q → (h.node q).prev = x.lastOr pv) →
    ∀ j ∈ x.ids, ∀ F, x.size < F → verifyAst F h j = some ([], true) := by
  induction x with
  | nil => intro par pv nx _ _ _ j hj; simp at hj
  | cons i cs rest ih1 ih2 =>
    intro par pv nx hs hpv hnx j hj F hF
    rw [Seg_cons] at hs
    obtain ⟨s1, s2, s3, s4, s5, s6, s7⟩ := hs
    simp only [Forest.size_cons] at hF
    simp only [Forest.ids_cons, List.mem_cons, List.mem_append] at hj
    rcases hj with rfl | hj | hj
    · have hlen : (chain h F (h.node j).firstChild).length < F := by
        rw [s4, chain_eq_take s6]
        have := roots_length_le_size cs
        simp only [List.length_take]
        omega
      obtain ⟨m, e, hm⟩ := verifyChildren_spec h j F (h.node j).firstChild hlen
      have hm0 : m = [] := by
        by_contra hne
        obtain ⟨c, hc, hcp⟩ := hm.mp hne
        rw [s4, chain_eq_take s6] at hc
        exact hcp (s6.parent_of_mem_roots c (List.mem_of_mem_take hc))
      subst hm0
      have f1 : ∀ p, (h.node j).prev = some p → (h.node p).next = some j := by
        intro p hp
        have := hpv p (by rw [← s2, hp])
        simpa using this
      have f2 : ∀ x, (h.node j).next = some x → (h.node x).prev = some j := by
        intro x hx
        rw [s3] at hx
        cases rest with
        | nil =>
          simp only [Forest.headOr_nil] at hx
          have := hnx x hx
          simpa using this
        | cons r rcs rrest =>
          rw [Seg_cons] at s7
          simp only [Forest.headOr_cons, Option.some.injEq] at hx
          subst hx
          exact s7.2.1
      have f4 : ∀ c, (h.node j).firstChild = some c → (h.node c).prev = none :=
        fun c hc => s6.head_prev (s4 ▸ hc)
      have f5 : ∀ c, (h.node j).lastChild = some c → (h.node c).next = none :=
        fun c hc => s6.last_next (s5 ▸ hc)
      simp only [verifyAst, e, Option.map_some']
      clear e hm hlen s1 s2 s3 s4 s5 s6 s7 hpv hnx ih1 ih2
      cases hp : (h.node j).prev <;> cases hn : (h.node j).next <;>
        cases hf : (h.node j).firstChild <;> cases hl : (h.node j).lastChild <;>
        simp_all
    · exact ih1 s6 (by simp) (by simp) j hj F (by omega)
    · refine ih2 s7 ?_ ?_ j hj F (by omega)
      · intro p hp
        simp only [Option.some.injEq] at hp
        subst hp
        exact s3
      · intro q hq
        have := hnx q hq
        simpa using this

end Transform

namespace Transform

/-- The tree of the `i`-th description of a list stands in the chain built
for the list, and its nodes are among those of the list. -/
theorem kidsList_child {k : Heap} {par : Option Nat} (cs : List Desc) :
    ∀ (n : Nat) (pv nx : Option Nat) (i c : Nat) (dk : Desc),
      Seg k par pv (Desc.kidsList n cs) nx → (Desc.kidsList n cs).roots[i]? = some c →
      cs[i]? = some dk →
      (∃ pv' nx', Seg k par pv' (.cons c (Desc.kids c dk) .nil) nx') ∧
        ∀ q ∈ Desc.nodes c dk, q ∈ Desc.nodesList n cs := by
  induction cs with
  | nil => intro n pv nx i c dk _ _ hd; simp at hd
  | cons c0 cs ih =>
    intro n pv nx i c dk hs hc hd
    rw [Desc.kidsList_cons] at hs hc
    cases i with
    | zero =>
      simp only [Forest.roots_cons, List.getElem?_cons_zero, Option.some.injEq] at hc hd
      subst hc
      subst hd
      rw [Seg_cons] at hs
      obtain ⟨s1, s2, s3, s4, s5, s6, _⟩ := hs
      refine ⟨⟨pv, (Desc.kidsList (n + c0.size) cs).headOr nx, ?_⟩, fun q hq => ?_⟩
      · rw [Seg_cons]
        exact ⟨s1, s2, s3, s4, s5, s6, trivial⟩
      · simp [hq]
    | succ i =>
      simp only [Forest.roots_cons, List.getElem?_cons_succ] at hc hd
      rw [Seg_cons] at hs
      obtain ⟨a, b⟩ := ih (n + c0.size) (some n) nx i c dk hs.2.2.2.2.2.2 hc hd
      exact ⟨a, fun q hq => by simp [b q hq]⟩

end Transform

namespace Transform

/-- The tree of a description has as many nodes as the description says. -/
theorem Desc.size_kids (d : Desc) : ∀ n : Nat, (Desc.kids n d).size + 1 = d.size := by
  refine @Desc.rec (fun d => ∀ n : Nat, (Desc.kids n d).size + 1 = d.size)
    (fun cs => ∀ n : Nat, (Desc.kidsList n cs).size = Desc.sizeList cs) ?_ ?_ ?_ d
  · intro f cs ih n
    simp only [Desc.kids_mk, Desc.size_mk, ih]
  · intro n
    simp
  · intro c cs ih1 ih2 n
    simp only [Desc.kidsList_cons, Forest.size_cons, Desc.sizeList_cons, ih2]
    have := ih1 n
    omega

end Transform

/-! ### The hoist of an image that is the only content of the first item of a list -/

namespace Transform

set_option maxRecDepth 100000 in
theorem exListBetween_isDoc : IsDoc exListBetween.1 0 exListBetweenTop := by
  refine ⟨⟨⟨?_, ?_, ?_⟩, ?_, ?_, ?_, ?_, ?_, ?_⟩, ?_⟩ <;> decide

theorem Forest.hasNode_append_left {c : Nat} {kids x : Forest} (y : Forest)
    (hx : Forest.HasNode c kids x) : Forest.HasNode c kids (x.append y) := by
  induction x with
  | nil => exact hx.elim
  | cons i cs rest _ ih =>
    rcases hx with hx | hx | hx
    · exact Or.inl hx
    · exact Or.inr (Or.inl hx)
    · exact Or.inr (Or.inr (ih hx))

/-- A node of the left part of a split stays there, with its children, when
the split goes on upwards. -/
theorem hasNode_splitUp_left {c : Nat} {kids : Forest} (path : List Frame) :
    ∀ (n : Nat) (lk rk : Forest), Forest.HasNode c kids lk →
      Forest.HasNode c kids (splitUp n path lk rk).1 := by
  induction path with
  | nil => intro n lk rk hl; exact hl
  | cons fr p ih =>
    intro n lk rk hl
    have hl' : Forest.HasNode c kids (fr.left.append (.cons fr.id lk .nil)) :=
      Forest.hasNode_append_right _ (Or.inr (Or.inl hl))
    rw [splitUp_cons]
    split
    · exact ih _ _ _ hl'
    · exact ih _ _ _ hl'

/-- With something to the right of the split, every ancestor is copied. -/
theorem splitSrc_length_of_ne_nil (path : List Frame) : ∀ (n : Nat) (rk : Forest), rk ≠ .nil →
    (splitSrc n path rk).length = path.length := by
  induction path with
  | nil => intro n rk _; rfl
  | cons fr p ih =>
    intro n rk hrk
    simp only [splitSrc, if_pos (Or.inl hrk), List.length_cons]
    rw [ih _ _ (by simp)]

/-- A node of the tree with its children `kids`, read off the heap. -/
theorem children_of_hasNode {k : Heap} {root c : Nat} {top kids : Forest}
    (hk : IsDocW k root top) (hn : Forest.HasNode c kids top) (G : Nat)
    (hG : kids.roots.length ≤ G) :
    childrenOf k G c = kids.roots ∧ (k.node c).firstChild = kids.headOr none ∧
      (k.node c).lastChild = kids.lastOr none := by
  obtain ⟨e1, e2, e3⟩ := Seg.hasNode hk.seg hn
  exact ⟨by rw [childrenOf_eq_take e1 e3, List.take_of_length_le hG], e1, e2⟩

end Transform

/-! ## The properties of the passes -/

namespace Transform

/-- C1: for every document that satisfies the link invariants, `pullOutImages`
returns (given enough fuel, and whichever way the accessor of line 101
behaves), and in the tree it leaves, every node of type `image` below the
root, at any depth and inside continuation copies too, has the root as its
parent. -/
theorem pullOutImages_images_under_root (w : Bool) (h : Heap) (root : Nat) (top : Forest)
    (hd : IsDoc h root top) :
    ∃ k top', (∃ F0, ∀ F, F0 ≤ F → pullOutImages w F h root = some k) ∧
      IsDocW k root top' ∧
      ∀ j ∈ top'.ids, (k.node j).type = "image" → (k.node j).parent = some root := by
  obtain ⟨k, top', r1, _, r3, _, r5⟩ := pullOutImages_spec w hd.toIsDocW
  exact ⟨k, top', r5, r1, fun j hj ht => (r1.mem_roots_iff hj).mp (r3 j hj ht)⟩

theorem pullOutImages_images_under_root_witness :
    IsDoc exParagraph.1 0 exParagraphTop ∧
    ∃ k top', (∃ F0, ∀ F, F0 ≤ F → pullOutImages true F exParagraph.1 0 = some k) ∧
      IsDocW k 0 top' ∧
      ∀ j ∈ top'.ids, (k.node j).type = "image" → (k.node j).parent = some 0 :=
  ⟨exParagraph_isDoc,
    pullOutImages_images_under_root true exParagraph.1 0 exParagraphTop exParagraph_isDoc⟩

set_option maxRecDepth 100000 in
/-- C2: the tree `document[paragraph[text "a", image], paragraph[text "c"]]`
satisfies the link invariants, and `pullOutImages` leaves the children
1, 3, 6, 4 under the root (6 is the continuation copy of paragraph 1) with
`lastChild` of the root set to 6, not to the last child 4: `verifyAst` on the
root reports that the last child has a next sibling. -/
theorem pullOutImages_root_lastChild_stale (w : Bool) :
    IsDoc exTwoBlocks.1 0 exTwoBlocksTop ∧
    (pullOutImages w 8 exTwoBlocks.1 0).map (fun k =>
        (chain k 8 (k.node 0).firstChild, (k.node 0).lastChild, (k.node 6).next))
      = some ([1, 3, 6, 4], some 6, some 4) ∧
    (pullOutImages w 8 exTwoBlocks.1 0).bind (fun k => verifyAst 8 k 0)
      = some (["node's last child has next sibling"], true) := by
  refine ⟨exTwoBlocks_isDoc, ?_⟩
  cases w <;> decide

/-- C3: for every document whose only block is a paragraph `P` with the
children `L`, then the image `img`, then `R`, where `R` is not empty and no
node of `L`, of `R` or below `img` is an image, `pullOutImages` returns and
leaves under the root, in this order, `P` with the children `L`, then `img`,
then one new node (the object with handle `h.size`) of type `paragraph` with
the continuation flag set and the children `R`; the nodes of `L` have `P` as
parent, those of `R` the new node, and `img` the root. -/
theorem pullOutImages_splits_paragraph (w : Bool) (h : Heap) (root P img : Nat)
    (L R : List Nat) (ics : Forest)
    (hd : IsDoc h root (.cons P ((leaves L).append (.cons img ics (leaves R))) .nil))
    (hP : (h.node P).type = "paragraph") (himg : (h.node img).type = "image")
    (hR : R ≠ []) (hLR : ∀ j ∈ L ++ R ++ ics.ids, (h.node j).type ≠ "image") :
    ∃ k, (∃ F0, ∀ F, F0 ≤ F → pullOutImages w F h root = some k) ∧
      IsDocW k root (.cons P (leaves L) (.cons img ics (.cons h.size (leaves R) .nil))) ∧
      (k.node h.size).type = "paragraph" ∧ (k.node h.size).continuation = true ∧
      (∀ F, 3 ≤ F → childrenOf k F root = [P, img, h.size]) ∧
      (∀ F, L.length ≤ F → childrenOf k F P = L) ∧
      (∀ F, R.length ≤ F → childrenOf k F h.size = R) ∧
      (∀ l ∈ L, (k.node l).parent = some P) ∧
      (∀ r ∈ R, (k.node r).parent = some h.size) ∧
      (k.node img).parent = some root := by
  have hd1 : IsDocW h root
      (plug [⟨P, .nil, .nil⟩] ((leaves L).append (.cons img ics (leaves R)))) := hd.toIsDocW
  have hd2 : IsDocW h root (Forest.nil.append
      (.cons P ((leaves L).append (.cons img ics (leaves R))) .nil)) := hd.toIsDocW
  have hd3 : IsDocW h root (plug [⟨P, .nil, .nil⟩]
      (Forest.nil.append ((leaves L).append (.cons img ics (leaves R))))) := hd.toIsDocW
  have hRne := leaves_ne_nil hR
  obtain ⟨k, q1, _, q3, q4⟩ := pull_single w (b := P) (n := L.length) hd1 himg
    (by
      intro j hj hne ht
      simp only [plug, Forest.nil_append, Forest.ids_cons, Forest.ids_append, Forest.ids_nil,
        ids_leaves, List.append_nil, List.mem_cons, List.mem_append] at hj
      rcases hj with rfl | hj | hj | hj | hj
      · simp [plug]
      · exact absurd ht (hLR j (by simp [hj]))
      · exact absurd hj hne
      · exact absurd ht (hLR j (by simp [hj]))
      · exact absurd ht (hLR j (by simp [hj])))
    (by simp [pathBefore]) rfl
    (by
      intro F fuel
      rw [hd2.block.1]
      exact walk_leaves w L .nil hd3 (fun j hj => hLR j (by simp [hj])) rfl F fuel)
  have hsu : splitUp h.size [⟨P, .nil, .nil⟩] (leaves L) (leaves R)
      = (.cons P (leaves L) .nil, .cons h.size (leaves R) .nil, h.size + 1) := by
    simp [splitUp, hRne]
  have hsrc : splitSrc h.size [⟨P, .nil, .nil⟩] (leaves R) = [(h.size, P)] := by
    simp [splitSrc, hRne]
  rw [hsu] at q1
  rw [hsrc] at q3
  have q1' : IsDocW k root (.cons P (leaves L) (.cons img ics (.cons h.size (leaves R) .nil))) :=
    q1
  have hpay := q3 (h.size, P) (by simp)
  have hseg := q1'.seg
  simp only [Seg_cons, Seg_nil] at hseg
  obtain ⟨_, _, _, hPf, _, hPs, hip, _, _, _, _, _, _, _, _, hcf, _, hcs, _⟩ := hseg
  refine ⟨k, q4, q1', ?_, ?_, ?_, ?_, ?_, ?_, ?_, hip⟩
  · rw [type_eq_of_copy hpay]; exact hP
  · simpa [copyNodeWithoutNeighbors] using congrArg Node.continuation hpay
  · intro F hF
    rw [childrenOf_eq_take q1'.first q1'.seg]
    simp only [Forest.roots_cons, Forest.roots_nil]
    exact List.take_of_length_le (by simpa using hF)
  · intro F hF
    rw [childrenOf_eq_take hPf hPs, roots_leaves]
    exact List.take_of_length_le hF
  · intro F hF
    rw [childrenOf_eq_take hcf hcs, roots_leaves]
    exact List.take_of_length_le hF
  · intro l hl
    exact Seg.parent_of_mem_roots hPs l (by rw [roots_leaves]; exact hl)
  · intro r hr
    exact Seg.parent_of_mem_roots hcs r (by rw [roots_leaves]; exact hr)

set_option maxRecDepth 100000 in
theorem pullOutImages_splits_paragraph_witness :
    (IsDoc exParagraph.1 0 (.cons 1 ((leaves [2]).append (.cons 3 .nil (leaves [4]))) .nil) ∧
      (exParagraph.1.node 1).type = "paragraph" ∧ (exParagraph.1.node 3).type = "image" ∧
      [4] ≠ [] ∧ ∀ j ∈ [2] ++ [4] ++ Forest.nil.ids, (exParagraph.1.node j).type ≠ "image") ∧
    ∃ k, (∃ F0, ∀ F, F0 ≤ F → pullOutImages true F exParagraph.1 0 = some k) ∧
      IsDocW k 0 (.cons 1 (leaves [2]) (.cons 3 .nil (.cons exParagraph.1.size (leaves [4]) .nil))) ∧
      (k.node exParagraph.1.size).type = "paragraph" ∧
      (k.node exParagraph.1.size).continuation = true ∧
      (∀ F, 3 ≤ F → childrenOf k F 0 = [1, 3, exParagraph.1.size]) ∧
      (∀ F, [2].length ≤ F → childrenOf k F 1 = [2]) ∧
      (∀ F, [4].length ≤ F → childrenOf k F exParagraph.1.size = [4]) ∧
      (∀ l ∈ [2], (k.node l).parent = some 1) ∧
      (∀ r ∈ [4], (k.node r).parent = some exParagraph.1.size) ∧
      (k.node 3).parent = some 0 :=
  ⟨⟨exParagraph_isDoc, by decide, by decide, by decide, by decide⟩,
    pullOutImages_splits_paragraph true exParagraph.1 0 1 3 [2] [4] .nil exParagraph_isDoc
      (by decide) (by decide) (by decide) (by decide)⟩

/-- C4, amended: in every document tree (the state of any hoist of a run;
every input that satisfies the link invariants is one), for a list `lst` at
any position (with the blocks or siblings `lf` before it and `rt` after it,
below the ancestors `rest`, none for a list at the top level) whose first
item `it` holds only the image `img` and is followed by the items `items`
(at least one): the hoist of the image returns and leaves the list `lst`
with the item `it` as its only child, the item now without children; the
image under the root; a continuation copy of the list (handle `h.size + 1`)
that holds an empty continuation copy of `it` (handle `h.size`) followed by
the items `items`.  For a list at the top level the children of the root are
then `lf`, the list, the image, the copy of the list, `rt`; for a list below
an ancestor `a` the children of `a` are `lf` and the list, and a continuation
copy of `a` holds the copy of the list followed by `rt`.  When `img` is the
only image below the top level, this is the result of `pullOutImages`. -/
theorem pullOutImages_first_item_image (w : Bool) (F : Nat) (h : Heap) (root lst it img : Nat)
    (rest : List Frame) (lf rt ics items : Forest)
    (hd : IsDocW h root (plug (⟨it, .nil, items⟩ :: ⟨lst, lf, rt⟩ :: rest)
      (Forest.nil.append (.cons img ics .nil))))
    (himg : (h.node img).type = "image") (hne : items ≠ .nil) (hF : h.size ≤ F) :
    ∃ k, visitNode w F h img = some k ∧
      IsDocW k root ((splitUp (h.size + 2) rest
          (lf.append (.cons lst (.cons it .nil .nil) .nil))
          (.cons (h.size + 1) (.cons h.size .nil items) rt)).1.append
        (.cons img ics (splitUp (h.size + 2) rest
          (lf.append (.cons lst (.cons it .nil .nil) .nil))
          (.cons (h.size + 1) (.cons h.size .nil items) rt)).2.1)) ∧
      k.size = h.size + 2 + rest.length ∧
      (∀ j, j < h.size →
        copyNodeWithoutNeighbors (k.node j) = copyNodeWithoutNeighbors (h.node j)) ∧
      (k.node img).parent = some root ∧
      (∀ G, 1 ≤ G → childrenOf k G lst = [it]) ∧
      ((∀ G, childrenOf k G it = []) ∧ (k.node it).firstChild = none ∧
        (k.node it).lastChild = none) ∧
      copyNodeWithoutNeighbors (k.node h.size)
        = { copyNodeWithoutNeighbors (h.node it) with continuation := true } ∧
      (∀ G, childrenOf k G h.size = []) ∧
      copyNodeWithoutNeighbors (k.node (h.size + 1))
        = { copyNodeWithoutNeighbors (h.node lst) with continuation := true } ∧
      (∀ G, items.roots.length + 1 ≤ G →
        childrenOf k G (h.size + 1) = h.size :: items.roots) ∧
      (rest = [] → ∀ G, lf.roots.length + rt.roots.length + 3 ≤ G →
        childrenOf k G root = lf.roots ++ [lst, img, h.size + 1] ++ rt.roots) ∧
      (∀ (a : Frame) (above : List Frame), rest = a :: above →
        (∀ G, lf.roots.length + 1 ≤ G → childrenOf k G a.id = lf.roots ++ [lst]) ∧
        copyNodeWithoutNeighbors (k.node (h.size + 2))
          = { copyNodeWithoutNeighbors (h.node a.id) with continuation := true } ∧
        (∀ G, rt.roots.length + 1 ≤ G →
          childrenOf k G (h.size + 2) = (h.size + 1) :: rt.roots)) ∧
      ((∀ j ∈ (plug (⟨it, .nil, items⟩ :: ⟨lst, lf, rt⟩ :: rest)
            (Forest.nil.append (.cons img ics .nil))).ids, j ≠ img →
          (h.node j).type = "image" → (h.node j).parent = some root) →
        ∃ F0, ∀ F', F0 ≤ F' → pullOutImages w F' h root = some k) := by
  obtain ⟨k, e1, e2, e3, e4, _, e6⟩ := hoistImage_spec (w := w) hd (le_refl h.size)
  have ev : visitNode w h.size h img = some k := by rw [visitNode_hoist hd himg, e1]
  have hsu : splitUp h.size (⟨it, .nil, items⟩ :: ⟨lst, lf, rt⟩ :: rest) .nil .nil
      = splitUp (h.size + 2) rest (lf.append (.cons lst (.cons it .nil .nil) .nil))
          (.cons (h.size + 1) (.cons h.size .nil items) rt) := by
    rw [splitUp_cons, if_pos (Or.inr hne), splitUp_cons, if_pos (Or.inl (by simp))]
    rfl
  have hsk : splitKids h.size (⟨it, .nil, items⟩ :: ⟨lst, lf, rt⟩ :: rest) .nil
      = (h.size, it, .nil) :: (h.size + 1, lst, .cons h.size .nil items) ::
          splitKids (h.size + 2) rest (.cons (h.size + 1) (.cons h.size .nil items) rt) := by
    simp [splitKids, hne]
  have hss : splitSrc h.size (⟨it, .nil, items⟩ :: ⟨lst, lf, rt⟩ :: rest) .nil
      = (h.size, it) :: (h.size + 1, lst) ::
          splitSrc (h.size + 2) rest (.cons (h.size + 1) (.cons h.size .nil items) rt) := by
    simp [splitSrc, hne]
  have m0 : (h.size, it, Forest.nil)
      ∈ splitKids h.size (⟨it, .nil, items⟩ :: ⟨lst, lf, rt⟩ :: rest) .nil := by
    rw [hsk]; simp
  have m1 : (h.size + 1, lst, Forest.cons h.size .nil items)
      ∈ splitKids h.size (⟨it, .nil, items⟩ :: ⟨lst, lf, rt⟩ :: rest) .nil := by
    rw [hsk]; simp
  have hc0 := hoist_copy_children e2 m0
  have hc1 := hoist_copy_children e2 m1
  have hleft : ∀ c kids, Forest.HasNode c kids
      (lf.append (.cons lst (.cons it .nil .nil) .nil)) → ∀ G, kids.roots.length ≤ G →
      childrenOf k G c = kids.roots ∧ (k.node c).firstChild = kids.headOr none ∧
        (k.node c).lastChild = kids.lastOr none := by
    intro c kids hn G hG
    refine children_of_hasNode e2 (Forest.hasNode_append_left _ ?_) G hG
    rw [hsu]
    exact hasNode_splitUp_left rest _ _ _ hn
  have hlst := hleft lst (.cons it .nil .nil)
    (Forest.hasNode_append_right _ (Or.inl ⟨rfl, rfl⟩))
  have hit := hleft it .nil
    (Forest.hasNode_append_right _ (Or.inr (Or.inl (Or.inl ⟨rfl, rfl⟩))))
  have e2p : IsDocW k root (plug [] ((splitUp h.size
      (⟨it, .nil, items⟩ :: ⟨lst, lf, rt⟩ :: rest) .nil .nil).1.append
      (.cons img ics (splitUp h.size
        (⟨it, .nil, items⟩ :: ⟨lst, lf, rt⟩ :: rest) .nil .nil).2.1))) := e2
  obtain ⟨_, _, hpar, _⟩ := e2p.position
  refine ⟨k, visitNode_mono ev hF, hsu ▸ e2, ?_, e4.payload, hpar, ?_, ?_, ?_, ?_, ?_, ?_, ?_,
    ?_, ?_⟩
  · rw [e3, splitUp_size, hss]
    simp only [List.length_cons]
    rw [splitSrc_length_of_ne_nil rest _ _ (by simp)]
    omega
  · intro G hG
    exact (hlst G (by simpa using hG)).1
  · exact ⟨fun G => (hit G (by simp)).1, (hit 0 (by simp)).2.1, (hit 0 (by simp)).2.2⟩
  · exact e6 (h.size, it) (by rw [hss]; simp)
  · intro G
    exact hc0 G (by simp)
  · exact e6 (h.size + 1, lst) (by rw [hss]; simp)
  · intro G hG
    rw [hc1 G (by simpa using hG)]
    rfl
  · intro hr G hG
    subst hr
    have e2' := e2
    rw [hsu] at e2'
    have e2'' : IsDocW k root ((lf.append (.cons lst (.cons it .nil .nil) .nil)).append
        (.cons img ics (.cons (h.size + 1) (.cons h.size .nil items) rt))) := e2'
    rw [childrenOf_eq_take e2''.first e2''.seg, List.take_of_length_le]
    · simp
    · simp
      omega
  · intro a above hr
    subst hr
    have hsk2 : splitKids (h.size + 2) (a :: above)
          (.cons (h.size + 1) (.cons h.size .nil items) rt)
        = (h.size + 2, a.id, .cons (h.size + 1) (.cons h.size .nil items) rt) ::
            splitKids (h.size + 3) above
              (.cons (h.size + 2) (.cons (h.size + 1) (.cons h.size .nil items) rt) a.right) := by
      simp [splitKids]
    have hss2 : splitSrc (h.size + 2) (a :: above)
          (.cons (h.size + 1) (.cons h.size .nil items) rt)
        = (h.size + 2, a.id) :: splitSrc (h.size + 3) above
              (.cons (h.size + 2) (.cons (h.size + 1) (.cons h.size .nil items) rt) a.right) := by
      simp [splitSrc]
    have m2 : (h.size + 2, a.id, Forest.cons (h.size + 1) (.cons h.size .nil items) rt)
        ∈ splitKids h.size (⟨it, .nil, items⟩ :: ⟨lst, lf, rt⟩ :: a :: above) .nil := by
      rw [hsk, hsk2]; simp
    have hc2 := hoist_copy_children e2 m2
    refine ⟨?_, e6 (h.size + 2, a.id) (by rw [hss, hss2]; simp), ?_⟩
    · intro G hG
      have hn : Forest.HasNode a.id (lf.append (.cons lst (.cons it .nil .nil) .nil))
          ((splitUp h.size (⟨it, .nil, items⟩ :: ⟨lst, lf, rt⟩ :: a :: above) .nil .nil).1.append
            (.cons img ics (splitUp h.size
              (⟨it, .nil, items⟩ :: ⟨lst, lf, rt⟩ :: a :: above) .nil .nil).2.1)) := by
        apply Forest.hasNode_append_left
        rw [hsu, splitUp_cons, if_pos (Or.inl (by simp))]
        exact hasNode_splitUp_left above _ _ _
          (Forest.hasNode_append_right _ (Or.inl ⟨rfl, rfl⟩))
      have := (children_of_hasNode e2 hn G (by simpa using hG)).1
      rw [this]
      simp
    · intro G hG
      rw [hc2 G (by simpa using hG)]
      rfl
  · intro hone
    obtain ⟨k', a1, a2⟩ := pullOutImages_one_visit w hd himg
      (fun j hj hne' ht => (hd.mem_roots_iff hj).mpr (hone j hj hne' ht))
    rw [ev] at a1
    rw [Option.some.inj a1]
    exact a2

set_option maxRecDepth 100000 in
theorem pullOutImages_first_item_image_witness :
    (IsDocW exListBetween.1 0 (plug [⟨4, .nil, .cons 6 (.cons 7 .nil .nil) .nil⟩,
          ⟨3, .cons 1 (.cons 2 .nil .nil) .nil, .cons 8 (.cons 9 .nil .nil) .nil⟩]
        (Forest.nil.append (.cons 5 .nil .nil))) ∧
      (exListBetween.1.node 5).type = "image" ∧
      Forest.cons 6 (.cons 7 .nil .nil) .nil ≠ .nil ∧ exListBetween.1.size ≤ 10) ∧
    ∃ k, (∃ F0, ∀ F, F0 ≤ F → pullOutImages true F exListBetween.1 0 = some k) ∧
      visitNode true 10 exListBetween.1 5 = some k ∧
      childrenOf k 10 0 = [1, 3, 5, 11, 8] ∧ childrenOf k 10 3 = [4] ∧
      childrenOf k 10 4 = [] ∧ childrenOf k 10 11 = [10, 6] ∧ childrenOf k 10 10 = [] ∧
      copyNodeWithoutNeighbors (k.node 10)
        = { copyNodeWithoutNeighbors (exListBetween.1.node 4) with continuation := true } ∧
      copyNodeWithoutNeighbors (k.node 11)
        = { copyNodeWithoutNeighbors (exListBetween.1.node 3) with continuation := true } :=
  ⟨⟨exListBetween_isDoc.toIsDocW, by decide, by decide, by decide⟩,
    let ⟨k, c0, _, _, _, _, c1, c2, c3, c4, c5, c6, c7, _, c9⟩ :=
      pullOutImages_first_item_image true 10 exListBetween.1 0 3 4 5 []
        (.cons 1 (.cons 2 .nil .nil) .nil) (.cons 8 (.cons 9 .nil .nil) .nil) .nil
        (.cons 6 (.cons 7 .nil .nil) .nil) exListBetween_isDoc.toIsDocW (by decide) (by decide)
        (by decide)
    ⟨k, c9 (by decide), c0, c7 rfl 10 (by decide), c1 10 (by decide), c2.1 10,
      c6 10 (by decide), c4 10, c3, c5⟩⟩

set_option maxRecDepth 100000 in
/-- C4, counterexample: after `pullOutImages` on
`document[list[item[image], item[text "second"]]]`, for either behaviour of
line 101, the children of the root
are the list 1, the image 3 and the list copy 7; the list 1 is not empty but
still holds the item 2, which has no children; and the list copy 7 holds two
children, the item copy 6, which has no children, and the item 4. -/
theorem pullOutImages_list_keeps_item :
    ((pullOutImages true 10 exList.1 0).map (fun k =>
        (childrenOf k 10 0, childrenOf k 10 1, childrenOf k 10 7))
      = some ([1, 3, 7], [2], [6, 4]) ∧
    (pullOutImages true 10 exList.1 0).map (fun k =>
        (childrenOf k 10 2, childrenOf k 10 6, (k.node 6).type, (k.node 6).continuation))
      = some ([], [], "item", true)) ∧
    ((pullOutImages false 10 exList.1 0).map (fun k =>
        (childrenOf k 10 0, childrenOf k 10 1, childrenOf k 10 7))
      = some ([1, 3, 7], [2], [6, 4]) ∧
    (pullOutImages false 10 exList.1 0).map (fun k =>
        (childrenOf k 10 2, childrenOf k 10 6, (k.node 6).type, (k.node 6).continuation))
      = some ([], [], "item", true)) := by
  decide

/-- C5: when every image of a document is a child of the root already (or
there is none), `pullOutImages` returns the heap it was given: no link and
no payload of any node changes and no node is created, so that `astToString`
gives the same text before and after. -/
theorem pullOutImages_unchanged (w : Bool) (h : Heap) (root : Nat) (top : Forest)
    (hd : IsDoc h root top)
    (hno : ∀ j ∈ top.ids, (h.node j).type = "image" → (h.node j).parent = some root) :
    ∃ F0, ∀ F, F0 ≤ F → pullOutImages w F h root = some h ∧
      ∀ G indent, (pullOutImages w F h root).bind (fun k => astToString k G (some root) indent)
        = astToString h G (some root) indent := by
  obtain ⟨k, top', _, _, _, r4, F0, r5⟩ := pullOutImages_spec w hd.toIsDocW
  obtain ⟨rfl, _⟩ := r4 (fun j hj ht => (hd.toIsDocW.mem_roots_iff hj).mpr (hno j hj ht))
  refine ⟨F0, fun F hF => ⟨r5 F hF, fun G indent => ?_⟩⟩
  rw [r5 F hF]
  rfl

theorem pullOutImages_unchanged_witness :
    (IsDoc exStartThree.1 0 exStartThreeTop ∧
      ∀ j ∈ exStartThreeTop.ids, (exStartThree.1.node j).type = "image" →
        (exStartThree.1.node j).parent = some 0) ∧
    ∃ F0, ∀ F, F0 ≤ F → pullOutImages true F exStartThree.1 0 = some exStartThree.1 ∧
      ∀ G indent, (pullOutImages true F exStartThree.1 0).bind
          (fun k => astToString k G (some 0) indent)
        = astToString exStartThree.1 G (some 0) indent :=
  ⟨⟨exStartThree_isDoc, by decide⟩,
    pullOutImages_unchanged true exStartThree.1 0 exStartThreeTop exStartThree_isDoc (by decide)⟩

/-- C6: on every tree, `addListItemIndices` returns, and afterwards the
children `c_0, c_1, ...` of every node of type `list`, at any depth, have
`c_k.index = s + k`, where `s` is the `listStart` of that list, or 1 when
`listStart` is absent or zero. -/
theorem addListItemIndices_numbers_items (h : Heap) (root : Nat) (kids : Forest)
    (ht : IsTree h root kids) (F : Nat) (hF : 2 * kids.size + 3 ≤ F) :
    ∃ k, addListItemIndices F h root = some k ∧ IsTree k root kids ∧
      ∀ l ∈ root :: kids.ids, (k.node l).type = "list" →
        ∀ n c, (childrenOf k F l)[n]? = some c →
          (k.node c).index = some (listStartOrOne (k.node l) + n) := by
  obtain ⟨k, hk, he, hi⟩ := addListItemIndices_indexed ht hF
  have htk : IsTree k root kids := he.symm.isTree ht
  refine ⟨k, hk, htk, ?_⟩
  intro l hl hty n c hc
  simp only [Indexed] at hi
  simp only [List.mem_cons] at hl
  rcases hl with rfl | hl
  · rw [childrenOf_eq_take htk.first htk.seg] at hc
    exact hi.1 hty n c (getElem?_of_take hc)
  · exact Indexed.children htk.seg hi.2.1 F l hl hty n c hc

theorem addListItemIndices_numbers_items_witness :
    (IsTree exStartThree.1 0 exStartThreeTop ∧ 2 * exStartThreeTop.size + 3 ≤ 20) ∧
    ∃ k, addListItemIndices 20 exStartThree.1 0 = some k ∧ IsTree k 0 exStartThreeTop ∧
      ∀ l ∈ 0 :: exStartThreeTop.ids, (k.node l).type = "list" →
        ∀ n c, (childrenOf k 20 l)[n]? = some c →
          (k.node c).index = some (listStartOrOne (k.node l) + n) :=
  ⟨⟨exStartThree_isDoc.toIsTree, by decide⟩,
    addListItemIndices_numbers_items exStartThree.1 0 exStartThreeTop
      exStartThree_isDoc.toIsTree 20 (by decide)⟩

/-- C7: on every tree, a second run of `addListItemIndices` returns the heap
that the first run produced: no field of any node changes. -/
theorem addListItemIndices_idempotent (h : Heap) (root : Nat) (kids : Forest)
    (ht : IsTree h root kids) (F : Nat) (hF : 2 * kids.size + 3 ≤ F) :
    ∃ k, addListItemIndices F h root = some k ∧ addListItemIndices F k root = some k := by
  obtain ⟨k, hk, he, hi⟩ := addListItemIndices_indexed ht hF
  refine ⟨k, hk, ?_⟩
  rw [addListItemIndices_eq (he.symm.isTree ht) hF]
  exact congrArg some (annot_eq_self k (.cons root kids .nil) hi)

theorem addListItemIndices_idempotent_witness :
    (IsTree exStartThree.1 0 exStartThreeTop ∧ 2 * exStartThreeTop.size + 3 ≤ 20) ∧
    ∃ k, addListItemIndices 20 exStartThree.1 0 = some k ∧
      addListItemIndices 20 k 0 = some k :=
  ⟨⟨exStartThree_isDoc.toIsTree, by decide⟩,
    addListItemIndices_idempotent exStartThree.1 0 exStartThreeTop
      exStartThree_isDoc.toIsTree 20 (by decide)⟩

/-- C8, amended: for every document that satisfies the link
invariants, both orders of the two passes return (given enough fuel), and
the two results agree at every object in every field but `index`: the same
shape, the same node types and payload, the same continuation flags. -/
theorem passes_commute_up_to_index (w : Bool) (h : Heap) (root : Nat) (top : Forest)
    (hd : IsDoc h root top) :
    ∃ k1 k2, (∃ F0, ∀ F, F0 ≤ F →
        (addListItemIndices F h root).bind (fun a => pullOutImages w F a root) = some k1 ∧
        (pullOutImages w F h root).bind (fun p => addListItemIndices F p root) = some k2) ∧
      EqUpToIndex k1 k2 := by
  have ha := fun F hF => @addListItemIndices_annot h root top hd.toIsTree F hF
  have hae : EqUpToIndex (annot (annotNode h root top) top) h :=
    (annot_equiv _ _).trans (annotNode_equiv _ _ _)
  obtain ⟨k1, top1, _, _, _, _, F1, a5⟩ := pullOutImages_spec w (hae.symm.isDocW hd.toIsDocW)
  obtain ⟨kp, topp, b1, _, _, _, Fp, b5⟩ := pullOutImages_spec w hd.toIsDocW
  have hb := fun F hF => @addListItemIndices_annot kp root topp b1.toIsTree F hF
  have hbe : EqUpToIndex (annot (annotNode kp root topp) topp) kp :=
    (annot_equiv _ _).trans (annotNode_equiv _ _ _)
  have h1p : EqUpToIndex k1 kp := by
    rw [EqUpToIndex_iff] at hae ⊢
    have e1 := pullOutImages_erase w (max F1 Fp) (annot (annotNode h root top) top) root
    have e2 := pullOutImages_erase w (max F1 Fp) h root
    rw [a5 _ (le_max_left _ _)] at e1
    rw [b5 _ (le_max_right _ _)] at e2
    rw [hae, e2] at e1
    simpa using e1.symm
  refine ⟨k1, annot (annotNode kp root topp) topp, ⟨max (max F1 Fp)
    (max (2 * top.size + 3) (2 * topp.size + 3)), fun F hF => ?_⟩, h1p.trans hbe.symm⟩
  have g1 : F1 ≤ F := by omega
  have g2 : Fp ≤ F := by omega
  rw [(ha F (by omega)).1, b5 F g2]
  simp only [Option.some_bind]
  exact ⟨a5 F g1, (hb F (by omega)).1⟩

theorem passes_commute_up_to_index_witness :
    IsDoc exThreeItems.1 0 exThreeItemsTop ∧
    ∃ k1 k2, (∃ F0, ∀ F, F0 ≤ F →
        (addListItemIndices F exThreeItems.1 0).bind (fun a => pullOutImages true F a 0)
          = some k1 ∧
        (pullOutImages true F exThreeItems.1 0).bind (fun p => addListItemIndices F p 0)
          = some k2) ∧
      EqUpToIndex k1 k2 :=
  ⟨exThreeItems_isDoc,
    passes_commute_up_to_index true exThreeItems.1 0 exThreeItemsTop exThreeItems_isDoc⟩

set_option maxRecDepth 1000000 in
/-- C8, counterexample: on the list with three items whose second item
holds text, an image and text, the continuation copy 10 of the second item
and the third item 8 get the indices 2 and 3 when `addListItemIndices` runs
first, and the indices 1 and 2 when `pullOutImages` runs first. -/
theorem passes_do_not_commute :
    (((addListItemIndices 30 exThreeItems.1 0).bind (fun a => pullOutImages true 30 a 0)).map
        (fun k => ((k.node 10).index, (k.node 8).index)) = some (some 2, some 3) ∧
    ((pullOutImages true 30 exThreeItems.1 0).bind (fun p => addListItemIndices 30 p 0)).map
        (fun k => ((k.node 10).index, (k.node 8).index)) = some (some 1, some 2)) ∧
    (((addListItemIndices 30 exThreeItems.1 0).bind (fun a => pullOutImages false 30 a 0)).map
        (fun k => ((k.node 10).index, (k.node 8).index)) = some (some 2, some 3) ∧
    ((pullOutImages false 30 exThreeItems.1 0).bind (fun p => addListItemIndices 30 p 0)).map
        (fun k => ((k.node 10).index, (k.node 8).index)) = some (some 1, some 2)) := by
  decide

/-- C9: for every document that satisfies the link invariants, the tree that
`pullOutImages` leaves holds every node of the input; its nodes in document
order, without the objects created by the run, are the nodes of the input in
their document order; every node keeps its payload, every created object is
a continuation copy of a node of the input, and a node without children,
such as an ancestor emptied by a split, has neither first nor last child. -/
theorem pullOutImages_keeps_content (w : Bool) (h : Heap) (root : Nat) (top : Forest)
    (hd : IsDoc h root top) :
    ∃ k top', (∃ F0, ∀ F, F0 ≤ F → pullOutImages w F h root = some k) ∧
      IsDocW k root top' ∧
      top'.ids.filter (fun j => decide (j < h.size)) = top.ids ∧
      (∀ j ∈ top.ids, j ∈ top'.ids) ∧
      (∀ j, j < h.size →
        copyNodeWithoutNeighbors (k.node j) = copyNodeWithoutNeighbors (h.node j)) ∧
      (∀ j ∈ top'.ids, h.size ≤ j → ∃ a ∈ top.ids, copyNodeWithoutNeighbors (k.node j)
        = { copyNodeWithoutNeighbors (h.node a) with continuation := true }) ∧
      (∀ j ∈ top'.ids, (k.node j).firstChild = none ↔ (k.node j).lastChild = none) := by
  obtain ⟨k, top', r1, r2, _, _, r5⟩ := pullOutImages_spec w hd.toIsDocW
  refine ⟨k, top', r5, r1, r2.order, ?_, r2.payload, r2.copies, Seg.first_none_iff r1.seg⟩
  intro j hj
  rw [← r2.order] at hj
  exact (List.mem_filter.mp hj).1

theorem pullOutImages_keeps_content_witness :
    IsDoc exList.1 0 exListTop ∧
    ∃ k top', (∃ F0, ∀ F, F0 ≤ F → pullOutImages false F exList.1 0 = some k) ∧
      IsDocW k 0 top' ∧
      top'.ids.filter (fun j => decide (j < exList.1.size)) = exListTop.ids ∧
      (∀ j ∈ exListTop.ids, j ∈ top'.ids) ∧
      (∀ j, j < exList.1.size →
        copyNodeWithoutNeighbors (k.node j) = copyNodeWithoutNeighbors (exList.1.node j)) ∧
      (∀ j ∈ top'.ids, exList.1.size ≤ j → ∃ a ∈ exListTop.ids,
        copyNodeWithoutNeighbors (k.node j)
          = { copyNodeWithoutNeighbors (exList.1.node a) with continuation := true }) ∧
      (∀ j ∈ top'.ids, (k.node j).firstChild = none ↔ (k.node j).lastChild = none) :=
  ⟨exList_isDoc, pullOutImages_keeps_content false exList.1 0 exListTop exList_isDoc⟩

/-- C10, amended: whenever the chain of children of the node ends
within the fuel, `verifyAst` returns `true`, and it writes at least one
message exactly when one of its five tests fails: the previous sibling does
not point back, the next sibling does not point back, a child in the chain
from `firstChild` has another parent, the first child has a previous
sibling, or the last child has a next sibling. -/
theorem verifyAst_reports_iff (fuel : Nat) (h : Heap) (n : Nat)
    (hfin : (chain h fuel (h.node n).firstChild).length < fuel) :
    ∃ msgs, verifyAst fuel h n = some (msgs, true) ∧ (msgs ≠ [] ↔ VerifyFails fuel h n) := by
  obtain ⟨m, e, hm⟩ := verifyChildren_spec h n fuel (h.node n).firstChild hfin
  simp only [verifyAst, e, Option.map_some']
  refine ⟨_, rfl, ?_⟩
  unfold VerifyFails
  rw [← hm]
  cases hp : (h.node n).prev <;> cases hx : (h.node n).next <;>
    cases hf : (h.node n).firstChild <;> cases hl : (h.node n).lastChild <;>
    simp [Option.isSome_iff_ne_none] <;> tauto

theorem verifyAst_reports_iff_witness :
    (chain exTwoBlocks.1 8 (exTwoBlocks.1.node 0).firstChild).length < 8 ∧
    ∃ msgs, verifyAst 8 exTwoBlocks.1 0 = some (msgs, true) ∧
      (msgs ≠ [] ↔ VerifyFails 8 exTwoBlocks.1 0) :=
  ⟨by decide, verifyAst_reports_iff 8 exTwoBlocks.1 0 (by decide)⟩

/-- C10, counterexample: the paragraph 0 of `exLastOnly` has no first child
but the text node 1 as last child, which violates I1 and I5, and `verifyAst`
on it writes no message. -/
theorem verifyAst_misses_lastChild_only :
    (exLastOnly.node 0).firstChild = none ∧ (exLastOnly.node 0).lastChild = some 1 ∧
      verifyAst 5 exLastOnly 0 = some ([], true) := by
  decide

end Transform

namespace Transform

/-- C11, amended: whenever the chain of children of the node ends within the
fuel, `verifyAst` returns, and the value it returns is `true` whatever it has
written: the returned value does not tell whether a test failed. -/
theorem verifyAst_returns_true (fuel : Nat) (h : Heap) (n : Nat)
    (hfin : (chain h fuel (h.node n).firstChild).length < fuel) :
    (∃ msgs, verifyAst fuel h n = some (msgs, true)) ∧
      ∀ r, verifyAst fuel h n = some r → r.2 = true := by
  obtain ⟨m, e, _⟩ := verifyChildren_spec h n fuel (h.node n).firstChild hfin
  simp only [verifyAst, e, Option.map_some']
  exact ⟨⟨_, rfl⟩, fun r hr => by rw [← Option.some.inj hr]⟩

theorem verifyAst_returns_true_witness :
    (chain exBadChild 5 (exBadChild.node 0).firstChild).length < 5 ∧
    ((∃ msgs, verifyAst 5 exBadChild 0 = some (msgs, true)) ∧
      ∀ r, verifyAst 5 exBadChild 0 = some r → r.2 = true) :=
  ⟨by decide, verifyAst_returns_true 5 exBadChild 0 (by decide)⟩

/-- C11, counterexample: the child 1 of the paragraph 0 of `exBadChild` does
not have the paragraph as parent; `verifyAst` on the paragraph writes the
message for it and returns `true`. -/
theorem verifyAst_true_despite_message :
    verifyAst 5 exBadChild 0 = some (["node is not linked properly to child"], true) := by
  decide

/-- C12: for every description `d` and every heap, `makeAst` returns a new
object (no object that existed is changed) that carries the type and every
field of `d`; its children, read through `firstChild` and `next`, are one
node per child description, in order, the `i`-th being the root of the tree
of the `i`-th child description with the fields that description gives; the
whole tree is held with consistent links (I1-I5: the node returned has no
parent and no siblings), and `verifyAst` writes no message on any of its
nodes. -/
theorem makeAst_builds_tree (h : Heap) (d : Desc) :
    (makeAst h d).2 = h.size ∧ (makeAst h d).1.size = h.size + d.size ∧
    (∀ j, j < h.size → (makeAst h d).1.node j = h.node j) ∧
    copyNodeWithoutNeighbors ((makeAst h d).1.node (makeAst h d).2)
      = copyNodeWithoutNeighbors d.fields ∧
    ((makeAst h d).1.node (makeAst h d).2).type = d.fields.type ∧
    (Desc.kids h.size d).roots.length = d.children.length ∧
    (∀ G, d.children.length ≤ G →
      childrenOf (makeAst h d).1 G (makeAst h d).2 = (Desc.kids h.size d).roots) ∧
    (∀ (i c : Nat) (dk : Desc), (Desc.kids h.size d).roots[i]? = some c →
      d.children[i]? = some dk →
      (∃ pv nx, Seg (makeAst h d).1 (some (makeAst h d).2) pv
        (.cons c (Desc.kids c dk) .nil) nx) ∧
      ∀ q ∈ Desc.nodes c dk,
        copyNodeWithoutNeighbors ((makeAst h d).1.node q.1) = copyNodeWithoutNeighbors q.2) ∧
    Seg (makeAst h d).1 none none (.cons h.size (Desc.kids h.size d) .nil) none ∧
    (∀ q ∈ Desc.nodes h.size d,
      copyNodeWithoutNeighbors ((makeAst h d).1.node q.1) = copyNodeWithoutNeighbors q.2) ∧
    ∀ j ∈ (Forest.cons h.size (Desc.kids h.size d) .nil).ids, ∀ F, d.size < F →
      verifyAst F (makeAst h d).1 j = some ([], true) := by
  obtain ⟨e1, e2, e3, e4, e5⟩ := makeAst_built d h
  have e4' := e4
  rw [Seg_cons] at e4'
  obtain ⟨_, _, _, s4, _, s6, _⟩ := e4'
  obtain ⟨f, cs⟩ := d
  have hroot : copyNodeWithoutNeighbors ((makeAst h (.mk f cs)).1.node h.size)
      = copyNodeWithoutNeighbors f := e5 (h.size, f) (by simp)
  have hlen : (Desc.kids h.size (.mk f cs)).roots.length = cs.length := by
    rw [Desc.kids_mk, Desc.roots_kidsList]
  refine ⟨e1, e2, e3, ?_, ?_, hlen, ?_, ?_, e4, e5, ?_⟩
  · rw [e1]; exact hroot
  · rw [e1]
    have := congrArg Node.type hroot
    simpa [copyNodeWithoutNeighbors] using this
  · intro G hG
    rw [e1, childrenOf_eq_take s4 s6, List.take_of_length_le]
    rw [hlen]; exact hG
  · intro i c dk hc hd
    rw [e1]
    rw [Desc.kids_mk] at hc s6
    obtain ⟨a, b⟩ := kidsList_child cs (h.size + 1) none none i c dk s6 hc hd
    exact ⟨a, fun q hq => e5 q (by simp [b q hq])⟩
  · intro j hj F hF
    refine verifyAst_of_seg e4 (by simp) (by simp) j hj F ?_
    have hsz := Desc.size_kids (.mk f cs) h.size
    simp only [Forest.size_cons, Forest.size_nil]
    omega

set_option maxRecDepth 100000 in
theorem makeAst_builds_tree_witness :
    (makeAst emptyHeap (document [paragraph [text "a", image "x.png"], paragraph [text "c"]])).2
        = 0 ∧
      verifyAst 7 exTwoBlocks.1 3 = some ([], true) :=
  ⟨(makeAst_builds_tree emptyHeap
      (document [paragraph [text "a", image "x.png"], paragraph [text "c"]])).1,
    (makeAst_builds_tree emptyHeap
      (document [paragraph [text "a", image "x.png"], paragraph [text "c"]])).2.2.2.2.2.2.2.2.2.2
      3 (by decide) 7 (by decide)⟩

/-- C13, amended: on every finite graph of objects (every reference held by
an object of the graph points to an object of the graph), `astToJson`
returns for every start object when the fuel is the number of objects: the
recursion only enters objects that are not on the current path. -/
theorem astToJson_terminates (g : Nat → List (String × JsValue)) (n : Nat)
    (hc : ClosedGraph g n) (node : Nat) (hnode : node < n) (fuel : Nat) (hf : n ≤ fuel)
    (indent : String) :
    ∃ s, astToJson g fuel node [] indent = some s :=
  astToJson_isSome hc fuel node [] indent (by simp)
    (by intro j hj; simp only [List.nil_append, List.mem_singleton] at hj; rw [hj]; exact hnode)
    (by simpa using hf)

theorem astToJson_terminates_witness :
    (ClosedGraph exThreeChildren 4 ∧ 0 < 4 ∧ 4 ≤ 4) ∧
    ∃ s, astToJson exThreeChildren 4 0 [] "" = some s :=
  ⟨⟨exThreeChildren_closed, by decide, by decide⟩,
    astToJson_terminates exThreeChildren 4 exThreeChildren_closed 0 (by decide) 4
      (by decide) ""⟩

set_option maxRecDepth 1000000 in
/-- C13, counterexample: the objects of a document with three children hold
nine references in all, and the text of `astToJson` for the document has the
marker ten times: the references to a parent or a sibling are met along the
path through `_firstChild` and again along the path through `_lastChild`. -/
theorem astToJson_more_markers_than_edges :
    (astToJson exThreeChildren 5 0 [] "").map (fun s => countMarkers s.toList) = some 10 ∧
    ((List.range 4).map (fun o => countRefs (exThreeChildren o))).sum = 9 := by
  refine ⟨by decide, by decide⟩

/-- C14: for every document that satisfies the link invariants and whose only
image that is not a child of the root is `img`, below the block `B`:
`pullOutImages` returns, and the children of the root are then the blocks
`pre` that preceded `B`, as they were, then `B`, then the image, whose
previous sibling is `B`, then at most one new node, a continuation copy of
`B`, then the blocks `post` that followed `B`, in their order. -/
theorem pullOutImages_image_after_block (w : Bool) (h : Heap) (root B img : Nat)
    (pre bcs post : Forest) (hd : IsDoc h root (pre.append (.cons B bcs post)))
    (himg : (h.node img).type = "image") (hin : img ∈ bcs.ids)
    (hone : ∀ j ∈ (pre.append (.cons B bcs post)).ids, j ≠ img → (h.node j).type = "image" →
      (h.node j).parent = some root) :
    ∃ (k : Heap) (bcs' ics mid : Forest),
      (∃ F0, ∀ F, F0 ≤ F → pullOutImages w F h root = some k) ∧
      IsDocW k root (pre.append (.cons B bcs' (.cons img ics (mid.append post)))) ∧
      (k.node img).prev = some B ∧ (k.node img).parent = some root ∧
      (∀ j ∈ pre.ids, k.node j = h.node j) ∧
      (mid = .nil ∨ ∃ c ccs, mid = .cons c ccs .nil ∧ h.size ≤ c ∧
        copyNodeWithoutNeighbors (k.node c)
          = { copyNodeWithoutNeighbors (h.node B) with continuation := true }) := by
  have hdw := hd.toIsDocW
  obtain ⟨qs, lf, ics, rt, eb⟩ := exists_plugOut hin
  have etop : pre.append (.cons B bcs post)
      = plug (qs.reverse ++ [⟨B, pre, post⟩]) (lf.append (.cons img ics rt)) := by
    rw [plug_eq_plugOut, List.reverse_append, List.reverse_reverse, eb]
    rfl
  obtain ⟨fr, rest, hfr⟩ : ∃ fr rest, qs.reverse ++ [⟨B, pre, post⟩] = fr :: rest := by
    cases qs.reverse with
    | nil => exact ⟨_, _, rfl⟩
    | cons a l => exact ⟨_, _, rfl⟩
  have hone' : ∀ j ∈ (pre.append (.cons B bcs post)).ids, j ≠ img → (h.node j).type = "image" →
      j ∈ (pre.append (.cons B bcs post)).roots :=
    fun j hj hne ht => (hdw.mem_roots_iff hj).mpr (hone j hj hne ht)
  have hseg := hdw.seg
  rw [Seg_append] at hseg
  rw [etop, hfr] at hdw hone'
  obtain ⟨k, q1, q2, q3, _, _, q6⟩ := pullOutImages_one w hdw himg hone'
  rw [← hfr] at q1 q3
  obtain ⟨X, e1, e2⟩ := splitUp_top ⟨B, pre, post⟩ qs.reverse h.size lf rt
  have hform : ∃ mid : Forest, (splitUp h.size (qs.reverse ++ [⟨B, pre, post⟩]) lf rt).2.1
        = mid.append post ∧
      (mid = .nil ∨ ∃ c ccs, mid = .cons c ccs .nil ∧ h.size ≤ c ∧
        copyNodeWithoutNeighbors (k.node c)
          = { copyNodeWithoutNeighbors (h.node B) with continuation := true }) := by
    rcases e2 with e2 | ⟨Y, c', e2, e3⟩
    · exact ⟨.nil, e2, Or.inl rfl⟩
    · exact ⟨.cons c' Y .nil, e2, Or.inr ⟨c', Y, rfl, (splitSrc_mem e3).1, q3 _ e3⟩⟩
  obtain ⟨mid, e4, hmid⟩ := hform
  rw [e1, e4] at q1
  have q1' : IsDocW k root (pre.append (.cons B X (.cons img ics (mid.append post)))) := by
    have e5 : (pre.append (.cons B X .nil)).append (.cons img ics (mid.append post))
        = pre.append (.cons B X (.cons img ics (mid.append post))) := by
      rw [Forest.append_assoc]; rfl
    rw [← e5]
    exact q1
  have q1p : IsDocW k root (plug [] ((pre.append (.cons B X .nil)).append
      (.cons img ics (mid.append post)))) := q1
  obtain ⟨_, _, hpar, hprev, _⟩ := q1p.position
  have kseg := q1'.seg
  rw [Seg_append] at kseg
  refine ⟨k, X, ics, mid, q6, q1', ?_, hpar, ?_, hmid⟩
  · rw [hprev]; simp
  · intro j hj
    apply node_eq_of_payload
    · exact q2.payload j (hd.bound j (by simp [hj]))
    · exact Seg.sameLinks hseg.1 kseg.1 j hj

set_option maxRecDepth 100000 in
theorem pullOutImages_image_after_block_witness :
    (IsDoc exTwoBlocks.1 0
        (Forest.nil.append (.cons 1 (.cons 2 .nil (.cons 3 .nil .nil))
          (.cons 4 (.cons 5 .nil .nil) .nil))) ∧
      (exTwoBlocks.1.node 3).type = "image" ∧
      3 ∈ (Forest.cons 2 .nil (.cons 3 .nil .nil)).ids ∧
      ∀ j ∈ (Forest.nil.append (.cons 1 (.cons 2 .nil (.cons 3 .nil .nil))
          (.cons 4 (.cons 5 .nil .nil) .nil))).ids, j ≠ 3 →
        (exTwoBlocks.1.node j).type = "image" → (exTwoBlocks.1.node j).parent = some 0) ∧
    ∃ (k : Heap) (bcs' ics mid : Forest),
      (∃ F0, ∀ F, F0 ≤ F → pullOutImages true F exTwoBlocks.1 0 = some k) ∧
      IsDocW k 0 (Forest.nil.append (.cons 1 bcs' (.cons 3 ics
        (mid.append (.cons 4 (.cons 5 .nil .nil) .nil))))) ∧
      (k.node 3).prev = some 1 ∧ (k.node 3).parent = some 0 ∧
      (∀ j ∈ Forest.nil.ids, k.node j = exTwoBlocks.1.node j) ∧
      (mid = .nil ∨ ∃ c ccs, mid = .cons c ccs .nil ∧ exTwoBlocks.1.size ≤ c ∧
        copyNodeWithoutNeighbors (k.node c)
          = { copyNodeWithoutNeighbors (exTwoBlocks.1.node 1) with continuation := true }) :=
  ⟨⟨exTwoBlocks_isDoc, by decide, by decide, by decide⟩,
    pullOutImages_image_after_block true exTwoBlocks.1 0 1 3 .nil
      (.cons 2 .nil (.cons 3 .nil .nil)) (.cons 4 (.cons 5 .nil .nil) .nil) exTwoBlocks_isDoc
      (by decide) (by decide) (by decide)⟩

/-- C15: for every document that satisfies the link invariants and whose only
image that is not a child of the root is `i`, with the ancestors
`fr :: rest` from its parent up to its block: `pullOutImages` returns; the
objects it creates are the copies listed by `splitSrc`, and an ancestor `a`
is copied exactly when the image or an ancestor below `a` has a right
sibling, or `a` itself has one.  When neither the image nor an ancestor has
a right sibling, no object is created, and the image is the last child of
the root, directly after its block. -/
theorem pullOutImages_copies_iff (w : Bool) (h : Heap) (root i : Nat) (fr : Frame)
    (rest : List Frame) (lf cs rt : Forest)
    (hd : IsDoc h root (plug (fr :: rest) (lf.append (.cons i cs rt))))
    (hi : (h.node i).type = "image")
    (hone : ∀ j ∈ (plug (fr :: rest) (lf.append (.cons i cs rt))).ids, j ≠ i →
      (h.node j).type = "image" → (h.node j).parent = some root) :
    ∃ k, (∃ F0, ∀ F, F0 ≤ F → pullOutImages w F h root = some k) ∧
      k.size = h.size + (splitSrc h.size (fr :: rest) rt).length ∧
      (∀ c, h.size ≤ c → c < k.size → ∃ a, (c, a) ∈ splitSrc h.size (fr :: rest) rt ∧
        copyNodeWithoutNeighbors (k.node c)
          = { copyNodeWithoutNeighbors (h.node a) with continuation := true }) ∧
      (∀ a, a ∈ (splitSrc h.size (fr :: rest) rt).map Prod.snd ↔
        ∃ below g above, fr :: rest = below ++ g :: above ∧ g.id = a ∧
          (rt ≠ .nil ∨ ∃ g' ∈ below ++ [g], g'.right ≠ .nil)) ∧
      (rt = .nil → (∀ g ∈ fr :: rest, g.right = .nil) →
        k.size = h.size ∧ (k.node i).parent = some root ∧
        (k.node i).prev = some ((fr :: rest).getLast (List.cons_ne_nil fr rest)).id ∧
        (k.node i).next = none ∧ (k.node root).lastChild = some i) := by
  have hdw := hd.toIsDocW
  obtain ⟨k, q1, _, q3, q4, q5, q6⟩ := pullOutImages_one w hdw hi
    (fun j hj hne ht => (hdw.mem_roots_iff hj).mpr (hone j hj hne ht))
  refine ⟨k, q6, q4, ?_, splitSrc_snd _ _ _, ?_⟩
  · intro c h1 h2
    have hc : c ∈ (splitSrc h.size (fr :: rest) rt).map Prod.fst := by
      rw [splitSrc_fst, List.mem_range'_1]
      omega
    obtain ⟨p, hp, rfl⟩ := List.mem_map.mp hc
    exact ⟨p.2, hp, q3 p hp⟩
  · intro hrt hright
    subst hrt
    have e0 := splitSrc_of_no_right (fr :: rest) h.size hright
    have e1 := splitUp_of_no_right (fr :: rest) h.size lf hright
    obtain ⟨X, e2, _⟩ := splitUp_top ((fr :: rest).getLast (List.cons_ne_nil fr rest))
      (fr :: rest).dropLast h.size lf .nil
    rw [List.dropLast_append_getLast] at e2
    rw [e0] at q4
    rw [e1] at q1 q5
    have q1p : IsDocW k root (plug [] ((splitUp h.size (fr :: rest) lf .nil).1.append
        (.cons i cs .nil))) := q1
    obtain ⟨_, _, hpar, hprev, hnext, _⟩ := q1p.position
    refine ⟨by simpa using q4, hpar, ?_, hnext, q5⟩
    rw [hprev, e2]
    simp

set_option maxRecDepth 100000 in
theorem pullOutImages_copies_iff_witness :
    (IsDoc exTwoBlocks.1 0 (plug [⟨1, .nil, .cons 4 (.cons 5 .nil .nil) .nil⟩]
        ((Forest.cons 2 .nil .nil).append (.cons 3 .nil .nil))) ∧
      (exTwoBlocks.1.node 3).type = "image" ∧
      ∀ j ∈ (plug [⟨1, .nil, .cons 4 (.cons 5 .nil .nil) .nil⟩]
          ((Forest.cons 2 .nil .nil).append (.cons 3 .nil .nil))).ids, j ≠ 3 →
        (exTwoBlocks.1.node j).type = "image" → (exTwoBlocks.1.node j).parent = some 0) ∧
    ∃ k, (∃ F0, ∀ F, F0 ≤ F → pullOutImages true F exTwoBlocks.1 0 = some k) ∧
      k.size = exTwoBlocks.1.size + (splitSrc exTwoBlocks.1.size
        [⟨1, .nil, .cons 4 (.cons 5 .nil .nil) .nil⟩] .nil).length ∧
      (∀ c, exTwoBlocks.1.size ≤ c → c < k.size → ∃ a,
        (c, a) ∈ splitSrc exTwoBlocks.1.size [⟨1, .nil, .cons 4 (.cons 5 .nil .nil) .nil⟩] .nil ∧
        copyNodeWithoutNeighbors (k.node c)
          = { copyNodeWithoutNeighbors (exTwoBlocks.1.node a) with continuation := true }) ∧
      (∀ a, a ∈ (splitSrc exTwoBlocks.1.size
          [⟨1, .nil, .cons 4 (.cons 5 .nil .nil) .nil⟩] .nil).map Prod.snd ↔
        ∃ below g above, [(⟨1, .nil, .cons 4 (.cons 5 .nil .nil) .nil⟩ : Frame)]
            = below ++ g :: above ∧ g.id = a ∧
          (Forest.nil ≠ .nil ∨ ∃ g' ∈ below ++ [g], g'.right ≠ .nil)) ∧
      (Forest.nil = .nil →
        (∀ g ∈ [(⟨1, .nil, .cons 4 (.cons 5 .nil .nil) .nil⟩ : Frame)], g.right = .nil) →
        k.size = exTwoBlocks.1.size ∧ (k.node 3).parent = some 0 ∧
        (k.node 3).prev = some ([(⟨1, .nil, .cons 4 (.cons 5 .nil .nil) .nil⟩ : Frame)].getLast
          (List.cons_ne_nil _ [])).id ∧
        (k.node 3).next = none ∧ (k.node 0).lastChild = some 3) :=
  ⟨⟨exTwoBlocks_isDoc, by decide, by decide⟩,
    pullOutImages_copies_iff true exTwoBlocks.1 0 3 ⟨1, .nil, .cons 4 (.cons 5 .nil .nil) .nil⟩
      [] (.cons 2 .nil .nil) .nil .nil exTwoBlocks_isDoc (by decide) (by decide)⟩

/-- C16: the hoist of an image `i` with the ancestors `fr :: rest` below the
root, in any document tree (the state of any hoist of a run): it returns;
the objects it creates are exactly the copies `c` listed by `splitKids`, each
of an ancestor `a` of the image, with every payload field of `a` (type
included) and the continuation flag set, and with exactly the children
`kids` that were to the right of the split under `a`; every object that
existed before keeps every payload field, the continuation flag included.
When `i` is the only image below the top level, this heap is the result of
`pullOutImages`. -/
theorem hoistImage_copies (w : Bool) (F : Nat) (h : Heap) (root i : Nat) (fr : Frame)
    (rest : List Frame) (lf cs rt : Forest)
    (hd : IsDocW h root (plug (fr :: rest) (lf.append (.cons i cs rt))))
    (hi : (h.node i).type = "image") (hF : h.size ≤ F) :
    ∃ k, visitNode w F h i = some k ∧
      k.size = h.size + (splitKids h.size (fr :: rest) rt).length ∧
      (∀ c, h.size ≤ c → c < k.size → ∃ a kids,
        (c, a, kids) ∈ splitKids h.size (fr :: rest) rt ∧ a ∈ (fr :: rest).map Frame.id ∧
        copyNodeWithoutNeighbors (k.node c)
          = { copyNodeWithoutNeighbors (h.node a) with continuation := true } ∧
        (k.node c).type = (h.node a).type ∧ (k.node c).continuation = true ∧
        ∀ G, kids.roots.length ≤ G → childrenOf k G c = kids.roots) ∧
      (∀ j, j < h.size →
        copyNodeWithoutNeighbors (k.node j) = copyNodeWithoutNeighbors (h.node j) ∧
        (k.node j).continuation = (h.node j).continuation) ∧
      ((∀ j ∈ (plug (fr :: rest) (lf.append (.cons i cs rt))).ids, j ≠ i →
          (h.node j).type = "image" → (h.node j).parent = some root) →
        ∃ F0, ∀ F', F0 ≤ F' → pullOutImages w F' h root = some k) := by
  obtain ⟨k, e1, e2, e3, e4, _, e6⟩ := hoistImage_spec (w := w) hd (le_refl h.size)
  have ev : visitNode w h.size h i = some k := by rw [visitNode_hoist hd hi, e1]
  have hlen : (splitKids h.size (fr :: rest) rt).length
      = (splitSrc h.size (fr :: rest) rt).length := by
    rw [← splitKids_src, List.length_map]
  refine ⟨k, visitNode_mono ev hF, ?_, ?_, ?_, ?_⟩
  · rw [e3, splitUp_size, hlen]
  · intro c h1 h2
    rw [e3, splitUp_size] at h2
    have hc : c ∈ (splitSrc h.size (fr :: rest) rt).map Prod.fst := by
      rw [splitSrc_fst, List.mem_range'_1]
      omega
    rw [← splitKids_src, List.map_map] at hc
    obtain ⟨q, hq, rfl⟩ := List.mem_map.mp hc
    obtain ⟨c, a, kids⟩ := q
    have hsrc : (c, a) ∈ splitSrc h.size (fr :: rest) rt := by
      rw [← splitKids_src]
      exact List.mem_map.mpr ⟨(c, a, kids), hq, rfl⟩
    have hpay := e6 (c, a) hsrc
    refine ⟨a, kids, hq, (splitSrc_mem hsrc).2, hpay, ?_, ?_, ?_⟩
    · have := congrArg Node.type hpay
      simpa [copyNodeWithoutNeighbors] using this
    · have := congrArg Node.continuation hpay
      simpa [copyNodeWithoutNeighbors] using this
    · intro G hG
      exact hoist_copy_children e2 hq G hG
  · intro j hj
    have := e4.payload j hj
    refine ⟨this, ?_⟩
    have := congrArg Node.continuation this
    simpa [copyNodeWithoutNeighbors] using this
  · intro hone
    obtain ⟨k', a1, a2⟩ := pullOutImages_one_visit w hd hi
      (fun j hj hne ht => (hd.mem_roots_iff hj).mpr (hone j hj hne ht))
    rw [ev] at a1
    rw [Option.some.inj a1]
    exact a2

set_option maxRecDepth 100000 in
theorem hoistImage_copies_witness :
    (IsDocW exThreeItems.1 0 (plug [⟨4, .cons 2 (.cons 3 .nil .nil) .nil,
          .cons 8 (.cons 9 .nil .nil) .nil⟩, ⟨1, .nil, .nil⟩]
        ((Forest.cons 5 .nil .nil).append (.cons 6 .nil (.cons 7 .nil .nil)))) ∧
      (exThreeItems.1.node 6).type = "image" ∧ exThreeItems.1.size ≤ 10) ∧
    ∃ k, visitNode true 10 exThreeItems.1 6 = some k ∧
      k.size = exThreeItems.1.size + (splitKids exThreeItems.1.size
        [⟨4, .cons 2 (.cons 3 .nil .nil) .nil, .cons 8 (.cons 9 .nil .nil) .nil⟩,
          ⟨1, .nil, .nil⟩] (.cons 7 .nil .nil)).length ∧
      (∀ c, exThreeItems.1.size ≤ c → c < k.size → ∃ a kids,
        (c, a, kids) ∈ splitKids exThreeItems.1.size
          [⟨4, .cons 2 (.cons 3 .nil .nil) .nil, .cons 8 (.cons 9 .nil .nil) .nil⟩,
            ⟨1, .nil, .nil⟩] (.cons 7 .nil .nil) ∧
        a ∈ [(⟨4, .cons 2 (.cons 3 .nil .nil) .nil, .cons 8 (.cons 9 .nil .nil) .nil⟩ : Frame),
          ⟨1, .nil, .nil⟩].map Frame.id ∧
        copyNodeWithoutNeighbors (k.node c)
          = { copyNodeWithoutNeighbors (exThreeItems.1.node a) with continuation := true } ∧
        (k.node c).type = (exThreeItems.1.node a).type ∧ (k.node c).continuation = true ∧
        ∀ G, kids.roots.length ≤ G → childrenOf k G c = kids.roots) ∧
      (∀ j, j < exThreeItems.1.size →
        copyNodeWithoutNeighbors (k.node j) = copyNodeWithoutNeighbors (exThreeItems.1.node j) ∧
        (k.node j).continuation = (exThreeItems.1.node j).continuation) ∧
      ((∀ j ∈ (plug [⟨4, .cons 2 (.cons 3 .nil .nil) .nil,
            .cons 8 (.cons 9 .nil .nil) .nil⟩, ⟨1, .nil, .nil⟩]
          ((Forest.cons 5 .nil .nil).append (.cons 6 .nil (.cons 7 .nil .nil)))).ids, j ≠ 6 →
          (exThreeItems.1.node j).type = "image" → (exThreeItems.1.node j).parent = some 0) →
        ∃ F0, ∀ F', F0 ≤ F' → pullOutImages true F' exThreeItems.1 0 = some k) :=
  ⟨⟨exThreeItems_isDoc.toIsDocW, by decide, by decide⟩,
    hoistImage_copies true 10 exThreeItems.1 0 6
      ⟨4, .cons 2 (.cons 3 .nil .nil) .nil, .cons 8 (.cons 9 .nil .nil) .nil⟩ [⟨1, .nil, .nil⟩]
      (.cons 5 .nil .nil) .nil (.cons 7 .nil .nil) exThreeItems_isDoc.toIsDocW (by decide)
      (by decide)⟩

/-- C17: on every tree, `addListItemIndices` returns a heap that differs from
the one it was given in the field `index` only (the five links and every
other payload field of every object are the same, and no object is created),
and every object whose parent is not a node of type `list` is the same in
all fields, `index` included. -/
theorem addListItemIndices_touches_index_only (h : Heap) (root : Nat) (kids : Forest)
    (ht : IsTree h root kids) (F : Nat) (hF : 2 * kids.size + 3 ≤ F) :
    ∃ k, addListItemIndices F h root = some k ∧
      k.size = h.size ∧
      (∀ j, { k.node j with index := none } = { h.node j with index := none }) ∧
      (∀ j, (∀ p, (h.node j).parent = some p → (h.node p).type ≠ "list") →
        k.node j = h.node j) := by
  obtain ⟨k, e, he, hf⟩ := addListItemIndices_frame ht hF
  exact ⟨k, e, he.2, he.1, hf⟩

theorem addListItemIndices_touches_index_only_witness :
    (IsTree exStartThree.1 0 exStartThreeTop ∧ 2 * exStartThreeTop.size + 3 ≤ 20) ∧
    ∃ k, addListItemIndices 20 exStartThree.1 0 = some k ∧
      k.size = exStartThree.1.size ∧
      (∀ j, { k.node j with index := none } = { exStartThree.1.node j with index := none }) ∧
      (∀ j, (∀ p, (exStartThree.1.node j).parent = some p →
          (exStartThree.1.node p).type ≠ "list") →
        k.node j = exStartThree.1.node j) :=
  ⟨⟨exStartThree_isDoc.toIsTree, by decide⟩,
    addListItemIndices_touches_index_only exStartThree.1 0 exStartThreeTop
      exStartThree_isDoc.toIsTree 20 (by decide)⟩

/-- C18: for every document that satisfies the link invariants and any
number and nesting of images, `pullOutImages` returns the same heap for
every fuel from some bound on; and for an image at any position below a
block, the ancestor-splitting loop returns with the root as `parent`. -/
theorem pullOutImages_terminates (w : Bool) (h : Heap) (root : Nat) (top : Forest)
    (hd : IsDoc h root top) :
    (∃ k F0, ∀ F, F0 ≤ F → pullOutImages w F h root = some k) ∧
    ∀ (fr : Frame) (rest : List Frame) (lf cs rt : Forest) (i : Nat),
      top = plug (fr :: rest) (lf.append (.cons i cs rt)) →
      ∀ F, h.size ≤ F → ∃ s,
        splitLoop w F F ⟨detachImage h i fr.id, some fr.id, (h.node i).prev, (h.node i).next⟩
          = some s ∧ s.parent = some root := by
  obtain ⟨k, top', _, _, _, _, F0, r5⟩ := pullOutImages_spec w hd.toIsDocW
  refine ⟨⟨k, F0, r5⟩, ?_⟩
  intro fr rest lf cs rt i e F hF
  have hd' := hd.toIsDocW
  rw [e] at hd'
  obtain ⟨k1, e1, _⟩ := hoist_split (w := w) hd' hF
  exact ⟨_, e1, rfl⟩

theorem pullOutImages_terminates_witness :
    IsDoc exThreeItems.1 0 exThreeItemsTop ∧
    ((∃ k F0, ∀ F, F0 ≤ F → pullOutImages true F exThreeItems.1 0 = some k) ∧
    ∀ (fr : Frame) (rest : List Frame) (lf cs rt : Forest) (i : Nat),
      exThreeItemsTop = plug (fr :: rest) (lf.append (.cons i cs rt)) →
      ∀ F, exThreeItems.1.size ≤ F → ∃ s,
        splitLoop true F F ⟨detachImage exThreeItems.1 i fr.id, some fr.id,
            (exThreeItems.1.node i).prev, (exThreeItems.1.node i).next⟩
          = some s ∧ s.parent = some 0) :=
  ⟨exThreeItems_isDoc,
    pullOutImages_terminates true exThreeItems.1 0 exThreeItemsTop exThreeItems_isDoc⟩

/-- C19: for every document that satisfies the link invariants, a second run
of `pullOutImages` on the result of the first returns the heap it was given:
no object is created and no field of any object changes. -/
theorem pullOutImages_idempotent (w : Bool) (h : Heap) (root : Nat) (top : Forest)
    (hd : IsDoc h root top) :
    ∃ k F0, ∀ F, F0 ≤ F →
      pullOutImages w F h root = some k ∧ pullOutImages w F k root = some k := by
  obtain ⟨k, top', r1, _, r3, _, F0, r5⟩ := pullOutImages_spec w hd.toIsDocW
  obtain ⟨k2, top2, _, _, _, s4, F1, s5⟩ := pullOutImages_spec w r1
  obtain ⟨rfl, _⟩ := s4 r3
  exact ⟨k2, max F0 F1, fun F hF => ⟨r5 F (by omega), s5 F (by omega)⟩⟩

theorem pullOutImages_idempotent_witness :
    IsDoc exThreeItems.1 0 exThreeItemsTop ∧
    ∃ k F0, ∀ F, F0 ≤ F →
      pullOutImages false F exThreeItems.1 0 = some k ∧ pullOutImages false F k 0 = some k :=
  ⟨exThreeItems_isDoc,
    pullOutImages_idempotent false exThreeItems.1 0 exThreeItemsTop exThreeItems_isDoc⟩

/-- C20, amended: for every tree on the heap and enough fuel, `astToString`
returns the concatenation, in document order, of one record per node of the
tree: for a node at depth `d`, the indent given, `2 * d` spaces, the text of
`nodeToString`, which starts with the type of the node, and a line break;
and `astToString` of `null` is the empty string. -/
theorem astToString_records (h : Heap) (root : Nat) (kids : Forest) (ht : IsTree h root kids)
    (fuel : Nat) (hf : 2 * kids.size + 1 ≤ fuel) (indent : String) :
    astToString h fuel (some root) indent
      = some (concatLines ((preorder 0 (.cons root kids .nil)).map
          (fun p => indent ++ spaces p.1 ++ nodeToString h p.2))) ∧
    (preorder 0 (.cons root kids .nil)).map Prod.snd = root :: kids.ids ∧
    (∀ j, ∃ t, nodeToString h j = (h.node j).type ++ t) ∧
    ∀ fuel', astToString h fuel' none indent = some "" := by
  refine ⟨?_, ?_, nodeToString_type h, fun fuel' => astToString_none h fuel' indent⟩
  · obtain ⟨f, rfl⟩ : ∃ f, fuel = f + 1 := ⟨fuel - 1, by omega⟩
    have e := astToStringChildren_eq 1 indent f ht.seg (by omega)
    have esp : indent ++ "  " = indent ++ spaces 1 := by simp [spaces]
    simp only [astToString, ht.first]
    rw [esp, e]
    simp only [Option.map_some', preorder, List.map_cons, List.map_append, List.map_nil,
      List.append_nil, concatLines, Nat.zero_add]
    rw [show spaces 0 = "" from rfl, String.append_empty]
  · rw [preorder_snd]
    simp

theorem astToString_records_witness :
    (IsTree exParagraph.1 0 exParagraphTop ∧ 2 * exParagraphTop.size + 1 ≤ 20) ∧
    (astToString exParagraph.1 20 (some 0) ""
      = some (concatLines ((preorder 0 (.cons 0 exParagraphTop .nil)).map
          (fun p => "" ++ spaces p.1 ++ nodeToString exParagraph.1 p.2))) ∧
    (preorder 0 (.cons 0 exParagraphTop .nil)).map Prod.snd = 0 :: exParagraphTop.ids ∧
    (∀ j, ∃ t, nodeToString exParagraph.1 j = (exParagraph.1.node j).type ++ t) ∧
    ∀ fuel', astToString exParagraph.1 fuel' none "" = some "") :=
  ⟨⟨exParagraph_isDoc.toIsTree, by decide⟩,
    astToString_records exParagraph.1 0 exParagraphTop exParagraph_isDoc.toIsTree 20
      (by decide) ""⟩

set_option maxRecDepth 100000 in
/-- C20, counterexample: the tree `document[code_block]` whose code block has
a literal of two lines has two nodes, and the text of `astToString` for it
has three line breaks. -/
theorem astToString_three_lines_two_nodes :
    (astToString exCodeBlock.1 10 (some 0) "").map
        (fun s => (s.toList.filter (fun c => c = Char.ofNat 10)).length) = some 3 ∧
    exCodeBlock.1.size = 2 ∧
    IsTree exCodeBlock.1 0 (.cons 1 .nil .nil) := by
  refine ⟨by decide, by decide, ⟨by decide, by decide, by decide⟩⟩

end Transform

